import Mathlib

/-!
# Particle exchange between patches (Smilei, `src/Patch/Patch.cpp`)

A shallow embedding of `Patch::initExchParticles`, `Patch::initCommParticles`,
`Patch::CommParticles`, `Patch::finalizeCommParticles` and
`Patch::cleanup_sent_particles`, for one species (`ispec` is fixed, every
function of the source only touches `vecSpecies[ispec]`).

Conventions of the embedding.

* A value of type `double` is the rational it stands for; every arithmetic
  operation of the source on `double` values (`+=`, `-=`, `*`, `-`, `/`) is
  the exact operation followed by the rounding `fl` to the nearest `double`
  (IEEE 754 binary64, ties to even, subnormal numbers included; overflow to
  an infinity is not modelled).  Comparisons are exact.  `int` values are
  unbounded integers, and an `int` is converted to `double` without rounding.
* A `std::vector` is a list.  The source indexes vectors without bound checks;
  here a read outside the vector yields the default value and a write outside
  the vector is dropped.  The theorems are stated for inputs on which every
  access is inside its vector.
* Two-dimensional tables such as `neighbor_[iDim][iNeighbor]` are functions of
  the two indices.
* `MPI_PROC_NULL` is `none`.
* An asynchronous receive posted with `MPI_Irecv` is completed by the peer's
  data when it is posted (the source reads the target only after the matching
  `MPI_Wait`); the peer's data is an input of the patch (`incoming_sz`,
  `incoming_parts`).  Every `MPI_Isend` / `MPI_Irecv` is recorded in `mpi_log`.
-/

namespace Smilei

/-! ## The arithmetic of `double` -/

/-- Rounding of a rational to the nearest integer, a tie going to the even integer. -/
def roundEven (r : ℚ) : Int :=
  if r - (⌊r⌋ : ℚ) < 1 / 2 then ⌊r⌋
  else if 1 / 2 < r - (⌊r⌋ : ℚ) then ⌊r⌋ + 1
  else if ⌊r⌋ % 2 = 0 then ⌊r⌋ else ⌊r⌋ + 1

/-- The number of halvings that bring `n` below 2, with the fuel `f`. -/
def halvings : Nat → Nat → Nat
  | 0, _ => 0
  | f + 1, n => if 2 ≤ n then halvings f (n / 2) + 1 else 0

/-- The integer part of the binary logarithm of `n`. -/
def ilog2 (n : Nat) : Nat := halvings n n

/-- The binary exponent `e` of a rational `x` that is not zero: `2^e <= |x| < 2^(e+1)`. -/
def expo (x : ℚ) : Int :=
  if (2 : ℚ) ^ ((ilog2 x.num.natAbs : Int) - (ilog2 x.den : Int)) ≤ |x| then
    (ilog2 x.num.natAbs : Int) - (ilog2 x.den : Int)
  else (ilog2 x.num.natAbs : Int) - (ilog2 x.den : Int) - 1

/-- The exponent of the spacing of the values of type `double` around `x`: 53 significant
bits, and the fixed spacing `2^-1074` of the subnormal numbers. -/
def quantum (x : ℚ) : Int := max (expo x - 52) (-1074)

/-- The value of type `double` (IEEE 754 binary64) nearest to the rational `x`, a tie going
to the even significand: the result of an arithmetic operation of the source whose exact
result is `x`. -/
def fl (x : ℚ) : ℚ := (roundEven (x / (2 : ℚ) ^ quantum x) : ℚ) * (2 : ℚ) ^ quantum x

/-! ## Particle records and the `Particles` container -/

/-- Modelled from the spec: a particle record (position per axis, momentum, weight, id);
the class `Particles` is not part of the sources at hand. -/
structure Particle where
  position : List ℚ
  momentum : List ℚ
  weight : ℚ
  id : Nat
  deriving DecidableEq

instance : Inhabited Particle := ⟨⟨[], [], 0, 0⟩⟩

/-- Read `v[i]` for an `int` index; outside the vector the default value. -/
def getI {α : Type} [Inhabited α] (v : List α) (i : Int) : α :=
  if 0 ≤ i then v.getD i.toNat default else default

/-- Write `v[i] = a` for an `int` index; outside the vector nothing is written. -/
def setI {α : Type} (v : List α) (i : Int) (a : α) : List α :=
  if 0 ≤ i then v.set i.toNat a else v

/-- Modelled from the spec: `Particles::position(idim, iPart)`, read access. -/
def position (ps : List Particle) (idim : Nat) (iPart : Int) : ℚ :=
  (getI ps iPart).position.getD idim 0

/-- The record `r` with `dx` added to its coordinate on axis `idim`, by the addition of
`double` values (the exact sum, rounded). -/
def Particle.shifted (r : Particle) (idim : Nat) (dx : ℚ) : Particle :=
  { r with position := r.position.set idim (fl (r.position.getD idim 0 + dx)) }

/-- Modelled from the spec: `Particles::position(idim, iPart) += dx`, an addition of
`double` values. -/
def add_position (ps : List Particle) (idim : Nat) (iPart : Int) (dx : ℚ) : List Particle :=
  setI ps iPart ((getI ps iPart).shifted idim dx)

/-- Modelled from the spec: `Particles::cp_particle(iPart, dest)`, append a copy of record
`iPart` at the tail of `dest` (the store operation `append`). -/
def cp_particle (ps : List Particle) (iPart : Int) (dest : List Particle) : List Particle :=
  dest ++ [getI ps iPart]

/-- Modelled from the spec: `Particles::erase_particle(iPart)`, remove one record. -/
def erase_particle (ps : List Particle) (iPart : Int) : List Particle :=
  if 0 ≤ iPart then ps.eraseIdx iPart.toNat else ps

/-- Modelled from the spec: `Particles::erase_particle_trail(iPart)`, the store operation
`eraseRange(from)`: truncate the tail from index `iPart` on. -/
def erase_particle_trail (ps : List Particle) (iPart : Int) : List Particle :=
  ps.take iPart.toNat

/-- Modelled from the spec: `Particles::create_particle()`, the store operation
`createBlank`: one empty slot at the tail. -/
def create_particle (ps : List Particle) : List Particle :=
  ps ++ [default]

/-- Modelled from the spec: `Particles::initialize(n, ...)` (a reserved word here), a container of `n` empty slots. -/
def init_particles (n : Int) : List Particle :=
  List.replicate n.toNat default

/-- Modelled from the spec: `Particles::overwrite_part(part1, part2)`, copy record `part1`
over record `part2` of the same container. -/
def overwrite_part (ps : List Particle) (part1 part2 : Int) : List Particle :=
  setI ps part2 (getI ps part1)

/-- Modelled from the spec: `Particles::overwrite_part(part1, part2, N)`, block copy of the
`N` records starting at `part1` over the `N` records starting at `part2` (the two blocks
do not overlap at any call of the source). -/
def overwrite_part_range (ps : List Particle) (part1 part2 N : Int) : List Particle :=
  (List.range N.toNat).foldl
    (fun acc (k : Nat) => setI acc (part2 + (k : Int)) (getI ps (part1 + (k : Int)))) ps

/-- Modelled from the spec: `Particles::overwrite_part(part1, dest, part2)`, copy record
`part1` of this container over record `part2` of `dest`. -/
def overwrite_part_into (ps : List Particle) (part1 : Int) (dest : List Particle)
    (part2 : Int) : List Particle :=
  setI dest part2 (getI ps part1)

/-- Modelled from the spec: `Particles::overwrite_part(part1, dest, part2, N)`, block copy of
`N` records of this container over the records of `dest` starting at `part2`. -/
def overwrite_part_into_range (ps : List Particle) (part1 : Int) (dest : List Particle)
    (part2 N : Int) : List Particle :=
  (List.range N.toNat).foldl
    (fun acc (k : Nat) => setI acc (part2 + (k : Int)) (getI ps (part1 + (k : Int)))) dest

/-! ## Parameters, patches -/

/-- The fields of `Params` read by the exchange. -/
structure Params where
  nDim_field : Nat
  cell_length : Nat → ℚ
  n_space_global : Nat → Nat
  number_of_patches : Nat → Nat
  clrw : Nat

/-- The field of `SmileiMPI` read by the exchange. -/
structure SmileiMPI where
  periods_ : Nat → Int

/-- One MPI request issued by a patch. -/
inductive MPIEvent where
  | isend_size (iDim iNeighbor : Nat) (n : Int)
  | irecv_size (iDim iNeighbor : Nat)
  | isend_particles (iDim iNeighbor : Nat) (buf : List Particle)
  | irecv_particles (iDim iNeighbor : Nat)
  deriving DecidableEq

/-- A patch with the state of one species (`vecSpecies[ispec]` and its `specMPI`). -/
structure Patch where
  hindex : Nat
  Pcoordinates : Nat → Nat
  neighbor_ : Nat → Nat → Option Nat
  MPI_neighbor_ : Nat → Nat → Option Nat
  MPI_me_ : Nat
  min_local : Nat → ℚ
  max_local : Nat → ℚ
  particles : List Particle
  bmin : List Int
  bmax : List Int
  indexes_of_particles_to_exchange : List Int
  patchVectorRecv : Nat → Nat → List Particle
  patchVectorSend : Nat → Nat → List Particle
  patch_buff_index_send : Nat → Nat → List Int
  patch_buff_index_send_sz : Nat → Nat → Int
  patch_buff_index_recv_sz : Nat → Nat → Int
  incoming_sz : Nat → Nat → Int
  incoming_parts : Nat → Nat → List Particle
  mpi_log : List MPIEvent

instance : Inhabited Patch :=
  ⟨⟨0, fun _ => 0, fun _ _ => none, fun _ _ => none, 0, fun _ => 0, fun _ => 0, [], [], [], [],
    fun _ _ => [], fun _ _ => [], fun _ _ => [], fun _ _ => 0, fun _ _ => 0, fun _ _ => 0,
    fun _ _ => [], []⟩⟩

/-- The constant `nbNeighbors_` set by the constructor of `Patch`. -/
def nbNeighbors_ : Nat := 2

/-- Assignment `t[i][j] = a` in a two-dimensional table. -/
def upd2 {α : Type} (t : Nat → Nat → α) (i j : Nat) (a : α) : Nat → Nat → α :=
  fun x y => if x = i ∧ y = j then a else t x y

/-- Modelled from the spec: `Patch::is_a_MPI_neighbor`, the local/remote flag of a neighbor:
the neighbor exists and lives on another MPI process. -/
def is_a_MPI_neighbor (p : Patch) (iDim iNeighbor : Nat) : Bool :=
  decide (p.neighbor_ iDim iNeighbor ≠ none) && decide (p.MPI_neighbor_ iDim iNeighbor ≠ some p.MPI_me_)

/-- The domain length `cell_length[iDim] * n_space_global[iDim]` (`xmax`, `x_max`), a
product of `double` values. -/
def xmax (params : Params) (iDim : Nat) : ℚ :=
  fl (params.cell_length iDim * (params.n_space_global iDim : ℚ))

/-- The condition `Pcoordinates[idim] == params.number_of_patches[idim]-1`. -/
def at_last_patch (params : Params) (p : Patch) (idim : Nat) : Prop :=
  (p.Pcoordinates idim : Int) = (params.number_of_patches idim : Int) - 1

instance (params : Params) (p : Patch) (idim : Nat) : Decidable (at_last_patch params p idim) := by
  unfold at_last_patch; infer_instance

/-! ## `Patch::initExchParticles` -/

/-- The statement `patch_buff_index_send[idim][side].push_back( iPart )`. -/
def push_send (p : Patch) (idim side : Nat) (iPart : Int) : Patch :=
  { p with
    patch_buff_index_send :=
      upd2 p.patch_buff_index_send idim side (p.patch_buff_index_send idim side ++ [iPart]) }

/-- The `while (check == 0 && idim<ndim)` loop of `initExchParticles` for the departed
index `iPart`; `fuel` is `ndim - idim`. -/
def initExch_while (smpi : SmileiMPI) (params : Params) (iPart : Int) :
    Nat → Nat → Patch → Patch
  | 0, _, p => p
  | fuel + 1, idim, p =>
    if position p.particles idim iPart < p.min_local idim then
      if p.neighbor_ idim 0 ≠ none then
        let p1 := push_send p idim 0 iPart
        if smpi.periods_ idim = 1 ∧ p.Pcoordinates idim = 0 then
          { p1 with particles := add_position p1.particles idim iPart (xmax params idim) }
        else p1
      else p
    else if position p.particles idim iPart ≥ p.max_local idim then
      if p.neighbor_ idim 1 ≠ none then
        let p1 := push_send p idim 1 iPart
        if smpi.periods_ idim = 1 ∧ at_last_patch params p idim then
          { p1 with particles := add_position p1.particles idim iPart (-(xmax params idim)) }
        else p1
      else p
    else initExch_while smpi params iPart fuel (idim + 1) p

/-- The first loop of `initExchParticles`: empty the buffers of every axis and side. -/
def initExch_reset (params : Params) (p : Patch) : Patch :=
  { p with
    patchVectorRecv := fun d s => if d < params.nDim_field ∧ s < nbNeighbors_ then init_particles 0
      else p.patchVectorRecv d s
    patchVectorSend := fun d s => if d < params.nDim_field ∧ s < nbNeighbors_ then init_particles 0
      else p.patchVectorSend d s
    patch_buff_index_send := fun d s => if d < params.nDim_field ∧ s < nbNeighbors_ then []
      else p.patch_buff_index_send d s
    patch_buff_index_recv_sz := fun d s => if d < params.nDim_field ∧ s < nbNeighbors_ then 0
      else p.patch_buff_index_recv_sz d s }

/-- The function `Patch::initExchParticles`. -/
def initExchParticles (smpi : SmileiMPI) (params : Params) (p : Patch) : Patch :=
  p.indexes_of_particles_to_exchange.foldl
    (fun q iPart => initExch_while smpi params iPart params.nDim_field 0 q)
    (initExch_reset params p)

/-! ## `Patch::initCommParticles` -/

/-- Apply `f` to element `i` of the vector of patches. -/
def modAt (vp : List Patch) (i : Nat) (f : Patch → Patch) : List Patch :=
  vp.set i (f (vp.getD i default))

/-- The value `h0 = (*vecPatch)(0)->hindex`. -/
def h0 (vp : List Patch) : Nat := (vp.getD 0 default).hindex

/-- The assignment `patch_buff_index_send_sz[iDim][iNeighbor] = n`. -/
def set_send_sz (p : Patch) (iDim iNeighbor : Nat) (n : Int) : Patch :=
  { p with patch_buff_index_send_sz := upd2 p.patch_buff_index_send_sz iDim iNeighbor n }

/-- The assignment `patch_buff_index_recv_sz[iDim][iNeighbor] = n`. -/
def set_recv_sz (p : Patch) (iDim iNeighbor : Nat) (n : Int) : Patch :=
  { p with patch_buff_index_recv_sz := upd2 p.patch_buff_index_recv_sz iDim iNeighbor n }

/-- Record one MPI request of the patch. -/
def log_event (p : Patch) (e : MPIEvent) : Patch :=
  { p with mpi_log := p.mpi_log ++ [e] }

/-- One iteration (`iNeighbor`) of the loop of `initCommParticles`, run by the patch at
position `ip` of the vector of patches. -/
def initComm_neighbor (iDim ip : Nat) (vp : List Patch) (iNeighbor : Nat) : List Patch :=
  let me := vp.getD ip default
  let vp1 :=
    match me.neighbor_ iDim iNeighbor with
    | none => vp
    | some nb =>
      let n : Int := ((me.patch_buff_index_send iDim iNeighbor).length : Int)
      let vpa := modAt vp ip (fun q => set_send_sz q iDim iNeighbor n)
      if is_a_MPI_neighbor me iDim iNeighbor then
        modAt vpa ip (fun q => log_event q (MPIEvent.isend_size iDim iNeighbor n))
      else
        modAt vpa (nb - h0 vp) (fun q => set_recv_sz q iDim ((iNeighbor + 1) % 2) n)
  if me.neighbor_ iDim ((iNeighbor + 1) % 2) ≠ none ∧
      is_a_MPI_neighbor me iDim ((iNeighbor + 1) % 2) then
    modAt vp1 ip (fun q =>
      log_event (set_recv_sz q iDim ((iNeighbor + 1) % 2) (q.incoming_sz iDim ((iNeighbor + 1) % 2)))
        (MPIEvent.irecv_size iDim ((iNeighbor + 1) % 2)))
  else vp1

/-- The function `Patch::initCommParticles`, run by the patch at position `ip`. -/
def initCommParticles (iDim ip : Nat) (vp : List Patch) : List Patch :=
  (List.range nbNeighbors_).foldl (initComm_neighbor iDim ip) vp

/-! ## `Patch::CommParticles` -/

/-- One iteration of the first loop of `CommParticles` (end of the exchange of the numbers
of particles): when particles come over MPI the receive buffer is given that size. -/
def Comm_wait (iDim : Nat) (p : Patch) (iNeighbor : Nat) : Patch :=
  if p.neighbor_ iDim ((iNeighbor + 1) % 2) ≠ none ∧
      is_a_MPI_neighbor p iDim ((iNeighbor + 1) % 2) ∧
      p.patch_buff_index_recv_sz iDim ((iNeighbor + 1) % 2) ≠ 0 then
    { p with
      patchVectorRecv := upd2 p.patchVectorRecv iDim ((iNeighbor + 1) % 2)
        (init_particles (p.patch_buff_index_recv_sz iDim ((iNeighbor + 1) % 2))) }
  else p

/-- The body of the loop "Enabled periodicity" of `CommParticles` for the queued index `i`. -/
def Comm_periodic_step (params : Params) (iDim iNeighbor : Nat) (p : Patch) (i : Int) : Patch :=
  if iNeighbor = 0 ∧ p.Pcoordinates iDim = 0 ∧ position p.particles iDim i < 0 then
    { p with particles := add_position p.particles iDim i (xmax params iDim) }
  else if iNeighbor = 1 ∧ at_last_patch params p iDim ∧
      position p.particles iDim i ≥ xmax params iDim then
    { p with particles := add_position p.particles iDim i (-(xmax params iDim)) }
  else p

/-- The loop "Enabled periodicity" of `CommParticles` over the send list of one side. -/
def Comm_periodic (params : Params) (iDim iNeighbor : Nat) (p : Patch) : Patch :=
  (p.patch_buff_index_send iDim iNeighbor).foldl (Comm_periodic_step params iDim iNeighbor) p

/-- The loop `for iPart: cuParticles.cp_particle(send[iPart], dest)`. -/
def cp_particles (ps : List Particle) (send : List Int) (dest : List Particle) : List Particle :=
  send.foldl (fun buf i => cp_particle ps i buf) dest

/-- The statement `patchVectorRecv[iDim][iNeighbor] = buf`. -/
def set_recv (p : Patch) (iDim iNeighbor : Nat) (buf : List Particle) : Patch :=
  { p with patchVectorRecv := upd2 p.patchVectorRecv iDim iNeighbor buf }

/-- The statement `patchVectorSend[iDim][iNeighbor] = buf`. -/
def set_send (p : Patch) (iDim iNeighbor : Nat) (buf : List Particle) : Patch :=
  { p with patchVectorSend := upd2 p.patchVectorSend iDim iNeighbor buf }

/-- The first half of one iteration (`iNeighbor`) of the second loop of `CommParticles`, run
by the patch at position `ip`: periodic correction of the queued particles, then their copy
to the send buffer (sent to a neighbor on another process) or to the receive buffer of the
co-located neighbor. -/
def Comm_neighbor_send (smpi : SmileiMPI) (params : Params) (iDim ip : Nat) (vp : List Patch)
    (iNeighbor : Nat) : List Patch :=
  let me := vp.getD ip default
  let send := me.patch_buff_index_send iDim iNeighbor
  match me.neighbor_ iDim iNeighbor with
  | none => vp
  | some nb =>
    if send.length ≠ 0 then
      let vp1 := if smpi.periods_ iDim = 1 then
          modAt vp ip (fun q => Comm_periodic params iDim iNeighbor q)
        else vp
      let me1 := vp1.getD ip default
      if is_a_MPI_neighbor me iDim iNeighbor then
        modAt vp1 ip (fun q =>
          log_event
            (set_send q iDim iNeighbor
              (cp_particles q.particles send (q.patchVectorSend iDim iNeighbor)))
            (MPIEvent.isend_particles iDim iNeighbor
              (cp_particles q.particles send (q.patchVectorSend iDim iNeighbor))))
      else
        modAt vp1 (nb - h0 vp) (fun q =>
          set_recv q iDim ((iNeighbor + 1) % 2)
            (cp_particles me1.particles send (q.patchVectorRecv iDim ((iNeighbor + 1) % 2))))
    else vp

/-- One iteration (`iNeighbor`) of the second loop of `CommParticles`, run by the patch at
position `ip`: periodic correction and send, then the posting of the receive. -/
def Comm_neighbor (smpi : SmileiMPI) (params : Params) (iDim ip : Nat) (vp : List Patch)
    (iNeighbor : Nat) : List Patch :=
  let vp2 := Comm_neighbor_send smpi params iDim ip vp iNeighbor
  let me2 := vp2.getD ip default
  if me2.neighbor_ iDim ((iNeighbor + 1) % 2) ≠ none ∧
      me2.patch_buff_index_recv_sz iDim ((iNeighbor + 1) % 2) ≠ 0 ∧
      is_a_MPI_neighbor me2 iDim ((iNeighbor + 1) % 2) then
    modAt vp2 ip (fun q =>
      log_event
        (set_recv q iDim ((iNeighbor + 1) % 2)
          (overwrite_part_into_range (q.incoming_parts iDim ((iNeighbor + 1) % 2)) 0
            (q.patchVectorRecv iDim ((iNeighbor + 1) % 2)) 0
            (q.patch_buff_index_recv_sz iDim ((iNeighbor + 1) % 2))))
        (MPIEvent.irecv_particles iDim ((iNeighbor + 1) % 2)))
  else vp2

/-- The function `Patch::CommParticles`, run by the patch at position `ip`. -/
def CommParticles (smpi : SmileiMPI) (params : Params) (iDim ip : Nat) (vp : List Patch) :
    List Patch :=
  (List.range nbNeighbors_).foldl (Comm_neighbor smpi params iDim ip)
    (modAt vp ip (fun q => (List.range nbNeighbors_).foldl (Comm_wait iDim) q))

/-! ## `Patch::cleanup_sent_particles` -/

/-- First `while` of `cleanup_sent_particles` for a bin with upper bound `hi`: skip the
listed indexes that are beyond the bin.  The variable `iPart` of the source is always
`indexes[ii]`. -/
def cleanup_skip (idx : List Int) (hi : Int) : Nat → Nat
  | 0 => 0
  | ii + 1 => if idx.getD (ii + 1) 0 ≥ hi then cleanup_skip idx hi ii else ii + 1

/-- Second `while`: listed indexes that are the last record of the bin only shrink the bin.
The state is `ii` and `bm`, the entry `(*cubmax)[ibin]`. -/
def cleanup_trim (idx : List Int) (lo : Int) : Nat → Int → Nat × Int
  | 0, bm => (0, bm)
  | ii + 1, bm =>
    if idx.getD (ii + 1) 0 = bm - 1 ∧ idx.getD (ii + 1) 0 ≥ lo then cleanup_trim idx lo ii (bm - 1)
    else (ii + 1, bm)

/-- Third `while`: the last record of the bin is copied over the listed index and the bin
shrinks. -/
def cleanup_swap (idx : List Int) (lo : Int) :
    Nat → Int → List Particle → Nat × Int × List Particle
  | 0, bm, ps => (0, bm, ps)
  | ii + 1, bm, ps =>
    if idx.getD (ii + 1) 0 ≥ lo then
      cleanup_swap idx lo ii (bm - 1) (overwrite_part ps (bm - 1) (idx.getD (ii + 1) 0))
    else (ii + 1, bm, ps)

/-- The body of the first loop of `cleanup_sent_particles` for the bin `ibin`; the state is
the particles and `bmax`. -/
def cleanup_bin (idx : List Int) (bmin : List Int) (s : List Particle × List Int) (ibin : Nat) :
    List Particle × List Int :=
  if 0 < idx.length then
    let lo := bmin.getD ibin 0
    let ii1 := cleanup_skip idx (s.2.getD ibin 0) (idx.length - 1)
    let t := cleanup_trim idx lo ii1 (s.2.getD ibin 0)
    let w := cleanup_swap idx lo t.1 t.2 s.1
    let iPart := idx.getD w.1 0
    if iPart ≥ lo ∧ iPart < w.2.1 then
      (overwrite_part w.2.2 (w.2.1 - 1) iPart, s.2.set ibin (w.2.1 - 1))
    else (w.2.2, s.2.set ibin w.2.1)
  else s

/-- The body of the second loop of `cleanup_sent_particles` ("Shift the bins in memory")
for the bin `ibin`; the state is the particles, `bmin` and `bmax`. -/
def cleanup_shift (s : List Particle × List Int × List Int) (ibin : Nat) :
    List Particle × List Int × List Int :=
  let ii := s.2.1.getD ibin 0 - s.2.2.getD (ibin - 1) 0
  let iPart := min ii (s.2.2.getD ibin 0 - s.2.1.getD ibin 0)
  let ps := if iPart > 0 then
      overwrite_part_range s.1 (s.2.2.getD ibin 0 - iPart) (s.2.2.getD (ibin - 1) 0) iPart
    else s.1
  let bmax := s.2.2.set ibin (s.2.2.getD ibin 0 - ii)
  (ps, s.2.1.set ibin (bmax.getD (ibin - 1) 0), bmax)

/-- The function `Patch::cleanup_sent_particles` on the particles, `bmin` and `bmax`. -/
def cleanup_sent_particles (idx : List Int) (ps : List Particle) (bmin bmax : List Int) :
    List Particle × List Int × List Int :=
  let s1 := (List.range bmax.length).foldl (cleanup_bin idx bmin) (ps, bmax)
  ((List.range bmax.length).tail).foldl cleanup_shift (s1.1, bmin, s1.2)

/-! ## `Patch::finalizeCommParticles` -/

/-- The statement `(*cubmax)[(*cubmax).size()-1]++`. -/
def incr_last (bmax : List Int) : List Int :=
  bmax.set (bmax.length - 1) (bmax.getD (bmax.length - 1) 0 + 1)

/-- The four statements that queue the received record `iPart` of the buffer `(iDim, o)`
for the later axis `idim`: copy at the back of the local particles, `bmax` of the last bin
incremented, the new index pushed on the send list `(idim, side)` and on the list of
particles to exchange (`addPartInExchList`, modelled from the spec: append). -/
def requeue (p : Patch) (iDim o : Nat) (iPart : Int) (idim side : Nat) : Patch :=
  let ps := cp_particle (p.patchVectorRecv iDim o) iPart p.particles
  { p with
    particles := ps
    bmax := incr_last p.bmax
    patch_buff_index_send :=
      upd2 p.patch_buff_index_send idim side
        (p.patch_buff_index_send idim side ++ [(ps.length : Int) - 1])
    indexes_of_particles_to_exchange :=
      p.indexes_of_particles_to_exchange ++ [(ps.length : Int) - 1] }

/-- The two statements that remove the record `iPart` from the receive buffer `(iDim, o)`
and decrement the receive count. -/
def drop_recv (p : Patch) (iDim o : Nat) (iPart : Int) : Patch :=
  { p with
    patchVectorRecv := upd2 p.patchVectorRecv iDim o (erase_particle (p.patchVectorRecv iDim o) iPart)
    patch_buff_index_recv_sz :=
      upd2 p.patch_buff_index_recv_sz iDim o (p.patch_buff_index_recv_sz iDim o - 1) }

/-- The statement `patchVectorRecv[iDim][o].position(idim,iPart) += dx`. -/
def shift_recv (p : Patch) (iDim o : Nat) (idim : Nat) (iPart : Int) (dx : ℚ) : Patch :=
  { p with
    patchVectorRecv := upd2 p.patchVectorRecv iDim o (add_position (p.patchVectorRecv iDim o) idim iPart dx) }

/-- The `while (check == 0 && idim<ndim)` loop of the treatment of diagonal particles for
the received record `iPart` of the buffer `(iDim, o)`; `fuel` is `ndim - idim`. -/
def diag_while (smpi : SmileiMPI) (params : Params) (iDim o : Nat) (iPart : Int) :
    Nat → Nat → Patch → Patch
  | 0, _, p => p
  | fuel + 1, idim, p =>
    if position (p.patchVectorRecv iDim o) idim iPart < p.min_local idim then
      let p1 :=
        if p.neighbor_ idim 0 ≠ none then
          let p2 :=
            if smpi.periods_ idim = 1 ∧ p.Pcoordinates idim = 0 then
              shift_recv p iDim o idim iPart (xmax params idim)
            else p
          requeue p2 iDim o iPart idim 0
        else p
      drop_recv p1 iDim o iPart
    else if position (p.patchVectorRecv iDim o) idim iPart ≥ p.max_local idim then
      let p1 :=
        if p.neighbor_ idim 1 ≠ none then
          let p2 :=
            if smpi.periods_ idim = 1 ∧ at_last_patch params p idim then
              shift_recv p iDim o idim iPart (-(xmax params idim))
            else p
          requeue p2 iDim o iPart idim 1
        else p
      drop_recv p1 iDim o iPart
    else diag_while smpi params iDim o iPart fuel (idim + 1) p

/-- One iteration (`iNeighbor`) of the first loop of `finalizeCommParticles`: the treatment
of the diagonal particles received on axis `iDim` from side `(iNeighbor+1)%2`. -/
def finalize_neighbor (smpi : SmileiMPI) (params : Params) (iDim : Nat) (p : Patch)
    (iNeighbor : Nat) : Patch :=
  if p.neighbor_ iDim ((iNeighbor + 1) % 2) ≠ none ∧
      p.patch_buff_index_recv_sz iDim ((iNeighbor + 1) % 2) ≠ 0 then
    if iDim + 1 < params.nDim_field then
      ((List.range (p.patch_buff_index_recv_sz iDim ((iNeighbor + 1) % 2)).toNat).reverse).foldl
        (fun q (iPart : Nat) => diag_while smpi params iDim ((iNeighbor + 1) % 2) (iPart : Int)
          (params.nDim_field - (iDim + 1)) (iDim + 1) q) p
    else p
  else p

/-- The conversion `int(x)` of a `double`: truncation toward zero. -/
def toInt (x : ℚ) : Int := if 0 ≤ x then ⌊x⌋ else ⌈x⌉

/-- The width of a bin, `dbin = params.cell_length[0]*params.clrw`, a product of `double`
values. -/
def dbin (params : Params) : ℚ := fl (params.cell_length 0 * (params.clrw : ℚ))

/-- The bin `int((position(0,j)-min_local[0])/dbin)` of record `j` of a receive buffer: a
subtraction and a division of `double` values, then the conversion to `int`. -/
def bin_of (params : Params) (p : Patch) (buf : List Particle) (j : Int) : Int :=
  toInt (fl (fl (position buf 0 j - p.min_local 0) / dbin params))

/-- The statement `shift[i] += n` (and `bmax[i] += n`) for an `int` index. -/
def addI (v : List Int) (i : Int) (n : Int) : List Int :=
  setI v i (getI v i + n)

/-- The loops "idim>0" of the evaluation of the shifts: every record received on an axis
`idim >= 1` adds one to `shift[ii+1]`, `ii` its bin. -/
def shift_count (params : Params) (p : Patch) (shift : List Int) : List Int :=
  ((List.range params.nDim_field).tail).foldl (fun sh idim =>
    (List.range nbNeighbors_).foldl (fun sh1 iNeighbor =>
      (List.range (p.patch_buff_index_recv_sz idim iNeighbor).toNat).foldl (fun sh2 (j : Nat) =>
        addI sh2 (bin_of params p (p.patchVectorRecv idim iNeighbor) (j : Int) + 1) 1) sh1) sh) shift

/-- The sequential loop `shift[j]+=shift[j-1]` for `j = 1 .. size`. -/
def shift_prefix (nbins : Nat) (shift : List Int) : List Int :=
  ((List.range (nbins + 1)).tail).foldl (fun sh j =>
    sh.set j (sh.getD j 0 + sh.getD (j - 1) 0)) shift

/-- The array `shift` after the evaluation of the shifts of all bins. -/
def shift_of (params : Params) (p : Patch) : List Int :=
  let nbins := p.bmax.length
  let sh0 : List Int := List.replicate (nbins + 1) 0
  let sh1 := sh0.set 1 (sh0.getD 1 0 + p.patch_buff_index_recv_sz 0 0)
  let sh2 := sh1.set nbins (sh1.getD nbins 0 + p.patch_buff_index_recv_sz 0 1)
  shift_prefix nbins (shift_count params p sh2)

/-- The loop `for inewpart < n : cuParticles.create_particle()`. -/
def create_particles (ps : List Particle) (n : Int) : List Particle :=
  (List.range n.toNat).foldl (fun acc _ => create_particle acc) ps

/-- The body of the loop "Shift bins" for the bin `j`. -/
def shift_bin (shift : List Int) (s : List Particle × List Int × List Int) (j : Nat) :
    List Particle × List Int × List Int :=
  let n_particles := s.2.2.getD j 0 - s.2.1.getD j 0
  let nmove := min n_particles (shift.getD j 0)
  let lmove := max n_particles (shift.getD j 0)
  let ps := if nmove > 0 then
      overwrite_part_range s.1 (s.2.1.getD j 0) (s.2.1.getD j 0 + lmove) nmove
    else s.1
  (ps, s.2.1.set j (s.2.1.getD j 0 + shift.getD j 0), s.2.2.set j (s.2.2.getD j 0 + shift.getD j 0))

/-- The loop "Shift bins", from the bin `size-1` down to the bin `1`. -/
def shift_bins (shift : List Int) (s : List Particle × List Int × List Int) :
    List Particle × List Int × List Int :=
  (((List.range s.2.2.length).tail).reverse).foldl (shift_bin shift) s

/-- One iteration (`iNeighbor`) of the insertion of the particles received on axis 0. -/
def insert_axis0 (p : Patch) (s : List Particle × List Int) (iNeighbor : Nat) :
    List Particle × List Int :=
  let n_part_recv := p.patch_buff_index_recv_sz 0 iNeighbor
  if p.neighbor_ 0 iNeighbor ≠ none ∧ n_part_recv ≠ 0 then
    let ii := iNeighbor * (s.2.length - 1)
    (overwrite_part_into_range (p.patchVectorRecv 0 iNeighbor) 0 s.1 (s.2.getD ii 0) n_part_recv,
      s.2.set ii (s.2.getD ii 0 + n_part_recv))
  else s

/-- One iteration (`idim`, `iNeighbor`) of the insertion of the particles received on an
axis `idim >= 1`; the bin is read from the buffer of the axis `iDim`, as in the source. -/
def insert_axis (params : Params) (p : Patch) (iDim idim : Nat) (s : List Particle × List Int)
    (iNeighbor : Nat) : List Particle × List Int :=
  let n_part_recv := p.patch_buff_index_recv_sz idim iNeighbor
  if p.neighbor_ idim iNeighbor ≠ none ∧ n_part_recv ≠ 0 then
    (List.range n_part_recv.toNat).foldl (fun t (j : Nat) =>
      let ii := bin_of params p (p.patchVectorRecv iDim iNeighbor) (j : Int)
      (overwrite_part_into (p.patchVectorRecv idim iNeighbor) (j : Int) t.1 (getI t.2 ii),
        addI t.2 ii 1)) s
  else s

/-- The branch `if (iDim == ndim-1)` of `finalizeCommParticles`: removal of the sent
particles, evaluation of the shifts, room for the new particles, shift of the bins and
insertion of the received particles. -/
def finalize_last (params : Params) (iDim : Nat) (p : Patch) : Patch :=
  let c := cleanup_sent_particles p.indexes_of_particles_to_exchange p.particles p.bmin p.bmax
  let ps1 := erase_particle_trail c.1 (c.2.2.getD (c.2.2.length - 1) 0)
  let p1 : Patch := { p with particles := ps1, bmin := c.2.1, bmax := c.2.2,
                             indexes_of_particles_to_exchange := [] }
  let shift := shift_of params p1
  let ps2 := if shift.getD p1.bmax.length 0 ≠ 0 then
      create_particles ps1 (shift.getD p1.bmax.length 0)
    else ps1
  let s := shift_bins shift (ps2, p1.bmin, p1.bmax)
  let a0 := (List.range nbNeighbors_).foldl (insert_axis0 p1) (s.1, s.2.2)
  let a := ((List.range params.nDim_field).tail).foldl (fun t idim =>
    (List.range nbNeighbors_).foldl (insert_axis params p1 iDim idim) t) a0
  { p1 with particles := a.1, bmin := s.2.1, bmax := a.2 }

/-- The function `Patch::finalizeCommParticles` for the axis `iDim`. -/
def finalizeCommParticles (smpi : SmileiMPI) (params : Params) (iDim : Nat) (p : Patch) : Patch :=
  let p1 := (List.range nbNeighbors_).foldl (finalize_neighbor smpi params iDim) p
  if iDim + 1 = params.nDim_field then finalize_last params iDim p1 else p1

/-! ## The exchange of one species over all patches -/

/-- Run `f ip` for every position `ip` of the vector of patches, in increasing order. -/
def forEachPatch (f : Nat → List Patch → List Patch) (vp : List Patch) : List Patch :=
  (List.range vp.length).foldl (fun w ip => f ip w) vp

/-- The three phases of the exchange along the axis `iDim`: `initCommParticles` on every
patch, then `CommParticles` on every patch, then `finalizeCommParticles` on every patch. -/
def exchangeAxis (smpi : SmileiMPI) (params : Params) (vp : List Patch) (iDim : Nat) :
    List Patch :=
  (forEachPatch (CommParticles smpi params iDim)
    (forEachPatch (initCommParticles iDim) vp)).map (finalizeCommParticles smpi params iDim)

/-- Modelled from the spec: `exchangeParticles(species)`, the driver of one full exchange
(its code is not part of the sources at hand): `initExchParticles` on every patch, then for
each axis in increasing order the three phases of that axis. -/
def exchangeParticles (smpi : SmileiMPI) (params : Params) (vp : List Patch) : List Patch :=
  (List.range params.nDim_field).foldl (exchangeAxis smpi params)
    (vp.map (initExchParticles smpi params))

/-! ## Vocabulary of the statements -/

/-- The first axis `k` with `idim <= k < idim + fuel` on which the record `r` is outside
`[lo k, hi k)`, with the side of the exit: `0` below `lo k`, `1` at or above `hi k`. -/
def first_out (lo hi : Nat → ℚ) (r : Particle) : Nat → Nat → Option (Nat × Nat)
  | 0, _ => none
  | fuel + 1, idim =>
    if r.position.getD idim 0 < lo idim then some (idim, 0)
    else if r.position.getD idim 0 ≥ hi idim then some (idim, 1)
    else first_out lo hi r fuel (idim + 1)

/-- The patch is at the global edge of the periodic axis `k` on the side `side`. -/
def at_edge (smpi : SmileiMPI) (params : Params) (p : Patch) (k side : Nat) : Prop :=
  smpi.periods_ k = 1 ∧ (if side = 0 then p.Pcoordinates k = 0 else at_last_patch params p k)

instance (smpi : SmileiMPI) (params : Params) (p : Patch) (k side : Nat) :
    Decidable (at_edge smpi params p k side) := by
  unfold at_edge; infer_instance

/-- The periodic correction of a coordinate on axis `k`: one domain length added on a
low-side exit, subtracted on a high-side exit. -/
def wrap (params : Params) (k side : Nat) : ℚ :=
  if side = 0 then xmax params k else -(xmax params k)

/-- What `initExchParticles` does with a departed index whose record leaves first through
`(k, side)`: nothing without a neighbor, else the index is queued and the coordinate is
corrected at a periodic edge. -/
def route (smpi : SmileiMPI) (params : Params) (p : Patch) (i : Int) (k side : Nat) : Patch :=
  if p.neighbor_ k side ≠ none then
    if at_edge smpi params p k side then
      { push_send p k side i with particles := add_position p.particles k i (wrap params k side) }
    else push_send p k side i
  else p

/-- The record `r` has its coordinate on axis `k` inside `[min_local[k], max_local[k])`. -/
def inside (p : Patch) (r : Particle) (k : Nat) : Prop :=
  p.min_local k ≤ r.position.getD k 0 ∧ r.position.getD k 0 < p.max_local k

/-- The record `r` leaves the patch through `(k, side)`: `k` is the smallest axis below
`ndim` on which `r` is outside `[min_local[k], max_local[k])`, on the low side when the
coordinate is `< min_local[k]` and on the high side when it is `>= max_local[k]`. -/
def leaves_through (p : Patch) (ndim : Nat) (r : Particle) (k side : Nat) : Prop :=
  k < ndim ∧ (∀ j, j < k → inside p r j) ∧
    ((side = 0 ∧ r.position.getD k 0 < p.min_local k) ∨
     (side = 1 ∧ r.position.getD k 0 ≥ p.max_local k))

/-- The part of a patch that the exchange never writes. -/
structure Geometry where
  hindex : Nat
  Pcoordinates : Nat → Nat
  neighbor_ : Nat → Nat → Option Nat
  MPI_neighbor_ : Nat → Nat → Option Nat
  MPI_me_ : Nat
  min_local : Nat → ℚ
  max_local : Nat → ℚ
  incoming_sz : Nat → Nat → Int
  incoming_parts : Nat → Nat → List Particle

/-- The geometry, topology and inputs of a patch. -/
def Patch.geometry (p : Patch) : Geometry :=
  ⟨p.hindex, p.Pcoordinates, p.neighbor_, p.MPI_neighbor_, p.MPI_me_, p.min_local, p.max_local,
    p.incoming_sz, p.incoming_parts⟩

/-- The record `r` of a departed index after `initExchParticles`: corrected by one domain
length when it leaves through a side that has a neighbor at a periodic edge. -/
def corrected (smpi : SmileiMPI) (params : Params) (p : Patch) (r : Particle) : Particle :=
  match first_out p.min_local p.max_local r params.nDim_field 0 with
  | none => r
  | some (k, s) =>
    if p.neighbor_ k s ≠ none ∧ at_edge smpi params p k s then r.shifted k (wrap params k s)
    else r

/-- The departed index `i` is queued on `(k, s)`: its record leaves first through `(k, s)`
and a neighbor exists there. -/
def queued_on (p : Patch) (ndim : Nat) (ps : List Particle) (k s : Nat) (i : Int) : Prop :=
  first_out p.min_local p.max_local (getI ps i) ndim 0 = some (k, s) ∧ p.neighbor_ k s ≠ none

instance (p : Patch) (ndim : Nat) (ps : List Particle) (k s : Nat) (i : Int) :
    Decidable (queued_on p ndim ps k s i) := by
  unfold queued_on; infer_instance

/-- One removal in a bin whose upper bound is `s.2`: the last record of the bin is copied
over the record `d` and the bin shrinks by one. -/
def rm_step (s : List Particle × Int) (d : Int) : List Particle × Int :=
  (overwrite_part s.1 (s.2 - 1) d, s.2 - 1)

/-- The listed indexes at the positions `ii, ii-1, ..., a+1` of the list, in that order. -/
def descBlock (idx : List Int) (a : Nat) : Nat → List Int
  | 0 => []
  | ii + 1 => if a ≤ ii then idx.getD (ii + 1) 0 :: descBlock idx a ii else []

/-- The listed indexes that fall in `[lo, hi)`. -/
def inBin (idx : List Int) (lo hi : Int) : List Int :=
  idx.filter (fun x => decide (lo ≤ x ∧ x < hi))

/-- The multiset of the records at the positions `[a, b)` of a container. -/
def recs (ps : List Particle) (a b : Int) : Multiset Particle :=
  Multiset.ofList ((List.range (b - a).toNat).map (fun (k : Nat) => getI ps (a + (k : Int))))

/-- The multiset of the records of a container at a finite set of positions. -/
def pick (ps : List Particle) (S : Finset Int) : Multiset Particle :=
  S.val.map (getI ps)

/-- The positions of `[lo, hi)` that are not listed. -/
def liveSet (idx : List Int) (lo hi : Int) : Finset Int :=
  (Finset.Ico lo hi).filter (fun j => j ∉ idx)

/-- The bins `[bmin[j], bmax[j])` are ordered, do not overlap and lie inside a container of
`len` records. -/
structure BinsSep (bmin bmax : List Int) (len : Int) : Prop where
  len_eq : bmin.length = bmax.length
  nonempty : 0 < bmax.length
  first : 0 ≤ bmin.getD 0 0
  ordered : ∀ j, j < bmax.length → bmin.getD j 0 ≤ bmax.getD j 0
  chain : ∀ j, j + 1 < bmax.length → bmax.getD j 0 ≤ bmin.getD (j + 1) 0
  last : bmax.getD (bmax.length - 1) 0 ≤ len

/-- The bins are ordered and gapless (`bmax[j] == bmin[j+1]`) and the last bin ends at the
record count `len`. -/
structure Gapless (bmin bmax : List Int) (len : Int) : Prop where
  len_eq : bmin.length = bmax.length
  nonempty : 0 < bmax.length
  first : 0 ≤ bmin.getD 0 0
  ordered : ∀ j, j < bmax.length → bmin.getD j 0 ≤ bmax.getD j 0
  chain : ∀ j, j + 1 < bmax.length → bmax.getD j 0 = bmin.getD (j + 1) 0
  last : bmax.getD (bmax.length - 1) 0 = len

/-- The position `x` after the removal of the listed indexes that fall in `[lo, x)`. -/
def compacted (idx : List Int) (lo x : Int) : Int :=
  x - ((inBin idx lo x).length : Int)

/-- The records received on the axes `idim >= 1`, in the order of the loops of
`finalizeCommParticles`, each with its destination bin; the bin of a record of the buffer
`(idim, s)` is computed from the record at the same position of the buffer `(rd idim, s)`. -/
def later_arrivals (params : Params) (p : Patch) (rd : Nat → Nat) : List (Particle × Int) :=
  ((List.range params.nDim_field).tail).flatMap (fun idim =>
    (List.range nbNeighbors_).flatMap (fun s =>
      (List.range (p.patch_buff_index_recv_sz idim s).toNat).map (fun (k : Nat) =>
        (getI (p.patchVectorRecv idim s) (k : Int),
          bin_of params p (p.patchVectorRecv (rd idim) s) (k : Int)))))

/-- The records received on the axis 0 from the side `s`, each with its destination bin
`ii = s * (nbins - 1)`. -/
def axis0_arrivals (p : Patch) (s : Nat) : List (Particle × Int) :=
  (List.range (p.patch_buff_index_recv_sz 0 s).toNat).map (fun (k : Nat) =>
    (getI (p.patchVectorRecv 0 s) (k : Int), ((s * (p.bmax.length - 1) : Nat) : Int)))

/-- All the received records with their destination bins, in the order of insertion. -/
def arrivals (params : Params) (p : Patch) (rd : Nat → Nat) : List (Particle × Int) :=
  axis0_arrivals p 0 ++ axis0_arrivals p 1 ++ later_arrivals params p rd

/-- The number of received records whose destination is the bin `m`. -/
def arrivals_to (params : Params) (p : Patch) (rd : Nat → Nat) (m : Nat) : Int :=
  ((((arrivals params p rd).map Prod.snd).count (m : Int) : Nat) : Int)

/-- The records received for the bin `m`. -/
def arrivals_of (params : Params) (p : Patch) (rd : Nat → Nat) (m : Nat) : Multiset Particle :=
  Multiset.ofList (((arrivals params p rd).filter (fun a => decide (a.2 = (m : Int)))).map Prod.fst)

/-- The insertion of one record `a.1` at the cursor of its bin `a.2`:
`overwrite_part(.., cuParticles, (*cubmax)[ii]); (*cubmax)[ii]++`. -/
def ins_step (s : List Particle × List Int) (a : Particle × Int) : List Particle × List Int :=
  (setI s.1 (getI s.2 a.2) a.1, addI s.2 a.2 1)

/-- The value of `shift[j]`: the number of received records whose destination is a bin
below `j`. -/
def shift_sum (params : Params) (p : Patch) (j : Nat) : Int :=
  ∑ m ∈ Finset.range j, arrivals_to params p id m

/-- The state in which the branch `if (iDim == ndim-1)` of `finalizeCommParticles` is
entered: the departed list is strictly ascending, the bins are gapless and end at the
record count, every receive count is the length of its receive buffer and is zero on a side
without neighbor, and the bin computed for every record received on an axis `>= 1` is a bin
of the patch. -/
structure FinalReady (params : Params) (p : Patch) : Prop where
  sorted : p.indexes_of_particles_to_exchange.Pairwise (· < ·)
  gapless : Gapless p.bmin p.bmax p.particles.length
  no_neighbor : ∀ d s, d < params.nDim_field → s < 2 →
    p.neighbor_ d s = none → p.patch_buff_index_recv_sz d s = 0
  sizes : ∀ d s, d < params.nDim_field → s < 2 →
    p.patch_buff_index_recv_sz d s = ((p.patchVectorRecv d s).length : Int)
  bins : ∀ a ∈ later_arrivals params p id, 0 ≤ a.2 ∧ a.2 < p.bmax.length

/-! ## Vocabulary for a vector of co-located patches -/

/-- Every neighbor of every patch is a patch of the vector (no MPI neighbor), the patch at
position `i` has `hindex = h0 + i`, and the neighbor tables agree: when `j` is the neighbor
of `i` on `(d, s)`, `i` is the neighbor of `j` on the opposite side of the axis `d`. -/
structure Colocated (params : Params) (W : List Patch) : Prop where
  hindex : ∀ i, i < W.length → (W.getD i default).hindex = h0 W + i
  near : ∀ i d s nb, i < W.length → d < params.nDim_field → s < 2 →
    (W.getD i default).neighbor_ d s = some nb →
      is_a_MPI_neighbor (W.getD i default) d s = false ∧ h0 W ≤ nb ∧ nb - h0 W < W.length
  sym : ∀ i d s nb, i < W.length → d < params.nDim_field → s < 2 →
    (W.getD i default).neighbor_ d s = some nb →
      (W.getD (nb - h0 W) default).neighbor_ d ((s + 1) % 2) = some (h0 W + i)

/-- Everything in a patch except the size handshake state and the MPI log. -/
def Patch.sizeFrame (p : Patch) :=
  (p.geometry, p.particles, p.bmin, p.bmax, p.indexes_of_particles_to_exchange,
    p.patchVectorRecv, p.patchVectorSend, p.patch_buff_index_send)

/-- Everything in a patch except the particles, the transfer buffers and the MPI log. -/
def Patch.commFrame (p : Patch) :=
  (p.geometry, p.bmin, p.bmax, p.indexes_of_particles_to_exchange,
    p.patch_buff_index_send, p.patch_buff_index_send_sz, p.patch_buff_index_recv_sz)

/-- The vector of patches when the exchange along the axis `d` starts: `initExchParticles`
has run on every patch and the axes below `d` are done. -/
def exchangedUpTo (smpi : SmileiMPI) (params : Params) (vp : List Patch) (d : Nat) :
    List Patch :=
  (List.range d).foldl (exchangeAxis smpi params) (vp.map (initExchParticles smpi params))

/-- The vector of patches after the handshake of the sizes (`initCommParticles` on every
patch) of the axis `d`. -/
def handshaken (smpi : SmileiMPI) (params : Params) (vp : List Patch) (d : Nat) : List Patch :=
  forEachPatch (initCommParticles d) (exchangedUpTo smpi params vp d)

/-- A record with one coordinate `x` and the identifier `i`. -/
def rec1 (x : ℚ) (i : Nat) : Particle := ⟨[x], [0, 0, 0], 1, i⟩

/-- One axis, cells of length 1, 40 cells in 4 patches, bins of 5 cells. -/
def params1 : Params := ⟨1, fun _ => 1, fun _ => 40, fun _ => 4, 5⟩

/-- All the axes are periodic. -/
def smpiPeriodic : SmileiMPI := ⟨fun _ => 1⟩

/-- No axis is periodic. -/
def smpiOpen : SmileiMPI := ⟨fun _ => 0⟩

/-- The patch `k` of a periodic chain of four co-located patches of width 10 with two bins
of width 5, holding the records `ps` in the bins `bmin`, `bmax`, with the departed list
`dep`. -/
def chainPatch (k : Nat) (ps : List Particle) (bmin bmax dep : List Int) : Patch :=
  { (default : Patch) with
    hindex := k
    Pcoordinates := fun _ => k
    neighbor_ := fun d s => if d = 0 then (if s = 0 then some ((k + 3) % 4) else some ((k + 1) % 4))
      else none
    MPI_neighbor_ := fun d _ => if d = 0 then some 0 else none
    MPI_me_ := 0
    min_local := fun _ => 10 * (k : ℚ)
    max_local := fun _ => 10 * (k : ℚ) + 10
    particles := ps
    bmin := bmin
    bmax := bmax
    indexes_of_particles_to_exchange := dep }

/-- The first patch of the chain after the push: the record 1 has left through the low side
(the periodic edge), the record 2 through the high side. -/
def pushedPatch : Patch :=
  chainPatch 0 [rec1 3 1, rec1 (-1 / 2) 2, rec1 (107 / 10) 3, rec1 7 4] [0, 3] [3, 4] [1, 2]

/-- The first patch of an open chain (no neighbor on the low side) after the push. -/
def edgePatch : Patch :=
  { pushedPatch with neighbor_ := fun d s => if d = 0 ∧ s = 1 then some 1 else none }

/-- The first patch of the chain when `finalizeCommParticles` starts on the axis 0: the
record 1 has left, and one record has been received from the low side. -/
def arrivalPatch : Patch :=
  { chainPatch 0 [rec1 1 1, rec1 (107 / 10) 2, rec1 7 3] [0, 2] [2, 3] [1] with
    patchVectorRecv := fun d s => if d = 0 ∧ s = 0 then [rec1 (1 / 2) 9] else []
    patch_buff_index_recv_sz := fun d s => if d = 0 ∧ s = 0 then 1 else 0 }

/-! ## Concrete data: stores for `cleanup_sent_particles` -/

/-- A store of five records in two bins, `[0, 3)` and `[3, 5)`. -/
def store5 : List Particle := [rec1 1 0, rec1 2 1, rec1 3 2, rec1 6 3, rec1 7 4]

/-- A store of four records in one bin `[0, 4)`. -/
def store4 : List Particle := [rec1 1 0, rec1 2 1, rec1 3 2, rec1 4 3]

/-! ## Concrete data: patches of a grid on two axes -/

/-- A record with the coordinates `x`, `y` and the identifier `i`. -/
def rec2 (x y : ℚ) (i : Nat) : Particle := ⟨[x, y], [0, 0, 0], 1, i⟩

/-- Two axes, cells of length 1, 40 cells in 4 patches per axis, bins of 5 cells. -/
def params2 : Params := ⟨2, fun _ => 1, fun _ => 40, fun _ => 4, 5⟩

/-- The patch `(kx, ky)` of a periodic grid of four by four co-located patches of width 10,
numbered `4 * kx + ky`, with two bins of width 5. -/
def gridPatch (kx ky : Nat) (ps : List Particle) (bmin bmax dep : List Int) : Patch :=
  { (default : Patch) with
    hindex := 4 * kx + ky
    Pcoordinates := fun d => if d = 0 then kx else ky
    neighbor_ := fun d s =>
      if d = 0 then some (4 * ((kx + (if s = 0 then 3 else 1)) % 4) + ky)
      else some (4 * kx + (ky + (if s = 0 then 3 else 1)) % 4)
    MPI_neighbor_ := fun _ _ => some 0
    MPI_me_ := 0
    min_local := fun d => 10 * ((if d = 0 then kx else ky : Nat) : ℚ)
    max_local := fun d => 10 * ((if d = 0 then kx else ky : Nat) : ℚ) + 10
    particles := ps
    bmin := bmin
    bmax := bmax
    indexes_of_particles_to_exchange := dep }

/-- The patch `(0, 0)` entering the final branch with one record received on the axis 1
whose axis-0 coordinate is one bin and a half below `min_local[0]`. -/
def strayArrivalPatch : Patch :=
  { gridPatch 0 0 [rec2 1 1 1, rec2 7 2 2] [0, 1] [1, 2] [] with
    patchVectorRecv := fun d s => if d = 1 ∧ s = 0 then [rec2 (-15 / 2) 3 9] else []
    patch_buff_index_recv_sz := fun d s => if d = 1 ∧ s = 0 then 1 else 0 }

/-- The patch `(0, 0)` entering the final branch with one record received on the axis 0
from the low side and one record received on the axis 1 for the second bin. -/
def gridArrivalPatch : Patch :=
  { gridPatch 0 0 [rec2 1 1 1, rec2 7 2 2] [0, 1] [1, 2] [] with
    patchVectorRecv := fun d s =>
      if d = 0 ∧ s = 0 then [rec2 2 2 8] else if d = 1 ∧ s = 0 then [rec2 7 3 9] else []
    patch_buff_index_recv_sz := fun d s =>
      if d = 0 ∧ s = 0 then 1 else if d = 1 ∧ s = 0 then 1 else 0 }

/-! ## The insertion on the axes `>= 1` as the specification words it -/

/-- The insertion of the records received on an axis `idim >= 1` from one side as the
specification words it: each record is written at the cursor of the bin computed from its
own axis-0 coordinate, and the cursor moves up by one. -/
def insert_axis_spec (params : Params) (p : Patch) (idim : Nat) (s : List Particle × List Int)
    (iNeighbor : Nat) : List Particle × List Int :=
  let n_part_recv := p.patch_buff_index_recv_sz idim iNeighbor
  if p.neighbor_ idim iNeighbor ≠ none ∧ n_part_recv ≠ 0 then
    (List.range n_part_recv.toNat).foldl (fun t (j : Nat) =>
      let ii := bin_of params p (p.patchVectorRecv idim iNeighbor) (j : Int)
      (overwrite_part_into (p.patchVectorRecv idim iNeighbor) (j : Int) t.1 (getI t.2 ii),
        addI t.2 ii 1)) s
  else s

/-! ## Concrete data: a patch with three axes -/

/-- A record with the coordinates `x`, `y`, `z` and the identifier `i`. -/
def rec3 (x y z : ℚ) (i : Nat) : Particle := ⟨[x, y, z], [0, 0, 0], 1, i⟩

/-- Three axes, cells of length 1, 40 cells in 4 patches per axis, bins of 5 cells. -/
def params3 : Params := ⟨3, fun _ => 1, fun _ => 40, fun _ => 4, 5⟩

/-- A patch on `[0, 10)` along every axis entering the final branch of the axis 2, with two
bins of one record each, an empty departed list, one record received on the axis 1 whose
axis-0 coordinate `7` is in the second bin and one record received on the axis 2 whose
axis-0 coordinate `1` is in the first bin. -/
def cubePatch : Patch :=
  { gridPatch 0 0 [rec3 1 1 1 1, rec3 6 1 1 2] [0, 1] [1, 2] [] with
    patchVectorRecv := fun d s =>
      if d = 1 ∧ s = 0 then [rec3 7 3 3 8] else if d = 2 ∧ s = 0 then [rec3 1 4 4 9] else []
    patch_buff_index_recv_sz := fun d s =>
      if d = 1 ∧ s = 0 then 1 else if d = 2 ∧ s = 0 then 1 else 0 }

/-! ## The iterations of `initCommParticles` and `CommParticles` as updates of patches -/

/-- What the iteration `s` of `initCommParticles` does to the patch that runs it, for the
send of the count: the count is stored, and sent when the neighbor is on another process. -/
def initComm_own (me : Patch) (d s : Nat) (q : Patch) : Patch :=
  if me.neighbor_ d s ≠ none then
    if is_a_MPI_neighbor me d s then
      log_event (set_send_sz q d s ((me.patch_buff_index_send d s).length : Int))
        (MPIEvent.isend_size d s ((me.patch_buff_index_send d s).length : Int))
    else set_send_sz q d s ((me.patch_buff_index_send d s).length : Int)
  else q

/-- What the iteration `s` of `initCommParticles` run by `me` does to the co-located
neighbor of the side `s`: the count is written in its receive count of the other side. -/
def initComm_peer (me : Patch) (d s : Nat) (q : Patch) : Patch :=
  if me.neighbor_ d s ≠ none ∧ is_a_MPI_neighbor me d s = false then
    set_recv_sz q d ((s + 1) % 2) ((me.patch_buff_index_send d s).length : Int)
  else q

/-- What the iteration `s` of `initCommParticles` does to the patch that runs it, for the
receive of the count from a neighbor on another process. -/
def initComm_post (me : Patch) (d s : Nat) (q : Patch) : Patch :=
  if me.neighbor_ d ((s + 1) % 2) ≠ none ∧ is_a_MPI_neighbor me d ((s + 1) % 2) = true then
    log_event (set_recv_sz q d ((s + 1) % 2) (q.incoming_sz d ((s + 1) % 2)))
      (MPIEvent.irecv_size d ((s + 1) % 2))
  else q

/-- The position in the vector of patches of the neighbor of `me` on `(d, s)`. -/
def peer (vp : List Patch) (me : Patch) (d s : Nat) : Nat :=
  (me.neighbor_ d s).getD 0 - h0 vp

/-- The iteration `s` of the second loop of `CommParticles` is active for the patch `me`:
a neighbor exists on the side `s` and the send list is not empty. -/
def Comm_active (me : Patch) (d s : Nat) : Prop :=
  me.neighbor_ d s ≠ none ∧ (me.patch_buff_index_send d s).length ≠ 0

instance (me : Patch) (d s : Nat) : Decidable (Comm_active me d s) := by
  unfold Comm_active; infer_instance

/-- What an active iteration `s` of `CommParticles` does first to the patch that runs it:
the periodic correction of the queued particles on a periodic axis. -/
def Comm_correct (smpi : SmileiMPI) (params : Params) (me : Patch) (d s : Nat) (q : Patch) :
    Patch :=
  if Comm_active me d s ∧ smpi.periods_ d = 1 then Comm_periodic params d s q else q

/-- What an active iteration `s` of `CommParticles` does to the patch that runs it when the
neighbor is on another process: the queued records are copied to the send buffer, which is
sent. -/
def Comm_send (me : Patch) (d s : Nat) (q : Patch) : Patch :=
  if Comm_active me d s ∧ is_a_MPI_neighbor me d s = true then
    log_event
      (set_send q d s
        (cp_particles q.particles (me.patch_buff_index_send d s) (q.patchVectorSend d s)))
      (MPIEvent.isend_particles d s
        (cp_particles q.particles (me.patch_buff_index_send d s) (q.patchVectorSend d s)))
  else q

/-- What an active iteration `s` of `CommParticles` run by `me` does to the co-located
neighbor of the side `s`: the queued records of the store `ps` are copied at the tail of its
receive buffer of the other side. -/
def Comm_copy (me : Patch) (ps : List Particle) (d s : Nat) (q : Patch) : Patch :=
  if Comm_active me d s ∧ is_a_MPI_neighbor me d s = false then
    set_recv q d ((s + 1) % 2)
      (cp_particles ps (me.patch_buff_index_send d s) (q.patchVectorRecv d ((s + 1) % 2)))
  else q

/-- What the iteration `s` of `CommParticles` does to the patch that runs it for the
receive of the particles from a neighbor on another process. -/
def Comm_post (me : Patch) (d s : Nat) (q : Patch) : Patch :=
  if me.neighbor_ d ((s + 1) % 2) ≠ none ∧ me.patch_buff_index_recv_sz d ((s + 1) % 2) ≠ 0 ∧
      is_a_MPI_neighbor me d ((s + 1) % 2) = true then
    log_event
      (set_recv q d ((s + 1) % 2)
        (overwrite_part_into_range (q.incoming_parts d ((s + 1) % 2)) 0
          (q.patchVectorRecv d ((s + 1) % 2)) 0 (q.patch_buff_index_recv_sz d ((s + 1) % 2))))
      (MPIEvent.irecv_particles d ((s + 1) % 2))
  else q

/-- The MPI calls of one iteration of the second loop of `CommParticles` run by the patch
`me`: the bulk send of the side `s` and the bulk receive of the other side. -/
def Comm_events (smpi : SmileiMPI) (params : Params) (me : Patch) (d s : Nat) : List MPIEvent :=
  (if Comm_active me d s ∧ is_a_MPI_neighbor me d s = true then
    [MPIEvent.isend_particles d s
      (cp_particles (Comm_correct smpi params me d s me).particles
        (me.patch_buff_index_send d s) (me.patchVectorSend d s))]
    else []) ++
  (if me.neighbor_ d ((s + 1) % 2) ≠ none ∧ me.patch_buff_index_recv_sz d ((s + 1) % 2) ≠ 0 ∧
      is_a_MPI_neighbor me d ((s + 1) % 2) = true then
    [MPIEvent.irecv_particles d ((s + 1) % 2)] else [])


/-- The first axis after `d` on which the record `r` is outside the bounds of the patch, and
the side of the exit. -/
def diag_exit (params : Params) (p : Patch) (d : Nat) (r : Particle) : Option (Nat × Nat) :=
  first_out p.min_local p.max_local r (params.nDim_field - (d + 1)) (d + 1)

/-- Where a record received on the axis `d` goes on: nowhere when it is inside the bounds on
every later axis or when no neighbor exists on the side of its exit, else to the send list of
the axis and side of its exit, corrected by one domain length at a periodic edge. -/
def diag_target (smpi : SmileiMPI) (params : Params) (p : Patch) (d : Nat) (r : Particle) :
    Option (Nat × Nat × Particle) :=
  match diag_exit params p d r with
  | none => none
  | some (k, s) =>
    if p.neighbor_ k s ≠ none then
      some (k, s, if at_edge smpi params p k s then r.shifted k (wrap params k s) else r)
    else none

/-- The records of the receive buffer `buf` of the axis `d` that are queued again, with the
axis and the side of their exit, in the order of their treatment (from the last record of
the buffer to the first). -/
def requeued (smpi : SmileiMPI) (params : Params) (p : Patch) (d : Nat) (buf : List Particle) :
    List (Nat × Nat × Particle) :=
  buf.reverse.filterMap (diag_target smpi params p d)

/-- The indexes `L, L+1, ...` of the records of `Q` whose exit is `(k, s)`. -/
def tail_indexes (L : Nat) (Q : List (Nat × Nat × Particle)) (k s : Nat) : List Int :=
  ((Q.enumFrom L).filter (fun e => decide (e.2.1 = k ∧ e.2.2.1 = s))).map (fun e => (e.1 : Int))

/-- What the treatment of the diagonal particles does with the received record `iPart` of
the buffer `(iDim, o)` that leaves first through `(k, side)`. -/
def diag_route (smpi : SmileiMPI) (params : Params) (p : Patch) (iDim o : Nat) (iPart : Int)
    (k side : Nat) : Patch :=
  drop_recv
    (if p.neighbor_ k side ≠ none then
      requeue
        (if at_edge smpi params p k side then shift_recv p iDim o k iPart (wrap params k side)
          else p)
        iDim o iPart k side
    else p)
    iDim o iPart

/-! ## Concrete data: the chain during the exchange on the axis 0 -/

/-- The first patch of the chain after `initExchParticles`: the record 1, corrected by one
domain length, is queued for the low side and the record 2 for the high side. -/
def queuedPatch : Patch :=
  { chainPatch 0 [rec1 3 1, rec1 (79 / 2) 2, rec1 (107 / 10) 3, rec1 7 4] [0, 3] [3, 4] [1, 2] with
    patch_buff_index_send := fun d s => if d = 0 then (if s = 0 then [1] else [2]) else [] }

/-- The chain of four patches after `initExchParticles`, the last three patches empty. -/
def queuedChain : List Patch :=
  [queuedPatch, chainPatch 1 [] [0, 0] [0, 0] [], chainPatch 2 [] [0, 0] [0, 0] [],
    chainPatch 3 [] [0, 0] [0, 0] []]

/-- The chain after the exchange of the numbers of particles of the first patch. -/
def countedChain : List Patch :=
  [{ queuedPatch with patch_buff_index_send_sz := fun d _ => if d = 0 then 1 else 0 },
    { chainPatch 1 [] [0, 0] [0, 0] [] with
      patch_buff_index_recv_sz := fun d s => if d = 0 ∧ s = 0 then 1 else 0 },
    chainPatch 2 [] [0, 0] [0, 0] [],
    { chainPatch 3 [] [0, 0] [0, 0] [] with
      patch_buff_index_recv_sz := fun d s => if d = 0 ∧ s = 1 then 1 else 0 }]

/-- The patch `(0, 0)` of the grid when `finalizeCommParticles` starts on the axis 0, with
two records received from the low side of the axis 0: the first one is below the patch on
the axis 1 (the periodic edge), the second one is inside the patch. -/
def diagPatch : Patch :=
  { gridPatch 0 0 [rec2 1 1 1, rec2 7 2 2] [0, 1] [1, 2] [] with
    patchVectorRecv := fun d s => if d = 0 ∧ s = 0 then [rec2 1 (-1 / 2) 7, rec2 2 3 8] else []
    patch_buff_index_recv_sz := fun d s => if d = 0 ∧ s = 0 then 2 else 0 }

/-! ## Vocabulary for the departed list through the exchange -/

/-- The patch `q'` is the patch `q` after `m` received records have been queued again by the
treatment of the diagonal particles: `m` records added at the tail of the store, the upper
bound of the last bin incremented `m` times, the `m` new tail indexes added to the departed
list, and nothing but tail indexes added to the send lists. -/
structure Requeues (q q' : Patch) (m : Nat) : Prop where
  geometry : q'.geometry = q.geometry
  length : q'.particles.length = q.particles.length + m
  kept : ∀ x : Int, x < q.particles.length → getI q'.particles x = getI q.particles x
  bmin : q'.bmin = q.bmin
  bmax : q'.bmax = incr_last^[m] q.bmax
  departed : q'.indexes_of_particles_to_exchange =
    q.indexes_of_particles_to_exchange ++
      (List.range m).map (fun j => ((q.particles.length + j : Nat) : Int))
  send : ∀ k s, ∃ sub, q'.patch_buff_index_send k s = q.patch_buff_index_send k s ++ sub ∧
    ∀ x ∈ sub, (q.particles.length : Int) ≤ x

/-- The index `i` of a record of the patch `q` is in the departed list and in no send
list. -/
def Unqueued (params : Params) (i : Int) (q : Patch) : Prop :=
  i ∈ q.indexes_of_particles_to_exchange ∧ (0 ≤ i ∧ i < q.particles.length) ∧
    ∀ d t, d < params.nDim_field → t < 2 → i ∉ q.patch_buff_index_send d t

/-- The first patch of the chain after the push when the record 1 is listed as departed
although it is inside the patch. -/
def insidePatch : Patch :=
  chainPatch 0 [rec1 3 1, rec1 4 2, rec1 7 3] [0, 2] [2, 3] [1]

/-- The patch `q` holds the record `r` at the index `i`, which is listed as departed and
queued on no send list, and the preconditions of the compaction hold: the departed list is
strictly ascending with every index inside the store, and the bins are gapless. -/
structure Discarded (params : Params) (i : Int) (r : Particle) (q : Patch) : Prop where
  unqueued : Unqueued params i q
  record : getI q.particles i = r
  sorted : q.indexes_of_particles_to_exchange.Pairwise (· < ·)
  range : ∀ x ∈ q.indexes_of_particles_to_exchange, 0 ≤ x ∧ x < (q.particles.length : Int)
  gapless : Gapless q.bmin q.bmax q.particles.length

/-- The vector of patches after the copy of the queued particles (`CommParticles` on every
patch) of the axis `d`: the state in which `finalizeCommParticles` runs for the axis `d`. -/
def copied (smpi : SmileiMPI) (params : Params) (vp : List Patch) (d : Nat) : List Patch :=
  forEachPatch (CommParticles smpi params d) (handshaken smpi params vp d)

/-- The chain of four patches after the push, the record 1 of the first patch listed as
departed although it is inside the patch, the last three patches empty. -/
def insideChain : List Patch :=
  [insidePatch, chainPatch 1 [] [0, 0] [0, 0] [], chainPatch 2 [] [0, 0] [0, 0] [],
    chainPatch 3 [] [0, 0] [0, 0] []]

/-! ## Concrete data: inputs on which the rounding of `double` shows -/

/-- The first patch of the chain after the push: the record at the index 1 has moved
to `-2^-60`, through the periodic low edge. -/
def tinyPatch : Patch :=
  chainPatch 0 [rec1 3 1, rec1 (-(1 / 2 ^ 60)) 2, rec1 7 4] [0, 2] [2, 3] [1]

/-- The `double` nearest to `0.97`. -/
def cell97 : ℚ := 4368491638549381 / 4503599627370496

/-- Two axes, cells of length `0.97`, 512 cells in 4 patches per axis, bins of 8 cells. -/
def params97 : Params := ⟨2, fun _ => cell97, fun _ => 512, fun _ => 4, 8⟩

/-- The patch `(0, 0)` of a grid of patches of 128 cells of length `0.97` per axis, entering
the final branch with 16 bins, one record in the first bin, an empty departed list and one
record received on the axis 1 whose axis-0 coordinate is the `double` product `5 * dbin`
(`38.8`). -/
def roundedArrivalPatch : Patch :=
  { gridPatch 0 0 [rec2 1 1 1] (0 :: List.replicate 15 1) (List.replicate 16 1) [] with
    min_local := fun _ => 0
    max_local := fun _ => 128 * cell97
    patchVectorRecv := fun d s =>
      if d = 1 ∧ s = 0 then [rec2 (2730307274093363 / 70368744177664) 3 9] else []
    patch_buff_index_recv_sz := fun d s => if d = 1 ∧ s = 0 then 1 else 0 }

/-- The `double` nearest to `0.37`. -/
def cell37 : ℚ := 3332663724254167 / 9007199254740992

/-- Two axes, cells of length `0.37`, 60 cells in 4 patches per axis, bins of 3 cells. -/
def params37 : Params := ⟨2, fun _ => cell37, fun _ => 60, fun _ => 4, 3⟩

/-- The patch `(0, 0)` of a grid of patches of 15 cells of length `0.37` per axis, on
`[0, 5.55)`, entering the final branch with 5 bins, one record in the first bin, an empty
departed list and one record received on the axis 1 whose axis-0 coordinate is the largest
`double` below `max_local[0]`. -/
def lastUlpPatch : Patch :=
  { gridPatch 0 0 [rec2 1 1 1] [0, 1, 1, 1, 1] [1, 1, 1, 1, 1] [] with
    min_local := fun _ => 0
    max_local := fun _ => 6248744482976563 / 1125899906842624
    patchVectorRecv := fun d s =>
      if d = 1 ∧ s = 0 then [rec2 (3124372241488281 / 562949953421312) 3 9] else []
    patch_buff_index_recv_sz := fun d s => if d = 1 ∧ s = 0 then 1 else 0 }

/-- The patch `(0, 0)` entering the final branch with one record received on the axis 0
from the high side and one record received on the axis 1 for the second bin, the last. -/
def gridHighArrivalPatch : Patch :=
  { gridPatch 0 0 [rec2 1 1 1, rec2 7 2 2] [0, 1] [1, 2] [] with
    patchVectorRecv := fun d s =>
      if d = 0 ∧ s = 1 then [rec2 9 2 8] else if d = 1 ∧ s = 0 then [rec2 7 3 9] else []
    patch_buff_index_recv_sz := fun d s =>
      if d = 0 ∧ s = 1 then 1 else if d = 1 ∧ s = 0 then 1 else 0 }

/-- The last patch on the axis 0, `(3, 0)`, of the grid of patches of 15 cells of length
`0.37` per axis, on `[16.65, 22.2)` along the axis 0, after the push: the records at the
indexes 1 and 2 have left through the high side of the axis 0, the periodic edge. -/
def lastPatch37 : Patch :=
  { gridPatch 3 0 [rec2 20 1 1, rec2 (129 / 2) 1 2, rec2 30 1 3] [0, 0, 0, 0, 1]
      [0, 0, 0, 1, 3] [1, 2] with
    min_local := fun d => if d = 0 then 2343279181116211 / 140737488355328 else 0
    max_local := fun d =>
      if d = 0 then 6248744482976563 / 281474976710656
      else 6248744482976563 / 1125899906842624 }

/-- A patch on `[0, 10)` along every axis entering the final branch of the axis 2, with two
bins, one record kept in the first bin and none in the second, an empty departed list, one
record received on the axis 0 from the high side, one record received on the axis 1 whose
axis-0 coordinate `7` is in the second bin and one record received on the axis 2 whose
axis-0 coordinate `1` is in the first bin. -/
def cubeHighPatch : Patch :=
  { gridPatch 0 0 [rec3 1 1 1 1] [0, 1] [1, 1] [] with
    patchVectorRecv := fun d s =>
      if d = 0 ∧ s = 1 then [rec3 9 1 1 7] else if d = 1 ∧ s = 0 then [rec3 7 3 3 8]
      else if d = 2 ∧ s = 0 then [rec3 1 4 4 9] else []
    patch_buff_index_recv_sz := fun d s =>
      if d = 0 ∧ s = 1 then 1 else if d = 1 ∧ s = 0 then 1
      else if d = 2 ∧ s = 0 then 1 else 0 }

/-! ## Vocabulary for a patch with nothing to exchange -/


/-- The `double` nearest to `10.7`, the value of `9.5 + 1.2` in the arithmetic of `double`. -/
def x107 : ℚ := 3011782250804019 / 281474976710656

/-- The chain of four patches of width 10 after the push: the record at the index 2 of the
patch 0 has moved from `9.5` to `10.7`, it is the only departed particle; the patch 1 holds
one record, the last two patches are empty. -/
def movedChain : List Patch :=
  [chainPatch 0 [rec1 3 1, rec1 7 4, rec1 x107 3] [0, 1] [1, 3] [2],
    chainPatch 1 [rec1 12 5] [0, 1] [1, 1] [], chainPatch 2 [] [0, 0] [0, 0] [],
    chainPatch 3 [] [0, 0] [0, 0] []]

/-! # Theorems -/

/-! ## The rounding to `double` -/

theorem halvings_spec (f : Nat) : ∀ n, n ≤ f → 0 < n →
    2 ^ halvings f n ≤ n ∧ n < 2 ^ (halvings f n + 1) := by
  induction f with
  | zero => intro n h1 h2; omega
  | succ f ih =>
    intro n h1 h2
    unfold halvings
    by_cases h : 2 ≤ n
    · rw [if_pos h]
      obtain ⟨a, b⟩ := ih (n / 2) (by omega) (by omega)
      constructor
      · calc 2 ^ (halvings f (n / 2) + 1) = 2 ^ halvings f (n / 2) * 2 := by ring
          _ ≤ (n / 2) * 2 := Nat.mul_le_mul_right 2 a
          _ ≤ n := Nat.div_mul_le_self n 2
      · have : n < (n / 2 + 1) * 2 := by omega
        calc n < (n / 2 + 1) * 2 := this
          _ ≤ 2 ^ (halvings f (n / 2) + 1) * 2 := Nat.mul_le_mul_right 2 b
          _ = 2 ^ (halvings f (n / 2) + 1 + 1) := by ring
    · rw [if_neg h]
      have : n = 1 := by omega
      subst this
      constructor <;> norm_num

theorem ilog2_spec (n : Nat) (h : 0 < n) : 2 ^ ilog2 n ≤ n ∧ n < 2 ^ (ilog2 n + 1) :=
  halvings_spec n n (le_refl n) h

theorem abs_eq_natAbs_div (x : ℚ) : |x| = (x.num.natAbs : ℚ) / (x.den : ℚ) := by
  have h1 : (x.num.natAbs : ℚ) = |(x.num : ℚ)| := by
    rw [← Int.cast_abs, Int.abs_eq_natAbs, Int.cast_natCast]
  rw [h1]
  conv_lhs => rw [← Rat.num_div_den x]
  rw [abs_div, abs_of_pos (show (0 : ℚ) < (x.den : ℚ) by exact_mod_cast x.den_pos)]

/-- The binary exponent: `2^e <= |x| < 2^(e+1)`. -/
theorem expo_spec (x : ℚ) (hx : x ≠ 0) :
    (2 : ℚ) ^ expo x ≤ |x| ∧ |x| < (2 : ℚ) ^ (expo x + 1) := by
  have hn : 0 < x.num.natAbs := Int.natAbs_pos.mpr (Rat.num_ne_zero.mpr hx)
  have hd : 0 < x.den := x.den_pos
  obtain ⟨a1, a2⟩ := ilog2_spec _ hn
  obtain ⟨b1, b2⟩ := ilog2_spec _ hd
  have hdq : (0 : ℚ) < (x.den : ℚ) := by exact_mod_cast hd
  have a1q : (2 : ℚ) ^ (ilog2 x.num.natAbs) ≤ (x.num.natAbs : ℚ) := by exact_mod_cast a1
  have a2q : (x.num.natAbs : ℚ) < (2 : ℚ) ^ (ilog2 x.num.natAbs + 1) := by exact_mod_cast a2
  have b1q : (2 : ℚ) ^ (ilog2 x.den) ≤ (x.den : ℚ) := by exact_mod_cast b1
  have b2q : (x.den : ℚ) < (2 : ℚ) ^ (ilog2 x.den + 1) := by exact_mod_cast b2
  have h2 : (2 : ℚ) ≠ 0 := by norm_num
  have hpa : (0 : ℚ) < (2 : ℚ) ^ (ilog2 x.num.natAbs) := by positivity
  have hpb : (0 : ℚ) < (2 : ℚ) ^ (ilog2 x.den) := by positivity
  have habs := abs_eq_natAbs_div x
  unfold expo
  by_cases hc : (2 : ℚ) ^ ((ilog2 x.num.natAbs : Int) - (ilog2 x.den : Int)) ≤ |x|
  · rw [if_pos hc]
    refine ⟨hc, ?_⟩
    rw [habs, div_lt_iff₀ hdq]
    have e : (2 : ℚ) ^ ((ilog2 x.num.natAbs : Int) - (ilog2 x.den : Int) + 1) =
        (2 : ℚ) ^ (ilog2 x.num.natAbs + 1) / (2 : ℚ) ^ (ilog2 x.den) := by
      rw [show ((ilog2 x.num.natAbs : Int) - (ilog2 x.den : Int) + 1) =
        ((ilog2 x.num.natAbs + 1 : Nat) : Int) - ((ilog2 x.den : Nat) : Int) by push_cast; ring,
        zpow_sub₀ h2, zpow_natCast, zpow_natCast]
    rw [e, div_mul_eq_mul_div, lt_div_iff₀ hpb]
    calc (x.num.natAbs : ℚ) * (2 : ℚ) ^ (ilog2 x.den)
        < (2 : ℚ) ^ (ilog2 x.num.natAbs + 1) * (2 : ℚ) ^ (ilog2 x.den) :=
          mul_lt_mul_of_pos_right a2q hpb
      _ ≤ (2 : ℚ) ^ (ilog2 x.num.natAbs + 1) * (x.den : ℚ) :=
          mul_le_mul_of_nonneg_left b1q (by positivity)
  · rw [if_neg hc]
    rw [not_le] at hc
    refine ⟨?_, by rw [sub_add_cancel]; exact hc⟩
    rw [habs, le_div_iff₀ hdq]
    have e : (2 : ℚ) ^ ((ilog2 x.num.natAbs : Int) - (ilog2 x.den : Int) - 1) =
        (2 : ℚ) ^ (ilog2 x.num.natAbs) / (2 : ℚ) ^ (ilog2 x.den + 1) := by
      rw [show ((ilog2 x.num.natAbs : Int) - (ilog2 x.den : Int) - 1) =
        ((ilog2 x.num.natAbs : Nat) : Int) - ((ilog2 x.den + 1 : Nat) : Int) by push_cast; ring,
        zpow_sub₀ h2, zpow_natCast, zpow_natCast]
    rw [e, div_mul_eq_mul_div, div_le_iff₀ (by positivity)]
    calc (2 : ℚ) ^ (ilog2 x.num.natAbs) * (x.den : ℚ)
        ≤ (x.num.natAbs : ℚ) * (x.den : ℚ) := mul_le_mul_of_nonneg_right a1q (le_of_lt hdq)
      _ ≤ (x.num.natAbs : ℚ) * (2 : ℚ) ^ (ilog2 x.den + 1) :=
          mul_le_mul_of_nonneg_left (le_of_lt b2q) (by positivity)

theorem roundEven_intCast (n : Int) : roundEven (n : ℚ) = n := by
  unfold roundEven
  rw [Int.floor_intCast, sub_self, if_pos (by norm_num)]

theorem roundEven_bounds (r : ℚ) : ⌊r⌋ ≤ roundEven r ∧ roundEven r ≤ ⌊r⌋ + 1 := by
  unfold roundEven
  split_ifs <;> constructor <;> omega

theorem roundEven_mono (r s : ℚ) (h : r ≤ s) : roundEven r ≤ roundEven s := by
  have hf : ⌊r⌋ ≤ ⌊s⌋ := Int.floor_le_floor h
  rcases lt_or_eq_of_le hf with hlt | heq
  · have := (roundEven_bounds r).2
    have := (roundEven_bounds s).1
    omega
  · unfold roundEven
    rw [heq]
    have hfr : r - (⌊s⌋ : ℚ) ≤ s - (⌊s⌋ : ℚ) := by linarith
    by_cases h1 : r - (⌊s⌋ : ℚ) < 1 / 2
    · rw [if_pos h1]
      split_ifs <;> omega
    · rw [if_neg h1]
      have h1s : ¬ (s - (⌊s⌋ : ℚ) < 1 / 2) := by
        intro hc; exact h1 (lt_of_le_of_lt hfr hc)
      rw [if_neg h1s]
      by_cases h2 : 1 / 2 < s - (⌊s⌋ : ℚ)
      · rw [if_pos h2]
        split_ifs <;> omega
      · rw [if_neg h2]
        have h2r : ¬ (1 / 2 < r - (⌊s⌋ : ℚ)) := by
          intro hc; exact h2 (lt_of_lt_of_le hc hfr)
        rw [if_neg h2r]

theorem roundEven_nonneg (r : ℚ) (h : 0 ≤ r) : 0 ≤ roundEven r := by
  have := roundEven_mono 0 r h
  rw [show (0 : ℚ) = ((0 : Int) : ℚ) by norm_num, roundEven_intCast] at this
  exact this

theorem two_zpow_pos (j : Int) : (0 : ℚ) < (2 : ℚ) ^ j := by positivity

theorem fl_zero : fl 0 = 0 := by
  unfold fl
  rw [zero_div, show (0 : ℚ) = ((0 : Int) : ℚ) by norm_num, roundEven_intCast]
  simp

/-- The rounding keeps the sign. -/
theorem fl_nonneg (x : ℚ) (h : 0 ≤ x) : 0 ≤ fl x := by
  unfold fl
  apply mul_nonneg _ (le_of_lt (two_zpow_pos _))
  exact_mod_cast roundEven_nonneg _ (div_nonneg h (le_of_lt (two_zpow_pos _)))

theorem expo_mono (x y : ℚ) (hx : 0 < x) (h : x ≤ y) : expo x ≤ expo y := by
  have hy : 0 < y := lt_of_lt_of_le hx h
  obtain ⟨a1, _⟩ := expo_spec x (ne_of_gt hx)
  obtain ⟨_, b2⟩ := expo_spec y (ne_of_gt hy)
  rw [abs_of_pos hx] at a1
  rw [abs_of_pos hy] at b2
  have : (2 : ℚ) ^ expo x < (2 : ℚ) ^ (expo y + 1) := lt_of_le_of_lt (le_trans a1 h) b2
  have := (zpow_lt_zpow_iff_right₀ (show (1 : ℚ) < 2 by norm_num)).mp this
  omega

theorem quantum_ge (x : ℚ) : -1074 ≤ quantum x ∧ expo x - 52 ≤ quantum x := by
  unfold quantum
  exact ⟨le_max_right _ _, le_max_left _ _⟩

/-- A value `N * 2^j` on the grid of `x` above `x` is above the rounding of `x`. -/
theorem fl_le_of_le_grid (x : ℚ) (N : Int) (h : x ≤ (N : ℚ) * (2 : ℚ) ^ quantum x) :
    fl x ≤ (N : ℚ) * (2 : ℚ) ^ quantum x := by
  unfold fl
  apply mul_le_mul_of_nonneg_right _ (le_of_lt (two_zpow_pos _))
  have h1 : x / (2 : ℚ) ^ quantum x ≤ (N : ℚ) := by
    rw [div_le_iff₀ (two_zpow_pos _)]; exact h
  have := roundEven_mono _ _ h1
  rw [roundEven_intCast] at this
  exact_mod_cast this

theorem le_fl_of_grid_le (x : ℚ) (N : Int) (h : (N : ℚ) * (2 : ℚ) ^ quantum x ≤ x) :
    (N : ℚ) * (2 : ℚ) ^ quantum x ≤ fl x := by
  unfold fl
  apply mul_le_mul_of_nonneg_right _ (le_of_lt (two_zpow_pos _))
  have h1 : (N : ℚ) ≤ x / (2 : ℚ) ^ quantum x := by
    rw [le_div_iff₀ (two_zpow_pos _)]; exact h
  have := roundEven_mono _ _ h1
  rw [roundEven_intCast] at this
  exact_mod_cast this

theorem two_zpow_eq_intCast (k : Int) (hk : 0 ≤ k) :
    (2 : ℚ) ^ k = (((2 : Int) ^ k.toNat : Int) : ℚ) := by
  conv_lhs => rw [← Int.toNat_of_nonneg hk]
  rw [zpow_natCast]
  push_cast
  rfl

/-- The rounding is monotone on the values that are not negative. -/
theorem fl_mono (x y : ℚ) (hx : 0 ≤ x) (h : x ≤ y) : fl x ≤ fl y := by
  rcases eq_or_lt_of_le hx with h0 | hpos
  · rw [← h0, fl_zero]
    exact fl_nonneg y (le_trans hx h)
  have hy : 0 < y := lt_of_lt_of_le hpos h
  have he := expo_mono x y hpos h
  have hq : quantum x ≤ quantum y := by
    unfold quantum
    exact max_le_max (by omega) (le_refl _)
  rcases eq_or_lt_of_le hq with heq | hlt
  · unfold fl
    rw [heq]
    apply mul_le_mul_of_nonneg_right _ (le_of_lt (two_zpow_pos _))
    have : x / (2 : ℚ) ^ quantum y ≤ y / (2 : ℚ) ^ quantum y :=
      div_le_div_of_nonneg_right h (le_of_lt (two_zpow_pos _))
    exact_mod_cast roundEven_mono _ _ this
  · -- the power of two `2^(expo y)` lies between the two values, on both grids
    obtain ⟨g1, g2⟩ := quantum_ge x
    have hqy : quantum y = expo y - 52 := by
      unfold quantum at hlt ⊢
      rcases max_cases (expo y - 52) (-1074) with ⟨e, _⟩ | ⟨e, _⟩
      · exact e
      · rw [e] at hlt; omega
    obtain ⟨_, a2⟩ := expo_spec x (ne_of_gt hpos)
    obtain ⟨b1, _⟩ := expo_spec y (ne_of_gt hy)
    rw [abs_of_pos hpos] at a2
    rw [abs_of_pos hy] at b1
    have hexy : expo x + 1 ≤ expo y := by omega
    have hB1 : x ≤ (2 : ℚ) ^ expo y :=
      le_trans (le_of_lt a2) (zpow_le_zpow_right₀ (by norm_num) hexy)
    have e1 : (2 : ℚ) ^ expo y =
        (((2 : Int) ^ (expo y - quantum x).toNat : Int) : ℚ) * (2 : ℚ) ^ quantum x := by
      rw [← two_zpow_eq_intCast _ (by omega), ← zpow_add₀ (by norm_num)]
      congr 1; ring
    have e2 : (2 : ℚ) ^ expo y =
        (((2 : Int) ^ (expo y - quantum y).toNat : Int) : ℚ) * (2 : ℚ) ^ quantum y := by
      rw [← two_zpow_eq_intCast _ (by omega), ← zpow_add₀ (by norm_num)]
      congr 1; ring
    have s1 := fl_le_of_le_grid x _ (by rw [← e1]; exact hB1)
    have s2 := le_fl_of_grid_le y _ (by rw [← e2]; exact b1)
    rw [← e1] at s1
    rw [← e2] at s2
    exact le_trans s1 s2

/-- A value on its own grid is a value of type `double`. -/
theorem fl_of_grid (x : ℚ) (M : Int) (h : x = (M : ℚ) * (2 : ℚ) ^ quantum x) : fl x = x := by
  unfold fl
  have : x / (2 : ℚ) ^ quantum x = (M : ℚ) := by
    rw [div_eq_iff (ne_of_gt (two_zpow_pos _))]; exact h
  rw [this, roundEven_intCast]
  exact h.symm

/-- A product `m * 2^j` with `|m| < 2^53` and `j >= -1074` is a value of type `double`. -/
theorem fl_int_mul (m j : Int) (hm : |m| < 2 ^ 53) (hj : -1074 ≤ j) :
    fl ((m : ℚ) * (2 : ℚ) ^ j) = (m : ℚ) * (2 : ℚ) ^ j := by
  rcases eq_or_ne m 0 with h0 | h0
  · rw [h0]; simp [fl_zero]
  have hy : (m : ℚ) * (2 : ℚ) ^ j ≠ 0 :=
    mul_ne_zero (by exact_mod_cast h0) (ne_of_gt (two_zpow_pos j))
  obtain ⟨a1, _⟩ := expo_spec _ hy
  have habs : |(m : ℚ) * (2 : ℚ) ^ j| < (2 : ℚ) ^ (j + 53) := by
    rw [abs_mul, abs_of_pos (two_zpow_pos j), zpow_add₀ (by norm_num), mul_comm]
    apply mul_lt_mul_of_pos_left _ (two_zpow_pos j)
    have : ((|m| : Int) : ℚ) < (((2 : Int) ^ 53 : Int) : ℚ) := by exact_mod_cast hm
    rw [Int.cast_abs] at this
    rw [show ((2 : ℚ) ^ (53 : Int)) = (((2 : Int) ^ 53 : Int) : ℚ) by norm_num]
    exact this
  have he : expo ((m : ℚ) * (2 : ℚ) ^ j) < j + 53 :=
    (zpow_lt_zpow_iff_right₀ (show (1 : ℚ) < 2 by norm_num)).mp (lt_of_le_of_lt a1 habs)
  have hq : quantum ((m : ℚ) * (2 : ℚ) ^ j) ≤ j := by
    unfold quantum
    exact max_le (by omega) hj
  apply fl_of_grid _ (m * (2 : Int) ^ (j - quantum ((m : ℚ) * (2 : ℚ) ^ j)).toNat)
  rw [Int.cast_mul, ← two_zpow_eq_intCast _ (by omega), mul_assoc, ← zpow_add₀ (by norm_num)]
  congr 2; ring

/-- The rounding of a value is on the grid of the value, with a significand of at most 53
bits. -/
theorem fl_significand (x : ℚ) :
    |roundEven (x / (2 : ℚ) ^ quantum x)| ≤ 2 ^ 53 := by
  rcases eq_or_ne x 0 with h0 | h0
  · rw [h0, zero_div, show (0 : ℚ) = ((0 : Int) : ℚ) by norm_num, roundEven_intCast]
    norm_num
  obtain ⟨_, a2⟩ := expo_spec x h0
  obtain ⟨_, g2⟩ := quantum_ge x
  have hb : |x| ≤ (((2 : Int) ^ 53 : Int) : ℚ) * (2 : ℚ) ^ quantum x := by
    have e : (((2 : Int) ^ 53 : Int) : ℚ) * (2 : ℚ) ^ quantum x = (2 : ℚ) ^ (quantum x + 53) := by
      rw [zpow_add₀ (by norm_num), mul_comm]; norm_num
    rw [e]
    exact le_trans (le_of_lt a2) (zpow_le_zpow_right₀ (by norm_num) (by omega))
  have hq := two_zpow_pos (quantum x)
  rw [abs_le] at hb ⊢
  constructor
  · have : ((-(2 : Int) ^ 53 : Int) : ℚ) ≤ x / (2 : ℚ) ^ quantum x := by
      rw [le_div_iff₀ hq, Int.cast_neg, neg_mul]; exact hb.1
    have := roundEven_mono _ _ this
    rw [roundEven_intCast] at this
    exact this
  · have : x / (2 : ℚ) ^ quantum x ≤ (((2 : Int) ^ 53 : Int) : ℚ) := by
      rw [div_le_iff₀ hq]; exact hb.2
    have := roundEven_mono _ _ this
    rw [roundEven_intCast] at this
    exact this

/-- The rounding of a value of type `double` is the value. -/
theorem fl_idem (x : ℚ) : fl (fl x) = fl x := by
  have hk := fl_significand x
  obtain ⟨g1, _⟩ := quantum_ge x
  have hfl : fl x = (roundEven (x / (2 : ℚ) ^ quantum x) : ℚ) * (2 : ℚ) ^ quantum x := rfl
  rw [hfl]
  generalize roundEven (x / (2 : ℚ) ^ quantum x) = k at hk
  generalize quantum x = q at g1
  rcases lt_or_eq_of_le hk with hlt | heq
  · exact fl_int_mul k q hlt g1
  · have e : (k : ℚ) * (2 : ℚ) ^ q = ((k / 2 : Int) : ℚ) * (2 : ℚ) ^ (q + 1) := by
      have hk2 : k = k / 2 * 2 := by
        rcases abs_cases k with ⟨h1, _⟩ | ⟨h1, _⟩ <;> omega
      rw [zpow_add₀ (by norm_num), zpow_one]
      conv_lhs => rw [hk2]
      push_cast
      ring
    rw [e]
    apply fl_int_mul _ _ _ (by omega)
    rcases abs_cases k with ⟨h1, _⟩ | ⟨h1, _⟩ <;>
      rcases abs_cases (k / 2) with ⟨h2, _⟩ | ⟨h2, _⟩ <;> omega

/-- The difference of two values of type `double` within a factor two of each other is a
value of type `double` (no rounding). -/
theorem fl_sub_exact (x L : ℚ) (hx : fl x = x) (hL : fl L = L) (h0 : 0 < L) (h1 : L ≤ x)
    (h2 : x ≤ 2 * L) : fl (x - L) = x - L := by
  have hxpos : 0 < x := lt_of_lt_of_le h0 h1
  have he := expo_mono L x h0 h1
  have hq : quantum L ≤ quantum x := by
    unfold quantum
    exact max_le_max (by omega) (le_refl _)
  obtain ⟨gL, gL2⟩ := quantum_ge L
  obtain ⟨_, a2⟩ := expo_spec L (ne_of_gt h0)
  rw [abs_of_pos h0] at a2
  have ex : x = (roundEven (x / (2 : ℚ) ^ quantum x) : ℚ) * (2 : ℚ) ^ quantum x := hx.symm
  have eL : L = (roundEven (L / (2 : ℚ) ^ quantum L) : ℚ) * (2 : ℚ) ^ quantum L := hL.symm
  generalize roundEven (x / (2 : ℚ) ^ quantum x) = kx at ex
  generalize roundEven (L / (2 : ℚ) ^ quantum L) = kL at eL
  have ed : x - L =
      ((kx * (2 : Int) ^ (quantum x - quantum L).toNat - kL : Int) : ℚ) * (2 : ℚ) ^ quantum L := by
    rw [Int.cast_sub, Int.cast_mul, ← two_zpow_eq_intCast _ (by omega), sub_mul, mul_assoc,
      ← zpow_add₀ (by norm_num), ← eL]
    rw [show quantum x - quantum L + quantum L = quantum x by ring, ← ex]
  rw [ed]
  apply fl_int_mul _ _ _ gL
  have hq2 := two_zpow_pos (quantum L)
  have hd0 : 0 ≤ x - L := by linarith
  have hd1 : x - L < (((2 : Int) ^ 53 : Int) : ℚ) * (2 : ℚ) ^ quantum L := by
    have e : (((2 : Int) ^ 53 : Int) : ℚ) * (2 : ℚ) ^ quantum L = (2 : ℚ) ^ (quantum L + 53) := by
      rw [zpow_add₀ (by norm_num), mul_comm]; norm_num
    rw [e]
    calc x - L ≤ L := by linarith
      _ < (2 : ℚ) ^ (expo L + 1) := a2
      _ ≤ (2 : ℚ) ^ (quantum L + 53) := zpow_le_zpow_right₀ (by norm_num) (by omega)
  rw [ed] at hd0 hd1
  generalize (kx * (2 : Int) ^ (quantum x - quantum L).toNat - kL : Int) = m at hd0 hd1
  have m0 : (0 : ℚ) ≤ (m : ℚ) := nonneg_of_mul_nonneg_left hd0 hq2
  have m1 : (m : ℚ) < (((2 : Int) ^ 53 : Int) : ℚ) := lt_of_mul_lt_mul_right hd1 (le_of_lt hq2)
  have m0' : 0 ≤ m := by exact_mod_cast m0
  have m1' : m < 2 ^ 53 := by exact_mod_cast m1
  rw [abs_of_nonneg m0']
  exact m1'


/-! ## Basic facts on `getI`, `setI`, `upd2` -/

@[simp] theorem length_setI {α : Type} (v : List α) (i : Int) (a : α) :
    (setI v i a).length = v.length := by
  unfold setI; split <;> simp

theorem getI_setI_ne {α : Type} [Inhabited α] (v : List α) (i j : Int) (a : α) (h : i ≠ j) :
    getI (setI v i a) j = getI v j := by
  unfold getI setI
  by_cases hi : 0 ≤ i <;> by_cases hj : 0 ≤ j <;> simp [hi, hj]
  have : i.toNat ≠ j.toNat := by omega
  simp [List.getD_eq_getElem?_getD, List.getElem?_set, this]

theorem getI_setI_eq {α : Type} [Inhabited α] (v : List α) (i : Int) (a : α)
    (h0 : 0 ≤ i) (h1 : i < v.length) : getI (setI v i a) i = a := by
  unfold getI setI
  have : i.toNat < v.length := by omega
  simp [h0, List.getD_eq_getElem?_getD, List.getElem?_set, this]

theorem getI_setI_out {α : Type} [Inhabited α] (v : List α) (i : Int) (a : α)
    (h : ¬ (0 ≤ i ∧ i < v.length)) : setI v i a = v := by
  unfold setI
  split
  · have : v.length ≤ i.toNat := by omega
    exact List.set_eq_of_length_le this
  · rfl

theorem upd2_same {α : Type} (t : Nat → Nat → α) (i j : Nat) (a : α) : upd2 t i j a i j = a := by
  simp [upd2]

theorem upd2_other {α : Type} (t : Nat → Nat → α) (i j x y : Nat) (a : α)
    (h : ¬ (x = i ∧ y = j)) : upd2 t i j a x y = t x y := by
  simp [upd2, h]

theorem initExch_while_eq (smpi : SmileiMPI) (params : Params) (i : Int) (fuel idim : Nat)
    (p : Patch) :
    initExch_while smpi params i fuel idim p =
      match first_out p.min_local p.max_local (getI p.particles i) fuel idim with
      | none => p
      | some (k, s) => route smpi params p i k s := by
  induction fuel generalizing idim with
  | zero => simp [initExch_while, first_out]
  | succ n ih =>
    simp only [initExch_while, first_out, position]
    split
    · simp only [route, at_edge, wrap, if_true]
      split <;> rfl
    · split
      · simp only [route, at_edge, wrap]
        simp
        split <;> rfl
      · exact ih (idim + 1)

theorem first_out_some_iff (p : Patch) (r : Particle) (fuel idim k s : Nat)
    (hb : ∀ j, p.min_local j ≤ p.max_local j) :
    first_out p.min_local p.max_local r fuel idim = some (k, s) ↔
      idim ≤ k ∧ k < idim + fuel ∧ (∀ j, idim ≤ j → j < k → inside p r j) ∧
      ((s = 0 ∧ r.position.getD k 0 < p.min_local k) ∨
       (s = 1 ∧ r.position.getD k 0 ≥ p.max_local k)) := by
  induction fuel generalizing idim with
  | zero => simp [first_out]; intro h1 h2; omega
  | succ n ih =>
    simp only [first_out]
    split
    · rename_i hlo
      constructor
      · intro h
        simp only [Option.some.injEq, Prod.mk.injEq] at h
        obtain ⟨rfl, rfl⟩ := h
        exact ⟨le_refl _, by omega, fun j h1 h2 => by omega, Or.inl ⟨rfl, hlo⟩⟩
      · rintro ⟨h1, h2, h3, h4⟩
        have hk : k = idim := by
          by_contra hne
          have := h3 idim (le_refl _) (by omega)
          exact absurd hlo (not_lt.mpr this.1)
        subst hk
        rcases h4 with ⟨rfl, _⟩ | ⟨rfl, h5⟩
        · rfl
        · exact absurd (lt_of_lt_of_le hlo (hb k)) (not_lt.mpr h5)
    · rename_i hlo
      split
      · rename_i hhi
        constructor
        · intro h
          simp only [Option.some.injEq, Prod.mk.injEq] at h
          obtain ⟨rfl, rfl⟩ := h
          exact ⟨le_refl _, by omega, fun j h1 h2 => by omega, Or.inr ⟨rfl, hhi⟩⟩
        · rintro ⟨h1, h2, h3, h4⟩
          have hk : k = idim := by
            by_contra hne
            have := h3 idim (le_refl _) (by omega)
            exact absurd hhi (not_le.mpr this.2)
          subst hk
          rcases h4 with ⟨rfl, h5⟩ | ⟨rfl, _⟩
          · exact absurd h5 hlo
          · rfl
      · rename_i hhi
        rw [ih (idim + 1)]
        constructor
        · rintro ⟨h1, h2, h3, h4⟩
          refine ⟨by omega, by omega, ?_, h4⟩
          intro j hj1 hj2
          by_cases hj : j = idim
          · subst hj; exact ⟨not_lt.mp hlo, not_le.mp hhi⟩
          · exact h3 j (by omega) hj2
        · rintro ⟨h1, h2, h3, h4⟩
          have hk : k ≠ idim := by
            rintro rfl
            rcases h4 with ⟨_, h5⟩ | ⟨_, h5⟩
            · exact hlo h5
            · exact hhi h5
          exact ⟨by omega, by omega, fun j hj1 hj2 => h3 j (by omega) hj2, h4⟩


theorem geometry_eq_iff (p q : Patch) : p.geometry = q.geometry ↔
    p.hindex = q.hindex ∧ p.Pcoordinates = q.Pcoordinates ∧ p.neighbor_ = q.neighbor_ ∧
    p.MPI_neighbor_ = q.MPI_neighbor_ ∧ p.MPI_me_ = q.MPI_me_ ∧ p.min_local = q.min_local ∧
    p.max_local = q.max_local ∧ p.incoming_sz = q.incoming_sz ∧
    p.incoming_parts = q.incoming_parts := by
  simp [Patch.geometry]

theorem route_geometry (smpi : SmileiMPI) (params : Params) (p : Patch) (i : Int) (k s : Nat) :
    (route smpi params p i k s).geometry = p.geometry := by
  unfold route push_send
  split_ifs <;> rfl

theorem initExch_while_geometry (smpi : SmileiMPI) (params : Params) (i : Int) (fuel idim : Nat)
    (p : Patch) : (initExch_while smpi params i fuel idim p).geometry = p.geometry := by
  rw [initExch_while_eq]
  split
  · rfl
  · exact route_geometry ..

/-- The send lists after one departed index. -/
theorem initExch_while_send (smpi : SmileiMPI) (params : Params) (i : Int) (p : Patch)
    (k s : Nat) :
    (initExch_while smpi params i params.nDim_field 0 p).patch_buff_index_send k s =
      p.patch_buff_index_send k s ++
        (if queued_on p params.nDim_field p.particles k s i then [i] else []) := by
  rw [initExch_while_eq]
  unfold queued_on
  split
  · rename_i h; simp [h]
  · rename_i k' s' h
    simp only [h]
    unfold route push_send
    by_cases hn : p.neighbor_ k' s' = none
    · simp only [hn, ne_eq, not_true_eq_false, if_false]
      by_cases hks : k' = k ∧ s' = s
      · obtain ⟨rfl, rfl⟩ := hks; simp [hn]
      · have : ¬ (some (k', s') = some (k, s)) := by
          simpa using fun h1 h2 => hks ⟨h1, h2⟩
        simp [this]
    · simp only [ne_eq, hn, not_false_eq_true, if_true]
      by_cases hks : k' = k ∧ s' = s
      · obtain ⟨rfl, rfl⟩ := hks
        split_ifs <;> simp_all [upd2]
      · have : ¬ (some (k', s') = some (k, s)) := by
          simpa using fun h1 h2 => hks ⟨h1, h2⟩
        have h2 : ¬ (k = k' ∧ s = s') := fun h => hks ⟨h.1.symm, h.2.symm⟩
        split_ifs <;> simp_all [upd2]

/-- The particles after one departed index. -/
theorem initExch_while_particles (smpi : SmileiMPI) (params : Params) (i : Int) (p : Patch) :
    (initExch_while smpi params i params.nDim_field 0 p).particles =
      setI p.particles i (corrected smpi params p (getI p.particles i)) ∨
    ((initExch_while smpi params i params.nDim_field 0 p).particles = p.particles ∧
      corrected smpi params p (getI p.particles i) = getI p.particles i) := by
  rw [initExch_while_eq]
  unfold corrected
  split
  · rename_i h; simp [h]
  · rename_i k s h
    unfold route push_send
    by_cases hn : p.neighbor_ k s = none
    · simp [hn]
    · by_cases he : at_edge smpi params p k s
      · left; simp [hn, he, add_position]
      · right; simp [hn, he]


theorem route_frame (smpi : SmileiMPI) (params : Params) (p : Patch) (i : Int) (k s : Nat) :
    route smpi params p i k s =
      { p with particles := (route smpi params p i k s).particles
               patch_buff_index_send := (route smpi params p i k s).patch_buff_index_send } := by
  unfold route push_send
  split_ifs <;> rfl

theorem initExch_while_frame (smpi : SmileiMPI) (params : Params) (i : Int) (fuel idim : Nat)
    (p : Patch) :
    initExch_while smpi params i fuel idim p =
      { p with particles := (initExch_while smpi params i fuel idim p).particles
               patch_buff_index_send :=
                 (initExch_while smpi params i fuel idim p).patch_buff_index_send } := by
  rw [initExch_while_eq]
  split
  · rfl
  · exact route_frame ..

/-- The loop of `initExchParticles` over a list of departed indexes. -/
theorem initExch_fold_frame (smpi : SmileiMPI) (params : Params) (l : List Int) (q : Patch) :
    l.foldl (fun q iPart => initExch_while smpi params iPart params.nDim_field 0 q) q =
      { q with
        particles := (l.foldl (fun q iPart =>
          initExch_while smpi params iPart params.nDim_field 0 q) q).particles
        patch_buff_index_send := (l.foldl (fun q iPart =>
          initExch_while smpi params iPart params.nDim_field 0 q) q).patch_buff_index_send } := by
  induction l generalizing q with
  | nil => rfl
  | cons i l ih =>
    simp only [List.foldl_cons]
    rw [ih]
    generalize hq : initExch_while smpi params i params.nDim_field 0 q = q'
    have := initExch_while_frame smpi params i params.nDim_field 0 q
    rw [hq] at this
    rw [this]

theorem initExch_fold_geometry (smpi : SmileiMPI) (params : Params) (l : List Int) (q : Patch) :
    (l.foldl (fun q iPart => initExch_while smpi params iPart params.nDim_field 0 q) q).geometry
      = q.geometry := by
  rw [initExch_fold_frame]; rfl

theorem initExch_while_length (smpi : SmileiMPI) (params : Params) (i : Int) (p : Patch) :
    (initExch_while smpi params i params.nDim_field 0 p).particles.length = p.particles.length := by
  rcases initExch_while_particles smpi params i p with h | h
  · rw [h]; simp
  · rw [h.1]

theorem initExch_while_getI_ne (smpi : SmileiMPI) (params : Params) (i j : Int) (p : Patch)
    (h : i ≠ j) :
    getI (initExch_while smpi params i params.nDim_field 0 p).particles j = getI p.particles j := by
  rcases initExch_while_particles smpi params i p with h1 | h1
  · rw [h1, getI_setI_ne _ _ _ _ h]
  · rw [h1.1]

theorem initExch_while_getI_eq (smpi : SmileiMPI) (params : Params) (i : Int) (p : Patch)
    (h0 : 0 ≤ i) (h1 : i < p.particles.length) :
    getI (initExch_while smpi params i params.nDim_field 0 p).particles i =
      corrected smpi params p (getI p.particles i) := by
  rcases initExch_while_particles smpi params i p with h | h
  · rw [h, getI_setI_eq _ _ _ h0 h1]
  · rw [h.1, h.2]

theorem queued_on_congr (p q : Patch) (ndim : Nat) (ps qs : List Particle) (k s : Nat) (i : Int)
    (hg : p.geometry = q.geometry) (hr : getI ps i = getI qs i) :
    queued_on p ndim ps k s i ↔ queued_on q ndim qs k s i := by
  rw [geometry_eq_iff] at hg
  unfold queued_on
  rw [hr, hg.2.2.1, hg.2.2.2.2.2.1, hg.2.2.2.2.2.2.1]

theorem corrected_congr (smpi : SmileiMPI) (params : Params) (p q : Patch) (r : Particle)
    (hg : p.geometry = q.geometry) : corrected smpi params p r = corrected smpi params q r := by
  rw [geometry_eq_iff] at hg
  unfold corrected at_edge at_last_patch
  simp only [hg.2.2.1, hg.2.2.2.2.2.1, hg.2.2.2.2.2.2.1, hg.2.1]

theorem initExch_fold_length (smpi : SmileiMPI) (params : Params) (l : List Int) (q : Patch) :
    (l.foldl (fun q iPart => initExch_while smpi params iPart params.nDim_field 0 q) q).particles.length
      = q.particles.length := by
  induction l generalizing q with
  | nil => rfl
  | cons i l ih => simp only [List.foldl_cons]; rw [ih, initExch_while_length]

theorem initExch_fold_send (smpi : SmileiMPI) (params : Params) (l : List Int) (q : Patch)
    (k s : Nat) (hnd : l.Nodup) :
    (l.foldl (fun q iPart => initExch_while smpi params iPart params.nDim_field 0 q)
        q).patch_buff_index_send k s =
      q.patch_buff_index_send k s ++
        l.filter (fun i => decide (queued_on q params.nDim_field q.particles k s i)) := by
  induction l generalizing q with
  | nil => simp
  | cons i l ih =>
    simp only [List.foldl_cons]
    rw [List.nodup_cons] at hnd
    rw [ih _ hnd.2, initExch_while_send, List.append_assoc]
    congr 1
    have hc : l.filter (fun j => decide (queued_on (initExch_while smpi params i params.nDim_field 0 q)
        params.nDim_field (initExch_while smpi params i params.nDim_field 0 q).particles k s j)) =
        l.filter (fun j => decide (queued_on q params.nDim_field q.particles k s j)) := by
      apply List.filter_congr
      intro j hj
      have hij : i ≠ j := fun h => hnd.1 (h ▸ hj)
      simp only [decide_eq_decide]
      exact queued_on_congr _ _ _ _ _ _ _ _ (initExch_while_geometry ..)
        (initExch_while_getI_ne _ _ _ _ _ hij)
    rw [hc, List.filter_cons]
    split_ifs <;> simp_all

theorem initExch_fold_getI (smpi : SmileiMPI) (params : Params) (l : List Int) (q : Patch)
    (j : Int) (hnd : l.Nodup) (hr : ∀ i ∈ l, 0 ≤ i ∧ i < q.particles.length) :
    getI (l.foldl (fun q iPart => initExch_while smpi params iPart params.nDim_field 0 q)
        q).particles j =
      if j ∈ l then corrected smpi params q (getI q.particles j) else getI q.particles j := by
  induction l generalizing q with
  | nil => simp
  | cons i l ih =>
    simp only [List.foldl_cons]
    rw [List.nodup_cons] at hnd
    have hr2 : ∀ x ∈ l, 0 ≤ x ∧ x < (initExch_while smpi params i params.nDim_field 0 q).particles.length := by
      intro x hx; rw [initExch_while_length]; exact hr x (List.mem_cons_of_mem _ hx)
    rw [ih _ hnd.2 hr2]
    by_cases hj : j ∈ l
    · have hij : i ≠ j := fun h => hnd.1 (h ▸ hj)
      simp only [hj, if_true, List.mem_cons, or_true]
      rw [initExch_while_getI_ne _ _ _ _ _ hij]
      exact corrected_congr _ _ _ _ _ (initExch_while_geometry ..)
    · simp only [hj, if_false, List.mem_cons, or_false]
      by_cases hji : j = i
      · subst hji
        simp only [if_true]
        have := hr j (List.mem_cons_self _ _)
        exact initExch_while_getI_eq _ _ _ _ this.1 this.2
      · simp only [hji, if_false]
        exact initExch_while_getI_ne _ _ _ _ _ (fun h => hji h.symm)


theorem initExch_reset_geometry (params : Params) (p : Patch) :
    (initExch_reset params p).geometry = p.geometry := rfl

theorem initExchParticles_geometry (smpi : SmileiMPI) (params : Params) (p : Patch) :
    (initExchParticles smpi params p).geometry = p.geometry := by
  unfold initExchParticles
  rw [initExch_fold_geometry]; rfl

/-- The send list `(k, s)` after `initExchParticles`: the departed indexes queued on
`(k, s)`, in the order of the departed list. -/
theorem initExchParticles_send_eq (smpi : SmileiMPI) (params : Params) (p : Patch) (k s : Nat)
    (hk : k < params.nDim_field) (hs : s < 2)
    (hnd : p.indexes_of_particles_to_exchange.Nodup) :
    (initExchParticles smpi params p).patch_buff_index_send k s =
      p.indexes_of_particles_to_exchange.filter
        (fun i => decide (queued_on p params.nDim_field p.particles k s i)) := by
  unfold initExchParticles
  rw [initExch_fold_send _ _ _ _ _ _ hnd]
  have h1 : (initExch_reset params p).patch_buff_index_send k s = [] := by
    simp [initExch_reset, hk, nbNeighbors_, hs]
  rw [h1, List.nil_append]
  apply List.filter_congr
  intro i _
  simp only [decide_eq_decide]
  exact queued_on_congr _ _ _ _ _ _ _ _ (initExch_reset_geometry ..) rfl

theorem initExchParticles_getI (smpi : SmileiMPI) (params : Params) (p : Patch) (j : Int)
    (hnd : p.indexes_of_particles_to_exchange.Nodup)
    (hr : ∀ i ∈ p.indexes_of_particles_to_exchange, 0 ≤ i ∧ i < p.particles.length) :
    getI (initExchParticles smpi params p).particles j =
      if j ∈ p.indexes_of_particles_to_exchange then corrected smpi params p (getI p.particles j)
      else getI p.particles j := by
  unfold initExchParticles
  rw [initExch_fold_getI smpi params _ (initExch_reset params p) j hnd hr]
  rfl

theorem initExchParticles_length (smpi : SmileiMPI) (params : Params) (p : Patch) :
    (initExchParticles smpi params p).particles.length = p.particles.length := by
  unfold initExchParticles
  rw [initExch_fold_length]; rfl

theorem initExchParticles_frame (smpi : SmileiMPI) (params : Params) (p : Patch) :
    initExchParticles smpi params p =
      { initExch_reset params p with
        particles := (initExchParticles smpi params p).particles
        patch_buff_index_send := (initExchParticles smpi params p).patch_buff_index_send } := by
  unfold initExchParticles
  exact initExch_fold_frame ..

theorem queued_on_iff (p : Patch) (ndim : Nat) (ps : List Particle) (k s : Nat) (i : Int)
    (hb : ∀ j, p.min_local j ≤ p.max_local j) :
    queued_on p ndim ps k s i ↔
      leaves_through p ndim (getI ps i) k s ∧ p.neighbor_ k s ≠ none := by
  unfold queued_on leaves_through
  rw [first_out_some_iff p _ _ _ _ _ hb]
  constructor
  · rintro ⟨⟨_, h2, h3, h4⟩, h5⟩
    exact ⟨⟨by omega, fun j hj => h3 j (Nat.zero_le _) hj, h4⟩, h5⟩
  · rintro ⟨⟨h2, h3, h4⟩, h5⟩
    exact ⟨⟨Nat.zero_le _, by omega, fun j _ hj => h3 j hj, h4⟩, h5⟩

theorem leaves_through_unique (p : Patch) (ndim : Nat) (r : Particle) (k s k' s' : Nat)
    (hb : ∀ j, p.min_local j ≤ p.max_local j)
    (h : leaves_through p ndim r k s) (h' : leaves_through p ndim r k' s') :
    k = k' ∧ s = s' := by
  have h1 : first_out p.min_local p.max_local r ndim 0 = some (k, s) := by
    rw [first_out_some_iff p _ _ _ _ _ hb]
    exact ⟨Nat.zero_le _, by have := h.1; omega, fun j _ hj => h.2.1 j hj, h.2.2⟩
  have h2 : first_out p.min_local p.max_local r ndim 0 = some (k', s') := by
    rw [first_out_some_iff p _ _ _ _ _ hb]
    exact ⟨Nat.zero_le _, by have := h'.1; omega, fun j _ hj => h'.2.1 j hj, h'.2.2⟩
  rw [h1] at h2
  simpa using h2

/-- C3: for a departed list of distinct (valid) indexes, `initExchParticles` queues the index
`i` on the send list `(k, s)` exactly when `k` is the smallest axis on which particle `i` is
outside `[min_local[k], max_local[k])`, `s` is the low side for a coordinate below
`min_local[k]` and the high side for a coordinate at or above `max_local[k]`, and a neighbor
exists on `(k, s)`; every send list has no repetition, an index is on at most one send list,
and every send list is a sublist of the departed list (it keeps its order). -/
theorem initExchParticles_send_lists (smpi : SmileiMPI) (params : Params) (p : Patch)
    (hnd : p.indexes_of_particles_to_exchange.Nodup)
    (hr : ∀ i ∈ p.indexes_of_particles_to_exchange, 0 ≤ i ∧ i < p.particles.length)
    (hb : ∀ j, p.min_local j ≤ p.max_local j) :
    (∀ k s i, k < params.nDim_field → s < 2 →
      (i ∈ (initExchParticles smpi params p).patch_buff_index_send k s ↔
        i ∈ p.indexes_of_particles_to_exchange ∧
        leaves_through p params.nDim_field (getI p.particles i) k s ∧
        p.neighbor_ k s ≠ none)) ∧
    (∀ k s, k < params.nDim_field → s < 2 →
      ((initExchParticles smpi params p).patch_buff_index_send k s).Nodup) ∧
    (∀ i k s k' s', k < params.nDim_field → s < 2 → k' < params.nDim_field → s' < 2 →
      i ∈ (initExchParticles smpi params p).patch_buff_index_send k s →
      i ∈ (initExchParticles smpi params p).patch_buff_index_send k' s' → k = k' ∧ s = s') ∧
    (∀ k s, k < params.nDim_field → s < 2 →
      ((initExchParticles smpi params p).patch_buff_index_send k s).Sublist
        p.indexes_of_particles_to_exchange) := by
  have _ := hr
  have hmem : ∀ k s i, k < params.nDim_field → s < 2 →
      (i ∈ (initExchParticles smpi params p).patch_buff_index_send k s ↔
        i ∈ p.indexes_of_particles_to_exchange ∧
        leaves_through p params.nDim_field (getI p.particles i) k s ∧
        p.neighbor_ k s ≠ none) := by
    intro k s i hk hs
    rw [initExchParticles_send_eq _ _ _ _ _ hk hs hnd, List.mem_filter, decide_eq_true_eq,
      queued_on_iff _ _ _ _ _ _ hb]
  refine ⟨hmem, ?_, ?_, ?_⟩
  · intro k s hk hs
    rw [initExchParticles_send_eq _ _ _ _ _ hk hs hnd]
    exact hnd.filter _
  · intro i k s k' s' hk hs hk' hs' h1 h2
    rw [hmem k s i hk hs] at h1
    rw [hmem k' s' i hk' hs'] at h2
    exact leaves_through_unique p _ _ _ _ _ _ hb h1.2.1 h2.2.1
  · intro k s hk hs
    rw [initExchParticles_send_eq _ _ _ _ _ hk hs hnd]
    exact List.filter_sublist _


theorem shifted_position_same (r : Particle) (k : Nat) (dx : ℚ) (hk : k < r.position.length) :
    (r.shifted k dx).position.getD k 0 = fl (r.position.getD k 0 + dx) := by
  simp [Particle.shifted, List.getD_eq_getElem?_getD, List.getElem?_set, hk]

theorem shifted_position_other (r : Particle) (k d : Nat) (dx : ℚ) (hd : d ≠ k) :
    (r.shifted k dx).position.getD d 0 = r.position.getD d 0 := by
  simp [Particle.shifted, List.getD_eq_getElem?_getD, List.getElem?_set, hd.symm]

theorem corrected_of_leaves (smpi : SmileiMPI) (params : Params) (p : Patch) (r : Particle)
    (k s : Nat) (hb : ∀ j, p.min_local j ≤ p.max_local j)
    (h : leaves_through p params.nDim_field r k s) :
    corrected smpi params p r =
      if p.neighbor_ k s ≠ none ∧ at_edge smpi params p k s then r.shifted k (wrap params k s)
      else r := by
  have h1 : first_out p.min_local p.max_local r params.nDim_field 0 = some (k, s) := by
    rw [first_out_some_iff p _ _ _ _ _ hb]
    exact ⟨Nat.zero_le _, by have := h.1; omega, fun j _ hj => h.2.1 j hj, h.2.2⟩
  unfold corrected
  rw [h1]

theorem corrected_of_inside (smpi : SmileiMPI) (params : Params) (p : Patch) (r : Particle)
    (h : ∀ k, k < params.nDim_field → inside p r k) :
    corrected smpi params p r = r := by
  have h1 : first_out p.min_local p.max_local r params.nDim_field 0 = none := by
    have : ∀ fuel idim, idim + fuel ≤ params.nDim_field →
        first_out p.min_local p.max_local r fuel idim = none := by
      intro fuel
      induction fuel with
      | zero => intro idim _; rfl
      | succ n ih =>
        intro idim hle
        have hi := h idim (by omega)
        simp only [first_out, not_lt.mpr hi.1, ge_iff_le, not_le.mpr hi.2, if_false]
        exact ih (idim + 1) (by omega)
    exact this _ 0 (by omega)
  unfold corrected
  rw [h1]

/-- C6 (amended): in `initExchParticles` (distinct valid departed indexes, records with one
coordinate per axis), a departed particle that leaves first through `(k, s)` where the axis
`k` is periodic and a neighbor exists gets its axis-`k` coordinate changed to the `double`
nearest to `original + L_k` on a low-side exit from a patch with grid coordinate `0`, to
the `double` nearest to `original - L_k` on a high-side exit from a patch with grid
coordinate `number_of_patches[k]-1`, where `L_k` is the `double` nearest to
`cell_length[k] * n_space_global[k]`; in every other case the coordinate is unchanged; the
coordinates on the other axes, the coordinates of a departed particle inside all bounds and
the records of all other particles are unchanged. -/
theorem initExchParticles_periodic_correction (smpi : SmileiMPI) (params : Params) (p : Patch)
    (hnd : p.indexes_of_particles_to_exchange.Nodup)
    (hr : ∀ i ∈ p.indexes_of_particles_to_exchange, 0 ≤ i ∧ i < p.particles.length)
    (hb : ∀ j, p.min_local j ≤ p.max_local j)
    (hdim : ∀ i ∈ p.indexes_of_particles_to_exchange,
      params.nDim_field ≤ (getI p.particles i).position.length) :
    (∀ i ∈ p.indexes_of_particles_to_exchange, ∀ k s,
      leaves_through p params.nDim_field (getI p.particles i) k s →
        (smpi.periods_ k = 1 → p.neighbor_ k s ≠ none → s = 0 → p.Pcoordinates k = 0 →
          position (initExchParticles smpi params p).particles k i =
            fl (position p.particles k i +
              fl (params.cell_length k * (params.n_space_global k : ℚ)))) ∧
        (smpi.periods_ k = 1 → p.neighbor_ k s ≠ none → s = 1 →
          (p.Pcoordinates k : Int) = (params.number_of_patches k : Int) - 1 →
          position (initExchParticles smpi params p).particles k i =
            fl (position p.particles k i -
              fl (params.cell_length k * (params.n_space_global k : ℚ)))) ∧
        (¬ (smpi.periods_ k = 1 ∧ p.neighbor_ k s ≠ none ∧
            ((s = 0 ∧ p.Pcoordinates k = 0) ∨
             (s = 1 ∧ (p.Pcoordinates k : Int) = (params.number_of_patches k : Int) - 1))) →
          position (initExchParticles smpi params p).particles k i = position p.particles k i) ∧
        (∀ d, d ≠ k →
          position (initExchParticles smpi params p).particles d i = position p.particles d i)) ∧
    (∀ i ∈ p.indexes_of_particles_to_exchange,
      (∀ k, k < params.nDim_field → inside p (getI p.particles i) k) →
        getI (initExchParticles smpi params p).particles i = getI p.particles i) ∧
    (∀ j, j ∉ p.indexes_of_particles_to_exchange →
      getI (initExchParticles smpi params p).particles j = getI p.particles j) := by
  refine ⟨?_, ?_, ?_⟩
  · intro i hi k s hl
    have hkl : k < (getI p.particles i).position.length :=
      lt_of_lt_of_le hl.1 (hdim i hi)
    have hg := initExchParticles_getI smpi params p i hnd hr
    simp only [hi, if_true] at hg
    rw [corrected_of_leaves smpi params p _ k s hb hl] at hg
    unfold position
    rw [hg]
    refine ⟨?_, ?_, ?_, ?_⟩
    · intro hp hn hs hc
      have he : at_edge smpi params p k s := by
        unfold at_edge; rw [if_pos hs]; exact ⟨hp, hc⟩
      rw [if_pos ⟨hn, he⟩, shifted_position_same _ _ _ hkl]
      simp [wrap, hs, xmax]
    · intro hp hn hs hc
      have he : at_edge smpi params p k s := by
        unfold at_edge; rw [if_neg (by omega)]; exact ⟨hp, hc⟩
      rw [if_pos ⟨hn, he⟩, shifted_position_same _ _ _ hkl]
      simp [wrap, hs, xmax, sub_eq_add_neg]
    · intro hno
      have hs2 : s = 0 ∨ s = 1 := by
        rcases hl.2.2 with ⟨h, _⟩ | ⟨h, _⟩
        · exact Or.inl h
        · exact Or.inr h
      have : ¬ (p.neighbor_ k s ≠ none ∧ at_edge smpi params p k s) := by
        rintro ⟨hn, he⟩
        apply hno
        unfold at_edge at_last_patch at he
        refine ⟨he.1, hn, ?_⟩
        rcases hs2 with h | h
        · left; refine ⟨h, ?_⟩; have := he.2; rw [if_pos h] at this; exact this
        · right; refine ⟨h, ?_⟩; have := he.2; rw [if_neg (by omega)] at this; exact this
      rw [if_neg this]
    · intro d hd
      split
      · exact shifted_position_other _ _ _ _ hd
      · rfl
  · intro i hi hin
    have hg := initExchParticles_getI smpi params p i hnd hr
    simp only [hi, if_true] at hg
    rw [hg, corrected_of_inside smpi params p _ hin]
  · intro j hj
    have hg := initExchParticles_getI smpi params p j hnd hr
    simp only [hj, if_false] at hg
    exact hg


theorem set_getElem_same {α : Type} (l : List α) (i : Nat) (h : i < l.length) :
    l.set i l[i] = l := by
  apply List.ext_getElem (by simp)
  intro n h1 h2
  by_cases hn : i = n
  · subst hn; simp
  · simp [List.getElem_set, hn]

theorem overwrite_part_self (ps : List Particle) (i : Int) : overwrite_part ps i i = ps := by
  unfold overwrite_part setI getI
  split
  · rename_i h
    by_cases hl : i.toNat < ps.length
    · simp only [List.getD_eq_getElem?_getD, List.getElem?_eq_getElem hl, Option.getD_some]
      exact set_getElem_same _ _ hl
    · exact List.set_eq_of_length_le (by omega)
  · rfl

theorem rm_step_self (ps : List Particle) (bm : Int) : rm_step (ps, bm) (bm - 1) = (ps, bm - 1) := by
  simp [rm_step, overwrite_part_self]

theorem descBlock_of_le (idx : List Int) (a ii : Nat) (h : ii ≤ a) : descBlock idx a ii = [] := by
  cases ii with
  | zero => rfl
  | succ k => simp [descBlock]; omega

theorem descBlock_succ (idx : List Int) (a ii : Nat) (h : a ≤ ii) :
    descBlock idx a (ii + 1) = idx.getD (ii + 1) 0 :: descBlock idx a ii := by
  simp [descBlock, h]

/-- The skip loop runs down to the position `a` when everything above is beyond the bin. -/
theorem cleanup_skip_eq (idx : List Int) (hi : Int) (a ii : Nat) (h : a ≤ ii)
    (hab : ∀ j, a < j → j ≤ ii → idx.getD j 0 ≥ hi)
    (hst : a = 0 ∨ idx.getD a 0 < hi) :
    cleanup_skip idx hi ii = a := by
  induction ii with
  | zero => simp [cleanup_skip]; omega
  | succ k ih =>
    simp only [cleanup_skip]
    by_cases hak : a = k + 1
    · subst hak
      rcases hst with h0 | h0
      · omega
      · rw [if_neg (not_le.mpr h0)]
    · have := hab (k + 1) (by omega) (le_refl _)
      simp only [this, if_true]
      exact ih (by omega) (fun j h1 h2 => hab j h1 (by omega))

/-- The swap loop over a run of listed indexes inside the bin is a sequence of removals. -/
theorem cleanup_swap_eq (idx : List Int) (lo : Int) (a ii : Nat) (bm : Int) (ps : List Particle)
    (h : a ≤ ii)
    (hab : ∀ j, a < j → j ≤ ii → idx.getD j 0 ≥ lo)
    (hst : a = 0 ∨ idx.getD a 0 < lo) :
    cleanup_swap idx lo ii bm ps =
      (a, ((descBlock idx a ii).foldl rm_step (ps, bm)).2,
          ((descBlock idx a ii).foldl rm_step (ps, bm)).1) := by
  induction ii generalizing bm ps with
  | zero =>
    have : a = 0 := by omega
    subst this
    simp [cleanup_swap, descBlock]
  | succ k ih =>
    simp only [cleanup_swap]
    by_cases hak : a = k + 1
    · subst hak
      rcases hst with h0 | h0
      · omega
      · rw [if_neg (not_le.mpr h0), descBlock_of_le _ _ _ (le_refl _)]
        rfl
    · have := hab (k + 1) (by omega) (le_refl _)
      simp only [this, if_true]
      rw [ih _ _ (by omega) (fun j h1 h2 => hab j h1 (by omega)),
        descBlock_succ _ _ _ (by omega)]
      rfl

/-- The trim loop followed by the swap loop, over a run of listed indexes inside the bin,
is a sequence of removals. -/
theorem cleanup_trim_swap_eq (idx : List Int) (lo : Int) (a ii : Nat) (bm : Int)
    (ps : List Particle) (h : a ≤ ii)
    (hab : ∀ j, a < j → j ≤ ii → idx.getD j 0 ≥ lo)
    (hst : a = 0 ∨ idx.getD a 0 < lo) :
    cleanup_swap idx lo (cleanup_trim idx lo ii bm).1 (cleanup_trim idx lo ii bm).2 ps =
      (a, ((descBlock idx a ii).foldl rm_step (ps, bm)).2,
          ((descBlock idx a ii).foldl rm_step (ps, bm)).1) := by
  induction ii generalizing bm with
  | zero =>
    have : a = 0 := by omega
    subst this
    simp [cleanup_swap, cleanup_trim, descBlock]
  | succ k ih =>
    by_cases hak : a = k + 1
    · subst hak
      rcases hst with h0 | h0
      · omega
      · have h1 : ¬ (idx.getD (k + 1) 0 = bm - 1 ∧ idx.getD (k + 1) 0 ≥ lo) :=
          fun hc => absurd hc.2 (not_le.mpr h0)
        simp only [cleanup_trim, if_neg h1, cleanup_swap, if_neg (not_le.mpr h0)]
        rw [descBlock_of_le _ _ _ (le_refl _)]
        rfl
    · have hge := hab (k + 1) (by omega) (le_refl _)
      simp only [cleanup_trim]
      by_cases ht : idx.getD (k + 1) 0 = bm - 1
      · simp only [ht, true_and]
        rw [ht] at hge
        simp only [hge, if_true]
        rw [ih _ (by omega) (fun j h1 h2 => hab j h1 (by omega)),
          descBlock_succ _ _ _ (by omega), List.foldl_cons, ht, rm_step_self]
      · simp only [ht, false_and, if_false]
        exact cleanup_swap_eq idx lo a (k + 1) bm ps h hab hst


theorem rm_fold_snd (l : List Int) (ps : List Particle) (bm : Int) :
    (l.foldl rm_step (ps, bm)).2 = bm - l.length := by
  induction l generalizing ps bm with
  | nil => simp
  | cons d l ih =>
    simp only [List.foldl_cons, rm_step, List.length_cons]
    rw [ih]; push_cast; ring

theorem descBlock_eq (idx : List Int) (a ii : Nat) (h : ii < idx.length) :
    descBlock idx a ii = ((idx.take (ii + 1)).drop (a + 1)).reverse := by
  induction ii with
  | zero =>
    simp only [descBlock]
    have : ((idx.take (0 + 1)).drop (a + 1)) = [] := by
      apply List.drop_eq_nil_of_le
      simp
    rw [this]; rfl
  | succ k ih =>
    by_cases hak : a ≤ k
    · rw [descBlock_succ _ _ _ hak, ih (by omega)]
      have h1 : idx.take (k + 1 + 1) = idx.take (k + 1) ++ [idx.getD (k + 1) 0] := by
        rw [List.take_succ, List.getD_eq_getElem?_getD, List.getElem?_eq_getElem h]
        simp
      rw [h1, List.drop_append_of_le_length (by simp; omega), List.reverse_append]
      rfl
    · rw [descBlock_of_le _ _ _ (by omega)]
      have : ((idx.take (k + 1 + 1)).drop (a + 1)) = [] := by
        apply List.drop_eq_nil_of_le
        simp; omega
      rw [this]; rfl

theorem set_getD_same (l : List Int) (i : Nat) : l.set i (l.getD i 0) = l := by
  by_cases h : i < l.length
  · rw [List.getD_eq_getElem?_getD, List.getElem?_eq_getElem h]
    exact set_getElem_same _ _ h
  · exact List.set_eq_of_length_le (by omega)

/-- The body of the first loop of `cleanup_sent_particles` for one bin, when the positions
`[a, b)` of the list hold the listed indexes that fall in the bin: the removals of these
indexes, from the last to the first. -/
theorem cleanup_bin_core (idx bmin : List Int) (ps : List Particle) (bmax : List Int)
    (ibin a b : Nat) (hab : a ≤ b) (hbn : b ≤ idx.length)
    (hlohi : bmin.getD ibin 0 ≤ bmax.getD ibin 0)
    (hA : ∀ j, j < a → idx.getD j 0 < bmin.getD ibin 0)
    (hM : ∀ j, a ≤ j → j < b → bmin.getD ibin 0 ≤ idx.getD j 0 ∧ idx.getD j 0 < bmax.getD ibin 0)
    (hB : ∀ j, b ≤ j → j < idx.length → idx.getD j 0 ≥ bmax.getD ibin 0)
    (hfin : a = 0 → 1 ≤ b → idx.getD 0 0 < bmax.getD ibin 0 - ((b : Int) - 1)) :
    cleanup_bin idx bmin (ps, bmax) ibin =
      ((((idx.take b).drop a).reverse.foldl rm_step (ps, bmax.getD ibin 0)).1,
        bmax.set ibin (bmax.getD ibin 0 - ((b : Int) - a))) := by
  unfold cleanup_bin
  by_cases hn : 0 < idx.length
  swap
  · have h0 : idx = [] := List.length_eq_zero.mp (by omega)
    subst h0
    have hb0 : b = 0 := by simpa using hbn
    have ha0 : a = 0 := by omega
    subst hb0 ha0
    rw [if_neg hn]
    simp [-List.getD_eq_getElem?_getD, set_getD_same]
  rw [if_pos hn]
  simp only
  by_cases hb : b = 0
  · subst hb
    have ha : a = 0 := by omega
    subst ha
    have hs : cleanup_skip idx (bmax.getD ibin 0) (idx.length - 1) = 0 :=
      cleanup_skip_eq idx _ 0 _ (Nat.zero_le _) (fun j h1 h2 => hB j (Nat.zero_le _) (by omega))
        (Or.inl rfl)
    rw [hs]
    have h0 := hB 0 (le_refl _) hn
    simp only [cleanup_trim, cleanup_swap]
    rw [if_neg (fun hc => absurd hc.2 (not_lt.mpr h0))]
    simp [-List.getD_eq_getElem?_getD, set_getD_same]
  · have hb1 : b - 1 ≤ idx.length - 1 := by omega
    have hb2 : ∀ j, b - 1 < j → j ≤ idx.length - 1 → idx.getD j 0 ≥ bmax.getD ibin 0 :=
      fun j h1 h2 => hB j (by omega) (by omega)
    have hb3 : idx.getD (b - 1) 0 < bmax.getD ibin 0 := by
      by_cases hc : a ≤ b - 1
      · exact (hM (b - 1) hc (by omega)).2
      · exact lt_of_lt_of_le (hA (b - 1) (by omega)) hlohi
    have hs : cleanup_skip idx (bmax.getD ibin 0) (idx.length - 1) = b - 1 :=
      cleanup_skip_eq idx _ (b - 1) _ hb1 hb2 (Or.inr hb3)
    rw [hs]
    by_cases ha : a = 0
    · subst ha
      rw [cleanup_trim_swap_eq idx _ 0 (b - 1) _ ps (Nat.zero_le _)
        (fun j h1 h2 => (hM j (Nat.zero_le _) (by omega)).1) (Or.inl rfl)]
      simp only [rm_fold_snd]
      have hlen : (descBlock idx 0 (b - 1)).length = b - 1 := by
        rw [descBlock_eq _ _ _ (by omega)]; simp; omega
      have hc : idx.getD 0 0 ≥ bmin.getD ibin 0 ∧
          idx.getD 0 0 < bmax.getD ibin 0 - ((descBlock idx 0 (b - 1)).length : Int) := by
        refine ⟨(hM 0 (le_refl _) (by omega)).1, ?_⟩
        have := hfin rfl (by omega)
        rw [hlen]; push_cast [Nat.cast_sub (show 1 ≤ b by omega)]; exact this
      rw [if_pos hc]
      have htk : (idx.take b).drop 0 = idx.getD 0 0 :: (idx.take (b - 1 + 1)).drop (0 + 1) := by
        have : b - 1 + 1 = b := by omega
        rw [this, List.drop_zero]
        cases idx with
        | nil => simp at hn
        | cons x l =>
          cases b with
          | zero => omega
          | succ b' => simp
      rw [htk, List.reverse_cons, List.foldl_append, ← descBlock_eq _ _ _ (by omega)]
      simp only [List.foldl_cons, List.foldl_nil, rm_step, rm_fold_snd, hlen]
      congr 2
      push_cast [Nat.cast_sub (show 1 ≤ b by omega)]; ring
    · rw [cleanup_trim_swap_eq idx _ (a - 1) (b - 1) _ ps (by omega)
        (fun j h1 h2 => (hM j (by omega) (by omega)).1) (Or.inr (hA (a - 1) (by omega)))]
      simp only [rm_fold_snd]
      have hlen : (descBlock idx (a - 1) (b - 1)).length = b - a := by
        rw [descBlock_eq _ _ _ (by omega)]; simp; omega
      have hc : ¬ (idx.getD (a - 1) 0 ≥ bmin.getD ibin 0 ∧
          idx.getD (a - 1) 0 < bmax.getD ibin 0 - ((descBlock idx (a - 1) (b - 1)).length : Int)) :=
        fun hc => absurd hc.1 (not_le.mpr (hA (a - 1) (by omega)))
      rw [if_neg hc, hlen, descBlock_eq _ _ _ (by omega)]
      have e1 : b - 1 + 1 = b := by omega
      have e2 : a - 1 + 1 = a := by omega
      rw [e1, e2]
      congr 2
      push_cast [Nat.cast_sub hab]; ring


theorem getD_eq_getElem_int (l : List Int) (j : Nat) (h : j < l.length) : l.getD j 0 = l[j] := by
  rw [List.getD_eq_getElem?_getD, List.getElem?_eq_getElem h, Option.getD_some]

theorem sorted_filter_lt_nil (l : List Int) (x c : Int) (h : ∀ y ∈ l, x < y) (hx : c ≤ x) :
    l.filter (fun y => decide (y < c)) = [] := by
  rw [List.filter_eq_nil_iff]
  intro y hy
  have := h y hy
  simp; omega

theorem sorted_take_filter (l : List Int) (c : Int) (hs : l.Pairwise (· < ·)) :
    l.take (l.filter (fun y => decide (y < c))).length = l.filter (fun y => decide (y < c)) := by
  induction l with
  | nil => rfl
  | cons x l ih =>
    rw [List.pairwise_cons] at hs
    by_cases hx : x < c
    · simp only [List.filter_cons, hx, decide_True, if_true, List.length_cons, List.take_succ_cons]
      rw [ih hs.2]
    · rw [List.filter_cons]
      simp only [hx, decide_False]
      rw [sorted_filter_lt_nil l x c hs.1 (by omega)]
      rfl

theorem sorted_drop_filter (l : List Int) (c : Int) (hs : l.Pairwise (· < ·)) :
    l.drop (l.filter (fun y => decide (y < c))).length = l.filter (fun y => decide (c ≤ y)) := by
  induction l with
  | nil => rfl
  | cons x l ih =>
    rw [List.pairwise_cons] at hs
    by_cases hx : x < c
    · simp only [List.filter_cons, hx, decide_True, if_true, List.length_cons, List.drop_succ_cons]
      rw [ih hs.2]
      simp [not_le.mpr hx]
    · rw [List.filter_cons]
      simp only [hx, decide_False]
      rw [sorted_filter_lt_nil l x c hs.1 (by omega)]
      simp only [Bool.false_eq_true, if_false, List.length_nil, List.drop_zero]
      symm
      rw [List.filter_eq_self]
      intro y hy
      rcases List.mem_cons.mp hy with rfl | hy
      · simp; omega
      · have := hs.1 y hy
        simp; omega

theorem sorted_index_lt (l : List Int) (c : Int) (hs : l.Pairwise (· < ·)) (j : Nat)
    (hj : j < l.length) :
    l.getD j 0 < c ↔ j < (l.filter (fun y => decide (y < c))).length := by
  have h1 := sorted_take_filter l c hs
  have h2 := sorted_drop_filter l c hs
  set a := (l.filter (fun y => decide (y < c))).length with ha
  have hal : a ≤ l.length := by rw [ha]; exact List.length_filter_le _ _
  rw [List.getD_eq_getElem?_getD, List.getElem?_eq_getElem hj, Option.getD_some]
  by_cases hja : j < a
  · simp only [hja, iff_true]
    have hm : l[j] ∈ l.take a := by
      rw [List.mem_take_iff_getElem]
      exact ⟨j, by omega, rfl⟩
    rw [h1, List.mem_filter] at hm
    simpa using hm.2
  · simp only [hja, iff_false, not_lt]
    have hm : l[j] ∈ l.drop a := by
      rw [List.mem_drop_iff_getElem]
      exact ⟨j - a, by omega, by congr 1; omega⟩
    rw [h2, List.mem_filter] at hm
    simpa using hm.2

theorem sorted_gap (l : List Int) (hs : l.Pairwise (· < ·)) (i j : Nat) (hij : i ≤ j)
    (hj : j < l.length) : l.getD i 0 + ((j : Int) - i) ≤ l.getD j 0 := by
  induction j with
  | zero =>
    have : i = 0 := by omega
    subst this; simp
  | succ k ih =>
    by_cases hik : i = k + 1
    · subst hik; simp
    · have h1 := ih (by omega) (by omega)
      have h2 : l.getD k 0 < l.getD (k + 1) 0 := by
        rw [getD_eq_getElem_int l k (by omega), getD_eq_getElem_int l (k + 1) hj]
        exact List.pairwise_iff_getElem.mp hs k (k + 1) (by omega) hj (by omega)
      push_cast
      omega

theorem inBin_eq_take_drop (idx : List Int) (lo hi : Int) (hs : idx.Pairwise (· < ·))
    (hlohi : lo ≤ hi) :
    (idx.take (idx.filter (fun y => decide (y < hi))).length).drop
      (idx.filter (fun y => decide (y < lo))).length = inBin idx lo hi := by
  rw [sorted_take_filter idx hi hs]
  have hs2 : (idx.filter (fun y => decide (y < hi))).Pairwise (· < ·) := hs.filter _
  have hcnt : (idx.filter (fun y => decide (y < lo))) =
      ((idx.filter (fun y => decide (y < hi))).filter (fun y => decide (y < lo))) := by
    rw [List.filter_filter]
    apply List.filter_congr
    intro x _
    simp; omega
  rw [hcnt, sorted_drop_filter _ lo hs2, List.filter_filter]
  unfold inBin
  apply List.filter_congr
  intro x _
  simp


/-- The body of the first loop of `cleanup_sent_particles` for one bin, for a strictly
ascending list: the removals of the listed indexes of the bin, from the last to the first. -/
theorem cleanup_bin_sorted (idx bmin : List Int) (ps : List Particle) (bmax : List Int)
    (ibin : Nat) (hs : idx.Pairwise (· < ·))
    (hlohi : bmin.getD ibin 0 ≤ bmax.getD ibin 0) :
    cleanup_bin idx bmin (ps, bmax) ibin =
      (((inBin idx (bmin.getD ibin 0) (bmax.getD ibin 0)).reverse.foldl rm_step
          (ps, bmax.getD ibin 0)).1,
        bmax.set ibin (bmax.getD ibin 0 -
          ((inBin idx (bmin.getD ibin 0) (bmax.getD ibin 0)).length : Int))) := by
  set lo := bmin.getD ibin 0 with hlo
  set hi := bmax.getD ibin 0 with hhi
  set a := (idx.filter (fun y => decide (y < lo))).length with ha
  set b := (idx.filter (fun y => decide (y < hi))).length with hb
  have hbn : b ≤ idx.length := List.length_filter_le _ _
  have hab : a ≤ b := by
    have : (idx.filter (fun y => decide (y < lo))) =
        ((idx.filter (fun y => decide (y < hi))).filter (fun y => decide (y < lo))) := by
      rw [List.filter_filter]
      apply List.filter_congr
      intro x _
      simp; omega
    rw [ha, this]
    exact List.length_filter_le _ _
  have hA : ∀ j, j < a → idx.getD j 0 < lo := fun j hj =>
    (sorted_index_lt idx lo hs j (by omega)).mpr hj
  have hM : ∀ j, a ≤ j → j < b → lo ≤ idx.getD j 0 ∧ idx.getD j 0 < hi := fun j h1 h2 =>
    ⟨not_lt.mp (fun h => absurd ((sorted_index_lt idx lo hs j (by omega)).mp h) (by omega)),
      (sorted_index_lt idx hi hs j (by omega)).mpr h2⟩
  have hB : ∀ j, b ≤ j → j < idx.length → idx.getD j 0 ≥ hi := fun j h1 h2 =>
    not_lt.mp (fun h => absurd ((sorted_index_lt idx hi hs j h2).mp h) (by omega))
  have hfin : a = 0 → 1 ≤ b → idx.getD 0 0 < hi - ((b : Int) - 1) := by
    intro _ h1
    have h2 := sorted_gap idx hs 0 (b - 1) (Nat.zero_le _) (by omega)
    have h3 := (sorted_index_lt idx hi hs (b - 1) (by omega)).mpr (by omega)
    push_cast [Nat.cast_sub h1] at h2
    omega
  have hcore := cleanup_bin_core idx bmin ps bmax ibin a b hab hbn hlohi hA hM hB hfin
  have hin := inBin_eq_take_drop idx lo hi hs hlohi
  rw [← ha, ← hb] at hin
  rw [hcore, hin]
  have hl : ((inBin idx lo hi).length : Int) = (b : Int) - a := by
    rw [← hin]; simp; omega
  rw [hl]


theorem recs_eq_pick (ps : List Particle) (a b : Int) : recs ps a b = pick ps (Finset.Ico a b) := by
  unfold recs pick
  by_cases hab : a ≤ b
  swap
  · have h1 : (b - a).toNat = 0 := by omega
    have h2 : Finset.Ico a b = ∅ := Finset.Ico_eq_empty (by omega)
    rw [h1, h2]; rfl
  obtain ⟨n, rfl⟩ : ∃ n : Nat, b = a + n := ⟨(b - a).toNat, by omega⟩
  clear hab
  induction n with
  | zero => simp
  | succ k ih =>
    have h1 : (a + ((k + 1 : Nat) : Int) - a).toNat = k + 1 := by omega
    have h2 : (a + (k : Int) - a).toNat = k := by omega
    rw [h1]
    rw [h2] at ih
    rw [List.range_succ, List.map_append, ← Multiset.coe_add, ih]
    have h3 : Finset.Ico a (a + ((k + 1 : Nat) : Int)) = insert (a + (k : Int)) (Finset.Ico a (a + k)) := by
      ext x; simp; omega
    rw [h3, Finset.insert_val_of_not_mem (by simp), Multiset.map_cons]
    simp only [List.map_cons, List.map_nil, Multiset.coe_singleton]
    rw [add_comm, Multiset.singleton_add]

theorem pick_congr (ps qs : List Particle) (S : Finset Int)
    (h : ∀ j ∈ S, getI ps j = getI qs j) : pick ps S = pick qs S := by
  unfold pick
  exact Multiset.map_congr rfl (fun j hj => h j (by simpa using hj))

theorem pick_insert (ps : List Particle) (S : Finset Int) (d : Int) (h : d ∉ S) :
    pick ps (insert d S) = getI ps d ::ₘ pick ps S := by
  unfold pick
  rw [Finset.insert_val_of_not_mem h, Multiset.map_cons]

theorem pick_union (ps : List Particle) (S T : Finset Int) (h : Disjoint S T) :
    pick ps (S ∪ T) = pick ps S + pick ps T := by
  unfold pick
  rw [← Finset.disjUnion_eq_union S T h]
  show Multiset.map _ (S.val + T.val) = _
  rw [Multiset.map_add]

theorem overwrite_part_length (ps : List Particle) (a b : Int) :
    (overwrite_part ps a b).length = ps.length := by
  simp [overwrite_part]

/-- A sequence of removals in the bin `[lo, hi)` at strictly decreasing positions of the
bin: the container keeps its size, only listed positions are written, and the bin, shrunk
by the number of removals, holds the records of the positions that are not removed. -/
theorem rm_fold_content (L : List Int) (lo : Int) (ps : List Particle) (hi : Int)
    (hs : L.Pairwise (· > ·)) (hL : ∀ d ∈ L, lo ≤ d ∧ d < hi) (hlo : 0 ≤ lo)
    (hhi : hi ≤ ps.length) :
    (L.foldl rm_step (ps, hi)).1.length = ps.length ∧
    (∀ j, j ∉ L → getI (L.foldl rm_step (ps, hi)).1 j = getI ps j) ∧
    pick (L.foldl rm_step (ps, hi)).1 (Finset.Ico lo (L.foldl rm_step (ps, hi)).2) =
      pick ps ((Finset.Ico lo hi).filter (fun j => j ∉ L)) := by
  induction L generalizing ps hi with
  | nil => simp
  | cons d L ih =>
    rw [List.pairwise_cons] at hs
    have hd := hL d (List.mem_cons_self _ _)
    have hL2 : ∀ x ∈ L, lo ≤ x ∧ x < hi - 1 := by
      intro x hx
      have h1 := hL x (List.mem_cons_of_mem _ hx)
      have h2 := hs.1 x hx
      exact ⟨h1.1, by omega⟩
    simp only [List.foldl_cons]
    have hstep : rm_step (ps, hi) d = (overwrite_part ps (hi - 1) d, hi - 1) := rfl
    rw [hstep]
    have hlen1 : (overwrite_part ps (hi - 1) d).length = ps.length := overwrite_part_length ..
    obtain ⟨i1, i2, i3⟩ := ih (overwrite_part ps (hi - 1) d) (hi - 1) hs.2 hL2 (by omega)
    refine ⟨by rw [i1, hlen1], ?_, ?_⟩
    · intro j hj
      rw [List.mem_cons, not_or] at hj
      rw [i2 j hj.2]
      exact getI_setI_ne _ _ _ _ (fun h => hj.1 h.symm)
    · rw [i3]
      by_cases hdl : d = hi - 1
      · subst hdl
        rw [overwrite_part_self]
        congr 1
        ext x
        simp only [Finset.mem_filter, Finset.mem_Ico, List.mem_cons, not_or]
        constructor
        · rintro ⟨⟨h1, h2⟩, h3⟩
          exact ⟨⟨h1, by omega⟩, by omega, h3⟩
        · rintro ⟨⟨h1, h2⟩, h3, h4⟩
          exact ⟨⟨h1, by omega⟩, h4⟩
      · have hdL : d ∉ L := fun h => by have := hs.1 d h; omega
        set T : Finset Int := ((Finset.Ico lo (hi - 1)).filter (fun j => j ∉ L)).erase d with hT
        have e1 : (Finset.Ico lo (hi - 1)).filter (fun j => j ∉ L) = insert d T := by
          rw [hT, Finset.insert_erase]
          simp only [Finset.mem_filter, Finset.mem_Ico]
          exact ⟨⟨hd.1, by omega⟩, hdL⟩
        have e2 : (Finset.Ico lo hi).filter (fun j => j ∉ d :: L) = insert (hi - 1) T := by
          ext x
          simp only [hT, Finset.mem_filter, Finset.mem_Ico, List.mem_cons, not_or,
            Finset.mem_insert, Finset.mem_erase]
          constructor
          · rintro ⟨⟨h1, h2⟩, h3, h4⟩
            by_cases hx : x = hi - 1
            · exact Or.inl hx
            · exact Or.inr ⟨h3, ⟨h1, by omega⟩, h4⟩
          · rintro (h | ⟨h1, ⟨h2, h3⟩, h4⟩)
            · subst h
              refine ⟨⟨by omega, by omega⟩, fun h => hdl h.symm, ?_⟩
              intro hm
              have := (hL2 _ hm).2
              omega
            · exact ⟨⟨h2, by omega⟩, h1, h4⟩
        have hdT : d ∉ T := by rw [hT]; exact Finset.not_mem_erase _ _
        have hhT : hi - 1 ∉ T := by
          rw [hT]
          simp only [Finset.mem_erase, Finset.mem_filter, Finset.mem_Ico, not_and]
          intro _ h
          omega
        rw [e1, e2, pick_insert _ _ _ hdT, pick_insert _ _ _ hhT]
        congr 1
        · exact getI_setI_eq _ _ _ (by omega) (by omega)
        · apply pick_congr
          intro j hj
          exact getI_setI_ne _ _ _ _ (fun h => hdT (h ▸ hj))


theorem Gapless.toSep {bmin bmax : List Int} {len : Int} (h : Gapless bmin bmax len) :
    BinsSep bmin bmax len :=
  ⟨h.len_eq, h.nonempty, h.first, h.ordered, fun j hj => le_of_eq (h.chain j hj), le_of_eq h.last⟩

theorem BinsSep.bmin_mono {bmin bmax : List Int} {len : Int} (h : BinsSep bmin bmax len)
    (j m : Nat) (hjm : j ≤ m) (hm : m < bmax.length) : bmin.getD j 0 ≤ bmin.getD m 0 := by
  induction m with
  | zero => have : j = 0 := by omega
            subst this; exact le_refl _
  | succ k ih =>
    by_cases hjk : j = k + 1
    · subst hjk; exact le_refl _
    · have h1 := ih (by omega) (by omega)
      have h2 := h.ordered k (by omega)
      have h3 := h.chain k hm
      omega

theorem BinsSep.bmax_le_bmin {bmin bmax : List Int} {len : Int} (h : BinsSep bmin bmax len)
    (j m : Nat) (hjm : j < m) (hm : m < bmax.length) : bmax.getD j 0 ≤ bmin.getD m 0 := by
  have h1 := h.chain j (by omega)
  have h2 := h.bmin_mono (j + 1) m (by omega) hm
  omega

theorem BinsSep.bmax_mono {bmin bmax : List Int} {len : Int} (h : BinsSep bmin bmax len)
    (j m : Nat) (hjm : j ≤ m) (hm : m < bmax.length) : bmax.getD j 0 ≤ bmax.getD m 0 := by
  by_cases hj : j = m
  · subst hj; exact le_refl _
  · have h1 := h.bmax_le_bmin j m (by omega) hm
    have h2 := h.ordered m hm
    omega

theorem BinsSep.bmin_nonneg {bmin bmax : List Int} {len : Int} (h : BinsSep bmin bmax len)
    (j : Nat) (hj : j < bmax.length) : 0 ≤ bmin.getD j 0 := by
  have h1 := h.bmin_mono 0 j (Nat.zero_le _) hj
  have h2 := h.first
  omega

theorem BinsSep.bmax_le_len {bmin bmax : List Int} {len : Int} (h : BinsSep bmin bmax len)
    (j : Nat) (hj : j < bmax.length) : bmax.getD j 0 ≤ len := by
  have h1 := h.bmax_mono j (bmax.length - 1) (by omega) (by omega)
  have h2 := h.last
  omega

theorem inBin_mem (idx : List Int) (lo hi x : Int) :
    x ∈ inBin idx lo hi ↔ x ∈ idx ∧ lo ≤ x ∧ x < hi := by
  simp [inBin]

theorem getD_set_int (l : List Int) (i j : Nat) (a : Int) :
    (l.set i a).getD j 0 = if i = j ∧ i < l.length then a else l.getD j 0 := by
  simp only [List.getD_eq_getElem?_getD, List.getElem?_set]
  by_cases hij : i = j
  · subst hij
    by_cases hi : i < l.length
    · simp [hi]
    · simp [hi, List.getElem?_eq_none (not_lt.mp hi)]
  · simp [hij]

/-- The first loop of `cleanup_sent_particles` over the bins `0 .. k-1`. -/
theorem cleanup_phase1_prefix (idx bmin bmax : List Int) (ps : List Particle)
    (hs : idx.Pairwise (· < ·)) (hb : BinsSep bmin bmax ps.length) (k : Nat)
    (hk : k ≤ bmax.length) :
    ((List.range k).foldl (cleanup_bin idx bmin) (ps, bmax)).1.length = ps.length ∧
    ((List.range k).foldl (cleanup_bin idx bmin) (ps, bmax)).2.length = bmax.length ∧
    (∀ j, ((List.range k).foldl (cleanup_bin idx bmin) (ps, bmax)).2.getD j 0 =
      if j < k then bmax.getD j 0 - ((inBin idx (bmin.getD j 0) (bmax.getD j 0)).length : Int)
      else bmax.getD j 0) ∧
    (∀ x, (∀ m, m < k → x ∉ inBin idx (bmin.getD m 0) (bmax.getD m 0)) →
      getI ((List.range k).foldl (cleanup_bin idx bmin) (ps, bmax)).1 x = getI ps x) ∧
    (∀ j, j < k →
      pick ((List.range k).foldl (cleanup_bin idx bmin) (ps, bmax)).1
        (Finset.Ico (bmin.getD j 0)
          (((List.range k).foldl (cleanup_bin idx bmin) (ps, bmax)).2.getD j 0)) =
      pick ps (liveSet idx (bmin.getD j 0) (bmax.getD j 0))) := by
  induction k with
  | zero => simp
  | succ k ih =>
    obtain ⟨i1, i2, i3, i4, i5⟩ := ih (by omega)
    rw [List.range_succ, List.foldl_append]
    simp only [List.foldl_cons, List.foldl_nil]
    generalize hq : (List.range k).foldl (cleanup_bin idx bmin) (ps, bmax) = q at i1 i2 i3 i4 i5
    obtain ⟨qs, qb⟩ := q
    simp only at i1 i2 i3 i4 i5
    have hqk : qb.getD k 0 = bmax.getD k 0 := by rw [i3 k]; simp
    have hlohi : bmin.getD k 0 ≤ qb.getD k 0 := by rw [hqk]; exact hb.ordered k (by omega)
    rw [cleanup_bin_sorted idx bmin qs qb k hs hlohi, hqk]
    set L := (inBin idx (bmin.getD k 0) (bmax.getD k 0)).reverse with hL
    have hLs : L.Pairwise (· > ·) := by
      rw [hL, List.pairwise_reverse]
      exact (hs.filter _)
    have hLm : ∀ d ∈ L, bmin.getD k 0 ≤ d ∧ d < bmax.getD k 0 := by
      intro d hd
      rw [hL, List.mem_reverse, inBin_mem] at hd
      exact hd.2
    have hlo : 0 ≤ bmin.getD k 0 := hb.bmin_nonneg k (by omega)
    have hhi : bmax.getD k 0 ≤ qs.length := by rw [i1]; exact hb.bmax_le_len k (by omega)
    obtain ⟨r1, r2, r3⟩ := rm_fold_content L (bmin.getD k 0) qs (bmax.getD k 0) hLs hLm hlo hhi
    rw [rm_fold_snd] at r3
    have hLlen : (L.length : Int) = ((inBin idx (bmin.getD k 0) (bmax.getD k 0)).length : Int) := by
      rw [hL, List.length_reverse]
    refine ⟨by rw [r1, i1], by simp [i2], ?_, ?_, ?_⟩
    · intro j
      show (qb.set k _).getD j 0 = _
      rw [getD_set_int]
      by_cases hjk : k = j
      · subst hjk
        have : k < qb.length := by omega
        simp [this]
      · rw [if_neg (fun h => hjk h.1), i3 j]
        by_cases h1 : j < k
        · rw [if_pos h1, if_pos (by omega)]
        · rw [if_neg h1, if_neg (by omega)]
    · intro x hx
      show getI (L.foldl rm_step (qs, bmax.getD k 0)).1 x = _
      rw [r2 x, i4 x (fun m hm => hx m (by omega))]
      rw [hL, List.mem_reverse]
      exact hx k (by omega)
    · intro j hj
      show pick (L.foldl rm_step (qs, bmax.getD k 0)).1
        (Finset.Ico (bmin.getD j 0) ((qb.set k _).getD j 0)) = _
      rw [getD_set_int]
      by_cases hjk : k = j
      · subst hjk
        have : k < qb.length := by omega
        simp only [this, and_self, if_true]
        rw [← hLlen, r3]
        unfold liveSet
        have e1 : (Finset.Ico (bmin.getD k 0) (bmax.getD k 0)).filter (fun j => j ∉ L) =
            (Finset.Ico (bmin.getD k 0) (bmax.getD k 0)).filter (fun j => j ∉ idx) := by
          ext x
          simp only [Finset.mem_filter, Finset.mem_Ico, hL, List.mem_reverse, inBin_mem]
          constructor
          · rintro ⟨h1, h2⟩; exact ⟨h1, fun h => h2 ⟨h, h1⟩⟩
          · rintro ⟨h1, h2⟩; exact ⟨h1, fun h => h2 h.1⟩
        rw [e1]
        apply pick_congr
        intro x hx
        simp only [Finset.mem_filter, Finset.mem_Ico] at hx
        apply i4
        intro m hm hxm
        rw [inBin_mem] at hxm
        exact hx.2 hxm.1
      · rw [if_neg (fun h => hjk h.1)]
        have hjk2 : j < k := by omega
        rw [← i5 j hjk2]
        apply pick_congr
        intro x hx
        simp only [Finset.mem_Ico] at hx
        apply r2
        intro hxL
        have h1 := (hLm x hxL).1
        have h2 : qb.getD j 0 ≤ bmax.getD j 0 := by
          rw [i3 j, if_pos hjk2]; omega
        have h3 := hb.bmax_le_bmin j k hjk2 (by omega)
        omega


theorem recs_congr (ps qs : List Particle) (a b : Int)
    (h : ∀ x, a ≤ x → x < b → getI ps x = getI qs x) : recs ps a b = recs qs a b := by
  unfold recs
  congr 1
  apply List.map_congr_left
  intro k hk
  rw [List.mem_range] at hk
  exact h _ (by omega) (by omega)

theorem recs_translate (ps qs : List Particle) (a c n : Int)
    (h : ∀ k : Int, 0 ≤ k → k < n → getI qs (c + k) = getI ps (a + k)) :
    recs qs c (c + n) = recs ps a (a + n) := by
  unfold recs
  have e1 : (c + n - c).toNat = n.toNat := by congr 1; ring
  have e2 : (a + n - a).toNat = n.toNat := by congr 1; ring
  rw [e1, e2]
  congr 1
  apply List.map_congr_left
  intro k hk
  rw [List.mem_range] at hk
  exact h _ (by omega) (by omega)

theorem recs_split (ps : List Particle) (a m b : Int) (h1 : a ≤ m) (h2 : m ≤ b) :
    recs ps a b = recs ps a m + recs ps m b := by
  rw [recs_eq_pick, recs_eq_pick, recs_eq_pick, ← pick_union]
  · congr 1
    ext x; simp; omega
  · rw [Finset.disjoint_left]
    intro x hx hx2
    simp at hx hx2
    omega

theorem recs_empty (ps : List Particle) (a b : Int) (h : b ≤ a) : recs ps a b = 0 := by
  unfold recs
  have : (b - a).toNat = 0 := by omega
  rw [this]; rfl

theorem recs_card (ps : List Particle) (a b : Int) : Multiset.card (recs ps a b) = (b - a).toNat := by
  simp [recs]

/-- The block copy inside a container, position by position. -/
theorem overwrite_part_range_spec (ps : List Particle) (p1 p2 N : Int)
    (h2 : 0 ≤ p2) (h3 : p2 + N ≤ ps.length) :
    (overwrite_part_range ps p1 p2 N).length = ps.length ∧
    ∀ x, getI (overwrite_part_range ps p1 p2 N) x =
      if p2 ≤ x ∧ x < p2 + N then getI ps (p1 + (x - p2)) else getI ps x := by
  unfold overwrite_part_range
  have key : ∀ n : Nat, (n : Int) ≤ N ∨ n = 0 →
      ((List.range n).foldl (fun acc (k : Nat) => setI acc (p2 + (k : Int)) (getI ps (p1 + (k : Int)))) ps).length
        = ps.length ∧
      ∀ x, getI ((List.range n).foldl
          (fun acc (k : Nat) => setI acc (p2 + (k : Int)) (getI ps (p1 + (k : Int)))) ps) x =
        if p2 ≤ x ∧ x < p2 + n then getI ps (p1 + (x - p2)) else getI ps x := by
    intro n
    induction n with
    | zero =>
      intro _
      refine ⟨rfl, fun x => ?_⟩
      simp only [List.range_zero, List.foldl_nil, Nat.cast_zero, add_zero]
      rw [if_neg (by omega)]
    | succ k ih =>
      intro hk
      have hk' : ((k + 1 : Nat) : Int) ≤ N := by omega
      obtain ⟨l1, l2⟩ := ih (Or.inl (by omega))
      rw [List.range_succ, List.foldl_append]
      simp only [List.foldl_cons, List.foldl_nil]
      refine ⟨by rw [length_setI, l1], fun x => ?_⟩
      by_cases hx : x = p2 + (k : Int)
      · subst hx
        rw [getI_setI_eq _ _ _ (by omega) (by rw [l1]; omega)]
        rw [if_pos ⟨by omega, by push_cast; omega⟩]
        congr 1; ring
      · rw [getI_setI_ne _ _ _ _ (fun h => hx h.symm), l2 x]
        by_cases hc : p2 ≤ x ∧ x < p2 + (k : Int)
        · rw [if_pos hc, if_pos ⟨hc.1, by push_cast; omega⟩]
        · rw [if_neg hc, if_neg (by push_cast; omega)]
  by_cases hN : 0 ≤ N
  · obtain ⟨k1, k2⟩ := key N.toNat (Or.inl (by omega))
    refine ⟨k1, fun x => ?_⟩
    rw [k2 x]
    have : ((N.toNat : Nat) : Int) = N := by omega
    rw [this]
  · obtain ⟨k1, k2⟩ := key N.toNat (Or.inr (by omega))
    refine ⟨k1, fun x => ?_⟩
    rw [k2 x]
    have : ((N.toNat : Nat) : Int) = 0 := by omega
    rw [this, if_neg (by omega), if_neg (by omega)]


theorem inBin_cons (x : Int) (l : List Int) (lo hi : Int) :
    ((inBin (x :: l) lo hi).length : Int) =
      (if lo ≤ x ∧ x < hi then 1 else 0) + (inBin l lo hi).length := by
  unfold inBin
  by_cases c : lo ≤ x ∧ x < hi
  · rw [List.filter_cons_of_pos (by simpa using c), if_pos c]
    simp only [List.length_cons]; push_cast; ring
  · rw [List.filter_cons_of_neg (by simpa using c), if_neg c]
    ring

theorem inBin_length_add (idx : List Int) (lo mid hi : Int) (h1 : lo ≤ mid) (h2 : mid ≤ hi) :
    ((inBin idx lo hi).length : Int) = (inBin idx lo mid).length + (inBin idx mid hi).length := by
  induction idx with
  | nil => simp [inBin]
  | cons x l ih =>
    rw [inBin_cons, inBin_cons, inBin_cons, ih]
    by_cases c1 : lo ≤ x ∧ x < mid
    · rw [if_pos c1, if_pos (show lo ≤ x ∧ x < hi from ⟨c1.1, by omega⟩),
        if_neg (show ¬ (mid ≤ x ∧ x < hi) by omega)]
      ring
    · by_cases c3 : mid ≤ x ∧ x < hi
      · rw [if_neg c1, if_pos c3, if_pos (show lo ≤ x ∧ x < hi from ⟨by omega, c3.2⟩)]
        ring
      · rw [if_neg c1, if_neg c3, if_neg (show ¬ (lo ≤ x ∧ x < hi) by omega)]
        ring

theorem inBin_empty (idx : List Int) (lo hi : Int) (h : hi ≤ lo) : inBin idx lo hi = [] := by
  unfold inBin
  rw [List.filter_eq_nil_iff]
  intro x _
  simp; omega

theorem inBin_length_le (idx : List Int) (lo hi : Int) (hs : idx.Pairwise (· < ·))
    (h : lo ≤ hi) : ((inBin idx lo hi).length : Int) ≤ hi - lo := by
  have hnd : (inBin idx lo hi).Nodup := by
    unfold inBin
    exact (hs.imp (fun h => ne_of_lt h)).filter _
  have h1 : (inBin idx lo hi).toFinset ⊆ Finset.Ico lo hi := by
    intro x hx
    rw [List.mem_toFinset, inBin_mem] at hx
    simp [hx.2]
  have h2 := Finset.card_le_card h1
  rw [List.toFinset_card_of_nodup hnd, Int.card_Ico] at h2
  omega


/-- One step of the second loop of `cleanup_sent_particles`: the bin `k+1`, which starts at
`m0` and ends at `E1`, is moved down to start at `D`, the end of the bin `k`. -/
theorem cleanup_shift_step (ps : List Particle) (bmn bmx : List Int) (k : Nat)
    (h0 : 0 ≤ bmx.getD k 0) (h1 : bmx.getD k 0 ≤ bmn.getD (k + 1) 0)
    (h2 : bmn.getD (k + 1) 0 ≤ bmx.getD (k + 1) 0)
    (h3 : bmx.getD (k + 1) 0 ≤ ps.length) :
    (cleanup_shift (ps, bmn, bmx) (k + 1)).1.length = ps.length ∧
    (cleanup_shift (ps, bmn, bmx) (k + 1)).2.1 = bmn.set (k + 1) (bmx.getD k 0) ∧
    (cleanup_shift (ps, bmn, bmx) (k + 1)).2.2 =
      bmx.set (k + 1) (bmx.getD (k + 1) 0 - (bmn.getD (k + 1) 0 - bmx.getD k 0)) ∧
    (∀ x, (x < bmx.getD k 0 ∨ bmn.getD (k + 1) 0 ≤ x) →
      getI (cleanup_shift (ps, bmn, bmx) (k + 1)).1 x = getI ps x) ∧
    recs (cleanup_shift (ps, bmn, bmx) (k + 1)).1 (bmx.getD k 0)
        (bmx.getD (k + 1) 0 - (bmn.getD (k + 1) 0 - bmx.getD k 0)) =
      recs ps (bmn.getD (k + 1) 0) (bmx.getD (k + 1) 0) := by
  unfold cleanup_shift
  simp only [Nat.add_sub_cancel]
  set D := bmx.getD k 0 with hD
  set m0 := bmn.getD (k + 1) 0 with hm0
  set E1 := bmx.getD (k + 1) 0 with hE1
  have hset : (bmx.set (k + 1) (E1 - (m0 - D))).getD k 0 = D := by
    rw [getD_set_int, if_neg (by omega)]
  refine ⟨?_, by rw [hset], trivial, ?_, ?_⟩
  · split
    · exact (overwrite_part_range_spec ps _ _ _ h0 (by
        have := min_le_left (m0 - D) (E1 - m0); omega)).1
    · rfl
  · intro x hx
    split
    · rw [(overwrite_part_range_spec ps _ _ _ h0 (by
        have := min_le_left (m0 - D) (E1 - m0); omega)).2 x]
      rw [if_neg]
      have := min_le_left (m0 - D) (E1 - m0)
      omega
    · rfl
  · by_cases hpos : min (m0 - D) (E1 - m0) > 0
    · rw [if_pos hpos]
      have hspec := overwrite_part_range_spec ps (E1 - min (m0 - D) (E1 - m0)) D
        (min (m0 - D) (E1 - m0)) h0 (by have := min_le_left (m0 - D) (E1 - m0); omega)
      set qs := overwrite_part_range ps (E1 - min (m0 - D) (E1 - m0)) D
        (min (m0 - D) (E1 - m0)) with hqs
      by_cases hcase : E1 - m0 ≤ m0 - D
      · -- the whole bin is copied
        have hmin : min (m0 - D) (E1 - m0) = E1 - m0 := min_eq_right hcase
        rw [hmin] at hspec
        have ht := recs_translate ps qs m0 D (E1 - m0) (by
          intro j hj1 hj2
          rw [hspec.2, if_pos ⟨by omega, by omega⟩]
          congr 1; ring)
        rwa [show D + (E1 - m0) = E1 - (m0 - D) by ring, show m0 + (E1 - m0) = E1 by ring] at ht
      · -- the last records of the bin fill the gap
        have hmin : min (m0 - D) (E1 - m0) = m0 - D := min_eq_left (by omega)
        rw [hmin] at hspec
        rw [recs_split qs D m0 (E1 - (m0 - D)) (by omega) (by omega),
          recs_split ps m0 (E1 - (m0 - D)) E1 (by omega) (by omega), add_comm]
        congr 1
        · apply recs_congr
          intro x hx1 hx2
          rw [hspec.2, if_neg (by omega)]
        · have ht := recs_translate ps qs (E1 - (m0 - D)) D (m0 - D) (by
            intro j hj1 hj2
            rw [hspec.2, if_pos ⟨by omega, by omega⟩]
            congr 1; ring)
          rwa [show D + (m0 - D) = m0 by ring,
            show E1 - (m0 - D) + (m0 - D) = E1 by ring] at ht
    · rw [if_neg hpos]
      have hmin : min (m0 - D) (E1 - m0) ≤ 0 := not_lt.mp hpos
      by_cases hcase : m0 - D ≤ 0
      · have : m0 = D := by omega
        rw [this]; simp
      · have : E1 - m0 ≤ 0 := by
          rcases min_le_iff.mp hmin with h | h
          · omega
          · exact h
        rw [recs_empty _ _ _ (by omega), recs_empty _ _ _ (by omega)]


theorem compacted_self (idx : List Int) (lo : Int) : compacted idx lo lo = lo := by
  simp [compacted, inBin_empty idx lo lo (le_refl _)]

theorem compacted_diff (idx : List Int) (lo x y : Int) (h1 : lo ≤ x) (h2 : x ≤ y) :
    compacted idx lo y - compacted idx lo x = (y - x) - ((inBin idx x y).length : Int) := by
  unfold compacted
  rw [inBin_length_add idx lo x y h1 h2]
  ring

theorem compacted_mono (idx : List Int) (lo x y : Int) (hs : idx.Pairwise (· < ·))
    (h1 : lo ≤ x) (h2 : x ≤ y) : compacted idx lo x ≤ compacted idx lo y := by
  have := compacted_diff idx lo x y h1 h2
  have := inBin_length_le idx x y hs h2
  omega

theorem compacted_le (idx : List Int) (lo x : Int) : compacted idx lo x ≤ x := by
  unfold compacted; omega

theorem tail_range_succ (k : Nat) :
    (List.range (k + 2)).tail = (List.range (k + 1)).tail ++ [k + 1] := by
  rw [List.range_succ, List.tail_append_of_ne_nil]
  simp [List.range_succ]

/-- The second loop of `cleanup_sent_particles` over the bins `1 .. k`. -/
theorem cleanup_phase2_prefix (idx bmin bmax bmax1 : List Int) (ps1 : List Particle)
    (hs : idx.Pairwise (· < ·)) (hg : Gapless bmin bmax ps1.length)
    (hl1 : bmax1.length = bmax.length)
    (hb1 : ∀ j, j < bmax.length → bmax1.getD j 0 =
      bmax.getD j 0 - ((inBin idx (bmin.getD j 0) (bmax.getD j 0)).length : Int))
    (k : Nat) (hk : k < bmax.length) :
    (((List.range (k + 1)).tail).foldl cleanup_shift (ps1, bmin, bmax1)).1.length = ps1.length ∧
    (((List.range (k + 1)).tail).foldl cleanup_shift (ps1, bmin, bmax1)).2.1.length = bmax.length ∧
    (((List.range (k + 1)).tail).foldl cleanup_shift (ps1, bmin, bmax1)).2.2.length = bmax.length ∧
    (∀ j, j < bmax.length →
      (((List.range (k + 1)).tail).foldl cleanup_shift (ps1, bmin, bmax1)).2.1.getD j 0 =
        if j ≤ k then compacted idx (bmin.getD 0 0) (bmin.getD j 0) else bmin.getD j 0) ∧
    (∀ j, j < bmax.length →
      (((List.range (k + 1)).tail).foldl cleanup_shift (ps1, bmin, bmax1)).2.2.getD j 0 =
        if j ≤ k then compacted idx (bmin.getD 0 0) (bmax.getD j 0) else bmax1.getD j 0) ∧
    (∀ x, bmin.getD k 0 ≤ x →
      getI (((List.range (k + 1)).tail).foldl cleanup_shift (ps1, bmin, bmax1)).1 x = getI ps1 x) ∧
    (∀ j, j ≤ k →
      recs (((List.range (k + 1)).tail).foldl cleanup_shift (ps1, bmin, bmax1)).1
        (compacted idx (bmin.getD 0 0) (bmin.getD j 0))
        (compacted idx (bmin.getD 0 0) (bmax.getD j 0)) =
      recs ps1 (bmin.getD j 0) (bmax1.getD j 0)) := by
  have hsep := hg.toSep
  have hB_add : ∀ j, j < bmax.length →
      compacted idx (bmin.getD 0 0) (bmax.getD j 0) =
        bmax1.getD j 0 - ((inBin idx (bmin.getD 0 0) (bmin.getD j 0)).length : Int) := by
    intro j hj
    unfold compacted
    rw [hb1 j hj, inBin_length_add idx (bmin.getD 0 0) (bmin.getD j 0) (bmax.getD j 0)
      (hsep.bmin_mono 0 j (Nat.zero_le _) hj) (hg.ordered j hj)]
    ring
  induction k with
  | zero =>
    have hr : (List.range (0 + 1)).tail = [] := rfl
    rw [hr]
    simp only [List.foldl_nil]
    refine ⟨trivial, hg.len_eq, hl1, ?_, ?_, fun _ _ => trivial, ?_⟩
    · intro j _
      by_cases hj : j ≤ 0
      · have : j = 0 := by omega
        subst this
        rw [if_pos (le_refl _), compacted_self]
      · rw [if_neg hj]
    · intro j hjn
      by_cases hj : j ≤ 0
      · have : j = 0 := by omega
        subst this
        rw [if_pos (le_refl _), hB_add 0 hjn, inBin_empty _ _ _ (le_refl _)]
        simp
      · rw [if_neg hj]
    · intro j hj
      have : j = 0 := by omega
      subst this
      rw [compacted_self, hB_add 0 hk, inBin_empty _ _ _ (le_refl _)]
      simp
  | succ k ih =>
    obtain ⟨i1, i2, i3, i4, i5, i6, i7⟩ := ih (by omega)
    rw [tail_range_succ, List.foldl_append]
    simp only [List.foldl_cons, List.foldl_nil]
    generalize hq : ((List.range (k + 1)).tail).foldl cleanup_shift (ps1, bmin, bmax1) = q
      at i1 i2 i3 i4 i5 i6 i7
    obtain ⟨qs, bmn, bmx⟩ := q
    simp only at i1 i2 i3 i4 i5 i6 i7
    -- the values read by the step
    have eD : bmx.getD k 0 = compacted idx (bmin.getD 0 0) (bmin.getD (k + 1) 0) := by
      rw [i5 k (by omega), if_pos (le_refl _), hg.chain k hk]
    have em0 : bmn.getD (k + 1) 0 = bmin.getD (k + 1) 0 := by
      rw [i4 (k + 1) hk, if_neg (by omega)]
    have eE1 : bmx.getD (k + 1) 0 = bmax1.getD (k + 1) 0 := by
      rw [i5 (k + 1) hk, if_neg (by omega)]
    have hm0lo : bmin.getD 0 0 ≤ bmin.getD (k + 1) 0 := hsep.bmin_mono 0 (k + 1) (Nat.zero_le _) hk
    have hc0 : bmin.getD 0 0 ≤ compacted idx (bmin.getD 0 0) (bmin.getD (k + 1) 0) := by
      have := compacted_mono idx (bmin.getD 0 0) (bmin.getD 0 0) (bmin.getD (k + 1) 0) hs
        (le_refl _) hm0lo
      rwa [compacted_self] at this
    have hcnt := inBin_length_le idx (bmin.getD (k + 1) 0) (bmax.getD (k + 1) 0) hs
      (hg.ordered (k + 1) hk)
    have hE1 := hb1 (k + 1) hk
    have hlen := hsep.bmax_le_len (k + 1) hk
    have hfirst := hg.first
    obtain ⟨s1, s2, s3, s4, s5⟩ := cleanup_shift_step qs bmn bmx k
      (by rw [eD]; omega)
      (by rw [eD, em0]; exact compacted_le _ _ _)
      (by rw [em0, eE1, hE1]; omega)
      (by rw [eE1, hE1, i1]; omega)
    have eEnd : bmx.getD (k + 1) 0 - (bmn.getD (k + 1) 0 - bmx.getD k 0) =
        compacted idx (bmin.getD 0 0) (bmax.getD (k + 1) 0) := by
      rw [eD, em0, eE1, hB_add (k + 1) hk]
      unfold compacted; ring
    refine ⟨by rw [s1, i1], by rw [s2]; simp [i2], by rw [s3]; simp [i3], ?_, ?_, ?_, ?_⟩
    · intro j hj
      rw [s2, getD_set_int]
      by_cases hjk : k + 1 = j
      · subst hjk
        rw [if_pos ⟨rfl, by omega⟩, if_pos (le_refl _), eD]
      · rw [if_neg (fun h => hjk h.1), i4 j hj]
        by_cases h1 : j ≤ k
        · rw [if_pos h1, if_pos (by omega)]
        · rw [if_neg h1, if_neg (by omega)]
    · intro j hj
      rw [s3, getD_set_int]
      by_cases hjk : k + 1 = j
      · subst hjk
        rw [if_pos ⟨rfl, by omega⟩, if_pos (le_refl _), eEnd]
      · rw [if_neg (fun h => hjk h.1), i5 j hj]
        by_cases h1 : j ≤ k
        · rw [if_pos h1, if_pos (by omega)]
        · rw [if_neg h1, if_neg (by omega)]
    · intro x hx
      rw [s4 x (Or.inr (by rw [em0]; exact hx))]
      apply i6
      have := hsep.bmin_mono k (k + 1) (by omega) hk
      omega
    · intro j hj
      by_cases hjk : j = k + 1
      · subst hjk
        rw [← eD, ← eEnd, s5, em0, eE1]
        apply recs_congr
        intro x hx1 _
        apply i6
        have := hsep.bmin_mono k (k + 1) (by omega) hk
        omega
      · rw [← i7 j (by omega)]
        apply recs_congr
        intro x _ hx2
        apply s4
        left
        rw [eD]
        have h1 := hsep.bmax_le_bmin j (k + 1) (by omega) hk
        have h2 := compacted_mono idx (bmin.getD 0 0) (bmax.getD j 0) (bmin.getD (k + 1) 0) hs
          (by have := hsep.bmin_mono 0 j (Nat.zero_le _) (by omega)
              have := hg.ordered j (by omega); omega) h1
        omega


/-- The function `cleanup_sent_particles` on gapless bins with a strictly ascending list:
the container keeps its size, the bounds of every bin move down by the number of listed
indexes below them, and every bin holds the records of its positions that are not listed. -/
theorem cleanup_spec (idx bmin bmax : List Int) (ps : List Particle)
    (hs : idx.Pairwise (· < ·)) (hg : Gapless bmin bmax ps.length) :
    (cleanup_sent_particles idx ps bmin bmax).1.length = ps.length ∧
    (cleanup_sent_particles idx ps bmin bmax).2.1.length = bmax.length ∧
    (cleanup_sent_particles idx ps bmin bmax).2.2.length = bmax.length ∧
    (∀ j, j < bmax.length → (cleanup_sent_particles idx ps bmin bmax).2.1.getD j 0 =
      compacted idx (bmin.getD 0 0) (bmin.getD j 0)) ∧
    (∀ j, j < bmax.length → (cleanup_sent_particles idx ps bmin bmax).2.2.getD j 0 =
      compacted idx (bmin.getD 0 0) (bmax.getD j 0)) ∧
    (∀ j, j < bmax.length →
      recs (cleanup_sent_particles idx ps bmin bmax).1
        (compacted idx (bmin.getD 0 0) (bmin.getD j 0))
        (compacted idx (bmin.getD 0 0) (bmax.getD j 0)) =
      pick ps (liveSet idx (bmin.getD j 0) (bmax.getD j 0))) := by
  unfold cleanup_sent_particles
  obtain ⟨a1, a2, a3, _, a5⟩ := cleanup_phase1_prefix idx bmin bmax ps hs hg.toSep bmax.length
    (le_refl _)
  generalize hq : (List.range bmax.length).foldl (cleanup_bin idx bmin) (ps, bmax) = q
    at a1 a2 a3 a5
  obtain ⟨ps1, bmax1⟩ := q
  simp only at a1 a2 a3 a5 ⊢
  have hn := hg.nonempty
  have hb1 : ∀ j, j < bmax.length → bmax1.getD j 0 =
      bmax.getD j 0 - ((inBin idx (bmin.getD j 0) (bmax.getD j 0)).length : Int) := by
    intro j hj; rw [a3 j, if_pos hj]
  have hg1 : Gapless bmin bmax ps1.length := by rw [a1]; exact hg
  obtain ⟨b1, b2, b3, b4, b5, _, b7⟩ := cleanup_phase2_prefix idx bmin bmax bmax1 ps1 hs hg1 a2 hb1
    (bmax.length - 1) (by omega)
  have e : bmax.length - 1 + 1 = bmax.length := by omega
  rw [e] at b1 b2 b3 b4 b5 b7
  refine ⟨by rw [b1, a1], b2, b3, ?_, ?_, ?_⟩
  · intro j hj; rw [b4 j hj, if_pos (by omega)]
  · intro j hj; rw [b5 j hj, if_pos (by omega)]
  · intro j hj
    rw [b7 j (by omega), recs_eq_pick, a5 j hj]

/-- After `cleanup_sent_particles` the bins are again ordered and gapless, the first bin
still starts at `bmin[0]`, and the last bin ends at the compacted position of its old end. -/
theorem cleanup_gapless (idx bmin bmax : List Int) (ps : List Particle)
    (hs : idx.Pairwise (· < ·)) (hg : Gapless bmin bmax ps.length) :
    Gapless (cleanup_sent_particles idx ps bmin bmax).2.1
      (cleanup_sent_particles idx ps bmin bmax).2.2
      (compacted idx (bmin.getD 0 0) (bmax.getD (bmax.length - 1) 0)) ∧
    (cleanup_sent_particles idx ps bmin bmax).2.1.getD 0 0 = bmin.getD 0 0 := by
  obtain ⟨_, c2, c3, c4, c5, _⟩ := cleanup_spec idx bmin bmax ps hs hg
  have hsep := hg.toSep
  have hn := hg.nonempty
  refine ⟨⟨by rw [c2, c3], by rw [c3]; exact hn, ?_, ?_, ?_, ?_⟩, ?_⟩
  · rw [c4 0 hn, compacted_self]; exact hg.first
  · intro j hj
    rw [c3] at hj
    rw [c4 j hj, c5 j hj]
    exact compacted_mono idx _ _ _ hs (hsep.bmin_mono 0 j (Nat.zero_le _) hj) (hg.ordered j hj)
  · intro j hj
    rw [c3] at hj
    rw [c4 (j + 1) hj, c5 j (by omega), hg.chain j hj]
  · rw [c3, c5 _ (by omega)]
  · rw [c4 0 hn, compacted_self]

/-- When every listed index lies in `[lo, hi)` the end `hi` moves down by the length of
the list. -/
theorem compacted_all (idx : List Int) (lo hi : Int) (h : ∀ i ∈ idx, lo ≤ i ∧ i < hi) :
    compacted idx lo hi = hi - idx.length := by
  unfold compacted inBin
  rw [List.filter_eq_self.mpr (fun x hx => by simpa using h x hx)]


theorem foldl_flatMap {α β γ : Type} (l : List α) (f : α → List β) (g : γ → β → γ) (init : γ) :
    (l.flatMap f).foldl g init = l.foldl (fun acc x => (f x).foldl g acc) init := by
  induction l generalizing init with
  | nil => rfl
  | cons x l ih => simp [List.flatMap_cons, List.foldl_append, ih]

theorem foldl_map' {α β γ : Type} (l : List α) (f : α → β) (g : γ → β → γ) (init : γ) :
    (l.map f).foldl g init = l.foldl (fun acc x => g acc (f x)) init := by
  induction l generalizing init with
  | nil => rfl
  | cons x l ih => simp [ih]

theorem getI_int_nat (v : List Int) (m : Nat) : getI v (m : Int) = v.getD m 0 := by
  unfold getI
  rw [if_pos (by omega)]
  simp

@[simp] theorem addI_length (v : List Int) (i n : Int) : (addI v i n).length = v.length := by
  simp [addI]

theorem getD_addI (v : List Int) (i n : Int) (m : Nat) :
    (addI v i n).getD m 0 =
      if i = (m : Int) ∧ m < v.length then v.getD m 0 + n else v.getD m 0 := by
  unfold addI setI
  by_cases hi : 0 ≤ i
  · rw [if_pos hi, getD_set_int]
    by_cases hc : i = (m : Int) ∧ m < v.length
    · rw [if_pos hc, if_pos ⟨by omega, by omega⟩]
      obtain ⟨rfl, _⟩ := hc
      rw [getI_int_nat]
    · rw [if_neg hc, if_neg (by omega)]
  · rw [if_neg hi, if_neg (by omega)]

/-- Adding one at `b + 1` for every listed bin `b`. -/
theorem count_fold_getD (L : List Int) (sh : List Int) (m : Nat) (c : Int) :
    (L.foldl (fun sh b => addI sh (b + c) 1) sh).length = sh.length ∧
    (L.foldl (fun sh b => addI sh (b + c) 1) sh).getD m 0 =
      sh.getD m 0 + (if m < sh.length then ((L.count ((m : Int) - c) : Nat) : Int) else 0) := by
  induction L generalizing sh with
  | nil => simp
  | cons b L ih =>
    simp only [List.foldl_cons]
    obtain ⟨i1, i2⟩ := ih (addI sh (b + c) 1)
    refine ⟨by rw [i1, addI_length], ?_⟩
    rw [i2, getD_addI, addI_length, List.count_cons]
    by_cases hm : m < sh.length
    · simp only [hm, and_true, if_true]
      by_cases hb : b + c = (m : Int)
      · rw [if_pos hb]
        have : (b == (m : Int) - c) = true := by simp; omega
        rw [this]; push_cast; simp; ring
      · rw [if_neg hb]
        have : (b == (m : Int) - c) = false := by simp; omega
        rw [this]; simp
    · simp [hm]


theorem shift_count_eq (params : Params) (p : Patch) (shift : List Int) :
    shift_count params p shift =
      ((later_arrivals params p id).map Prod.snd).foldl (fun sh b => addI sh (b + 1) 1) shift := by
  unfold shift_count later_arrivals
  rw [foldl_map', foldl_flatMap]
  congr 1
  funext sh idim
  rw [foldl_flatMap]
  congr 1
  funext sh1 s
  rw [foldl_map']
  rfl

/-- The sequential loop `shift[j]+=shift[j-1]` computes the running sums. -/
theorem shift_prefix_spec (n : Nat) (sh : List Int) (hl : sh.length = n + 1) (k : Nat)
    (hk : k ≤ n) :
    (((List.range (k + 1)).tail).foldl (fun sh j =>
        sh.set j (sh.getD j 0 + sh.getD (j - 1) 0)) sh).length = n + 1 ∧
    ∀ j, (((List.range (k + 1)).tail).foldl (fun sh j =>
        sh.set j (sh.getD j 0 + sh.getD (j - 1) 0)) sh).getD j 0 =
      if j ≤ k then ∑ m ∈ Finset.range (j + 1), sh.getD m 0 else sh.getD j 0 := by
  induction k with
  | zero =>
    have hr : (List.range (0 + 1)).tail = [] := rfl
    rw [hr]
    refine ⟨hl, fun j => ?_⟩
    simp only [List.foldl_nil]
    by_cases hj : j ≤ 0
    · have : j = 0 := by omega
      subst this; simp
    · rw [if_neg hj]
  | succ k ih =>
    obtain ⟨i1, i2⟩ := ih (by omega)
    rw [tail_range_succ, List.foldl_append]
    simp only [List.foldl_cons, List.foldl_nil, Nat.add_sub_cancel]
    refine ⟨by rw [List.length_set, i1], fun j => ?_⟩
    rw [getD_set_int, i1]
    by_cases hj : k + 1 = j
    · subst hj
      rw [if_pos ⟨rfl, by omega⟩, i2 (k + 1), i2 k, if_neg (by omega), if_pos (le_refl _),
        if_pos (le_refl _), Finset.sum_range_succ (fun m => sh.getD m 0) (k + 1)]
      ring
    · rw [if_neg (fun h => hj h.1), i2 j]
      by_cases h1 : j ≤ k
      · rw [if_pos h1, if_pos (by omega)]
      · rw [if_neg h1, if_neg (by omega)]

theorem getD_replicate_zero (n m : Nat) : (List.replicate n (0 : Int)).getD m 0 = 0 := by
  rw [List.getD_eq_getElem?_getD]
  by_cases h : m < n
  · rw [List.getElem?_eq_getElem (by simpa using h)]; simp
  · rw [List.getElem?_eq_none (by simpa using h)]; rfl

theorem count_axis0 (p : Patch) (s : Nat) (b : Int) :
    (((axis0_arrivals p s).map Prod.snd).count b : Int) =
      if b = ((s * (p.bmax.length - 1) : Nat) : Int) then
        ((p.patch_buff_index_recv_sz 0 s).toNat : Int) else 0 := by
  unfold axis0_arrivals
  rw [List.map_map]
  have : (Prod.snd ∘ fun (k : Nat) => (getI (p.patchVectorRecv 0 s) (k : Int),
      ((s * (p.bmax.length - 1) : Nat) : Int))) = fun _ => ((s * (p.bmax.length - 1) : Nat) : Int) := by
    funext k; rfl
  rw [this, List.map_const', List.count_replicate]
  by_cases hb : b = ((s * (p.bmax.length - 1) : Nat) : Int)
  · subst hb; simp
  · rw [if_neg hb]
    have : (((s * (p.bmax.length - 1) : Nat) : Int) == b) = false := by
      rw [beq_eq_false_iff_ne]; exact fun h => hb h.symm
    rw [this]; simp

/-- The array `shift` of `finalizeCommParticles`: `shift[j]` is the number of received
records whose destination is a bin below `j`. -/
theorem shift_of_spec (params : Params) (p : Patch) (hn : 0 < p.bmax.length)
    (h0 : 0 ≤ p.patch_buff_index_recv_sz 0 0) (h1 : 0 ≤ p.patch_buff_index_recv_sz 0 1)
    (hb : ∀ a ∈ later_arrivals params p id, 0 ≤ a.2) :
    (shift_of params p).length = p.bmax.length + 1 ∧
    ∀ j, j ≤ p.bmax.length →
      (shift_of params p).getD j 0 = ∑ m ∈ Finset.range j, arrivals_to params p id m := by
  unfold shift_of
  simp only
  set n := p.bmax.length with hn'
  set sh2 := ((List.replicate (n + 1) (0 : Int)).set 1
      ((List.replicate (n + 1) (0 : Int)).getD 1 0 + p.patch_buff_index_recv_sz 0 0)).set n
      ((((List.replicate (n + 1) (0 : Int)).set 1
        ((List.replicate (n + 1) (0 : Int)).getD 1 0 + p.patch_buff_index_recv_sz 0 0)).getD n 0) +
        p.patch_buff_index_recv_sz 0 1) with hsh2
  have hl2 : sh2.length = n + 1 := by simp [hsh2]
  have hv2 : ∀ m, sh2.getD m 0 = (if m = 1 then p.patch_buff_index_recv_sz 0 0 else 0) +
      (if m = n then p.patch_buff_index_recv_sz 0 1 else 0) := by
    intro m
    rw [hsh2]
    simp only [getD_set_int, getD_replicate_zero, List.length_set, List.length_replicate, zero_add]
    by_cases c1 : m = 1 <;> by_cases c2 : m = n
    · have : n = 1 := by omega
      subst c1; simp [this]
    · subst c1
      have : ¬ (n = 1) := fun h => c2 h.symm
      simp [c2, this]; omega
    · subst c2
      have : ¬ (1 = n) := fun h => c1 h.symm
      simp [c1, this]
    · have h3 : ¬ (1 = m) := fun h => c1 h.symm
      have h4 : ¬ (n = m) := fun h => c2 h.symm
      simp [c1, c2, h3, h4]
  rw [shift_count_eq]
  obtain ⟨l3, _⟩ := count_fold_getD ((later_arrivals params p id).map Prod.snd) sh2 0 1
  have v3 : ∀ m, (((later_arrivals params p id).map Prod.snd).foldl
      (fun sh b => addI sh (b + 1) 1) sh2).getD m 0 = sh2.getD m 0 +
      (if m < sh2.length then ((((later_arrivals params p id).map Prod.snd).count ((m : Int) - 1) : Nat) : Int)
        else 0) := fun m =>
    (count_fold_getD ((later_arrivals params p id).map Prod.snd) sh2 m 1).2
  set sh3 := ((later_arrivals params p id).map Prod.snd).foldl (fun sh b => addI sh (b + 1) 1) sh2
    with hsh3
  rw [hl2] at l3
  have hp := shift_prefix_spec n sh3 l3 n (le_refl _)
  refine ⟨hp.1, fun j hj => ?_⟩
  unfold shift_prefix
  rw [hp.2 j, if_pos hj]
  -- the entries of `sh3`
  have e0 : sh3.getD 0 0 = 0 := by
    rw [v3 0, hv2 0, hl2, if_neg (by omega), if_neg (by omega), if_pos (by omega)]
    have : ((later_arrivals params p id).map Prod.snd).count ((0 : Nat) - 1 : Int) = 0 := by
      rw [List.count_eq_zero]
      intro hm
      rw [List.mem_map] at hm
      obtain ⟨a, ha, ha2⟩ := hm
      have := hb a ha
      omega
    rw [this]; simp
  have es : ∀ m, m < n → sh3.getD (m + 1) 0 = arrivals_to params p id m := by
    intro m hm
    rw [v3 (m + 1), hv2 (m + 1), hl2, if_pos (show m + 1 < n + 1 by omega)]
    unfold arrivals_to arrivals
    rw [List.map_append, List.map_append, List.count_append, List.count_append]
    push_cast
    rw [count_axis0, count_axis0]
    have e1 : ((m : Int) + 1 - 1) = (m : Int) := by ring
    rw [e1]
    have t0 : ((p.patch_buff_index_recv_sz 0 0).toNat : Int) = p.patch_buff_index_recv_sz 0 0 := by
      omega
    have t1 : ((p.patch_buff_index_recv_sz 0 1).toNat : Int) = p.patch_buff_index_recv_sz 0 1 := by
      omega
    rw [t0, t1]
    have c0 : ((m : Int) = ((0 * (n - 1) : Nat) : Int)) ↔ m = 0 := by
      simp
    have c1 : ((m : Int) = ((1 * (n - 1) : Nat) : Int)) ↔ m + 1 = n := by
      rw [one_mul]; omega
    simp only [c0, c1]
  clear hsh3 hsh2
  induction j with
  | zero => simpa using e0
  | succ k ih =>
    rw [Finset.sum_range_succ, ih (by omega), Finset.sum_range_succ, es k (by omega)]


/-- One step of the loop "Shift bins": the bin `j`, which is `[m0, E)`, is moved up by
`shift[j]`; only the positions `[E, E + shift[j])` are written. -/
theorem shift_bin_step (shift : List Int) (ps : List Particle) (bmn bmx : List Int) (j : Nat)
    (h0 : 0 ≤ bmn.getD j 0) (h1 : bmn.getD j 0 ≤ bmx.getD j 0) (hsh : 0 ≤ shift.getD j 0)
    (h3 : bmx.getD j 0 + shift.getD j 0 ≤ ps.length) :
    (shift_bin shift (ps, bmn, bmx) j).1.length = ps.length ∧
    (shift_bin shift (ps, bmn, bmx) j).2.1 = bmn.set j (bmn.getD j 0 + shift.getD j 0) ∧
    (shift_bin shift (ps, bmn, bmx) j).2.2 = bmx.set j (bmx.getD j 0 + shift.getD j 0) ∧
    (∀ x, (x < bmx.getD j 0 ∨ bmx.getD j 0 + shift.getD j 0 ≤ x) →
      getI (shift_bin shift (ps, bmn, bmx) j).1 x = getI ps x) ∧
    recs (shift_bin shift (ps, bmn, bmx) j).1 (bmn.getD j 0 + shift.getD j 0)
        (bmx.getD j 0 + shift.getD j 0) =
      recs ps (bmn.getD j 0) (bmx.getD j 0) := by
  unfold shift_bin
  simp only
  set m0 := bmn.getD j 0 with hm0
  set E := bmx.getD j 0 with hE
  set sh := shift.getD j 0 with hsh'
  have hmin1 := min_le_left (E - m0) sh
  have hmin2 := min_le_right (E - m0) sh
  have hmax1 := le_max_left (E - m0) sh
  have hmax2 := le_max_right (E - m0) sh
  have hsum : min (E - m0) sh + max (E - m0) sh = (E - m0) + sh := min_add_max _ _
  have hspec := overwrite_part_range_spec ps m0 (m0 + max (E - m0) sh) (min (E - m0) sh)
    (by omega) (by omega)
  refine ⟨?_, trivial, trivial, ?_, ?_⟩
  · split
    · exact hspec.1
    · rfl
  · intro x hx
    split
    · rw [hspec.2 x, if_neg (by omega)]
    · rfl
  · by_cases hpos : min (E - m0) sh > 0
    · rw [if_pos hpos]
      set qs := overwrite_part_range ps m0 (m0 + max (E - m0) sh) (min (E - m0) sh) with hqs
      by_cases hcase : E - m0 ≤ sh
      · have e1 : min (E - m0) sh = E - m0 := min_eq_left hcase
        have e2 : max (E - m0) sh = sh := max_eq_right hcase
        rw [e1, e2] at hspec
        have ht := recs_translate ps qs m0 (m0 + sh) (E - m0) (by
          intro k hk1 hk2
          rw [hspec.2, if_pos ⟨by omega, by omega⟩]
          congr 1; ring)
        rwa [show m0 + sh + (E - m0) = E + sh by ring, show m0 + (E - m0) = E by ring] at ht
      · have e1 : min (E - m0) sh = sh := min_eq_right (by omega)
        have e2 : max (E - m0) sh = E - m0 := max_eq_left (by omega)
        rw [e1, e2] at hspec
        rw [recs_split qs (m0 + sh) E (E + sh) (by omega) (by omega),
          recs_split ps m0 (m0 + sh) E (by omega) (by omega), add_comm]
        congr 1
        · have ht := recs_translate ps qs m0 E sh (by
            intro k hk1 hk2
            rw [hspec.2, if_pos ⟨by omega, by omega⟩]
            congr 1; ring)
          exact ht
        · apply recs_congr
          intro x hx1 hx2
          rw [hspec.2, if_neg (by omega)]
    · rw [if_neg hpos]
      by_cases hcase : sh ≤ 0
      · have : sh = 0 := by omega
        rw [this]; simp
      · have : E - m0 ≤ 0 := by
          rcases min_le_iff.mp (not_lt.mp hpos) with h | h
          · exact h
          · omega
        rw [recs_empty _ _ _ (by omega), recs_empty _ _ _ (by omega)]


theorem tail_range_eq (n : Nat) : (List.range n).tail = List.range' 1 (n - 1) := by
  cases n with
  | zero => rfl
  | succ k =>
    rw [List.range_eq_range', List.range'_succ]
    rfl

theorem shift_mono_le (shift : List Int) (n : Nat)
    (hmono : ∀ j, j < n → shift.getD j 0 ≤ shift.getD (j + 1) 0) (i j : Nat) (hij : i ≤ j)
    (hj : j ≤ n) : shift.getD i 0 ≤ shift.getD j 0 := by
  induction j with
  | zero =>
    have : i = 0 := by omega
    subst this; exact le_refl _
  | succ k ih =>
    by_cases hik : i = k + 1
    · subst hik; exact le_refl _
    · have := ih (by omega) (by omega)
      have := hmono k (by omega)
      omega

/-- The loop "Shift bins" over the bins `n-1` down to `k`. -/
theorem shift_bins_suffix (shift bmin bmax : List Int) (ps : List Particle) (L0 : Int)
    (hg : Gapless bmin bmax L0) (hlen : (ps.length : Int) = L0 + shift.getD bmax.length 0)
    (hsh0 : shift.getD 0 0 = 0)
    (hmono : ∀ j, j < bmax.length → shift.getD j 0 ≤ shift.getD (j + 1) 0)
    (m k : Nat) (hk : 1 ≤ k) (hkm : k + m = bmax.length) :
    ((List.range' k m).reverse.foldl (shift_bin shift) (ps, bmin, bmax)).1.length = ps.length ∧
    ((List.range' k m).reverse.foldl (shift_bin shift) (ps, bmin, bmax)).2.1.length = bmax.length ∧
    ((List.range' k m).reverse.foldl (shift_bin shift) (ps, bmin, bmax)).2.2.length = bmax.length ∧
    (∀ j, j < bmax.length →
      ((List.range' k m).reverse.foldl (shift_bin shift) (ps, bmin, bmax)).2.1.getD j 0 =
        if k ≤ j then bmin.getD j 0 + shift.getD j 0 else bmin.getD j 0) ∧
    (∀ j, j < bmax.length →
      ((List.range' k m).reverse.foldl (shift_bin shift) (ps, bmin, bmax)).2.2.getD j 0 =
        if k ≤ j then bmax.getD j 0 + shift.getD j 0 else bmax.getD j 0) ∧
    (∀ x, (k < bmax.length → x < bmax.getD k 0) →
      getI ((List.range' k m).reverse.foldl (shift_bin shift) (ps, bmin, bmax)).1 x = getI ps x) ∧
    (∀ j, k ≤ j → j < bmax.length →
      recs ((List.range' k m).reverse.foldl (shift_bin shift) (ps, bmin, bmax)).1
        (bmin.getD j 0 + shift.getD j 0) (bmax.getD j 0 + shift.getD j 0) =
      recs ps (bmin.getD j 0) (bmax.getD j 0)) := by
  have hsep := hg.toSep
  induction m generalizing k with
  | zero =>
    simp only [List.range'_zero, List.reverse_nil, List.foldl_nil]
    refine ⟨trivial, hg.len_eq, trivial, ?_, ?_, fun _ _ => trivial, ?_⟩
    · intro j hj; rw [if_neg (by omega)]
    · intro j hj; rw [if_neg (by omega)]
    · intro j h1 h2; omega
  | succ m ih =>
    obtain ⟨i1, i2, i3, i4, i5, i6, i7⟩ := ih (k + 1) (by omega) (by omega)
    rw [List.range'_succ, List.reverse_cons, List.foldl_append]
    simp only [List.foldl_cons, List.foldl_nil]
    generalize hq : (List.range' (k + 1) m).reverse.foldl (shift_bin shift) (ps, bmin, bmax) = q
      at i1 i2 i3 i4 i5 i6 i7
    obtain ⟨qs, bmn, bmx⟩ := q
    simp only at i1 i2 i3 i4 i5 i6 i7
    have hkn : k < bmax.length := by omega
    have em : bmn.getD k 0 = bmin.getD k 0 := by rw [i4 k hkn, if_neg (by omega)]
    have eE : bmx.getD k 0 = bmax.getD k 0 := by rw [i5 k hkn, if_neg (by omega)]
    have hshk : 0 ≤ shift.getD k 0 := by
      have := shift_mono_le shift bmax.length hmono 0 k (Nat.zero_le _) (by omega)
      omega
    have hshn : shift.getD k 0 ≤ shift.getD bmax.length 0 :=
      shift_mono_le shift bmax.length hmono k bmax.length (by omega) (le_refl _)
    have hEl := hsep.bmax_le_len k hkn
    obtain ⟨s1, s2, s3, s4, s5⟩ := shift_bin_step shift qs bmn bmx k
      (by rw [em]; exact hsep.bmin_nonneg k hkn)
      (by rw [em, eE]; exact hg.ordered k hkn)
      hshk
      (by rw [eE, i1, hlen]; omega)
    rw [em] at s2 s5
    rw [eE] at s3 s4 s5
    refine ⟨by rw [s1, i1], by rw [s2]; simp [i2], by rw [s3]; simp [i3], ?_, ?_, ?_, ?_⟩
    · intro j hj
      rw [s2, getD_set_int]
      by_cases hjk : k = j
      · subst hjk
        rw [if_pos ⟨rfl, by omega⟩, if_pos (le_refl _)]
      · rw [if_neg (fun h => hjk h.1), i4 j hj]
        by_cases h1 : k + 1 ≤ j
        · rw [if_pos h1, if_pos (by omega)]
        · rw [if_neg h1, if_neg (by omega)]
    · intro j hj
      rw [s3, getD_set_int]
      by_cases hjk : k = j
      · subst hjk
        rw [if_pos ⟨rfl, by omega⟩, if_pos (le_refl _)]
      · rw [if_neg (fun h => hjk h.1), i5 j hj]
        by_cases h1 : k + 1 ≤ j
        · rw [if_pos h1, if_pos (by omega)]
        · rw [if_neg h1, if_neg (by omega)]
    · intro x hx
      have hx' := hx hkn
      rw [s4 x (Or.inl hx')]
      apply i6
      intro hk1
      have := hsep.bmax_mono k (k + 1) (by omega) hk1
      omega
    · intro j hj1 hj2
      by_cases hjk : j = k
      · subst hjk
        rw [s5]
        apply recs_congr
        intro x _ hx2
        apply i6
        intro hk1
        have := hsep.bmax_mono j (j + 1) (by omega) hk1
        omega
      · rw [← i7 j (by omega) hj2]
        apply recs_congr
        intro x hx1 _
        apply s4
        right
        have h1 := hsep.bmax_le_bmin k j (by omega) hj2
        have h2 := shift_mono_le shift bmax.length hmono k j (by omega) (by omega)
        omega


theorem recs_single (ps : List Particle) (a : Int) : recs ps a (a + 1) = {getI ps a} := by
  unfold recs
  have : (a + 1 - a).toNat = 1 := by omega
  rw [this]
  simp [List.range_succ]

/-- A sequence of insertions, each at the cursor `bmax[b]` of its bin `b`: when every bin
`j` has room up to `cap j` for the records inserted into it, the cursor of every bin moves
up by the number of its records and the bin, from its start `lo j` to its cursor, gains
exactly these records. -/
theorem ins_fold_spec (A : List (Particle × Int)) (ps : List Particle) (bmax : List Int)
    (lo cap : Nat → Int)
    (hA : ∀ a ∈ A, 0 ≤ a.2 ∧ a.2 < bmax.length)
    (hlo : ∀ j, j < bmax.length → 0 ≤ lo j ∧ lo j ≤ bmax.getD j 0)
    (hroom : ∀ j, j < bmax.length →
      bmax.getD j 0 + (((A.map Prod.snd).count (j : Int) : Nat) : Int) ≤ cap j)
    (hcap : ∀ j, j < bmax.length → cap j ≤ ps.length)
    (hsep : ∀ i j, i < j → j < bmax.length → cap i ≤ lo j) :
    (A.foldl ins_step (ps, bmax)).1.length = ps.length ∧
    (A.foldl ins_step (ps, bmax)).2.length = bmax.length ∧
    (∀ j, j < bmax.length → (A.foldl ins_step (ps, bmax)).2.getD j 0 =
      bmax.getD j 0 + (((A.map Prod.snd).count (j : Int) : Nat) : Int)) ∧
    (∀ j, j < bmax.length →
      recs (A.foldl ins_step (ps, bmax)).1 (lo j) ((A.foldl ins_step (ps, bmax)).2.getD j 0) =
        recs ps (lo j) (bmax.getD j 0) +
          Multiset.ofList ((A.filter (fun a => decide (a.2 = (j : Int)))).map Prod.fst)) ∧
    (∀ x, (∀ j, j < bmax.length → ¬ (bmax.getD j 0 ≤ x ∧ x < cap j)) →
      getI (A.foldl ins_step (ps, bmax)).1 x = getI ps x) := by
  induction A generalizing ps bmax with
  | nil =>
    refine ⟨rfl, rfl, fun j _ => by simp, fun j _ => by simp, fun _ _ => rfl⟩
  | cons a A ih =>
    obtain ⟨r, b⟩ := a
    have hb := hA (r, b) (List.mem_cons_self _ _)
    simp only at hb
    obtain ⟨m, rfl⟩ : ∃ m : Nat, b = (m : Int) := ⟨b.toNat, by omega⟩
    have hm : m < bmax.length := by omega
    simp only [List.foldl_cons]
    have hstep : ins_step (ps, bmax) (r, (m : Int)) =
        (setI ps (bmax.getD m 0) r, addI bmax (m : Int) 1) := by
      simp only [ins_step, getI_int_nat]
    rw [hstep]
    have hcnt : ∀ j : Nat, ((((r, (m : Int)) :: A).map Prod.snd).count (j : Int) : Int) =
        (if j = m then 1 else 0) + (((A.map Prod.snd).count (j : Int) : Nat) : Int) := by
      intro j
      rw [List.map_cons, List.count_cons]
      by_cases hj : j = m
      · subst hj; simp; ring
      · have : ((m : Int) == (j : Int)) = false := by
          rw [beq_eq_false_iff_ne]; omega
        simp [this, hj]
    have hb1 : ∀ j, (addI bmax (m : Int) 1).getD j 0 =
        bmax.getD j 0 + (if j = m then 1 else 0) := by
      intro j
      rw [getD_addI]
      by_cases hj : j = m
      · subst hj; simp [hm]
      · rw [if_neg (by omega), if_neg hj, add_zero]
    have hcur0 := (hlo m hm)
    have hcur1 := hroom m hm
    rw [hcnt m, if_pos rfl] at hcur1
    have hcur2 := hcap m hm
    obtain ⟨i1, i2, i3, i4, i5⟩ := ih (setI ps (bmax.getD m 0) r) (addI bmax (m : Int) 1)
      (by intro a ha; rw [addI_length]; exact hA a (List.mem_cons_of_mem _ ha))
      (by intro j hj
          rw [addI_length] at hj
          rw [hb1 j]
          have := hlo j hj
          split <;> omega)
      (by intro j hj
          rw [addI_length] at hj
          rw [hb1 j]
          have := hroom j hj
          rw [hcnt j] at this
          omega)
      (by intro j hj
          rw [addI_length] at hj
          rw [length_setI]; exact hcap j hj)
      (by intro i j hij hj
          rw [addI_length] at hj
          exact hsep i j hij hj)
    rw [addI_length] at i2 i3 i4 i5
    rw [length_setI] at i1
    refine ⟨i1, i2, ?_, ?_, ?_⟩
    · intro j hj
      rw [i3 j hj, hb1 j, hcnt j]; ring
    · intro j hj
      rw [i4 j hj, hb1 j]
      by_cases hjm : j = m
      · subst hjm
        rw [if_pos rfl, recs_split _ (lo j) (bmax.getD j 0) (bmax.getD j 0 + 1) (by omega)
          (by omega), recs_single, getI_setI_eq _ _ _ (by omega) (by omega)]
        have e1 : recs (setI ps (bmax.getD j 0) r) (lo j) (bmax.getD j 0) =
            recs ps (lo j) (bmax.getD j 0) := by
          apply recs_congr
          intro x _ hx2
          exact getI_setI_ne _ _ _ _ (by omega)
        rw [e1, List.filter_cons_of_pos (by simp), List.map_cons, ← Multiset.cons_coe,
          add_assoc, Multiset.singleton_add]
      · rw [if_neg hjm, add_zero]
        have e1 : recs (setI ps (bmax.getD m 0) r) (lo j) (bmax.getD j 0) =
            recs ps (lo j) (bmax.getD j 0) := by
          apply recs_congr
          intro x hx1 hx2
          apply getI_setI_ne
          rcases Nat.lt_or_gt_of_ne hjm with h | h
          · have := hsep j m h hm
            have := hroom j hj
            omega
          · have := hsep m j h hj
            omega
        rw [e1, List.filter_cons_of_neg (by simp; omega)]
    · intro x hx
      rw [i5 x]
      · apply getI_setI_ne
        intro h
        apply hx m hm
        omega
      · intro j hj hc
        rw [hb1 j] at hc
        apply hx j hj
        constructor
        · split at hc <;> omega
        · exact hc.2


theorem bulk_insert_eq (buf ps : List Particle) (bm : List Int) (ii : Nat) (hii : ii < bm.length)
    (k : Nat) :
    ((List.range k).map (fun (j : Nat) => (getI buf (j : Int), (ii : Int)))).foldl ins_step (ps, bm) =
      ((List.range k).foldl (fun acc (j : Nat) =>
          setI acc (bm.getD ii 0 + (j : Int)) (getI buf (0 + (j : Int)))) ps,
        bm.set ii (bm.getD ii 0 + (k : Int))) := by
  induction k with
  | zero => simp [-List.getD_eq_getElem?_getD, set_getD_same]
  | succ k ih =>
    rw [List.range_succ, List.map_append, List.foldl_append, ih, List.foldl_append]
    simp only [List.map_cons, List.map_nil, List.foldl_cons, List.foldl_nil, ins_step]
    have h1 : getI (bm.set ii (bm.getD ii 0 + (k : Int))) (ii : Int) = bm.getD ii 0 + (k : Int) := by
      rw [getI_int_nat, getD_set_int, if_pos ⟨rfl, hii⟩]
    rw [h1, zero_add]
    congr 1
    unfold addI
    rw [h1]
    unfold setI
    rw [if_pos (by omega)]
    simp only [Int.toNat_ofNat, List.set_set]
    congr 1
    push_cast; ring

theorem insert_axis0_eq (p : Patch) (s : List Particle × List Int) (iNeighbor : Nat)
    (hlen : s.2.length = p.bmax.length) (hn : 0 < p.bmax.length) (hs : iNeighbor < 2)
    (hnb : p.neighbor_ 0 iNeighbor = none → p.patch_buff_index_recv_sz 0 iNeighbor = 0)
    (hpos : 0 ≤ p.patch_buff_index_recv_sz 0 iNeighbor) :
    insert_axis0 p s iNeighbor = (axis0_arrivals p iNeighbor).foldl ins_step s := by
  unfold insert_axis0 axis0_arrivals
  simp only
  by_cases hz : p.patch_buff_index_recv_sz 0 iNeighbor = 0
  · rw [if_neg (fun h => h.2 hz), hz]
    rfl
  · have hne : p.neighbor_ 0 iNeighbor ≠ none := fun h => hz (hnb h)
    rw [if_pos ⟨hne, hz⟩]
    have hii : iNeighbor * (s.2.length - 1) < s.2.length := by
      have : iNeighbor = 0 ∨ iNeighbor = 1 := by omega
      rcases this with h | h <;> subst h <;> simp <;> omega
    obtain ⟨ps, bm⟩ := s
    simp only at hlen hii ⊢
    rw [← hlen, bulk_insert_eq _ _ _ _ hii]
    unfold overwrite_part_into_range
    congr 2
    omega

theorem insert_axis_eq (params : Params) (p : Patch) (iDim idim : Nat)
    (s : List Particle × List Int) (iNeighbor : Nat)
    (hnb : p.neighbor_ idim iNeighbor = none → p.patch_buff_index_recv_sz idim iNeighbor = 0) :
    insert_axis params p iDim idim s iNeighbor =
      ((List.range (p.patch_buff_index_recv_sz idim iNeighbor).toNat).map (fun (k : Nat) =>
        (getI (p.patchVectorRecv idim iNeighbor) (k : Int),
          bin_of params p (p.patchVectorRecv iDim iNeighbor) (k : Int)))).foldl ins_step s := by
  unfold insert_axis
  simp only
  by_cases hz : p.patch_buff_index_recv_sz idim iNeighbor = 0
  · rw [if_neg (fun h => h.2 hz), hz]
    rfl
  · have hne : p.neighbor_ idim iNeighbor ≠ none := fun h => hz (hnb h)
    rw [if_pos ⟨hne, hz⟩, foldl_map']
    rfl

theorem foldl_congr_mem {α β : Type} (l : List α) (f g : β → α → β) (init : β)
    (h : ∀ acc, ∀ x ∈ l, f acc x = g acc x) : l.foldl f init = l.foldl g init := by
  induction l generalizing init with
  | nil => rfl
  | cons x l ih =>
    simp only [List.foldl_cons]
    rw [h init x (List.mem_cons_self _ _)]
    exact ih _ (fun acc y hy => h acc y (List.mem_cons_of_mem _ hy))

/-- The insertion loops of `finalizeCommParticles` are the insertions of all the arrivals,
one after the other. -/
theorem insertion_eq (params : Params) (p : Patch) (iDim : Nat) (s : List Particle × List Int)
    (hlen : s.2.length = p.bmax.length) (hn : 0 < p.bmax.length)
    (hnd : 0 < params.nDim_field)
    (hnb : ∀ d s, d < params.nDim_field → s < 2 →
      p.neighbor_ d s = none → p.patch_buff_index_recv_sz d s = 0)
    (hpos : ∀ s, s < 2 → 0 ≤ p.patch_buff_index_recv_sz 0 s) :
    ((List.range params.nDim_field).tail).foldl (fun t idim =>
        (List.range nbNeighbors_).foldl (insert_axis params p iDim idim) t)
      ((List.range nbNeighbors_).foldl (insert_axis0 p) s) =
    (arrivals params p (fun _ => iDim)).foldl ins_step s := by
  have ha0 : (List.range nbNeighbors_).foldl (insert_axis0 p) s =
      (axis0_arrivals p 0 ++ axis0_arrivals p 1).foldl ins_step s := by
    have hr : List.range nbNeighbors_ = [0, 1] := rfl
    rw [hr]
    simp only [List.foldl_cons, List.foldl_nil]
    rw [insert_axis0_eq p s 0 hlen hn (by omega) (hnb 0 0 hnd (by omega)) (hpos 0 (by omega)),
      List.foldl_append]
    apply insert_axis0_eq p _ 1 _ hn (by omega) (hnb 0 1 hnd (by omega)) (hpos 1 (by omega))
    have hfl : ∀ (A : List (Particle × Int)) (t : List Particle × List Int),
        (A.foldl ins_step t).2.length = t.2.length := by
      intro A
      induction A with
      | nil => intro t; rfl
      | cons a A ih => intro t; simp only [List.foldl_cons]; rw [ih]; simp [ins_step]
    rw [hfl, hlen]
  unfold arrivals
  rw [List.foldl_append, ← ha0]
  unfold later_arrivals
  rw [foldl_flatMap]
  apply foldl_congr_mem
  intro t idim hidim
  rw [foldl_flatMap]
  apply foldl_congr_mem
  intro t2 s2 hs2
  have h1 : idim < params.nDim_field := by
    have := List.mem_of_mem_tail hidim
    simpa using this
  have h2 : s2 < 2 := by simpa [nbNeighbors_] using hs2
  exact insert_axis_eq params p iDim idim t2 s2 (hnb idim s2 h1 h2)

theorem getI_append_left (ps qs : List Particle) (x : Int) (h : x < ps.length) :
    getI (ps ++ qs) x = getI ps x := by
  unfold getI
  by_cases h0 : 0 ≤ x
  · rw [if_pos h0, if_pos h0]
    have : x.toNat < ps.length := by omega
    simp [List.getD_eq_getElem?_getD, List.getElem?_append_left this]
  · rw [if_neg h0, if_neg h0]

theorem create_particles_spec (ps : List Particle) (n : Int) :
    (create_particles ps n).length = ps.length + n.toNat ∧
    ∀ x : Int, x < ps.length → getI (create_particles ps n) x = getI ps x := by
  unfold create_particles
  generalize n.toNat = k
  induction k with
  | zero => exact ⟨rfl, fun _ _ => rfl⟩
  | succ k ih =>
    rw [List.range_succ, List.foldl_append]
    simp only [List.foldl_cons, List.foldl_nil]
    generalize hq : (List.range k).foldl (fun acc _ => create_particle acc) ps = q at ih
    have hc : create_particle q = q ++ [default] := rfl
    rw [hc]
    refine ⟨by rw [List.length_append, ih.1]; simp; omega, fun x hx => ?_⟩
    rw [getI_append_left _ _ _ (by rw [ih.1]; push_cast; omega)]
    exact ih.2 x hx

theorem erase_particle_trail_spec (ps : List Particle) (c : Int) (h0 : 0 ≤ c)
    (h1 : c ≤ ps.length) :
    ((erase_particle_trail ps c).length : Int) = c ∧
    ∀ x, x < c → getI (erase_particle_trail ps c) x = getI ps x := by
  unfold erase_particle_trail
  refine ⟨by rw [List.length_take]; omega, fun x hx => ?_⟩
  unfold getI
  by_cases hx0 : 0 ≤ x
  · rw [if_pos hx0, if_pos hx0]
    have : x.toNat < c.toNat := by omega
    simp [List.getD_eq_getElem?_getD, List.getElem?_take, this]
  · rw [if_neg hx0, if_neg hx0]

theorem later_arrivals_dim (params : Params) (p : Patch) (iDim : Nat)
    (hd : params.nDim_field ≤ 2) (hi : iDim + 1 = params.nDim_field) :
    later_arrivals params p (fun _ => iDim) = later_arrivals params p id := by
  unfold later_arrivals
  have h2 : params.nDim_field = 1 ∨ params.nDim_field = 2 := by omega
  rcases h2 with h | h
  · rw [h]
    have e : (List.range 1).tail = [] := by decide
    rw [e]
    simp only [List.flatMap_nil]
  · rw [h]
    have : iDim = 1 := by omega
    subst this
    have e : (List.range 2).tail = [1] := by decide
    rw [e]
    simp only [List.flatMap_cons, List.flatMap_nil, id]


theorem arrivals_to_nonneg (params : Params) (p : Patch) (rd : Nat → Nat) (m : Nat) :
    0 ≤ arrivals_to params p rd m := by
  unfold arrivals_to; omega

theorem shift_sum_succ (params : Params) (p : Patch) (j : Nat) :
    shift_sum params p (j + 1) = shift_sum params p j + arrivals_to params p id j := by
  unfold shift_sum; rw [Finset.sum_range_succ]

theorem shift_sum_zero (params : Params) (p : Patch) : shift_sum params p 0 = 0 := by
  unfold shift_sum; simp

theorem shift_sum_mono (params : Params) (p : Patch) (i j : Nat) (h : i ≤ j) :
    shift_sum params p i ≤ shift_sum params p j := by
  induction j with
  | zero => have : i = 0 := by omega
            subst this; exact le_refl _
  | succ k ih =>
    by_cases hik : i = k + 1
    · subst hik; exact le_refl _
    · have := ih (by omega)
      rw [shift_sum_succ]
      have := arrivals_to_nonneg params p id k
      omega

/-- The arrivals only depend on the receive buffers, the receive counts, the lower bound of
the patch and the number of bins. -/
theorem arrivals_congr (params : Params) (p q : Patch) (rd : Nat → Nat)
    (h1 : q.patchVectorRecv = p.patchVectorRecv)
    (h2 : q.patch_buff_index_recv_sz = p.patch_buff_index_recv_sz)
    (h3 : q.min_local = p.min_local) (h4 : q.bmax.length = p.bmax.length) :
    arrivals params q rd = arrivals params p rd := by
  unfold arrivals axis0_arrivals later_arrivals bin_of
  rw [h1, h2, h3, h4]


theorem later_arrivals_congr (params : Params) (p q : Patch) (rd : Nat → Nat)
    (h1 : q.patchVectorRecv = p.patchVectorRecv)
    (h2 : q.patch_buff_index_recv_sz = p.patch_buff_index_recv_sz)
    (h3 : q.min_local = p.min_local) :
    later_arrivals params q rd = later_arrivals params p rd := by
  unfold later_arrivals bin_of
  rw [h1, h2, h3]

theorem arrivals_dim (params : Params) (p : Patch) (iDim : Nat)
    (hd : params.nDim_field ≤ 2) (hi : iDim + 1 = params.nDim_field) :
    arrivals params p (fun _ => iDim) = arrivals params p id := by
  unfold arrivals
  rw [later_arrivals_dim params p iDim hd hi]

theorem arrivals_bins (params : Params) (p : Patch) (hn : 0 < p.bmax.length)
    (hb : ∀ a ∈ later_arrivals params p id, 0 ≤ a.2 ∧ a.2 < p.bmax.length) :
    ∀ a ∈ arrivals params p id, 0 ≤ a.2 ∧ a.2 < p.bmax.length := by
  intro a ha
  unfold arrivals at ha
  rw [List.mem_append, List.mem_append] at ha
  rcases ha with (ha | ha) | ha
  · unfold axis0_arrivals at ha
    rw [List.mem_map] at ha
    obtain ⟨k, _, rfl⟩ := ha
    simp only [zero_mul, Nat.cast_zero, le_refl, true_and]
    omega
  · unfold axis0_arrivals at ha
    rw [List.mem_map] at ha
    obtain ⟨k, _, rfl⟩ := ha
    simp only [one_mul]
    omega
  · exact hb a ha

/-- The final branch as an explicit composition. -/
theorem finalize_last_eq (params : Params) (iDim : Nat) (p : Patch)
    (c : List Particle × List Int × List Int)
    (hc : cleanup_sent_particles p.indexes_of_particles_to_exchange p.particles p.bmin p.bmax = c)
    (ps1 : List Particle)
    (hps1 : erase_particle_trail c.1 (c.2.2.getD (c.2.2.length - 1) 0) = ps1)
    (p1 : Patch)
    (hp1 : ({ p with particles := ps1, bmin := c.2.1, bmax := c.2.2,
                     indexes_of_particles_to_exchange := [] } : Patch) = p1)
    (shift : List Int) (hshift : shift_of params p1 = shift)
    (ps2 : List Particle)
    (hps2 : (if shift.getD p1.bmax.length 0 ≠ 0 then
      create_particles ps1 (shift.getD p1.bmax.length 0) else ps1) = ps2)
    (s : List Particle × List Int × List Int)
    (hs : shift_bins shift (ps2, p1.bmin, p1.bmax) = s)
    (a : List Particle × List Int)
    (ha : ((List.range params.nDim_field).tail).foldl (fun t idim =>
        (List.range nbNeighbors_).foldl (insert_axis params p1 iDim idim) t)
      ((List.range nbNeighbors_).foldl (insert_axis0 p1) (s.1, s.2.2)) = a) :
    finalize_last params iDim p = { p1 with particles := a.1, bmin := s.2.1, bmax := a.2 } := by
  subst hc hps1 hp1 hshift hps2 hs ha
  rfl



/-- The state of the final branch of `finalizeCommParticles` when the insertion starts:
the store `sps` and the bounds `sbmin`, `sbmax` after the removal of the sent particles, the
creation of the room and the shift of the bins; the insertion is then the sequence of the
single insertions of the received records. -/
theorem finalize_last_setup (params : Params) (iDim : Nat) (p : Patch)
    (hr : FinalReady params p) (hd : params.nDim_field ≤ 2)
    (hi : iDim + 1 = params.nDim_field) :
    ∃ (sps : List Particle) (sbmin sbmax : List Int),
      (finalize_last params iDim p).particles =
        ((arrivals params p id).foldl ins_step (sps, sbmax)).1 ∧
      (finalize_last params iDim p).bmin = sbmin ∧
      (finalize_last params iDim p).bmax =
        ((arrivals params p id).foldl ins_step (sps, sbmax)).2 ∧
      sbmin.length = p.bmax.length ∧ sbmax.length = p.bmax.length ∧
      (∀ j, j < p.bmax.length → sbmin.getD j 0 =
        compacted p.indexes_of_particles_to_exchange (p.bmin.getD 0 0) (p.bmin.getD j 0) +
          shift_sum params p j) ∧
      (∀ j, j < p.bmax.length → sbmax.getD j 0 =
        compacted p.indexes_of_particles_to_exchange (p.bmin.getD 0 0) (p.bmax.getD j 0) +
          shift_sum params p j) ∧
      (∀ j, j < p.bmax.length →
        recs sps
          (compacted p.indexes_of_particles_to_exchange (p.bmin.getD 0 0) (p.bmin.getD j 0) +
            shift_sum params p j)
          (compacted p.indexes_of_particles_to_exchange (p.bmin.getD 0 0) (p.bmax.getD j 0) +
            shift_sum params p j) =
        pick p.particles (liveSet p.indexes_of_particles_to_exchange (p.bmin.getD j 0)
          (p.bmax.getD j 0))) ∧
      ((sps.length : Int) =
        compacted p.indexes_of_particles_to_exchange (p.bmin.getD 0 0)
          (p.bmax.getD (p.bmax.length - 1) 0) + shift_sum params p p.bmax.length) ∧
      (∀ a ∈ arrivals params p id, 0 ≤ a.2 ∧ a.2 < sbmax.length) ∧
      (∀ j, j < sbmax.length →
        0 ≤ compacted p.indexes_of_particles_to_exchange (p.bmin.getD 0 0) (p.bmin.getD j 0) +
          shift_sum params p j ∧
        compacted p.indexes_of_particles_to_exchange (p.bmin.getD 0 0) (p.bmin.getD j 0) +
          shift_sum params p j ≤ sbmax.getD j 0) ∧
      (∀ j, j < sbmax.length →
        sbmax.getD j 0 + ((((arrivals params p id).map Prod.snd).count (j : Int) : Nat) : Int) ≤
          compacted p.indexes_of_particles_to_exchange (p.bmin.getD 0 0) (p.bmax.getD j 0) +
            shift_sum params p (j + 1)) ∧
      (∀ j, j < sbmax.length →
        compacted p.indexes_of_particles_to_exchange (p.bmin.getD 0 0) (p.bmax.getD j 0) +
          shift_sum params p (j + 1) ≤ sps.length) ∧
      (∀ i j, i < j → j < sbmax.length →
        compacted p.indexes_of_particles_to_exchange (p.bmin.getD 0 0) (p.bmax.getD i 0) +
          shift_sum params p (i + 1) ≤
        compacted p.indexes_of_particles_to_exchange (p.bmin.getD 0 0) (p.bmin.getD j 0) +
          shift_sum params p j) := by
  have hg := hr.gapless
  have hsep := hg.toSep
  have hn := hg.nonempty
  set idx := p.indexes_of_particles_to_exchange with hidx
  obtain ⟨c1, c2, c3, c4, c5, c6⟩ := cleanup_spec idx p.bmin p.bmax p.particles hr.sorted hg
  obtain ⟨hgc, _⟩ := cleanup_gapless idx p.bmin p.bmax p.particles hr.sorted hg
  rw [finalize_last_eq params iDim p _ rfl _ rfl _ rfl _ rfl _ rfl _ rfl _ rfl]
  generalize hc : cleanup_sent_particles idx p.particles p.bmin p.bmax = c
    at c1 c2 c3 c4 c5 c6 hgc
  obtain ⟨cps, cbmin, cbmax⟩ := c
  simp only at c1 c2 c3 c4 c5 c6 hgc ⊢
  set L0 := compacted idx (p.bmin.getD 0 0) (p.bmax.getD (p.bmax.length - 1) 0) with hL0
  have hsepc := hgc.toSep
  have eL0 : cbmax.getD (cbmax.length - 1) 0 = L0 := by rw [c3, c5 _ (by omega)]
  have hL0a : 0 ≤ L0 := by
    have h1 := hsepc.bmin_nonneg (p.bmax.length - 1) (by rw [c3]; omega)
    have h2 := hgc.ordered (p.bmax.length - 1) (by rw [c3]; omega)
    rw [c5 _ (by omega)] at h2
    omega
  have hL0b : L0 ≤ p.particles.length := by
    have := compacted_le idx (p.bmin.getD 0 0) (p.bmax.getD (p.bmax.length - 1) 0)
    have := hg.last
    omega
  obtain ⟨tr1, tr2⟩ := erase_particle_trail_spec cps L0 hL0a (by rw [c1]; exact hL0b)
  rw [eL0]
  set ps1 := erase_particle_trail cps L0 with hps1
  set p1 : Patch := { p with particles := ps1, bmin := cbmin, bmax := cbmax,
                             indexes_of_particles_to_exchange := [] } with hp1
  have hp1n : p1.bmax.length = p.bmax.length := c3
  -- the arrivals of `p1` are those of `p`
  have hac : ∀ rd, arrivals params p1 rd = arrivals params p rd := fun rd =>
    arrivals_congr params p p1 rd rfl rfl rfl c3
  have hlc : later_arrivals params p1 id = later_arrivals params p id :=
    later_arrivals_congr params p p1 id rfl rfl rfl
  have hat : ∀ m, arrivals_to params p1 id m = arrivals_to params p id m := by
    intro m; unfold arrivals_to; rw [hac]
  have hnd0 : 0 < params.nDim_field := by omega
  have hcnt : ∀ s, s < 2 → 0 ≤ p.patch_buff_index_recv_sz 0 s := by
    intro s hs; rw [hr.sizes 0 s hnd0 hs]; omega
  obtain ⟨sh1, sh2⟩ := shift_of_spec params p1 (by rw [hp1n]; exact hn) (hcnt 0 (by omega))
    (hcnt 1 (by omega)) (by rw [hlc]; intro a ha; exact (hr.bins a ha).1)
  rw [hp1n] at sh1 sh2
  have sh3 : ∀ j, j ≤ p.bmax.length → (shift_of params p1).getD j 0 = shift_sum params p j := by
    intro j hj
    rw [sh2 j hj]
    unfold shift_sum
    exact Finset.sum_congr rfl (fun m _ => hat m)
  rw [hp1n]
  set shift := shift_of params p1 with hshift
  have hshn : 0 ≤ shift.getD p.bmax.length 0 := by
    rw [sh3 p.bmax.length (le_refl _)]
    have := shift_sum_mono params p 0 p.bmax.length (Nat.zero_le _)
    rw [shift_sum_zero] at this
    exact this
  -- room for the new particles
  have hps2 : ((if shift.getD p.bmax.length 0 ≠ 0 then create_particles ps1 (shift.getD p.bmax.length 0) else ps1).length : Int)
        = L0 + shift.getD p.bmax.length 0 ∧
      ∀ x, x < L0 → getI (if shift.getD p.bmax.length 0 ≠ 0 then create_particles ps1 (shift.getD p.bmax.length 0)
        else ps1) x = getI ps1 x := by
    by_cases hz : shift.getD p.bmax.length 0 = 0
    · rw [if_neg (by simpa using hz), hz]
      exact ⟨by rw [tr1]; ring, fun _ _ => rfl⟩
    · rw [if_pos hz]
      obtain ⟨k1, k2⟩ := create_particles_spec ps1 (shift.getD p.bmax.length 0)
      refine ⟨by rw [k1]; push_cast; rw [tr1]; omega, fun x hx => k2 x (by rw [tr1]; exact hx)⟩
  set ps2 := (if shift.getD p.bmax.length 0 ≠ 0 then create_particles ps1 (shift.getD p.bmax.length 0) else ps1) with hps2d
  -- the shift of the bins
  have hgc' : Gapless cbmin cbmax L0 := hgc
  have hmono : ∀ j, j < cbmax.length → shift.getD j 0 ≤ shift.getD (j + 1) 0 := by
    intro j hj
    rw [c3] at hj
    rw [sh3 j (by omega), sh3 (j + 1) (by omega)]
    exact shift_sum_mono params p j (j + 1) (by omega)
  have hsb := shift_bins_suffix shift cbmin cbmax ps2 L0 hgc'
    (by rw [c3]; exact hps2.1) (by rw [sh3 0 (Nat.zero_le _), shift_sum_zero]) hmono
    (p.bmax.length - 1) 1 (le_refl _) (by rw [c3]; omega)
  have hsbe : shift_bins shift (ps2, p1.bmin, p1.bmax) =
      (List.range' 1 (p.bmax.length - 1)).reverse.foldl (shift_bin shift) (ps2, cbmin, cbmax) := by
    unfold shift_bins
    simp only
    rw [tail_range_eq, hp1n]
  rw [hsbe]
  obtain ⟨t1, t2, t3, t4, t5, t6, t7⟩ := hsb
  generalize hs : (List.range' 1 (p.bmax.length - 1)).reverse.foldl (shift_bin shift) (ps2, cbmin, cbmax) = s
    at t1 t2 t3 t4 t5 t6 t7
  obtain ⟨sps, sbmin, sbmax⟩ := s
  simp only at t1 t2 t3 t4 t5 t6 t7 ⊢
  rw [c3] at t2 t3 t4 t5 t6 t7
  have hsh0 : shift.getD 0 0 = 0 := by rw [sh3 0 (Nat.zero_le _), shift_sum_zero]
  have u4 : ∀ j, j < p.bmax.length → sbmin.getD j 0 =
      compacted idx (p.bmin.getD 0 0) (p.bmin.getD j 0) + shift_sum params p j := by
    intro j hj
    rw [t4 j hj, c4 j hj]
    by_cases h1 : 1 ≤ j
    · rw [if_pos h1, sh3 j (by omega)]
    · have : j = 0 := by omega
      subst this
      rw [if_neg h1, shift_sum_zero, add_zero]
  have u5 : ∀ j, j < p.bmax.length → sbmax.getD j 0 =
      compacted idx (p.bmin.getD 0 0) (p.bmax.getD j 0) + shift_sum params p j := by
    intro j hj
    rw [t5 j hj, c5 j hj]
    by_cases h1 : 1 ≤ j
    · rw [if_pos h1, sh3 j (by omega)]
    · have : j = 0 := by omega
      subst this
      rw [if_neg h1, shift_sum_zero, add_zero]
  -- the records of every bin after the shift
  have u7 : ∀ j, j < p.bmax.length →
      recs sps (compacted idx (p.bmin.getD 0 0) (p.bmin.getD j 0) + shift_sum params p j)
        (compacted idx (p.bmin.getD 0 0) (p.bmax.getD j 0) + shift_sum params p j) =
      pick p.particles (liveSet idx (p.bmin.getD j 0) (p.bmax.getD j 0)) := by
    intro j hj
    have hlive : recs ps2 (cbmin.getD j 0) (cbmax.getD j 0) =
        pick p.particles (liveSet idx (p.bmin.getD j 0) (p.bmax.getD j 0)) := by
      rw [← c6 j hj, c4 j hj, c5 j hj]
      apply recs_congr
      intro x _ hx2
      have hxL : x < L0 := by
        have := hsepc.bmax_le_len j (by rw [c3]; exact hj)
        rw [c5 j hj] at this
        omega
      rw [hps2.2 x hxL, tr2 x hxL]
    rw [← hlive]
    by_cases h1 : 1 ≤ j
    · have := t7 j h1 hj
      rw [sh3 j (by omega), c4 j hj, c5 j hj] at this
      rw [this, c4 j hj, c5 j hj]
    · have : j = 0 := by omega
      subst this
      rw [shift_sum_zero, add_zero, add_zero, c4 0 hj, c5 0 hj]
      apply recs_congr
      intro x _ hx2
      apply t6
      intro h1n
      have := hsepc.bmax_mono 0 1 (by omega) (by rw [c3]; exact h1n)
      rw [c5 0 hj] at this
      omega
  -- the insertion
  have hins := insertion_eq params p1 iDim (sps, sbmax) (by rw [hp1n]; exact t3)
    (by rw [hp1n]; exact hn) hnd0 hr.no_neighbor hcnt
  rw [hins, hac, arrivals_dim params p iDim hd hi]
  have hss : ∀ j, 0 ≤ shift_sum params p j := by
    intro j
    have := shift_sum_mono params p 0 j (Nat.zero_le _)
    rwa [shift_sum_zero] at this
  have hcount : ∀ j : Nat, ((((arrivals params p id).map Prod.snd).count (j : Int) : Nat) : Int) =
      arrivals_to params p id j := fun j => rfl
  refine ⟨sps, sbmin, sbmax, rfl, rfl, rfl, t2, t3, u4, u5, u7, ?_, ?_, ?_, ?_, ?_, ?_⟩
  · rw [t1, hps2.1, sh3 _ (le_refl _)]
  · rw [t3]; exact arrivals_bins params p hn hr.bins
  · intro j hj
    rw [t3] at hj
    rw [u5 j hj]
    have h1 := hsepc.bmin_nonneg j (by rw [c3]; exact hj)
    have h2 := hgc.ordered j (by rw [c3]; exact hj)
    rw [c4 j hj] at h1 h2
    rw [c5 j hj] at h2
    have := hss j
    constructor <;> omega
  · intro j hj
    rw [t3] at hj
    rw [u5 j hj, hcount, shift_sum_succ]
    omega
  · intro j hj
    rw [t3] at hj
    rw [t1, hps2.1, sh3 _ (le_refl _)]
    have h1 := hsepc.bmax_le_len j (by rw [c3]; exact hj)
    rw [c5 j hj] at h1
    have := shift_sum_mono params p (j + 1) p.bmax.length (by omega)
    omega
  · intro i j hij hj
    rw [t3] at hj
    have h1 := hsepc.bmax_le_bmin i j hij (by rw [c3]; exact hj)
    rw [c5 i (by omega), c4 j hj] at h1
    have := shift_sum_mono params p (i + 1) j (by omega)
    omega

/-- The branch `if (iDim == ndim-1)` of `finalizeCommParticles` (one or two axes): the bounds
of every bin, the record count, and the records of every bin: the records of the bin that
are not departed, and the records received for the bin. -/
theorem finalize_last_spec (params : Params) (iDim : Nat) (p : Patch)
    (hr : FinalReady params p) (hd : params.nDim_field ≤ 2)
    (hi : iDim + 1 = params.nDim_field) :
    (finalize_last params iDim p).bmin.length = p.bmax.length ∧
    (finalize_last params iDim p).bmax.length = p.bmax.length ∧
    (∀ j, j < p.bmax.length → (finalize_last params iDim p).bmin.getD j 0 =
      compacted p.indexes_of_particles_to_exchange (p.bmin.getD 0 0) (p.bmin.getD j 0) +
        shift_sum params p j) ∧
    (∀ j, j < p.bmax.length → (finalize_last params iDim p).bmax.getD j 0 =
      compacted p.indexes_of_particles_to_exchange (p.bmin.getD 0 0) (p.bmax.getD j 0) +
        shift_sum params p (j + 1)) ∧
    ((finalize_last params iDim p).particles.length : Int) =
      compacted p.indexes_of_particles_to_exchange (p.bmin.getD 0 0)
        (p.bmax.getD (p.bmax.length - 1) 0) + shift_sum params p p.bmax.length ∧
    (∀ j, j < p.bmax.length →
      recs (finalize_last params iDim p).particles
        ((finalize_last params iDim p).bmin.getD j 0)
        ((finalize_last params iDim p).bmax.getD j 0) =
      pick p.particles (liveSet p.indexes_of_particles_to_exchange (p.bmin.getD j 0)
        (p.bmax.getD j 0)) + arrivals_of params p id j) := by
  obtain ⟨sps, sbmin, sbmax, e1, e2, e3, t2, t3, u4, u5, u7, hlen, hA, hlo, hroom, hcap, hsep⟩ :=
    finalize_last_setup params iDim p hr hd hi
  obtain ⟨r1, r2, r3, r4, _⟩ := ins_fold_spec (arrivals params p id) sps sbmax
    (fun j => compacted p.indexes_of_particles_to_exchange (p.bmin.getD 0 0) (p.bmin.getD j 0) +
      shift_sum params p j)
    (fun j => compacted p.indexes_of_particles_to_exchange (p.bmin.getD 0 0) (p.bmax.getD j 0) +
      shift_sum params p (j + 1))
    hA hlo hroom hcap hsep
  rw [e1, e2, e3]
  rw [t3] at r2 r3 r4
  have hcount : ∀ j : Nat, ((((arrivals params p id).map Prod.snd).count (j : Int) : Nat) : Int) =
      arrivals_to params p id j := fun j => rfl
  refine ⟨t2, r2, u4, ?_, ?_, ?_⟩
  · intro j hj
    rw [r3 j hj, u5 j hj, hcount, shift_sum_succ]; ring
  · rw [r1, hlen]
  · intro j hj
    rw [u4 j hj, r4 j hj, u5 j hj, u7 j hj]
    rfl



theorem finalize_neighbor_last (smpi : SmileiMPI) (params : Params) (iDim : Nat) (p : Patch)
    (iNeighbor : Nat) (hi : iDim + 1 = params.nDim_field) :
    finalize_neighbor smpi params iDim p iNeighbor = p := by
  unfold finalize_neighbor
  rw [if_neg (show ¬ (iDim + 1 < params.nDim_field) by omega)]
  simp

/-- On the last axis `finalizeCommParticles` is its final branch. -/
theorem finalizeCommParticles_last (smpi : SmileiMPI) (params : Params) (iDim : Nat) (p : Patch)
    (hi : iDim + 1 = params.nDim_field) :
    finalizeCommParticles smpi params iDim p = finalize_last params iDim p := by
  unfold finalizeCommParticles
  have hr : List.range nbNeighbors_ = [0, 1] := rfl
  rw [hr]
  simp only [List.foldl_cons, List.foldl_nil, finalize_neighbor_last smpi params iDim _ _ hi]
  rw [if_pos hi]

theorem toInt_range (q : ℚ) (n : Nat) (h0 : 0 ≤ q) (h1 : q < n) :
    0 ≤ toInt q ∧ toInt q < n := by
  unfold toInt
  rw [if_pos h0]
  refine ⟨Int.floor_nonneg.mpr h0, ?_⟩
  rw [Int.floor_lt]
  exact_mod_cast h1

theorem mem_later_arrivals (params : Params) (p : Patch) (rd : Nat → Nat) (a : Particle × Int) :
    a ∈ later_arrivals params p rd ↔
      ∃ idim, 1 ≤ idim ∧ idim < params.nDim_field ∧ ∃ s, s < 2 ∧
        ∃ k : Nat, (k : Int) < p.patch_buff_index_recv_sz idim s ∧
          a = (getI (p.patchVectorRecv idim s) (k : Int),
            bin_of params p (p.patchVectorRecv (rd idim) s) (k : Int)) := by
  unfold later_arrivals
  simp only [List.mem_flatMap, List.mem_map, List.mem_range, tail_range_eq, List.mem_range'_1,
    nbNeighbors_]
  constructor
  · rintro ⟨idim, ⟨h1, h2⟩, s, hs, k, hk, rfl⟩
    exact ⟨idim, h1, by omega, s, hs, k, by omega, rfl⟩
  · rintro ⟨idim, h1, h2, s, hs, k, hk, rfl⟩
    exact ⟨idim, ⟨h1, by omega⟩, s, hs, k, by omega, rfl⟩


/-- The preconditions of the final branch, from the bins that the code computes for the
records received on the axes `>= 1`. -/
theorem finalReady_of_bins (params : Params) (p : Patch)
    (hg : Gapless p.bmin p.bmax p.particles.length)
    (hs : p.indexes_of_particles_to_exchange.Pairwise (· < ·))
    (hsz : ∀ d s, d < params.nDim_field → s < 2 →
      p.patch_buff_index_recv_sz d s = ((p.patchVectorRecv d s).length : Int))
    (hnb : ∀ d s, d < params.nDim_field → s < 2 →
      p.neighbor_ d s = none → p.patch_buff_index_recv_sz d s = 0)
    (hbin : ∀ d s (k : Nat), 1 ≤ d → d < params.nDim_field → s < 2 →
      k < (p.patchVectorRecv d s).length →
      0 ≤ bin_of params p (p.patchVectorRecv d s) (k : Int) ∧
      bin_of params p (p.patchVectorRecv d s) (k : Int) < p.bmax.length) :
    FinalReady params p := by
  refine ⟨hs, hg, hnb, hsz, ?_⟩
  intro a ha
  rw [mem_later_arrivals] at ha
  obtain ⟨idim, h1, h2, s, hs2, k, hk, rfl⟩ := ha
  rw [hsz idim s h2 hs2] at hk
  exact hbin idim s k h1 h2 hs2 (by omega)

/-- The post-condition of C1 on the inputs for which the code stays inside its vectors: with
one or two axes, after `finalizeCommParticles` has run on the last axis on a store whose
bins were gapless with record count `== bmax` of the last bin, for a strictly ascending
departed list (with its indexes inside the bins) and arrivals on the axes `>= 1` for which the bin index that the code computes,
`int((x0 - min_local[0]) / dbin)` in the arithmetic of `double`, is the index of a bin (the
receive counts being the sizes of the receive buffers and zero without neighbor): `bmin[0]`
is unchanged, `bmin[i] <= bmax[i]` for every bin, `bmax[i] == bmin[i+1]` for every adjacent
pair of bins, and the record count of the store equals `bmax` of the last bin. -/
theorem finalizeCommParticles_bins_gapless (smpi : SmileiMPI) (params : Params) (iDim : Nat)
    (p : Patch)
    (hd : params.nDim_field = 1 ∨ params.nDim_field = 2) (hi : iDim + 1 = params.nDim_field)
    (hg : Gapless p.bmin p.bmax p.particles.length)
    (hs : p.indexes_of_particles_to_exchange.Pairwise (· < ·))
    (hin : ∀ i ∈ p.indexes_of_particles_to_exchange,
      p.bmin.getD 0 0 ≤ i ∧ i < p.bmax.getD (p.bmax.length - 1) 0)
    (hsz : ∀ d s, d < params.nDim_field → s < 2 →
      p.patch_buff_index_recv_sz d s = ((p.patchVectorRecv d s).length : Int))
    (hnb : ∀ d s, d < params.nDim_field → s < 2 →
      p.neighbor_ d s = none → p.patch_buff_index_recv_sz d s = 0)
    (hbin : ∀ d s (k : Nat), 1 ≤ d → d < params.nDim_field → s < 2 →
      k < (p.patchVectorRecv d s).length →
      0 ≤ bin_of params p (p.patchVectorRecv d s) (k : Int) ∧
      bin_of params p (p.patchVectorRecv d s) (k : Int) < p.bmax.length) :
    (finalizeCommParticles smpi params iDim p).bmin.length = p.bmin.length ∧
    (finalizeCommParticles smpi params iDim p).bmax.length = p.bmax.length ∧
    (finalizeCommParticles smpi params iDim p).bmin.getD 0 0 = p.bmin.getD 0 0 ∧
    (∀ i, i < p.bmax.length →
      (finalizeCommParticles smpi params iDim p).bmin.getD i 0 ≤
        (finalizeCommParticles smpi params iDim p).bmax.getD i 0) ∧
    (∀ i, i + 1 < p.bmax.length →
      (finalizeCommParticles smpi params iDim p).bmax.getD i 0 =
        (finalizeCommParticles smpi params iDim p).bmin.getD (i + 1) 0) ∧
    ((finalizeCommParticles smpi params iDim p).particles.length : Int) =
      (finalizeCommParticles smpi params iDim p).bmax.getD (p.bmax.length - 1) 0 := by
  have _ := hin
  have hr := finalReady_of_bins params p hg hs hsz hnb hbin
  rw [finalizeCommParticles_last smpi params iDim p hi]
  obtain ⟨f1, f2, f3, f4, f5, _⟩ := finalize_last_spec params iDim p hr (by omega) hi
  have hsep := hg.toSep
  have hn := hg.nonempty
  refine ⟨by rw [f1, hg.len_eq], f2, ?_, ?_, ?_, ?_⟩
  · rw [f3 0 hn, compacted_self, shift_sum_zero, add_zero]
  · intro i hi2
    rw [f3 i hi2, f4 i hi2]
    have h1 := compacted_mono p.indexes_of_particles_to_exchange (p.bmin.getD 0 0)
      (p.bmin.getD i 0) (p.bmax.getD i 0) hs (hsep.bmin_mono 0 i (Nat.zero_le _) hi2)
      (hg.ordered i hi2)
    have h2 := shift_sum_mono params p i (i + 1) (by omega)
    omega
  · intro i hi2
    rw [f3 (i + 1) hi2, f4 i (by omega), hg.chain i hi2]
  · rw [f5, f4 _ (by omega)]
    have : p.bmax.length - 1 + 1 = p.bmax.length := by omega
    rw [this]


@[simp] theorem modAt_length (vp : List Patch) (i : Nat) (f : Patch → Patch) :
    (modAt vp i f).length = vp.length := by
  simp [modAt]

theorem getD_modAt (vp : List Patch) (i j : Nat) (f : Patch → Patch) :
    (modAt vp i f).getD j default =
      if i = j ∧ i < vp.length then f (vp.getD i default) else vp.getD j default := by
  unfold modAt
  simp only [List.getD_eq_getElem?_getD, List.getElem?_set]
  by_cases hij : i = j
  · subst hij
    by_cases hi : i < vp.length
    · simp [hi]
    · simp [hi, List.getElem?_eq_none (not_lt.mp hi)]
  · simp [hij]

theorem modAt_map {α : Type} (vp : List Patch) (i : Nat) (f : Patch → Patch) (π : Patch → α)
    (h : ∀ q, π (f q) = π q) : (modAt vp i f).map π = vp.map π := by
  apply List.ext_getElem (by simp)
  intro n h1 h2
  simp only [List.getElem_map, modAt, List.getElem_set]
  split
  · rename_i hin
    subst hin
    rw [h]
    congr 1
    simp at h2
    simp [List.getD_eq_getElem?_getD, List.getElem?_eq_getElem h2]
  · rfl

theorem getD_of_map_eq {α : Type} (V W : List Patch) (π : Patch → α)
    (h : V.map π = W.map π) (i : Nat) :
    π (V.getD i default) = π (W.getD i default) := by
  have hl : V.length = W.length := by
    have := congrArg List.length h
    simpa using this
  by_cases hi : i < V.length
  · have h1 : (V.map π)[i]? = (W.map π)[i]? := by rw [h]
    simp only [List.getElem?_map] at h1
    rw [List.getElem?_eq_getElem hi, List.getElem?_eq_getElem (by omega)] at h1
    simp only [Option.map_some', Option.some.injEq] at h1
    simp only [List.getD_eq_getElem?_getD, List.getElem?_eq_getElem hi,
      List.getElem?_eq_getElem (show i < W.length by omega), Option.getD_some]
    exact h1
  · simp only [List.getD_eq_getElem?_getD, List.getElem?_eq_none (not_lt.mp hi),
      List.getElem?_eq_none (show W.length ≤ i by omega), Option.getD_none]

theorem length_of_map_eq {α : Type} (V W : List Patch) (π : Patch → α)
    (h : V.map π = W.map π) : V.length = W.length := by
  have := congrArg List.length h
  simpa using this

theorem h0_of_geometry (V W : List Patch) (h : V.map Patch.geometry = W.map Patch.geometry) :
    h0 V = h0 W := by
  unfold h0
  have := getD_of_map_eq V W Patch.geometry h 0
  exact congrArg Geometry.hindex this

theorem is_a_MPI_neighbor_congr (p q : Patch) (h : p.geometry = q.geometry) (d s : Nat) :
    is_a_MPI_neighbor p d s = is_a_MPI_neighbor q d s := by
  rw [geometry_eq_iff] at h
  unfold is_a_MPI_neighbor
  rw [h.2.2.1, h.2.2.2.1, h.2.2.2.2.1]

theorem Colocated.of_geometry (params : Params) (V W : List Patch)
    (h : V.map Patch.geometry = W.map Patch.geometry) (hc : Colocated params W) :
    Colocated params V := by
  have hl := length_of_map_eq V W _ h
  have hh := h0_of_geometry V W h
  have hg : ∀ i, (V.getD i default).geometry = (W.getD i default).geometry :=
    getD_of_map_eq V W Patch.geometry h
  have hn : ∀ i, (V.getD i default).neighbor_ = (W.getD i default).neighbor_ := fun i =>
    congrArg Geometry.neighbor_ (hg i)
  refine ⟨?_, ?_, ?_⟩
  · intro i hi
    rw [hh, ← hc.hindex i (by omega)]
    exact congrArg Geometry.hindex (hg i)
  · intro i d s nb hi hd hs hnb
    rw [hn] at hnb
    rw [is_a_MPI_neighbor_congr _ _ (hg i), hh, hl]
    exact hc.near i d s nb (by omega) hd hs hnb
  · intro i d s nb hi hd hs hnb
    rw [hn] at hnb
    rw [hn, hh]
    exact hc.sym i d s nb (by omega) hd hs hnb


theorem initComm_neighbor_sizeFrame (iDim ip : Nat) (vp : List Patch) (iNeighbor : Nat) :
    (initComm_neighbor iDim ip vp iNeighbor).map Patch.sizeFrame = vp.map Patch.sizeFrame := by
  have e1 : ∀ (w : List Patch) (i a b : Nat) (n : Int),
      (modAt w i (fun q => set_send_sz q a b n)).map Patch.sizeFrame = w.map Patch.sizeFrame :=
    fun w i a b n => modAt_map _ _ _ _ (fun q => rfl)
  have e2 : ∀ (w : List Patch) (i a b : Nat) (n : Int),
      (modAt w i (fun q => set_recv_sz q a b n)).map Patch.sizeFrame = w.map Patch.sizeFrame :=
    fun w i a b n => modAt_map _ _ _ _ (fun q => rfl)
  have e3 : ∀ (w : List Patch) (i : Nat) (e : MPIEvent),
      (modAt w i (fun q => log_event q e)).map Patch.sizeFrame = w.map Patch.sizeFrame :=
    fun w i e => modAt_map _ _ _ _ (fun q => rfl)
  have e4 : ∀ (w : List Patch) (i a b : Nat) (e : MPIEvent),
      (modAt w i (fun q => log_event (set_recv_sz q a b (q.incoming_sz a b)) e)).map
        Patch.sizeFrame = w.map Patch.sizeFrame :=
    fun w i a b e => modAt_map _ _ _ _ (fun q => rfl)
  unfold initComm_neighbor
  simp only
  split_ifs <;> split <;> simp only [e1, e2, e3, e4]

theorem initCommParticles_sizeFrame (iDim ip : Nat) (vp : List Patch) :
    (initCommParticles iDim ip vp).map Patch.sizeFrame = vp.map Patch.sizeFrame := by
  unfold initCommParticles
  have hr : List.range nbNeighbors_ = [0, 1] := rfl
  rw [hr]
  simp only [List.foldl_cons, List.foldl_nil]
  rw [initComm_neighbor_sizeFrame, initComm_neighbor_sizeFrame]

theorem forEachPatch_map {α : Type} (f : Nat → List Patch → List Patch) (π : Patch → α)
    (h : ∀ ip vp, (f ip vp).map π = vp.map π) (vp : List Patch) :
    (forEachPatch f vp).map π = vp.map π := by
  unfold forEachPatch
  generalize List.range vp.length = l
  induction l generalizing vp with
  | nil => rfl
  | cons x l ih => simp only [List.foldl_cons]; rw [ih, h]

theorem sizeFrame_geometry (V W : List Patch)
    (h : V.map Patch.sizeFrame = W.map Patch.sizeFrame) :
    V.map Patch.geometry = W.map Patch.geometry := by
  have : Patch.geometry = (fun x => x.1) ∘ Patch.sizeFrame := rfl
  rw [this, ← List.map_map, ← List.map_map, h]

/-- One iteration of `initCommParticles` in a vector of co-located patches: the number of
queued indexes is written into the send count of the patch and into the receive count of
the neighbor, on the opposite side. -/
theorem initComm_neighbor_local (params : Params) (iDim ip : Nat) (vp : List Patch) (s : Nat)
    (hc : Colocated params vp) (hip : ip < vp.length) (hd : iDim < params.nDim_field)
    (hs : s < 2) :
    initComm_neighbor iDim ip vp s =
      match (vp.getD ip default).neighbor_ iDim s with
      | none => vp
      | some nb =>
        modAt (modAt vp ip (fun q => set_send_sz q iDim s
            (((vp.getD ip default).patch_buff_index_send iDim s).length : Int)))
          (nb - h0 vp) (fun q => set_recv_sz q iDim ((s + 1) % 2)
            (((vp.getD ip default).patch_buff_index_send iDim s).length : Int)) := by
  unfold initComm_neighbor
  simp only
  have hrecv : ¬ ((vp.getD ip default).neighbor_ iDim ((s + 1) % 2) ≠ none ∧
      is_a_MPI_neighbor (vp.getD ip default) iDim ((s + 1) % 2) = true) := by
    rintro ⟨h1, h2⟩
    obtain ⟨nb, hnb⟩ := Option.ne_none_iff_exists'.mp h1
    have := (hc.near ip iDim ((s + 1) % 2) nb hip hd (by omega) hnb).1
    rw [this] at h2
    exact Bool.false_ne_true h2
  rw [if_neg hrecv]
  cases hnb : (vp.getD ip default).neighbor_ iDim s with
  | none => rfl
  | some nb =>
    have := (hc.near ip iDim s nb hip hd hs hnb).1
    simp only [this, Bool.false_eq_true, if_false]


theorem Colocated.back (params : Params) (W : List Patch) (hc : Colocated params W)
    (q d b ip : Nat) (hq : q < W.length) (hd : d < params.nDim_field) (hb : b < 2)
    (h : (W.getD q default).neighbor_ d b = some (h0 W + ip)) :
    ip < W.length ∧ (W.getD ip default).neighbor_ d ((b + 1) % 2) = some (h0 W + q) := by
  have h1 := hc.near q d b _ hq hd hb h
  have h2 := hc.sym q d b _ hq hd hb h
  have e : h0 W + ip - h0 W = ip := by omega
  rw [e] at h1 h2
  exact ⟨h1.2.2, h2⟩

/-- One iteration of `initCommParticles` of the patch `ip`, seen from the receive counts
of the patch `q`. -/
theorem initComm_neighbor_recv (params : Params) (d ip : Nat) (w : List Patch) (s : Nat)
    (hc : Colocated params w) (hip : ip < w.length) (hd : d < params.nDim_field) (hs : s < 2)
    (q a b : Nat) (hq : q < w.length) (hb : b < 2) :
    ((initComm_neighbor d ip w s).getD q default).patch_buff_index_recv_sz a b =
      if a = d ∧ b = (s + 1) % 2 ∧ (w.getD q default).neighbor_ d b = some (h0 w + ip) then
        (((w.getD ip default).patch_buff_index_send d s).length : Int)
      else (w.getD q default).patch_buff_index_recv_sz a b := by
  rw [initComm_neighbor_local params d ip w s hc hip hd hs]
  cases hnb : (w.getD ip default).neighbor_ d s with
  | none =>
    simp only
    rw [if_neg]
    rintro ⟨_, hb2, h3⟩
    have := (hc.back params w q d b ip hq hd hb h3).2
    rw [hb2] at this
    have e : ((s + 1) % 2 + 1) % 2 = s := by omega
    rw [e, hnb] at this
    exact Option.noConfusion this
  | some nb =>
    simp only
    have hnear := hc.near ip d s nb hip hd hs hnb
    have hsym := hc.sym ip d s nb hip hd hs hnb
    simp only [getD_modAt, modAt_length]
    by_cases hqn : nb - h0 w = q
    · subst hqn
      rw [if_pos ⟨rfl, hnear.2.2⟩]
      by_cases hipq : ip = nb - h0 w
      · rw [if_pos ⟨hipq, hip⟩]
        simp only [set_recv_sz, set_send_sz, upd2]
        rw [← hipq] at hsym ⊢
        by_cases hab : a = d ∧ b = (s + 1) % 2
        · rw [if_pos hab, if_pos ⟨hab.1, hab.2, by rw [hab.2]; exact hsym⟩]
        · rw [if_neg hab, if_neg (fun h => hab ⟨h.1, h.2.1⟩)]
      · rw [if_neg (fun h => hipq h.1)]
        simp only [set_recv_sz, upd2]
        by_cases hab : a = d ∧ b = (s + 1) % 2
        · rw [if_pos hab, if_pos ⟨hab.1, hab.2, by rw [hab.2]; exact hsym⟩]
        · rw [if_neg hab, if_neg (fun h => hab ⟨h.1, h.2.1⟩)]
    · rw [if_neg (fun h => hqn h.1)]
      have hne : ¬ (a = d ∧ b = (s + 1) % 2 ∧
          (w.getD q default).neighbor_ d b = some (h0 w + ip)) := by
        rintro ⟨_, hb2, h3⟩
        have := (hc.back params w q d b ip hq hd hb h3).2
        rw [hb2] at this
        have e : ((s + 1) % 2 + 1) % 2 = s := by omega
        rw [e, hnb] at this
        simp only [Option.some.injEq] at this
        omega
      rw [if_neg hne]
      by_cases hipq : ip = q
      · rw [if_pos ⟨hipq, hip⟩]; subst hipq; rfl
      · rw [if_neg (fun h => hipq h.1)]


theorem Comm_periodic_step_getI_ne (params : Params) (d s : Nat) (p : Patch) (a i : Int)
    (h : a ≠ i) :
    getI (Comm_periodic_step params d s p a).particles i = getI p.particles i := by
  unfold Comm_periodic_step
  split
  · exact getI_setI_ne _ _ _ _ h
  · split
    · exact getI_setI_ne _ _ _ _ h
    · rfl

theorem Comm_periodic_step_stable (params : Params) (d s : Nat) (p : Patch) (i : Int)
    (h0 : s = 0 → 0 ≤ position p.particles d i)
    (h1 : s = 1 → position p.particles d i < xmax params d) :
    Comm_periodic_step params d s p i = p := by
  unfold Comm_periodic_step
  rw [if_neg, if_neg]
  · rintro ⟨hs, _, hx⟩
    exact absurd hx (not_le.mpr (h1 hs))
  · rintro ⟨hs, _, hx⟩
    exact absurd hx (not_lt.mpr (h0 hs))

/-- The loop "Enabled periodicity" leaves alone a record whose coordinate needs no
correction on that side. -/
theorem Comm_periodic_fold_keep (params : Params) (d s : Nat) (l : List Int) (p : Patch)
    (i : Int)
    (h0 : s = 0 → 0 ≤ position p.particles d i)
    (h1 : s = 1 → position p.particles d i < xmax params d) :
    getI (l.foldl (Comm_periodic_step params d s) p).particles i = getI p.particles i := by
  induction l generalizing p with
  | nil => rfl
  | cons a l ih =>
    rw [List.foldl_cons]
    have hstep : getI (Comm_periodic_step params d s p a).particles i = getI p.particles i := by
      by_cases ha : a = i
      · subst ha
        rw [Comm_periodic_step_stable params d s p a h0 h1]
      · exact Comm_periodic_step_getI_ne params d s p a i ha
    have hpos : position (Comm_periodic_step params d s p a).particles d i =
        position p.particles d i := by
      unfold position; rw [hstep]
    rw [ih _ (by rw [hpos]; exact h0) (by rw [hpos]; exact h1), hstep]

theorem cp_particles_length (ps : List Particle) (send : List Int) (dest : List Particle) :
    (cp_particles ps send dest).length = dest.length + send.length := by
  unfold cp_particles
  induction send generalizing dest with
  | nil => simp
  | cons a l ih =>
    rw [List.foldl_cons, ih]
    simp [cp_particle]; omega

theorem cp_particles_eq (ps : List Particle) (send : List Int) (dest : List Particle) :
    cp_particles ps send dest = dest ++ send.map (getI ps) := by
  unfold cp_particles
  induction send generalizing dest with
  | nil => simp
  | cons a l ih =>
    rw [List.foldl_cons, ih]
    simp [cp_particle]

theorem xmax_double (params : Params) (k : Nat) : fl (xmax params k) = xmax params k := by
  unfold xmax
  exact fl_idem _

/-- C10 (amended): for a departed particle queued by `initExchParticles` on the periodic
axis `k` at the global boundary, with coordinate `x` before the exchange such that
`-L_k <= x < 0` (low-side exit from the patch with grid coordinate 0) or `L_k <= x < 2*L_k`
(high-side exit from the last patch, `x` being a value of type `double`), `L_k` being the
domain length the code computes: after the correction of `initExchParticles` followed by the
loop "Enabled periodicity" of `CommParticles` the coordinate has been corrected once, it is
the `double` nearest to `x + L_k`, respectively to `x - L_k`; on the low side it lies in
`[0, L_k]`; on the high side it is exactly `x - L_k` and lies in `[0, L_k)`; and the records
copied to the neighbor for the queued index carry that coordinate. -/
theorem periodic_correction_once (smpi : SmileiMPI) (params : Params) (p : Patch)
    (i : Int) (k s : Nat)
    (hnd : p.indexes_of_particles_to_exchange.Nodup)
    (hr : ∀ i ∈ p.indexes_of_particles_to_exchange, 0 ≤ i ∧ i < p.particles.length)
    (hb : ∀ j, p.min_local j ≤ p.max_local j)
    (hk : k < params.nDim_field) (hs : s < 2)
    (hdim : k < (getI p.particles i).position.length)
    (hq : i ∈ (initExchParticles smpi params p).patch_buff_index_send k s)
    (hper : smpi.periods_ k = 1)
    (hx : (s = 0 ∧ p.Pcoordinates k = 0 ∧
            -(xmax params k) ≤ position p.particles k i ∧ position p.particles k i < 0) ∨
          (s = 1 ∧ at_last_patch params p k ∧
            fl (position p.particles k i) = position p.particles k i ∧
            xmax params k ≤ position p.particles k i ∧
            position p.particles k i < 2 * xmax params k)) :
    position (Comm_periodic params k s (initExchParticles smpi params p)).particles k i =
        fl (position p.particles k i + (if s = 0 then xmax params k else -(xmax params k))) ∧
    0 ≤ position (Comm_periodic params k s (initExchParticles smpi params p)).particles k i ∧
    position (Comm_periodic params k s (initExchParticles smpi params p)).particles k i ≤
        xmax params k ∧
    (s = 1 →
      position (Comm_periodic params k s (initExchParticles smpi params p)).particles k i =
        position p.particles k i - xmax params k ∧
      position (Comm_periodic params k s (initExchParticles smpi params p)).particles k i <
        xmax params k) ∧
    (∀ j : Nat, ((initExchParticles smpi params p).patch_buff_index_send k s).getD j (-1) = i →
      position
        (cp_particles (Comm_periodic params k s (initExchParticles smpi params p)).particles
          ((initExchParticles smpi params p).patch_buff_index_send k s) []) k (j : Int) =
        fl (position p.particles k i +
          (if s = 0 then xmax params k else -(xmax params k)))) := by
  have hq0 := hq
  rw [initExchParticles_send_eq smpi params p k s hk hs hnd, List.mem_filter] at hq
  obtain ⟨hmem, hqo⟩ := hq
  have hqo : queued_on p params.nDim_field p.particles k s i := of_decide_eq_true hqo
  have hlv := (queued_on_iff p params.nDim_field p.particles k s i hb).mp hqo
  have hedge : at_edge smpi params p k s := by
    unfold at_edge
    rcases hx with ⟨h, h2, _⟩ | ⟨h, h2, _⟩
    · subst h; exact ⟨hper, by simpa using h2⟩
    · subst h; exact ⟨hper, by simpa using h2⟩
  have hget : getI (initExchParticles smpi params p).particles i =
      (getI p.particles i).shifted k (wrap params k s) := by
    rw [initExchParticles_getI smpi params p i hnd hr, if_pos hmem,
      corrected_of_leaves smpi params p _ k s hb hlv.1, if_pos ⟨hlv.2, hedge⟩]
  have hpos1 : position (initExchParticles smpi params p).particles k i =
      fl (position p.particles k i + wrap params k s) := by
    unfold position
    rw [hget, shifted_position_same _ _ _ hdim]
  have hwrap : wrap params k s = if s = 0 then xmax params k else -(xmax params k) := rfl
  have hL := xmax_double params k
  have hrange : 0 ≤ fl (position p.particles k i + wrap params k s) ∧
      fl (position p.particles k i + wrap params k s) ≤ xmax params k ∧
      (s = 1 → fl (position p.particles k i + wrap params k s) =
          position p.particles k i - xmax params k ∧
        fl (position p.particles k i + wrap params k s) < xmax params k) := by
    rcases hx with ⟨h, _, h3, h4⟩ | ⟨h, _, hd, h3, h4⟩
    · subst h
      simp only [wrap, if_true]
      refine ⟨fl_nonneg _ (by linarith), ?_, fun h => absurd h (by decide)⟩
      have := fl_mono (position p.particles k i + xmax params k) (xmax params k)
        (by linarith) (by linarith)
      rw [hL] at this
      exact this
    · subst h
      have hLpos : 0 < xmax params k := by linarith
      have he := fl_sub_exact (position p.particles k i) (xmax params k) hd hL hLpos h3
        (le_of_lt h4)
      have hw : wrap params k 1 = -(xmax params k) := rfl
      rw [hw, ← sub_eq_add_neg, he]
      exact ⟨by linarith, by linarith, fun _ => ⟨rfl, by linarith⟩⟩
  have hkeep : getI (Comm_periodic params k s (initExchParticles smpi params p)).particles i =
      getI (initExchParticles smpi params p).particles i := by
    unfold Comm_periodic
    apply Comm_periodic_fold_keep
    · intro _; rw [hpos1]; exact hrange.1
    · intro h; rw [hpos1]; exact (hrange.2.2 h).2
  have hpos2 : position (Comm_periodic params k s (initExchParticles smpi params p)).particles k i =
      fl (position p.particles k i + wrap params k s) := by
    rw [← hpos1]; unfold position; rw [hkeep]
  refine ⟨by rw [hpos2, hwrap], by rw [hpos2]; exact hrange.1, by rw [hpos2]; exact hrange.2.1,
    by rw [hpos2]; exact hrange.2.2, ?_⟩
  intro j hj
  rw [← hwrap, ← hpos2, cp_particles_eq]
  unfold position
  congr 2
  have hjlt : j < ((initExchParticles smpi params p).patch_buff_index_send k s).length := by
    by_contra hcon
    rw [List.getD_eq_default _ _ (by omega)] at hj
    have := (hr i hmem).1
    omega
  unfold getI
  rw [if_pos (by omega)]
  simp only [List.nil_append, Int.toNat_ofNat]
  rw [List.getD_eq_getElem _ _ (by simpa using hjlt)]
  simp only [List.getElem_map]
  rw [List.getD_eq_getElem _ _ hjlt] at hj
  rw [hj]


theorem initExchParticles_bins (smpi : SmileiMPI) (params : Params) (p : Patch) :
    (initExchParticles smpi params p).bmin = p.bmin ∧
    (initExchParticles smpi params p).bmax = p.bmax ∧
    (initExchParticles smpi params p).indexes_of_particles_to_exchange =
      p.indexes_of_particles_to_exchange := by
  rw [initExchParticles_frame]
  exact ⟨rfl, rfl, rfl⟩

theorem not_mem_liveSet (idx : List Int) (lo hi i : Int) (h : i ∈ idx) :
    i ∉ liveSet idx lo hi := by
  unfold liveSet
  simp [h]

/-- C7: a departed particle whose first violated axis `k` has no neighbor on the exit side
is queued by `initExchParticles` on no send list of any axis and side, its record is
unchanged, and its index is still in the departed list; so the compaction
(`cleanup_sent_particles`, on gapless bins and a strictly ascending in-range list) drops its
position: every bin then holds exactly the records of its positions that are not listed,
and the bins end at the record count minus the length of the list. -/
theorem initExchParticles_no_neighbor (smpi : SmileiMPI) (params : Params) (p : Patch)
    (i : Int) (k s : Nat)
    (hnd : p.indexes_of_particles_to_exchange.Nodup)
    (hr : ∀ i ∈ p.indexes_of_particles_to_exchange, 0 ≤ i ∧ i < p.particles.length)
    (hb : ∀ j, p.min_local j ≤ p.max_local j)
    (hi : i ∈ p.indexes_of_particles_to_exchange)
    (hlv : leaves_through p params.nDim_field (getI p.particles i) k s)
    (hnone : p.neighbor_ k s = none) :
    (∀ d t, d < params.nDim_field → t < 2 →
      i ∉ (initExchParticles smpi params p).patch_buff_index_send d t) ∧
    getI (initExchParticles smpi params p).particles i = getI p.particles i ∧
    i ∈ (initExchParticles smpi params p).indexes_of_particles_to_exchange ∧
    (p.indexes_of_particles_to_exchange.Pairwise (· < ·) →
      Gapless p.bmin p.bmax p.particles.length →
      (∀ x ∈ p.indexes_of_particles_to_exchange,
        p.bmin.getD 0 0 ≤ x ∧ x < p.bmax.getD (p.bmax.length - 1) 0) →
      (∀ j, j < p.bmax.length →
        recs (cleanup_sent_particles (initExchParticles smpi params p).indexes_of_particles_to_exchange
            (initExchParticles smpi params p).particles (initExchParticles smpi params p).bmin
            (initExchParticles smpi params p).bmax).1
          ((cleanup_sent_particles (initExchParticles smpi params p).indexes_of_particles_to_exchange
            (initExchParticles smpi params p).particles (initExchParticles smpi params p).bmin
            (initExchParticles smpi params p).bmax).2.1.getD j 0)
          ((cleanup_sent_particles (initExchParticles smpi params p).indexes_of_particles_to_exchange
            (initExchParticles smpi params p).particles (initExchParticles smpi params p).bmin
            (initExchParticles smpi params p).bmax).2.2.getD j 0) =
          pick (initExchParticles smpi params p).particles
            (liveSet p.indexes_of_particles_to_exchange (p.bmin.getD j 0) (p.bmax.getD j 0)) ∧
        i ∉ liveSet p.indexes_of_particles_to_exchange (p.bmin.getD j 0) (p.bmax.getD j 0)) ∧
      (cleanup_sent_particles (initExchParticles smpi params p).indexes_of_particles_to_exchange
            (initExchParticles smpi params p).particles (initExchParticles smpi params p).bmin
            (initExchParticles smpi params p).bmax).2.2.getD (p.bmax.length - 1) 0 =
        (p.particles.length : Int) - p.indexes_of_particles_to_exchange.length) := by
  obtain ⟨ebmin, ebmax, eidx⟩ := initExchParticles_bins smpi params p
  refine ⟨?_, ?_, ?_, ?_⟩
  · intro d t hd ht hmem
    rw [initExchParticles_send_eq smpi params p d t hd ht hnd, List.mem_filter] at hmem
    have hq : queued_on p params.nDim_field p.particles d t i := of_decide_eq_true hmem.2
    have h2 := (queued_on_iff p params.nDim_field p.particles d t i hb).mp hq
    obtain ⟨e1, e2⟩ := leaves_through_unique p params.nDim_field _ d t k s hb h2.1 hlv
    subst e1; subst e2
    exact h2.2 hnone
  · rw [initExchParticles_getI smpi params p i hnd hr, if_pos hi,
      corrected_of_leaves smpi params p _ k s hb hlv, if_neg]
    intro h
    exact h.1 hnone
  · rw [eidx]; exact hi
  · intro hs hg hin
    rw [ebmin, ebmax, eidx]
    have hg2 : Gapless p.bmin p.bmax (initExchParticles smpi params p).particles.length := by
      rw [initExchParticles_length]; exact hg
    have hc := cleanup_spec p.indexes_of_particles_to_exchange p.bmin p.bmax
      (initExchParticles smpi params p).particles hs hg2
    obtain ⟨_, _, _, hbmin, hbmax, hrec⟩ := hc
    refine ⟨fun j hj => ⟨?_, not_mem_liveSet _ _ _ _ hi⟩, ?_⟩
    · rw [hbmin j hj, hbmax j hj]
      exact hrec j hj
    · have hn := hg.nonempty
      rw [hbmax _ (by omega), compacted_all _ _ _ hin, hg.last]


theorem mem_recs (ps : List Particle) (a b j : Int) (h0 : a ≤ j) (h1 : j < b) :
    getI ps j ∈ recs ps a b := by
  unfold recs
  rw [Multiset.mem_coe, List.mem_map]
  refine ⟨(j - a).toNat, ?_, ?_⟩
  · rw [List.mem_range]; omega
  · congr 1; omega

theorem mem_pick (ps : List Particle) (S : Finset Int) (r : Particle) (h : r ∈ pick ps S) :
    ∃ j ∈ S, getI ps j = r := by
  unfold pick at h
  rw [Multiset.mem_map] at h
  obtain ⟨j, hj, e⟩ := h
  exact ⟨j, hj, e⟩

theorem mem_liveSet (idx : List Int) (lo hi j : Int) :
    j ∈ liveSet idx lo hi ↔ lo ≤ j ∧ j < hi ∧ j ∉ idx := by
  unfold liveSet
  simp [and_assoc]

theorem mem_arrivals_of (params : Params) (p : Patch) (rd : Nat → Nat) (m : Nat) (r : Particle)
    (h : r ∈ arrivals_of params p rd m) :
    ∃ a ∈ arrivals params p rd, a.2 = (m : Int) ∧ a.1 = r := by
  unfold arrivals_of at h
  rw [Multiset.mem_coe, List.mem_map] at h
  obtain ⟨a, ha, e⟩ := h
  rw [List.mem_filter] at ha
  exact ⟨a, ha.1, of_decide_eq_true ha.2, e⟩

theorem mem_axis0_arrivals (p : Patch) (s : Nat) (a : Particle × Int) :
    a ∈ axis0_arrivals p s ↔
      ∃ k : Nat, (k : Int) < p.patch_buff_index_recv_sz 0 s ∧
        a = (getI (p.patchVectorRecv 0 s) (k : Int), ((s * (p.bmax.length - 1) : Nat) : Int)) := by
  unfold axis0_arrivals
  rw [List.mem_map]
  constructor
  · rintro ⟨k, hk, e⟩
    rw [List.mem_range] at hk
    exact ⟨k, by omega, e.symm⟩
  · rintro ⟨k, hk, e⟩
    exact ⟨k, by rw [List.mem_range]; omega, e.symm⟩

/-- The bin that the code computes for a record depends on the record only. -/
theorem bin_of_congr (params : Params) (p : Patch) (buf buf' : List Particle) (j j' : Int)
    (h : getI buf j = getI buf' j') : bin_of params p buf j = bin_of params p buf' j' := by
  unfold bin_of position
  rw [h]

/-- C8 (amended): after `finalizeCommParticles` on the last axis (one or two axes), every
record stored in the bin `b` is a record for which the code computes the bin index `b`, that
is `int((x0 - min_local[0]) / dbin) == b` with the subtraction, the division and
`dbin = cell_length[0]*clrw` evaluated in the arithmetic of `double`, provided this held for
every non-departed record of the bin before, the departed list is strictly ascending, the
index computed for every record received on an axis `>= 1` is the index of a bin, the index
computed for the records received on axis 0 from the low side is `0` and the one computed
for those received from the high side is `nbins - 1` (gapless bins, receive counts equal to
the sizes of the receive buffers and zero without neighbor). -/
theorem finalizeCommParticles_bin_coordinates (smpi : SmileiMPI) (params : Params) (iDim : Nat)
    (p : Patch)
    (hd : params.nDim_field = 1 ∨ params.nDim_field = 2) (hi : iDim + 1 = params.nDim_field)
    (hg : Gapless p.bmin p.bmax p.particles.length)
    (hs : p.indexes_of_particles_to_exchange.Pairwise (· < ·))
    (hsz : ∀ d s, d < params.nDim_field → s < 2 →
      p.patch_buff_index_recv_sz d s = ((p.patchVectorRecv d s).length : Int))
    (hnb : ∀ d s, d < params.nDim_field → s < 2 →
      p.neighbor_ d s = none → p.patch_buff_index_recv_sz d s = 0)
    (hlive : ∀ b j, b < p.bmax.length → p.bmin.getD b 0 ≤ j → j < p.bmax.getD b 0 →
      j ∉ p.indexes_of_particles_to_exchange →
      bin_of params p p.particles j = (b : Int))
    (hbin : ∀ d s (k : Nat), 1 ≤ d → d < params.nDim_field → s < 2 →
      k < (p.patchVectorRecv d s).length →
      0 ≤ bin_of params p (p.patchVectorRecv d s) (k : Int) ∧
      bin_of params p (p.patchVectorRecv d s) (k : Int) < p.bmax.length)
    (hlow : ∀ k : Nat, k < (p.patchVectorRecv 0 0).length →
      bin_of params p (p.patchVectorRecv 0 0) (k : Int) = 0)
    (hhigh : ∀ k : Nat, k < (p.patchVectorRecv 0 1).length →
      bin_of params p (p.patchVectorRecv 0 1) (k : Int) = ((p.bmax.length - 1 : Nat) : Int)) :
    ∀ b j, b < p.bmax.length →
      (finalizeCommParticles smpi params iDim p).bmin.getD b 0 ≤ j →
      j < (finalizeCommParticles smpi params iDim p).bmax.getD b 0 →
      bin_of params p (finalizeCommParticles smpi params iDim p).particles j = (b : Int) := by
  intro b j hb hj0 hj1
  have hnd0 : 0 < params.nDim_field := by omega
  have hready := finalReady_of_bins params p hg hs hsz hnb hbin
  rw [finalizeCommParticles_last smpi params iDim p hi] at hj0 hj1 ⊢
  obtain ⟨_, _, _, _, _, hrec⟩ := finalize_last_spec params iDim p hready (by omega) hi
  have hmem := mem_recs (finalize_last params iDim p).particles _ _ j hj0 hj1
  rw [hrec b hb, Multiset.mem_add] at hmem
  rcases hmem with hmem | hmem
  · obtain ⟨j', hj', e⟩ := mem_pick _ _ _ hmem
    rw [mem_liveSet] at hj'
    rw [bin_of_congr params p _ p.particles j j' e.symm]
    exact hlive b j' hb hj'.1 hj'.2.1 hj'.2.2
  · obtain ⟨a, ha, hab, har⟩ := mem_arrivals_of _ _ _ _ _ hmem
    unfold arrivals at ha
    rw [List.mem_append, List.mem_append] at ha
    rcases ha with (ha | ha) | ha
    · rw [mem_axis0_arrivals] at ha
      obtain ⟨k, hk, e⟩ := ha
      rw [e] at hab har
      simp only at hab har
      have hb0 : b = 0 := by
        have : ((0 * (p.bmax.length - 1) : Nat) : Int) = (b : Int) := hab
        simp only [zero_mul] at this
        exact_mod_cast this.symm
      subst hb0
      rw [bin_of_congr params p _ (p.patchVectorRecv 0 0) j (k : Int) har.symm]
      exact hlow k (by have := hsz 0 0 hnd0 (by omega); omega)
    · rw [mem_axis0_arrivals] at ha
      obtain ⟨k, hk, e⟩ := ha
      rw [e] at hab har
      simp only at hab har
      have hb0 : ((p.bmax.length - 1 : Nat) : Int) = (b : Int) := by
        have : ((1 * (p.bmax.length - 1) : Nat) : Int) = (b : Int) := hab
        simpa only [one_mul] using this
      rw [bin_of_congr params p _ (p.patchVectorRecv 0 1) j (k : Int) har.symm, ← hb0]
      exact hhigh k (by have := hsz 0 1 hnd0 (by omega); omega)
    · rw [mem_later_arrivals] at ha
      obtain ⟨idim, h1, h2, s, hs2, k, hk, e⟩ := ha
      rw [e] at hab har
      simp only [id] at hab har
      rw [bin_of_congr params p _ (p.patchVectorRecv idim s) j (k : Int) har.symm]
      exact hab


/-! ## The statements on the concrete chain of patches -/

theorem pushedPatch_bounds (j : Nat) : pushedPatch.min_local j ≤ pushedPatch.max_local j := by
  show (10 * ((0 : Nat) : ℚ)) ≤ 10 * ((0 : Nat) : ℚ) + 10
  norm_num

theorem pushedPatch_leaves_low :
    leaves_through pushedPatch params1.nDim_field (getI pushedPatch.particles 1) 0 0 :=
  ⟨by decide, fun j hj => absurd hj (Nat.not_lt_zero j), Or.inl ⟨rfl, by decide!⟩⟩

theorem arrivalPatch_gapless :
    Gapless arrivalPatch.bmin arrivalPatch.bmax arrivalPatch.particles.length :=
  ⟨rfl, by decide, by decide, fun j hj => by
      have hj2 : j < 2 := hj
      interval_cases j <;> decide,
    fun j hj => by
      have hj2 : j + 1 < 2 := hj
      have hj0 : j = 0 := by omega
      subst hj0; decide,
    by decide⟩

theorem arrivalPatch_sizes (d s : Nat) (hd : d < params1.nDim_field) (hs : s < 2) :
    arrivalPatch.patch_buff_index_recv_sz d s = ((arrivalPatch.patchVectorRecv d s).length : Int) := by
  have hd1 : d < 1 := hd
  interval_cases d; interval_cases s <;> decide

theorem arrivalPatch_no_neighbor (d s : Nat) (hd : d < params1.nDim_field) (hs : s < 2)
    (h : arrivalPatch.neighbor_ d s = none) : arrivalPatch.patch_buff_index_recv_sz d s = 0 := by
  have hd1 : d < 1 := hd
  interval_cases d; interval_cases s <;> revert h <;> decide

theorem arrivalPatch_later (d s : Nat) (k : Nat) (h1 : 1 ≤ d) (hd : d < params1.nDim_field)
    (_hs : s < 2) (_hk : k < (arrivalPatch.patchVectorRecv d s).length) :
    0 ≤ bin_of params1 arrivalPatch (arrivalPatch.patchVectorRecv d s) (k : Int) ∧
    bin_of params1 arrivalPatch (arrivalPatch.patchVectorRecv d s) (k : Int) <
      arrivalPatch.bmax.length := by
  have hd1 : d < 1 := hd
  omega

theorem dbin_params1 : dbin params1 = 5 := by
  decide!

/-- Witness of C3 on the first patch of the chain. -/
theorem initExchParticles_send_lists_witness :
    pushedPatch.indexes_of_particles_to_exchange.Nodup ∧
    (∀ k s i, k < params1.nDim_field → s < 2 →
      (i ∈ (initExchParticles smpiPeriodic params1 pushedPatch).patch_buff_index_send k s ↔
        i ∈ pushedPatch.indexes_of_particles_to_exchange ∧
        leaves_through pushedPatch params1.nDim_field (getI pushedPatch.particles i) k s ∧
        pushedPatch.neighbor_ k s ≠ none)) :=
  ⟨by decide, (initExchParticles_send_lists smpiPeriodic params1 pushedPatch (by decide)
    (by decide) pushedPatch_bounds).1⟩

/-- Witness of C6: the record 1 of the first patch leaves through the periodic low edge. -/
theorem initExchParticles_periodic_correction_witness :
    leaves_through pushedPatch params1.nDim_field (getI pushedPatch.particles 1) 0 0 ∧
    position (initExchParticles smpiPeriodic params1 pushedPatch).particles 0 1 =
      fl (position pushedPatch.particles 0 1 +
        fl (params1.cell_length 0 * (params1.n_space_global 0 : ℚ))) :=
  ⟨pushedPatch_leaves_low,
    ((initExchParticles_periodic_correction smpiPeriodic params1 pushedPatch (by decide)
      (by decide) pushedPatch_bounds (by decide)).1 1 (by decide) 0 0 pushedPatch_leaves_low).1
      rfl (by decide) rfl rfl⟩

theorem tinyPatch_leaves_low :
    leaves_through tinyPatch params1.nDim_field (getI tinyPatch.particles 1) 0 0 :=
  ⟨by decide, fun j hj => absurd hj (Nat.not_lt_zero j), Or.inl ⟨rfl, by decide!⟩⟩

theorem lastPatch37_leaves_high (i : Int) (hi : i = 1 ∨ i = 2) :
    leaves_through lastPatch37 params37.nDim_field (getI lastPatch37.particles i) 0 1 := by
  rcases hi with rfl | rfl
  · exact ⟨by decide, fun j hj => absurd hj (Nat.not_lt_zero j), Or.inr ⟨rfl, by decide!⟩⟩
  · exact ⟨by decide, fun j hj => absurd hj (Nat.not_lt_zero j), Or.inr ⟨rfl, by decide!⟩⟩

/-- C6, as stated, fails on both sides. On the first patch of the periodic chain the
departed record at the index 1, at `-2^-60`, leaves first through the low side of the
axis 0, which is periodic and has a neighbor, and the patch has the grid coordinate 0;
`L_0 = 1 * 40 = 40` and the sum `-2^-60 + 40` is not a value of type `double`: the
coordinate that `initExchParticles` stores is `40`, which is not `original + L_0`. On the
last patch of a periodic grid with cells of length `0.37` (the `double`) and 60 cells along
the axis 0, the departed record at the index 1, at `64.5`, leaves first through the high
side of the axis 0: the product `cell_length[0] * n_space_global[0]` is not a value of type
`double`, nor is the difference, and the coordinate stored is neither `original - L_0` for
the real product `L_0` nor for the product evaluated in `double`. -/
theorem periodic_correction_rounds :
    ((1 : Int) ∈ tinyPatch.indexes_of_particles_to_exchange ∧
      leaves_through tinyPatch params1.nDim_field (getI tinyPatch.particles 1) 0 0 ∧
      smpiPeriodic.periods_ 0 = 1 ∧ tinyPatch.neighbor_ 0 0 ≠ none ∧
      tinyPatch.Pcoordinates 0 = 0 ∧
      position tinyPatch.particles 0 1 = -(1 / 2 ^ 60) ∧
      params1.cell_length 0 * (params1.n_space_global 0 : ℚ) = 40 ∧
      position (initExchParticles smpiPeriodic params1 tinyPatch).particles 0 1 = 40 ∧
      position (initExchParticles smpiPeriodic params1 tinyPatch).particles 0 1 ≠
        position tinyPatch.particles 0 1 +
          params1.cell_length 0 * (params1.n_space_global 0 : ℚ)) ∧
    ((1 : Int) ∈ lastPatch37.indexes_of_particles_to_exchange ∧
      leaves_through lastPatch37 params37.nDim_field (getI lastPatch37.particles 1) 0 1 ∧
      smpiPeriodic.periods_ 0 = 1 ∧ lastPatch37.neighbor_ 0 1 ≠ none ∧
      (lastPatch37.Pcoordinates 0 : Int) = (params37.number_of_patches 0 : Int) - 1 ∧
      position lastPatch37.particles 0 1 = 129 / 2 ∧
      position (initExchParticles smpiPeriodic params37 lastPatch37).particles 0 1 ≠
        position lastPatch37.particles 0 1 -
          params37.cell_length 0 * (params37.n_space_global 0 : ℚ) ∧
      position (initExchParticles smpiPeriodic params37 lastPatch37).particles 0 1 ≠
        position lastPatch37.particles 0 1 -
          fl (params37.cell_length 0 * (params37.n_space_global 0 : ℚ))) :=
  ⟨⟨by decide, tinyPatch_leaves_low, rfl, by decide, rfl, by decide!, by decide!, by decide!,
      by decide!⟩,
    ⟨by decide, lastPatch37_leaves_high 1 (Or.inl rfl), rfl, by decide, by decide, by decide!,
      by decide!, by decide!⟩⟩

/-- C10, as stated, fails. On the first patch of the periodic chain (grid coordinate 0,
`min_local[0] = 0`) the record at the index 1, at `x = -2^-60` with `-L_0 <= x < 0`,
`L_0 = 40`, is queued on the low side of the axis 0; after the correction of
`initExchParticles` and the loop "Enabled periodicity" of `CommParticles` its coordinate,
and the coordinate of the copy made for the neighbor, is `40 = L_0`: it is not `x + L_0` and
it is not in `[0, L_0)`. On the last patch of a periodic grid with cells of length `0.37`
(the `double`) and 60 cells along the axis 0, the record at the index 2, at `x = 30` with
`L_0 <= x < 2*L_0` for the real product `L_0 = cell_length[0] * n_space_global[0]` and for
the product evaluated in `double`, is queued on the high side; its coordinate at the end is
`x` minus the product evaluated in `double`, which is not `x - L_0` for the real product. -/
theorem periodic_correction_reaches_length :
    ((1 : Int) ∈ (initExchParticles smpiPeriodic params1 tinyPatch).patch_buff_index_send 0 0 ∧
      smpiPeriodic.periods_ 0 = 1 ∧ tinyPatch.Pcoordinates 0 = 0 ∧ tinyPatch.min_local 0 = 0 ∧
      params1.cell_length 0 * (params1.n_space_global 0 : ℚ) = 40 ∧
      -(40 : ℚ) ≤ position tinyPatch.particles 0 1 ∧ position tinyPatch.particles 0 1 < 0 ∧
      position (Comm_periodic params1 0 0
        (initExchParticles smpiPeriodic params1 tinyPatch)).particles 0 1 = 40 ∧
      position (Comm_periodic params1 0 0
        (initExchParticles smpiPeriodic params1 tinyPatch)).particles 0 1 ≠
          position tinyPatch.particles 0 1 + 40 ∧
      position
        (cp_particles
          (Comm_periodic params1 0 0 (initExchParticles smpiPeriodic params1 tinyPatch)).particles
          ((initExchParticles smpiPeriodic params1 tinyPatch).patch_buff_index_send 0 0) [])
        0 0 = 40) ∧
    ((2 : Int) ∈ (initExchParticles smpiPeriodic params37 lastPatch37).patch_buff_index_send 0 1 ∧
      smpiPeriodic.periods_ 0 = 1 ∧
      (lastPatch37.Pcoordinates 0 : Int) = (params37.number_of_patches 0 : Int) - 1 ∧
      position lastPatch37.particles 0 2 = 30 ∧
      params37.cell_length 0 * (params37.n_space_global 0 : ℚ) ≤ 30 ∧
      (30 : ℚ) < 2 * (params37.cell_length 0 * (params37.n_space_global 0 : ℚ)) ∧
      xmax params37 0 ≤ 30 ∧ (30 : ℚ) < 2 * xmax params37 0 ∧
      position (Comm_periodic params37 0 1
        (initExchParticles smpiPeriodic params37 lastPatch37)).particles 0 2 =
          30 - xmax params37 0 ∧
      position (Comm_periodic params37 0 1
        (initExchParticles smpiPeriodic params37 lastPatch37)).particles 0 2 ≠
          30 - params37.cell_length 0 * (params37.n_space_global 0 : ℚ)) :=
  ⟨⟨by decide!, rfl, rfl, by decide!, by decide!, by decide!, by decide!, by decide!,
      by decide!, by decide!⟩,
    ⟨by decide!, rfl, by decide, by decide!, by decide!, by decide!, by decide!, by decide!,
      by decide!, by decide!⟩⟩

/-- Witness of C7: the record 1 of the first patch of an open chain. -/
theorem initExchParticles_no_neighbor_witness :
    edgePatch.neighbor_ 0 0 = none ∧
    (∀ d t, d < params1.nDim_field → t < 2 →
      (1 : Int) ∉ (initExchParticles smpiOpen params1 edgePatch).patch_buff_index_send d t) :=
  ⟨rfl, (initExchParticles_no_neighbor smpiOpen params1 edgePatch 1 0 0 (by decide) (by decide)
    pushedPatch_bounds (by decide) pushedPatch_leaves_low rfl).1⟩

/-- Witness of C10: the record 1 of the first patch, at `-1/2`, is sent with `39 + 1/2`. -/
theorem periodic_correction_once_witness :
    (1 : Int) ∈ (initExchParticles smpiPeriodic params1 pushedPatch).patch_buff_index_send 0 0 ∧
    position (Comm_periodic params1 0 0 (initExchParticles smpiPeriodic params1 pushedPatch)).particles
        0 1 =
      fl (position pushedPatch.particles 0 1 +
        (if (0 : Nat) = 0 then xmax params1 0 else -(xmax params1 0))) :=
  ⟨by decide!,
    (periodic_correction_once smpiPeriodic params1 pushedPatch 1 0 0 (by decide) (by decide)
      pushedPatch_bounds (by decide) (by decide) (by decide) (by decide!) rfl
      (Or.inl ⟨rfl, rfl, by decide!, by decide!⟩)).1⟩

/-- The cell lengths of the concrete inputs are the values of type `double` of the decimal
literals `0.37` and `0.97`. -/
theorem cell_lengths_double : fl (37 / 100) = cell37 ∧ fl (97 / 100) = cell97 :=
  ⟨by decide!, by decide!⟩

theorem lastUlpPatch_gapless :
    Gapless lastUlpPatch.bmin lastUlpPatch.bmax lastUlpPatch.particles.length :=
  ⟨rfl, by decide, by decide, fun j hj => by
      have hj2 : j < 5 := hj
      interval_cases j <;> decide,
    fun j hj => by
      have hj2 : j + 1 < 5 := hj
      have hj4 : j < 4 := by omega
      interval_cases j <;> decide,
    by decide⟩

/-- C1 at a patch on which the code leaves the vectors: with two axes, cells of length
`0.37`, bins of 3 cells and 5 bins on `[0, 5.55)`, gapless bins ending at the record count,
an empty departed list and one record received on the axis 1 whose axis-0 coordinate is the
largest `double` below `max_local[0]`, so inside `[min_local[0], max_local[0])`, the quotient
`(x0 - min_local[0]) / dbin` evaluated in `double` is `5.0` and the bin index of the record
is `5`, the number of bins: `shift[ii+1]` and `(*cubmax)[ii]` are outside the vectors `shift`
(6 entries) and `bmax` (5 entries). -/
theorem bin_index_past_last_bin :
    params37.nDim_field = 2 ∧
    Gapless lastUlpPatch.bmin lastUlpPatch.bmax lastUlpPatch.particles.length ∧
    lastUlpPatch.indexes_of_particles_to_exchange = [] ∧
    lastUlpPatch.neighbor_ 1 0 ≠ none ∧
    lastUlpPatch.patch_buff_index_recv_sz 1 0 = 1 ∧
    (lastUlpPatch.patchVectorRecv 1 0).length = 1 ∧
    lastUlpPatch.max_local 0 =
      fl (lastUlpPatch.min_local 0 + fl (15 * params37.cell_length 0)) ∧
    fl (position (lastUlpPatch.patchVectorRecv 1 0) 0 0) =
      position (lastUlpPatch.patchVectorRecv 1 0) 0 0 ∧
    lastUlpPatch.min_local 0 ≤ position (lastUlpPatch.patchVectorRecv 1 0) 0 0 ∧
    position (lastUlpPatch.patchVectorRecv 1 0) 0 0 < lastUlpPatch.max_local 0 ∧
    lastUlpPatch.bmax.length = 5 ∧
    (List.replicate (lastUlpPatch.bmax.length + 1) (0 : Int)).length = 6 ∧
    fl (fl (position (lastUlpPatch.patchVectorRecv 1 0) 0 0 - lastUlpPatch.min_local 0) /
      dbin params37) = 5 ∧
    bin_of params37 lastUlpPatch (lastUlpPatch.patchVectorRecv 1 0) 0 = 5 :=
  ⟨rfl, lastUlpPatch_gapless, rfl, by decide, rfl, rfl, by decide!, by decide!, by decide!,
    by decide!, rfl, rfl, by decide!, by decide!⟩

/-- The post-condition of C1 on the first patch of the chain with one arrival. -/
theorem finalizeCommParticles_bins_gapless_witness :
    Gapless arrivalPatch.bmin arrivalPatch.bmax arrivalPatch.particles.length ∧
    ((finalizeCommParticles smpiPeriodic params1 0 arrivalPatch).particles.length : Int) =
      (finalizeCommParticles smpiPeriodic params1 0 arrivalPatch).bmax.getD
        (arrivalPatch.bmax.length - 1) 0 :=
  ⟨arrivalPatch_gapless,
    (finalizeCommParticles_bins_gapless smpiPeriodic params1 0 arrivalPatch (Or.inl rfl) rfl
      arrivalPatch_gapless (by decide) (by decide) arrivalPatch_sizes arrivalPatch_no_neighbor
      arrivalPatch_later).2.2.2.2.2⟩

theorem arrivalPatch_live (b : Nat) (j : Int) (hb : b < arrivalPatch.bmax.length)
    (h0 : arrivalPatch.bmin.getD b 0 ≤ j) (h1 : j < arrivalPatch.bmax.getD b 0)
    (hj : j ∉ arrivalPatch.indexes_of_particles_to_exchange) :
    bin_of params1 arrivalPatch arrivalPatch.particles j = (b : Int) := by
  have hb2 : b < 2 := hb
  interval_cases b
  · have h0' : (0 : Int) ≤ j := h0
    have h1' : j < 2 := h1
    interval_cases j
    · decide!
    · exact absurd (by decide) hj
  · have h0' : (2 : Int) ≤ j := h0
    have h1' : j < 3 := h1
    interval_cases j
    decide!

theorem arrivalPatch_low (k : Nat) (hk : k < (arrivalPatch.patchVectorRecv 0 0).length) :
    bin_of params1 arrivalPatch (arrivalPatch.patchVectorRecv 0 0) (k : Int) = 0 := by
  have hk1 : k < 1 := hk
  interval_cases k
  decide!

theorem arrivalPatch_high (k : Nat) (hk : k < (arrivalPatch.patchVectorRecv 0 1).length) :
    bin_of params1 arrivalPatch (arrivalPatch.patchVectorRecv 0 1) (k : Int) =
      ((arrivalPatch.bmax.length - 1 : Nat) : Int) := by
  have hk1 : k < 0 := hk
  omega

/-- C8, as stated, fails. With two axes, cells of length `0.97` (the `double`), bins of 8
cells (`dbin = 7.76`, an exact product) and 16 bins on `[0, 124.16)`: the record kept in the
first bin is in the slice of that bin, the departed list is empty, and one record is
received on the axis 1 with the axis-0 coordinate `x0`, the `double` product `5 * dbin`,
which is inside the local bounds and below the real product `5 * dbin`; the quotient
`(x0 - min_local[0]) / dbin` evaluated in `double` is `5.0` and the record is stored in the
bin 5, `[1, 2)`, although `x0 < min_local[0] + 5 * dbin`. And for three axes (the claim
names no number of axes; the loops of the function are written for any number, but the
constructor of `Patch` sizes `Pcoordinates` for two axes): on a patch with two bins of one
record each, every record in the slice of its bin and every received record inside the local
bounds, the record of coordinate `7` received on the axis 1 is stored in the bin 0, `[0, 3)`,
whose slice is `[0, 5)`. -/
theorem arrival_outside_slice :
    (params97.nDim_field = 2 ∧
      dbin params97 = params97.cell_length 0 * (params97.clrw : ℚ) ∧
      roundedArrivalPatch.indexes_of_particles_to_exchange = [] ∧
      roundedArrivalPatch.particles.length = 1 ∧
      roundedArrivalPatch.bmin.getD 0 0 = 0 ∧ roundedArrivalPatch.bmax.getD 0 0 = 1 ∧
      roundedArrivalPatch.min_local 0 ≤ position roundedArrivalPatch.particles 0 0 ∧
      position roundedArrivalPatch.particles 0 0 < roundedArrivalPatch.min_local 0 + dbin params97 ∧
      roundedArrivalPatch.patch_buff_index_recv_sz 1 0 = 1 ∧
      position (roundedArrivalPatch.patchVectorRecv 1 0) 0 0 = fl (5 * dbin params97) ∧
      roundedArrivalPatch.min_local 0 ≤ position (roundedArrivalPatch.patchVectorRecv 1 0) 0 0 ∧
      position (roundedArrivalPatch.patchVectorRecv 1 0) 0 0 < roundedArrivalPatch.max_local 0 ∧
      (finalizeCommParticles smpiPeriodic params97 1 roundedArrivalPatch).bmin.getD 5 0 = 1 ∧
      (finalizeCommParticles smpiPeriodic params97 1 roundedArrivalPatch).bmax.getD 5 0 = 2 ∧
      getI (finalizeCommParticles smpiPeriodic params97 1 roundedArrivalPatch).particles 1 =
        getI (roundedArrivalPatch.patchVectorRecv 1 0) 0 ∧
      position (finalizeCommParticles smpiPeriodic params97 1 roundedArrivalPatch).particles 0 1 <
        roundedArrivalPatch.min_local 0 + 5 * dbin params97) ∧
    (params3.nDim_field = 3 ∧ dbin params3 = 5 ∧ cubePatch.min_local 0 = 0 ∧
      cubePatch.max_local 0 = 10 ∧
      position cubePatch.particles 0 0 = 1 ∧ position cubePatch.particles 0 1 = 6 ∧
      cubePatch.bmin = [0, 1] ∧ cubePatch.bmax = [1, 2] ∧
      cubePatch.indexes_of_particles_to_exchange = [] ∧
      position (cubePatch.patchVectorRecv 1 0) 0 0 = 7 ∧
      position (cubePatch.patchVectorRecv 2 0) 0 0 = 1 ∧
      (finalizeCommParticles smpiOpen params3 2 cubePatch).bmin.getD 0 0 = 0 ∧
      (finalizeCommParticles smpiOpen params3 2 cubePatch).bmax.getD 0 0 = 3 ∧
      position (finalizeCommParticles smpiOpen params3 2 cubePatch).particles 0 1 = 7) :=
  ⟨⟨rfl, by decide!, rfl, rfl, rfl, rfl, by decide!, by decide!, rfl, by decide!, by decide!,
      by decide!, by decide!, by decide!, by decide!, by decide!⟩,
    ⟨rfl, by decide!, by decide!, by decide!, by decide!, by decide!, rfl, rfl, rfl, by decide!,
      by decide!, by decide!, by decide!, by decide!⟩⟩

/-- Witness of C8 on the first patch of the chain with one arrival: for the record at the
index 1 of the store, in the first bin, the code computes the bin index 0. -/
theorem finalizeCommParticles_bin_coordinates_witness :
    (finalizeCommParticles smpiPeriodic params1 0 arrivalPatch).bmin.getD 0 0 ≤ 1 ∧
    bin_of params1 arrivalPatch
      (finalizeCommParticles smpiPeriodic params1 0 arrivalPatch).particles 1 = ((0 : Nat) : Int) :=
  ⟨by decide!,
    finalizeCommParticles_bin_coordinates smpiPeriodic params1 0 arrivalPatch (Or.inl rfl) rfl
      arrivalPatch_gapless (by decide) arrivalPatch_sizes arrivalPatch_no_neighbor
      arrivalPatch_live arrivalPatch_later arrivalPatch_low arrivalPatch_high 0 1 (by decide)
      (by decide!) (by decide!)⟩

/-! ## `cleanup_sent_particles`: the statements on the bins -/

/-- C11: for a store with gapless bins and a strictly ascending departed list of indexes in
`[bmin[0], bmax of the last bin)`, after `cleanup_sent_particles` the bin `i` holds exactly
the multiset of the records that were in the bin `i` and whose index is not listed, its
size has dropped by the number of listed indexes in `[bmin[i], bmax[i])`, `bmin[0]` is
unchanged, `bmin[i+1] == bmax[i]` for adjacent bins, and `bmax` of the last bin is its old
value minus the length of the list. -/
theorem cleanup_sent_particles_bins (idx bmin bmax : List Int) (ps : List Particle)
    (hs : idx.Pairwise (· < ·)) (hg : Gapless bmin bmax ps.length)
    (hin : ∀ i ∈ idx, bmin.getD 0 0 ≤ i ∧ i < bmax.getD (bmax.length - 1) 0) :
    (∀ j, j < bmax.length →
      recs (cleanup_sent_particles idx ps bmin bmax).1
        ((cleanup_sent_particles idx ps bmin bmax).2.1.getD j 0)
        ((cleanup_sent_particles idx ps bmin bmax).2.2.getD j 0) =
      pick ps (liveSet idx (bmin.getD j 0) (bmax.getD j 0))) ∧
    (∀ j, j < bmax.length →
      (cleanup_sent_particles idx ps bmin bmax).2.2.getD j 0 -
        (cleanup_sent_particles idx ps bmin bmax).2.1.getD j 0 =
      (bmax.getD j 0 - bmin.getD j 0) -
        ((inBin idx (bmin.getD j 0) (bmax.getD j 0)).length : Int)) ∧
    (cleanup_sent_particles idx ps bmin bmax).2.1.getD 0 0 = bmin.getD 0 0 ∧
    (∀ j, j + 1 < bmax.length →
      (cleanup_sent_particles idx ps bmin bmax).2.1.getD (j + 1) 0 =
        (cleanup_sent_particles idx ps bmin bmax).2.2.getD j 0) ∧
    (cleanup_sent_particles idx ps bmin bmax).2.2.getD (bmax.length - 1) 0 =
      bmax.getD (bmax.length - 1) 0 - (idx.length : Int) := by
  obtain ⟨_, _, hl, hbmin, hbmax, hrec⟩ := cleanup_spec idx bmin bmax ps hs hg
  obtain ⟨hg2, hfirst⟩ := cleanup_gapless idx bmin bmax ps hs hg
  have hsep := hg.toSep
  have hn := hg.nonempty
  refine ⟨?_, ?_, hfirst, ?_, ?_⟩
  · intro j hj
    rw [hbmin j hj, hbmax j hj]
    exact hrec j hj
  · intro j hj
    rw [hbmin j hj, hbmax j hj]
    exact compacted_diff idx _ _ _ (hsep.bmin_mono 0 j (Nat.zero_le _) hj) (hg.ordered j hj)
  · intro j hj
    have := hg2.chain j (by rw [hl]; exact hj)
    exact this.symm
  · rw [hbmax _ (by omega), compacted_all _ _ _ hin]

/-- Witness of C11: the indexes 1 and 3 removed from a store of two bins. -/
theorem cleanup_sent_particles_bins_witness :
    Gapless [0, 3] [3, 5] store5.length ∧
    (cleanup_sent_particles [1, 3] store5 [0, 3] [3, 5]).2.2.getD (([3, 5] : List Int).length - 1) 0 =
      ([3, 5] : List Int).getD (([3, 5] : List Int).length - 1) 0 -
        ((([1, 3] : List Int).length : Nat) : Int) :=
  have hg : Gapless [0, 3] [3, 5] store5.length :=
    ⟨rfl, by decide, by decide,
      fun j hj => by
        have hj2 : j < 2 := hj
        interval_cases j <;> decide,
      fun j hj => by
        have hj2 : j + 1 < 2 := hj
        have hj0 : j = 0 := by omega
        subst hj0; decide,
      by decide⟩
  ⟨hg, (cleanup_sent_particles_bins [1, 3] [0, 3] [3, 5] store5 (by decide) hg (by decide)).2.2.2.2⟩

/-- C20: the ascending order of the departed list is necessary for
`cleanup_sent_particles`: on the store of one bin `[0, 4)` (gapless) with the list `[3, 0]`
of distinct in-range indexes, not ascending, the bin keeps three records instead of two
and the listed record 3 is still in the bin (at the index 0). -/
theorem cleanup_sent_particles_needs_ascending :
    Gapless [0] [4] store4.length ∧ ([3, 0] : List Int).Nodup ∧
    (∀ i ∈ ([3, 0] : List Int), (0 : Int) ≤ i ∧ i < 4) ∧
    ¬ ([3, 0] : List Int).Pairwise (· < ·) ∧
    (cleanup_sent_particles [3, 0] store4 [0] [4]).2.1 = [0] ∧
    (cleanup_sent_particles [3, 0] store4 [0] [4]).2.2 = [3] ∧
    getI (cleanup_sent_particles [3, 0] store4 [0] [4]).1 0 = getI store4 3 ∧
    recs (cleanup_sent_particles [3, 0] store4 [0] [4]).1 0 3 =
      Multiset.ofList [getI store4 3, getI store4 1, getI store4 2] :=
  ⟨⟨rfl, by decide, by decide,
      fun j hj => by
        have hj2 : j < 1 := hj
        interval_cases j; decide,
      fun j hj => by
        have hj2 : j + 1 < 1 := hj
        omega,
      by decide⟩,
    by decide, by decide, by decide, by decide!, by decide!, by decide!, by decide!⟩

/-! ## The array `shift` -/

theorem sum_count_range (L : List Int) (n : Nat) (h : ∀ b ∈ L, 0 ≤ b ∧ b < n) :
    ∑ m ∈ Finset.range n, ((L.count (m : Int) : Nat) : Int) = (L.length : Int) := by
  induction L with
  | nil => simp
  | cons b L ih =>
    have hb := h b (List.mem_cons_self _ _)
    have ih2 := ih (fun c hc => h c (List.mem_cons_of_mem _ hc))
    have hstep : ∀ m ∈ Finset.range n, (((b :: L).count (m : Int) : Nat) : Int) =
        ((L.count (m : Int) : Nat) : Int) + (if m = b.toNat then 1 else 0) := by
      intro m _
      rw [List.count_cons]
      by_cases hm : m = b.toNat
      · have : (b == (m : Int)) = true := by
          rw [beq_iff_eq]; omega
        rw [this, if_pos hm]; simp
      · have : (b == (m : Int)) = false := by
          rw [beq_eq_false_iff_ne]; omega
        rw [this, if_neg hm]; simp
    rw [Finset.sum_congr rfl hstep, Finset.sum_add_distrib, ih2,
      Finset.sum_ite_eq' (Finset.range n) b.toNat (fun _ => (1 : Int)),
      if_pos (by rw [Finset.mem_range]; omega)]
    simp

theorem shift_sum_total (params : Params) (p : Patch)
    (hb : ∀ a ∈ arrivals params p id, 0 ≤ a.2 ∧ a.2 < p.bmax.length) :
    shift_sum params p p.bmax.length = ((arrivals params p id).length : Int) := by
  unfold shift_sum arrivals_to
  rw [sum_count_range ((arrivals params p id).map Prod.snd) p.bmax.length, List.length_map]
  intro b hb2
  rw [List.mem_map] at hb2
  obtain ⟨a, ha, rfl⟩ := hb2
  exact hb a ha

theorem list_sum_range_map (f : Nat → Nat) (n : Nat) :
    ((List.range n).map f).sum = ∑ d ∈ Finset.range n, f d := by
  induction n with
  | zero => simp
  | succ k ih => rw [List.sum_range_succ, Finset.sum_range_succ, ih]

theorem later_arrivals_length (params : Params) (p : Patch) (rd : Nat → Nat) :
    (later_arrivals params p rd).length =
      ∑ d ∈ Finset.range (params.nDim_field - 1), ∑ s ∈ Finset.range 2,
        (p.patch_buff_index_recv_sz (d + 1) s).toNat := by
  unfold later_arrivals
  rw [List.length_flatMap]
  have htail : (List.range params.nDim_field).tail =
      (List.range (params.nDim_field - 1)).map (· + 1) := by
    cases params.nDim_field with
    | zero => rfl
    | succ k => rw [List.range_succ_eq_map]; rfl
  rw [htail, List.map_map, list_sum_range_map]
  apply Finset.sum_congr rfl
  intro d _
  simp only [Function.comp, nbNeighbors_]
  rw [List.length_flatMap, list_sum_range_map]
  apply Finset.sum_congr rfl
  intro s _
  simp

/-- The number of received records: the receive counts of all axes and sides. -/
theorem arrivals_length (params : Params) (p : Patch) (rd : Nat → Nat)
    (hn : 0 < params.nDim_field) :
    (arrivals params p rd).length =
      ∑ d ∈ Finset.range params.nDim_field, ∑ s ∈ Finset.range 2,
        (p.patch_buff_index_recv_sz d s).toNat := by
  obtain ⟨k, hk⟩ : ∃ k, params.nDim_field = k + 1 := ⟨params.nDim_field - 1, by omega⟩
  unfold arrivals
  rw [List.length_append, List.length_append, later_arrivals_length, hk, Finset.sum_range_succ']
  simp only [axis0_arrivals, List.length_map, List.length_range, Nat.add_sub_cancel]
  rw [Finset.sum_range_succ, Finset.sum_range_one]
  omega

/-- C16, as stated, fails. A record received on the axis 1 whose axis-0 coordinate is one
bin and a half below `min_local[0]` is counted in `shift[0]`, which is `1` after the prefix
sum. And with cells of length `0.97` (the `double`), bins of 8 cells and 16 bins, a record
received on the axis 1 with the axis-0 coordinate `x0 = 5*dbin` evaluated in `double`, which
is below the real product, has `floor((x0 - min_local[0]) / dbin) = 4`, but the quotient
evaluated by the code is `5`: the record is counted for the bin 5 and `shift[5]`, the number
of records for the bins below 5, is `0`. -/
theorem shift_of_stray_arrival :
    (strayArrivalPatch.patch_buff_index_recv_sz 1 0 = 1 ∧
      position (strayArrivalPatch.patchVectorRecv 1 0) 0 0 = -15 / 2 ∧
      (shift_of params2 strayArrivalPatch).getD 0 0 = 1) ∧
    (roundedArrivalPatch.patch_buff_index_recv_sz 1 0 = 1 ∧
      dbin params97 = params97.cell_length 0 * (params97.clrw : ℚ) ∧
      roundedArrivalPatch.min_local 0 ≤ position (roundedArrivalPatch.patchVectorRecv 1 0) 0 0 ∧
      position (roundedArrivalPatch.patchVectorRecv 1 0) 0 0 < roundedArrivalPatch.max_local 0 ∧
      ⌊(position (roundedArrivalPatch.patchVectorRecv 1 0) 0 0 - roundedArrivalPatch.min_local 0) /
          dbin params97⌋ = 4 ∧
      (shift_of params97 roundedArrivalPatch).getD 5 0 = 0 ∧
      (shift_of params97 roundedArrivalPatch).getD 6 0 = 1) :=
  ⟨⟨rfl, by decide!, by decide!⟩,
    ⟨rfl, by decide!, by decide!, by decide!, by decide!, by decide!, by decide!⟩⟩

/-- C16 (amended): in the final branch of `finalizeCommParticles`, when for every record
received on an axis `>= 1` the index `int((x0 - min_local[0]) / dbin)` that the code
computes in the arithmetic of `double` is the index of a bin, after the prefix sum
`shift[0] == 0` and for `j` in `1..nbins` `shift[j]` is the number of received records whose
destination is a bin below `j`, the destination being the bin 0 for the axis-0 low side, the
bin `nbins-1` for the axis-0 high side and that computed index for the axes `>= 1`; `shift`
is non-decreasing and `shift[nbins]` is the total number of received records. -/
theorem shift_of_counts (params : Params) (p : Patch)
    (hnd : 0 < params.nDim_field) (hn : 0 < p.bmax.length)
    (h0 : 0 ≤ p.patch_buff_index_recv_sz 0 0) (h1 : 0 ≤ p.patch_buff_index_recv_sz 0 1)
    (hbin : ∀ d s (k : Nat), 1 ≤ d → d < params.nDim_field → s < 2 →
      (k : Int) < p.patch_buff_index_recv_sz d s →
      0 ≤ toInt (fl (fl (position (p.patchVectorRecv d s) 0 (k : Int) - p.min_local 0) /
        dbin params)) ∧
      toInt (fl (fl (position (p.patchVectorRecv d s) 0 (k : Int) - p.min_local 0) /
        dbin params)) < p.bmax.length) :
    (shift_of params p).getD 0 0 = 0 ∧
    (∀ j, 1 ≤ j → j ≤ p.bmax.length →
      (shift_of params p).getD j 0 = ∑ m ∈ Finset.range j, arrivals_to params p id m) ∧
    (∀ a ∈ axis0_arrivals p 0, a.2 = 0) ∧
    (∀ a ∈ axis0_arrivals p 1, a.2 = ((p.bmax.length - 1 : Nat) : Int)) ∧
    (∀ d s (k : Nat), 1 ≤ d → d < params.nDim_field → s < 2 →
      (k : Int) < p.patch_buff_index_recv_sz d s →
      (getI (p.patchVectorRecv d s) (k : Int),
          toInt (fl (fl (position (p.patchVectorRecv d s) 0 (k : Int) - p.min_local 0) /
            dbin params))) ∈
        later_arrivals params p id) ∧
    (∀ j, j < p.bmax.length →
      (shift_of params p).getD j 0 ≤ (shift_of params p).getD (j + 1) 0) ∧
    (shift_of params p).getD p.bmax.length 0 =
      ∑ d ∈ Finset.range params.nDim_field, ∑ s ∈ Finset.range 2,
        ((p.patch_buff_index_recv_sz d s).toNat : Int) := by
  have hb : ∀ a ∈ later_arrivals params p id, 0 ≤ a.2 ∧ a.2 < p.bmax.length := by
    intro a ha
    rw [mem_later_arrivals] at ha
    obtain ⟨d, hd1, hd2, s, hs, k, hk, rfl⟩ := ha
    exact hbin d s k hd1 hd2 hs hk
  obtain ⟨_, hsp⟩ := shift_of_spec params p hn h0 h1 (fun a ha => (hb a ha).1)
  have hsum : ∀ j, j ≤ p.bmax.length → (shift_of params p).getD j 0 = shift_sum params p j :=
    fun j hj => hsp j hj
  refine ⟨?_, fun j _ hj => hsp j hj, ?_, ?_, ?_, ?_, ?_⟩
  · rw [hsum 0 (Nat.zero_le _), shift_sum_zero]
  · intro a ha
    rw [mem_axis0_arrivals] at ha
    obtain ⟨k, _, rfl⟩ := ha
    simp
  · intro a ha
    rw [mem_axis0_arrivals] at ha
    obtain ⟨k, _, rfl⟩ := ha
    simp
  · intro d s k hd1 hd2 hs hk
    rw [mem_later_arrivals]
    exact ⟨d, hd1, hd2, s, hs, k, hk, rfl⟩
  · intro j hj
    rw [hsum j (by omega), hsum (j + 1) (by omega)]
    exact shift_sum_mono params p j (j + 1) (by omega)
  · rw [hsum _ (le_refl _), shift_sum_total params p (arrivals_bins params p hn hb),
      arrivals_length params p id hnd]
    push_cast
    rfl

theorem dbin_params2 : dbin params2 = 5 := by
  decide!

theorem gridArrivalPatch_later (d s : Nat) (k : Nat) (h1 : 1 ≤ d) (hd : d < params2.nDim_field)
    (hs : s < 2) (hk : (k : Int) < gridArrivalPatch.patch_buff_index_recv_sz d s) :
    0 ≤ bin_of params2 gridArrivalPatch (gridArrivalPatch.patchVectorRecv d s) (k : Int) ∧
    bin_of params2 gridArrivalPatch (gridArrivalPatch.patchVectorRecv d s) (k : Int) <
      gridArrivalPatch.bmax.length := by
  have hd2 : d < 2 := hd
  have hd1 : d = 1 := by omega
  subst hd1
  interval_cases s
  · have hk1 : (k : Int) < 1 := hk
    have hk0 : k = 0 := by omega
    subst hk0
    decide!
  · have hk1 : (k : Int) < 0 := hk
    omega

/-- Witness of C16 (amended) on a patch of the grid with two arrivals. -/
theorem shift_of_counts_witness :
    (0 ≤ bin_of params2 gridArrivalPatch (gridArrivalPatch.patchVectorRecv 1 0) 0 ∧
      bin_of params2 gridArrivalPatch (gridArrivalPatch.patchVectorRecv 1 0) 0 <
        gridArrivalPatch.bmax.length) ∧
    (shift_of params2 gridArrivalPatch).getD gridArrivalPatch.bmax.length 0 =
      ∑ d ∈ Finset.range params2.nDim_field, ∑ s ∈ Finset.range 2,
        ((gridArrivalPatch.patch_buff_index_recv_sz d s).toNat : Int) :=
  ⟨gridArrivalPatch_later 1 0 0 (by decide) (by decide) (by decide) (by decide),
    (shift_of_counts params2 gridArrivalPatch (by decide) (by decide) (by decide) (by decide)
      gridArrivalPatch_later).2.2.2.2.2.2⟩


/-! ## The loop "Shift bins" -/

/-- C17: for gapless bins and a non-decreasing array `shift` with `shift[0] == 0`, after
`shift[nbins]` blank records are appended and the loop "Shift bins" has run from the bin
`nbins-1` down to the bin 1: every bin `j >= 1` occupies
`[bmin[j] + shift[j], bmax[j] + shift[j])` and holds the same multiset of records as before
(no record of a bin is lost by an overwrite), the range and the records of the bin 0 are
untouched, and the step of a bin copies `min(size of the bin, shift[j])` records. -/
theorem shift_bins_spec (shift bmin bmax : List Int) (ps : List Particle)
    (hg : Gapless bmin bmax ps.length) (hsh0 : shift.getD 0 0 = 0)
    (hmono : ∀ j, j < bmax.length → shift.getD j 0 ≤ shift.getD (j + 1) 0) :
    ((shift_bins shift (create_particles ps (shift.getD bmax.length 0), bmin, bmax)).1.length : Int) =
      ps.length + shift.getD bmax.length 0 ∧
    (∀ j, 1 ≤ j → j < bmax.length →
      (shift_bins shift (create_particles ps (shift.getD bmax.length 0), bmin, bmax)).2.1.getD j 0 =
        bmin.getD j 0 + shift.getD j 0 ∧
      (shift_bins shift (create_particles ps (shift.getD bmax.length 0), bmin, bmax)).2.2.getD j 0 =
        bmax.getD j 0 + shift.getD j 0 ∧
      recs (shift_bins shift (create_particles ps (shift.getD bmax.length 0), bmin, bmax)).1
          (bmin.getD j 0 + shift.getD j 0) (bmax.getD j 0 + shift.getD j 0) =
        recs ps (bmin.getD j 0) (bmax.getD j 0)) ∧
    ((shift_bins shift (create_particles ps (shift.getD bmax.length 0), bmin, bmax)).2.1.getD 0 0 =
        bmin.getD 0 0 ∧
      (shift_bins shift (create_particles ps (shift.getD bmax.length 0), bmin, bmax)).2.2.getD 0 0 =
        bmax.getD 0 0 ∧
      ∀ x, x < bmax.getD 0 0 →
        getI (shift_bins shift (create_particles ps (shift.getD bmax.length 0), bmin, bmax)).1 x =
          getI ps x) ∧
    (∀ (qs : List Particle) (bmn bmx : List Int) (j : Nat),
      (shift_bin shift (qs, bmn, bmx) j).1 =
        if 0 < min (bmx.getD j 0 - bmn.getD j 0) (shift.getD j 0) then
          overwrite_part_range qs (bmn.getD j 0)
            (bmn.getD j 0 + max (bmx.getD j 0 - bmn.getD j 0) (shift.getD j 0))
            (min (bmx.getD j 0 - bmn.getD j 0) (shift.getD j 0))
        else qs) := by
  have hn := hg.nonempty
  have hsep := hg.toSep
  have hshn : 0 ≤ shift.getD bmax.length 0 := by
    have := shift_mono_le shift bmax.length hmono 0 bmax.length (Nat.zero_le _) (le_refl _)
    omega
  obtain ⟨hcl, hcg⟩ := create_particles_spec ps (shift.getD bmax.length 0)
  have hlen : ((create_particles ps (shift.getD bmax.length 0)).length : Int) =
      (ps.length : Int) + shift.getD bmax.length 0 := by
    rw [hcl]; push_cast; omega
  have hsb := shift_bins_suffix shift bmin bmax (create_particles ps (shift.getD bmax.length 0))
    ps.length hg hlen hsh0 hmono (bmax.length - 1) 1 (le_refl _) (by omega)
  have hfold : shift_bins shift (create_particles ps (shift.getD bmax.length 0), bmin, bmax) =
      (List.range' 1 (bmax.length - 1)).reverse.foldl (shift_bin shift)
        (create_particles ps (shift.getD bmax.length 0), bmin, bmax) := by
    unfold shift_bins
    simp only
    rw [tail_range_eq]
  rw [hfold]
  obtain ⟨h1, h2, h3, h4, h5, h6, h7⟩ := hsb
  refine ⟨by rw [h1, hlen], ?_, ?_, ?_⟩
  · intro j hj1 hj
    refine ⟨by rw [h4 j hj, if_pos hj1], by rw [h5 j hj, if_pos hj1], ?_⟩
    rw [h7 j hj1 hj]
    apply recs_congr
    intro x _ hx1
    apply hcg
    have := hsep.bmax_le_len j hj
    omega
  · refine ⟨by rw [h4 0 hn, if_neg (by omega)], by rw [h5 0 hn, if_neg (by omega)], ?_⟩
    intro x hx
    rw [h6 x (fun hk => by
      have := hsep.bmax_mono 0 1 (by omega) hk
      omega)]
    apply hcg
    have := hsep.bmax_le_len 0 hn
    omega
  · intro qs bmn bmx j
    unfold shift_bin
    simp only [gt_iff_lt]

/-! ## The positions of the inserted records -/

/-- In a sequence of insertions, the record number `t` is found at the cursor of its bin
moved up by the number of earlier records of the sequence for the same bin. -/
theorem ins_fold_position (A : List (Particle × Int)) (ps : List Particle) (bmax : List Int)
    (lo cap : Nat → Int)
    (hA : ∀ a ∈ A, 0 ≤ a.2 ∧ a.2 < bmax.length)
    (hlo : ∀ j, j < bmax.length → 0 ≤ lo j ∧ lo j ≤ bmax.getD j 0)
    (hroom : ∀ j, j < bmax.length →
      bmax.getD j 0 + (((A.map Prod.snd).count (j : Int) : Nat) : Int) ≤ cap j)
    (hcap : ∀ j, j < bmax.length → cap j ≤ ps.length)
    (hsep : ∀ i j, i < j → j < bmax.length → cap i ≤ lo j)
    (t : Nat) (ht : t < A.length) :
    getI (A.foldl ins_step (ps, bmax)).1
        (getI bmax (A[t]).2 + ((((A.take t).map Prod.snd).count (A[t]).2 : Nat) : Int)) =
      (A[t]).1 := by
  induction A generalizing ps bmax t with
  | nil => simp at ht
  | cons a A ih =>
    obtain ⟨r, b⟩ := a
    have hb := hA (r, b) (List.mem_cons_self _ _)
    simp only at hb
    obtain ⟨m, rfl⟩ : ∃ m : Nat, b = (m : Int) := ⟨b.toNat, by omega⟩
    have hm : m < bmax.length := by omega
    simp only [List.foldl_cons]
    have hstep : ins_step (ps, bmax) (r, (m : Int)) =
        (setI ps (bmax.getD m 0) r, addI bmax (m : Int) 1) := by
      simp only [ins_step, getI_int_nat]
    rw [hstep]
    have hcnt : ∀ j : Nat, ((((r, (m : Int)) :: A).map Prod.snd).count (j : Int) : Int) =
        (if j = m then 1 else 0) + (((A.map Prod.snd).count (j : Int) : Nat) : Int) := by
      intro j
      rw [List.map_cons, List.count_cons]
      by_cases hj : j = m
      · subst hj; simp; ring
      · have : ((m : Int) == (j : Int)) = false := by
          rw [beq_eq_false_iff_ne]; omega
        simp [this, hj]
    have hb1 : ∀ j, (addI bmax (m : Int) 1).getD j 0 =
        bmax.getD j 0 + (if j = m then 1 else 0) := by
      intro j
      rw [getD_addI]
      by_cases hj : j = m
      · subst hj; simp [hm]
      · rw [if_neg (by omega), if_neg hj, add_zero]
    have hcur0 := (hlo m hm)
    have hcur1 := hroom m hm
    rw [hcnt m, if_pos rfl] at hcur1
    have hcur2 := hcap m hm
    have hA2 : ∀ a ∈ A, 0 ≤ a.2 ∧ a.2 < (addI bmax (m : Int) 1).length := by
      intro a ha; rw [addI_length]; exact hA a (List.mem_cons_of_mem _ ha)
    have hlo2 : ∀ j, j < (addI bmax (m : Int) 1).length →
        0 ≤ lo j ∧ lo j ≤ (addI bmax (m : Int) 1).getD j 0 := by
      intro j hj
      rw [addI_length] at hj
      rw [hb1 j]
      have := hlo j hj
      split <;> omega
    have hroom2 : ∀ j, j < (addI bmax (m : Int) 1).length →
        (addI bmax (m : Int) 1).getD j 0 + (((A.map Prod.snd).count (j : Int) : Nat) : Int) ≤
          cap j := by
      intro j hj
      rw [addI_length] at hj
      rw [hb1 j]
      have := hroom j hj
      rw [hcnt j] at this
      omega
    have hcap2 : ∀ j, j < (addI bmax (m : Int) 1).length →
        cap j ≤ (setI ps (bmax.getD m 0) r).length := by
      intro j hj
      rw [addI_length] at hj
      rw [length_setI]; exact hcap j hj
    have hsep2 : ∀ i j, i < j → j < (addI bmax (m : Int) 1).length → cap i ≤ lo j := by
      intro i j hij hj
      rw [addI_length] at hj
      exact hsep i j hij hj
    cases t with
    | zero =>
      simp only [List.take_zero, List.map_nil, List.count_nil, Nat.cast_zero, add_zero,
        List.getElem_cons_zero, getI_int_nat]
      obtain ⟨_, _, _, _, i5⟩ := ins_fold_spec A (setI ps (bmax.getD m 0) r)
        (addI bmax (m : Int) 1) lo cap hA2 hlo2 hroom2 hcap2 hsep2
      rw [i5, getI_setI_eq _ _ _ (by omega) (by omega)]
      intro j hj hc
      rw [addI_length] at hj
      rw [hb1 j] at hc
      by_cases hjm : j = m
      · subst hjm; rw [if_pos rfl] at hc; omega
      · rw [if_neg hjm] at hc
        rcases Nat.lt_or_gt_of_ne hjm with h | h
        · have := hsep j m h hm
          omega
        · have := hsep m j h hj
          have := hlo j hj
          omega
    | succ t =>
      have ht2 : t < A.length := by simpa using ht
      have := ih (setI ps (bmax.getD m 0) r) (addI bmax (m : Int) 1) hA2 hlo2 hroom2 hcap2 hsep2
        t ht2
      simp only [List.getElem_cons_succ, List.take_succ_cons, List.map_cons, List.count_cons]
      rw [← this]
      congr 1
      have hbt := hA2 (A[t]) (List.getElem_mem _)
      rw [addI_length] at hbt
      obtain ⟨j, hj⟩ : ∃ j : Nat, (A[t]).2 = (j : Int) := ⟨(A[t]).2.toNat, by omega⟩
      rw [hj, getI_int_nat, getI_int_nat, hb1 j]
      by_cases hjm : j = m
      · subst hjm; simp; ring
      · have : ((m : Int) == (j : Int)) = false := by
          rw [beq_eq_false_iff_ne]; omega
        simp [this, hjm]

theorem axis0_arrivals_length (p : Patch) (s : Nat) :
    (axis0_arrivals p s).length = (p.patch_buff_index_recv_sz 0 s).toNat := by
  simp [axis0_arrivals]

theorem axis0_arrivals_getElem (p : Patch) (s k : Nat) (hk : k < (axis0_arrivals p s).length) :
    (axis0_arrivals p s)[k] =
      (getI (p.patchVectorRecv 0 s) (k : Int), ((s * (p.bmax.length - 1) : Nat) : Int)) := by
  simp [axis0_arrivals]

theorem axis0_arrivals_count_take (p : Patch) (s k : Nat) (b : Int)
    (hk : k ≤ (axis0_arrivals p s).length) :
    ((((axis0_arrivals p s).take k).map Prod.snd).count b : Int) =
      if b = ((s * (p.bmax.length - 1) : Nat) : Int) then (k : Int) else 0 := by
  have hm : ((axis0_arrivals p s).take k).map Prod.snd =
      List.replicate k ((s * (p.bmax.length - 1) : Nat) : Int) := by
    apply List.ext_getElem
    · rw [List.length_map, List.length_take, List.length_replicate]; omega
    · intro i h1 h2
      simp [axis0_arrivals]
  rw [hm, List.count_replicate]
  by_cases hb : b = ((s * (p.bmax.length - 1) : Nat) : Int)
  · subst hb; simp
  · rw [if_neg hb]
    have : ((((s * (p.bmax.length - 1) : Nat) : Int)) == b) = false := by
      rw [beq_eq_false_iff_ne]; exact fun h => hb h.symm
    rw [this]; simp

/-- The final branch of `finalizeCommParticles` (one or two axes): where the records
received on the axis 0 are written. -/
theorem finalize_last_axis0_positions (params : Params) (iDim : Nat) (p : Patch)
    (hr : FinalReady params p) (hd : params.nDim_field ≤ 2)
    (hi : iDim + 1 = params.nDim_field) :
    (∀ k : Nat, (k : Int) < p.patch_buff_index_recv_sz 0 0 →
      getI (finalize_last params iDim p).particles
          (compacted p.indexes_of_particles_to_exchange (p.bmin.getD 0 0) (p.bmax.getD 0 0) +
            (k : Int)) =
        getI (p.patchVectorRecv 0 0) (k : Int)) ∧
    (∀ k : Nat, (k : Int) < p.patch_buff_index_recv_sz 0 1 →
      getI (finalize_last params iDim p).particles
          (compacted p.indexes_of_particles_to_exchange (p.bmin.getD 0 0)
              (p.bmax.getD (p.bmax.length - 1) 0) +
            shift_sum params p (p.bmax.length - 1) +
            (if p.bmax.length = 1 then p.patch_buff_index_recv_sz 0 0 else 0) + (k : Int)) =
        getI (p.patchVectorRecv 0 1) (k : Int)) := by
  obtain ⟨sps, sbmin, sbmax, e1, e2, e3, t2, t3, u4, u5, u7, hlen, hA, hlo, hroom, hcap, hsep⟩ :=
    finalize_last_setup params iDim p hr hd hi
  have hn := hr.gapless.nonempty
  have hnd0 : 0 < params.nDim_field := by omega
  have hpos := ins_fold_position (arrivals params p id) sps sbmax
    (fun j => compacted p.indexes_of_particles_to_exchange (p.bmin.getD 0 0) (p.bmin.getD j 0) +
      shift_sum params p j)
    (fun j => compacted p.indexes_of_particles_to_exchange (p.bmin.getD 0 0) (p.bmax.getD j 0) +
      shift_sum params p (j + 1))
    hA hlo hroom hcap hsep
  rw [e1]
  have hAe : arrivals params p id =
      axis0_arrivals p 0 ++ (axis0_arrivals p 1 ++ later_arrivals params p id) := by
    unfold arrivals; rw [List.append_assoc]
  have hl0 := axis0_arrivals_length p 0
  have hl1 := axis0_arrivals_length p 1
  have hc0 : 0 ≤ p.patch_buff_index_recv_sz 0 0 := by
    rw [hr.sizes 0 0 hnd0 (by omega)]; omega
  constructor
  · intro k hk
    have hk0 : k < (axis0_arrivals p 0).length := by omega
    have ht : k < (arrivals params p id).length := by
      rw [hAe, List.length_append]; omega
    have hget : (arrivals params p id)[k] =
        (getI (p.patchVectorRecv 0 0) (k : Int), ((0 * (p.bmax.length - 1) : Nat) : Int)) := by
      simp only [hAe]
      rw [List.getElem_append_left hk0, axis0_arrivals_getElem]
    have htake : (arrivals params p id).take k = (axis0_arrivals p 0).take k := by
      rw [hAe, List.take_append_of_le_length (by omega)]
    have := hpos k ht
    rw [hget, htake] at this
    simp only at this
    rw [axis0_arrivals_count_take p 0 k _ (by omega), if_pos rfl] at this
    have hidx : getI sbmax ((0 * (p.bmax.length - 1) : Nat) : Int) + (k : Int) =
        compacted p.indexes_of_particles_to_exchange (p.bmin.getD 0 0) (p.bmax.getD 0 0) +
          (k : Int) := by
      rw [getI_int_nat, Nat.zero_mul, u5 0 hn, shift_sum_zero, add_zero]
    rw [hidx] at this
    exact this
  · intro k hk
    have hk1 : k < (axis0_arrivals p 1).length := by omega
    have ht : (axis0_arrivals p 0).length + k < (arrivals params p id).length := by
      rw [hAe, List.length_append, List.length_append]; omega
    have hget : (arrivals params p id)[(axis0_arrivals p 0).length + k] =
        (getI (p.patchVectorRecv 0 1) (k : Int), ((1 * (p.bmax.length - 1) : Nat) : Int)) := by
      simp only [hAe]
      rw [List.getElem_append_right (by omega)]
      simp only [Nat.add_sub_cancel_left]
      rw [List.getElem_append_left hk1, axis0_arrivals_getElem]
    have htake : (arrivals params p id).take ((axis0_arrivals p 0).length + k) =
        axis0_arrivals p 0 ++ (axis0_arrivals p 1).take k := by
      rw [hAe, List.take_append, List.take_append_of_le_length (by omega)]
    have := hpos _ ht
    rw [hget, htake] at this
    simp only at this
    have hca : ((((axis0_arrivals p 0).map Prod.snd).count
        (((1 * (p.bmax.length - 1) : Nat) : Int)) : Nat) : Int) =
        if p.bmax.length = 1 then p.patch_buff_index_recv_sz 0 0 else 0 := by
      rw [count_axis0]
      by_cases h1 : p.bmax.length = 1
      · rw [if_pos h1, if_pos (by rw [h1]), Int.toNat_of_nonneg hc0]
      · rw [if_neg h1, if_neg]
        simp only [Nat.zero_mul, Nat.one_mul, Nat.cast_zero]
        omega
    have hcount : ((((axis0_arrivals p 0 ++ (axis0_arrivals p 1).take k).map Prod.snd).count
        (((1 * (p.bmax.length - 1) : Nat) : Int)) : Nat) : Int) =
        (if p.bmax.length = 1 then p.patch_buff_index_recv_sz 0 0 else 0) + (k : Int) := by
      rw [List.map_append, List.count_append, Nat.cast_add, hca,
        axis0_arrivals_count_take p 1 k _ (by omega), if_pos rfl]
    rw [hcount] at this
    have hidx : getI sbmax ((1 * (p.bmax.length - 1) : Nat) : Int) +
        ((if p.bmax.length = 1 then p.patch_buff_index_recv_sz 0 0 else 0) + (k : Int)) =
        compacted p.indexes_of_particles_to_exchange (p.bmin.getD 0 0)
              (p.bmax.getD (p.bmax.length - 1) 0) +
            shift_sum params p (p.bmax.length - 1) +
            (if p.bmax.length = 1 then p.patch_buff_index_recv_sz 0 0 else 0) + (k : Int) := by
      rw [getI_int_nat, Nat.one_mul, u5 _ (by omega)]
      ring
    rw [hidx] at this
    exact this

theorem later_arrivals_one_axis (params : Params) (p : Patch) (rd : Nat → Nat)
    (h : params.nDim_field = 1) : later_arrivals params p rd = [] := by
  unfold later_arrivals
  rw [h]
  have e : (List.range 1).tail = [] := by decide
  rw [e]
  simp only [List.flatMap_nil]

theorem arrivalPatch_ready : FinalReady params1 arrivalPatch :=
  finalReady_of_bins params1 arrivalPatch arrivalPatch_gapless (by decide) arrivalPatch_sizes
    arrivalPatch_no_neighbor arrivalPatch_later

/-- C18, as stated, fails on both sides. On the first patch of the chain, whose first bin
keeps one record, the record received on the axis 0 from the low side is not written at the
start `bmin[0] = 0` of the first bin (the kept record stays there) but at the index 1, after
the kept record. On a patch with two axes whose last bin `[1, 2)` keeps its record, with one
record received on the axis 0 from the high side and one record received on the axis 1 for
the last bin, the last bin is `[1, 4)` at the end and its highest index 3 holds the record
received on the axis 1: the record received from the high side is at the index 2. And for
three axes (the claim names no number of axes; the loops of the function are written for any
number, but the constructor of `Patch` sizes `Pcoordinates` for two axes): on a patch whose
last bin keeps no record, with one record received on the axis 0 from the high side, one on
the axis 1 and one on the axis 2, the record received from the high side is written at the
index 2 and then overwritten by the record received on the axis 2; it is not in the store
at the end. -/
theorem low_arrival_not_at_bin_start :
    (arrivalPatch.patch_buff_index_recv_sz 0 0 = 1 ∧
      getI (arrivalPatch.patchVectorRecv 0 0) 0 = rec1 (1 / 2) 9 ∧
      (finalizeCommParticles smpiPeriodic params1 0 arrivalPatch).bmin.getD 0 0 = 0 ∧
      (finalizeCommParticles smpiPeriodic params1 0 arrivalPatch).bmax.getD 0 0 = 2 ∧
      getI (finalizeCommParticles smpiPeriodic params1 0 arrivalPatch).particles 0 = rec1 1 1 ∧
      getI (finalizeCommParticles smpiPeriodic params1 0 arrivalPatch).particles 1 =
        rec1 (1 / 2) 9) ∧
    (gridHighArrivalPatch.patch_buff_index_recv_sz 0 1 = 1 ∧
      getI (gridHighArrivalPatch.patchVectorRecv 0 1) 0 = rec2 9 2 8 ∧
      getI (gridHighArrivalPatch.patchVectorRecv 1 0) 0 = rec2 7 3 9 ∧
      (finalizeCommParticles smpiPeriodic params2 1 gridHighArrivalPatch).bmin.getD 1 0 = 1 ∧
      (finalizeCommParticles smpiPeriodic params2 1 gridHighArrivalPatch).bmax.getD 1 0 = 4 ∧
      getI (finalizeCommParticles smpiPeriodic params2 1 gridHighArrivalPatch).particles 2 =
        rec2 9 2 8 ∧
      getI (finalizeCommParticles smpiPeriodic params2 1 gridHighArrivalPatch).particles 3 =
        rec2 7 3 9) ∧
    (params3.nDim_field = 3 ∧
      cubeHighPatch.patch_buff_index_recv_sz 0 1 = 1 ∧
      getI (cubeHighPatch.patchVectorRecv 0 1) 0 = rec3 9 1 1 7 ∧
      getI (cubeHighPatch.patchVectorRecv 1 0) 0 = rec3 7 3 3 8 ∧
      getI (cubeHighPatch.patchVectorRecv 2 0) 0 = rec3 1 4 4 9 ∧
      (finalizeCommParticles smpiOpen params3 2 cubeHighPatch).bmin = [0, 2] ∧
      (finalizeCommParticles smpiOpen params3 2 cubeHighPatch).bmax = [3, 3] ∧
      (finalizeCommParticles smpiOpen params3 2 cubeHighPatch).particles =
        [rec3 1 1 1 1, rec3 7 3 3 8, rec3 1 4 4 9, default]) :=
  ⟨⟨rfl, by decide!, by decide!, by decide!, by decide!, by decide!⟩,
    ⟨rfl, by decide!, by decide!, by decide!, by decide!, by decide!, by decide!⟩,
    ⟨rfl, rfl, by decide!, by decide!, by decide!, by decide!, by decide!, by decide!⟩⟩

/-- C18 (amended): after the insertion of the final branch of `finalizeCommParticles` (one
or two axes), the `n_low` records received on the axis 0 from the low side occupy, in the
order of the receive buffer, the `n_low` indexes that follow the records kept in the first
bin (from `bmin[0]` plus the number of kept records on), and the `n_high` records received
from the high side occupy, in the order of the receive buffer, the `n_high` indexes that
follow the records kept in the last bin after its shift (and the low-side block when there
is one bin only); with one axis these are the `n_high` highest indexes of the last bin. -/
theorem finalizeCommParticles_axis0_blocks (smpi : SmileiMPI) (params : Params) (iDim : Nat)
    (p : Patch) (hr : FinalReady params p)
    (hd : params.nDim_field = 1 ∨ params.nDim_field = 2)
    (hi : iDim + 1 = params.nDim_field) :
    (∀ k : Nat, (k : Int) < p.patch_buff_index_recv_sz 0 0 →
      getI (finalizeCommParticles smpi params iDim p).particles
          (p.bmin.getD 0 0 + ((p.bmax.getD 0 0 - p.bmin.getD 0 0) -
            ((inBin p.indexes_of_particles_to_exchange (p.bmin.getD 0 0)
              (p.bmax.getD 0 0)).length : Int)) + (k : Int)) =
        getI (p.patchVectorRecv 0 0) (k : Int)) ∧
    (∀ k : Nat, (k : Int) < p.patch_buff_index_recv_sz 0 1 →
      getI (finalizeCommParticles smpi params iDim p).particles
          (compacted p.indexes_of_particles_to_exchange (p.bmin.getD 0 0)
              (p.bmax.getD (p.bmax.length - 1) 0) +
            shift_sum params p (p.bmax.length - 1) +
            (if p.bmax.length = 1 then p.patch_buff_index_recv_sz 0 0 else 0) + (k : Int)) =
        getI (p.patchVectorRecv 0 1) (k : Int)) ∧
    (params.nDim_field = 1 →
      compacted p.indexes_of_particles_to_exchange (p.bmin.getD 0 0)
          (p.bmax.getD (p.bmax.length - 1) 0) +
        shift_sum params p (p.bmax.length - 1) +
        (if p.bmax.length = 1 then p.patch_buff_index_recv_sz 0 0 else 0) +
        p.patch_buff_index_recv_sz 0 1 =
      (finalizeCommParticles smpi params iDim p).bmax.getD (p.bmax.length - 1) 0) := by
  have hd2 : params.nDim_field ≤ 2 := by omega
  have hnd0 : 0 < params.nDim_field := by omega
  have hn := hr.gapless.nonempty
  rw [finalizeCommParticles_last smpi params iDim p hi]
  obtain ⟨hlow, hhigh⟩ := finalize_last_axis0_positions params iDim p hr hd2 hi
  refine ⟨?_, hhigh, ?_⟩
  · intro k hk
    have := hlow k hk
    unfold compacted at this
    rw [← this]
    congr 1
    ring
  · intro h1
    obtain ⟨_, _, _, hbmax, _, _⟩ := finalize_last_spec params iDim p hr hd2 hi
    rw [hbmax _ (by omega)]
    have e : p.bmax.length - 1 + 1 = p.bmax.length := by omega
    rw [e]
    have hs := shift_sum_succ params p (p.bmax.length - 1)
    rw [e] at hs
    rw [hs]
    have hc0 : 0 ≤ p.patch_buff_index_recv_sz 0 0 := by
      rw [hr.sizes 0 0 hnd0 (by omega)]; omega
    have hc1 : 0 ≤ p.patch_buff_index_recv_sz 0 1 := by
      rw [hr.sizes 0 1 hnd0 (by omega)]; omega
    have hto : arrivals_to params p id (p.bmax.length - 1) =
        (if p.bmax.length = 1 then p.patch_buff_index_recv_sz 0 0 else 0) +
          p.patch_buff_index_recv_sz 0 1 := by
      unfold arrivals_to arrivals
      rw [later_arrivals_one_axis params p id h1, List.append_nil, List.map_append,
        List.count_append, Nat.cast_add, count_axis0, count_axis0]
      rw [Nat.one_mul, Nat.zero_mul, if_pos rfl, Int.toNat_of_nonneg hc1,
        Int.toNat_of_nonneg hc0]
      by_cases hb1 : p.bmax.length = 1
      · rw [if_pos hb1, if_pos (by rw [hb1])]
      · rw [if_neg hb1, if_neg (by omega)]
    rw [hto]
    ring

/-- Witness of C18 (amended) on the first patch of the chain with one arrival. -/
theorem finalizeCommParticles_axis0_blocks_witness :
    FinalReady params1 arrivalPatch ∧
    (∀ k : Nat, (k : Int) < arrivalPatch.patch_buff_index_recv_sz 0 0 →
      getI (finalizeCommParticles smpiPeriodic params1 0 arrivalPatch).particles
          (arrivalPatch.bmin.getD 0 0 + ((arrivalPatch.bmax.getD 0 0 - arrivalPatch.bmin.getD 0 0) -
            ((inBin arrivalPatch.indexes_of_particles_to_exchange (arrivalPatch.bmin.getD 0 0)
              (arrivalPatch.bmax.getD 0 0)).length : Int)) + (k : Int)) =
        getI (arrivalPatch.patchVectorRecv 0 0) (k : Int)) :=
  ⟨arrivalPatch_ready,
    (finalizeCommParticles_axis0_blocks smpiPeriodic params1 0 arrivalPatch arrivalPatch_ready
      (Or.inl rfl) rfl).1⟩

/-- Witness of C17: the two bins of a store of five records, shifted by `[0, 1, 2]`. -/
theorem shift_bins_spec_witness :
    Gapless [0, 3] [3, 5] store5.length ∧
    ((shift_bins [0, 1, 2]
        (create_particles store5 (([0, 1, 2] : List Int).getD ([3, 5] : List Int).length 0),
          [0, 3], [3, 5])).1.length : Int) =
      store5.length + ([0, 1, 2] : List Int).getD ([3, 5] : List Int).length 0 :=
  have hg : Gapless [0, 3] [3, 5] store5.length :=
    ⟨rfl, by decide, by decide,
      fun j hj => by
        have hj2 : j < 2 := hj
        interval_cases j <;> decide,
      fun j hj => by
        have hj2 : j + 1 < 2 := hj
        have hj0 : j = 0 := by omega
        subst hj0; decide,
      by decide⟩
  ⟨hg, (shift_bins_spec [0, 1, 2] [0, 3] [3, 5] store5 hg (by decide) (fun j hj => by
      have hj2 : j < 2 := hj
      interval_cases j <;> decide)).1⟩


/-! ## The bin read by the insertion on the axes `>= 1` -/

/-- With one or two axes the insertion of `finalizeCommParticles` on an axis `idim >= 1`
is the insertion of the specification: the buffer read for the bin is the buffer of the
record. -/
theorem insert_axis_two_axes (params : Params) (p : Patch) (iDim idim : Nat)
    (hd : params.nDim_field ≤ 2) (hi : iDim + 1 = params.nDim_field)
    (h1 : 1 ≤ idim) (h2 : idim < params.nDim_field) :
    insert_axis params p iDim idim = insert_axis_spec params p idim := by
  have e1 : idim = 1 := by omega
  have e2 : iDim = 1 := by omega
  subst e1; subst e2
  funext s iNeighbor
  unfold insert_axis insert_axis_spec
  rfl

/-- C19, as stated, fails. With two axes, cells of length `0.97` (the `double`), bins of 8
cells and 16 bins, the record 0 of the receive buffer `(1, 0)` has the axis-0 coordinate
`x0`, the `double` product `5 * dbin`, for which `floor((x0 - min_local[0]) / dbin) = 4`;
the quotient evaluated in `double` is `5.0`, and the insertion writes the record into the
bin 5 (at the end the bin 4 is `[1, 1)`, empty, and the bin 5 is `[1, 2)`). With three axes
(which the claim names; the loops of the function are written for any number of axes, but
the constructor of `Patch` sizes `Pcoordinates` for two axes) the record 0 of the receive
buffer `(1, 0)` has the axis-0 coordinate `7`, so its bin is `1`, the bin the shift
computation counted it into (`shift = [0, 1, 2]`); the insertion on the last axis `iDim = 2`
reads the bin from the record 0 of the buffer `(2, 0)` (coordinate `1`, bin 0) and writes
the record into the bin 0, where the specified insertion writes it into the bin 1; at the
end the bins are `[0, 3)` and `[2, 3)`, they overlap, and the record kept in the second bin
is overwritten. -/
theorem insert_axis_reads_last_axis_buffer :
    (params97.nDim_field = 2 ∧
      dbin params97 = params97.cell_length 0 * (params97.clrw : ℚ) ∧
      roundedArrivalPatch.patch_buff_index_recv_sz 1 0 = 1 ∧
      ⌊(position (roundedArrivalPatch.patchVectorRecv 1 0) 0 0 - roundedArrivalPatch.min_local 0) /
          dbin params97⌋ = 4 ∧
      bin_of params97 roundedArrivalPatch (roundedArrivalPatch.patchVectorRecv 1 0) 0 = 5 ∧
      (finalizeCommParticles smpiPeriodic params97 1 roundedArrivalPatch).bmin.getD 4 0 = 1 ∧
      (finalizeCommParticles smpiPeriodic params97 1 roundedArrivalPatch).bmax.getD 4 0 = 1 ∧
      (finalizeCommParticles smpiPeriodic params97 1 roundedArrivalPatch).bmin.getD 5 0 = 1 ∧
      (finalizeCommParticles smpiPeriodic params97 1 roundedArrivalPatch).bmax.getD 5 0 = 2 ∧
      getI (finalizeCommParticles smpiPeriodic params97 1 roundedArrivalPatch).particles 1 =
        getI (roundedArrivalPatch.patchVectorRecv 1 0) 0) ∧
    (position (cubePatch.patchVectorRecv 1 0) 0 0 = 7 ∧
      bin_of params3 cubePatch (cubePatch.patchVectorRecv 1 0) 0 = 1 ∧
      bin_of params3 cubePatch (cubePatch.patchVectorRecv 2 0) 0 = 0 ∧
      (shift_of params3 cubePatch).getD 1 0 = 1 ∧ (shift_of params3 cubePatch).getD 2 0 = 2 ∧
      (insert_axis params3 cubePatch 2 1
        ([rec3 1 1 1 1, default, rec3 6 1 1 2, default], [1, 3]) 0).2 = [2, 3] ∧
      (insert_axis_spec params3 cubePatch 1
        ([rec3 1 1 1 1, default, rec3 6 1 1 2, default], [1, 3]) 0).2 = [1, 4] ∧
      (finalizeCommParticles smpiOpen params3 2 cubePatch).bmin = [0, 2] ∧
      (finalizeCommParticles smpiOpen params3 2 cubePatch).bmax = [3, 3] ∧
      (finalizeCommParticles smpiOpen params3 2 cubePatch).particles =
        [rec3 1 1 1 1, rec3 7 3 3 8, rec3 1 4 4 9, default]) :=
  ⟨⟨rfl, by decide!, rfl, by decide!, by decide!, by decide!, by decide!, by decide!,
      by decide!, by decide!⟩,
    ⟨by decide!, by decide!, by decide!, by decide!, by decide!, by decide!, by decide!,
      by decide!, by decide!, by decide!⟩⟩

/-- C19 (amended): with one or two axes, for every axis `idim >= 1` and every side the
insertion of `finalizeCommParticles` is the insertion that writes the record `j` of the
receive buffer `(idim, side)` at the cursor of the bin whose index
`int((x0 - min_local[0]) / dbin)` is computed, in the arithmetic of `double`, from the
axis-0 coordinate of that same record, the index that the shift computation counted the
record into; and when the final branch is entered with these indexes being bins of the
patch, every bin `b` holds at the end the records it kept and the received records counted
for it, and its size is the number of kept records plus the number of received records
counted for it, the room made for it. -/
theorem insert_axis_same_record (smpi : SmileiMPI) (params : Params) (iDim : Nat) (p : Patch)
    (hr : FinalReady params p) (hd : params.nDim_field = 1 ∨ params.nDim_field = 2)
    (hi : iDim + 1 = params.nDim_field) :
    (∀ (q : Patch) (idim : Nat), 1 ≤ idim → idim < params.nDim_field →
      insert_axis params q iDim idim = insert_axis_spec params q idim) ∧
    (∀ d s (k : Nat), 1 ≤ d → d < params.nDim_field → s < 2 →
      (k : Int) < p.patch_buff_index_recv_sz d s →
      (getI (p.patchVectorRecv d s) (k : Int),
          toInt (fl (fl (position (p.patchVectorRecv d s) 0 (k : Int) - p.min_local 0) /
            dbin params))) ∈
        later_arrivals params p id) ∧
    (∀ b, b < p.bmax.length →
      recs (finalizeCommParticles smpi params iDim p).particles
          ((finalizeCommParticles smpi params iDim p).bmin.getD b 0)
          ((finalizeCommParticles smpi params iDim p).bmax.getD b 0) =
        pick p.particles (liveSet p.indexes_of_particles_to_exchange (p.bmin.getD b 0)
          (p.bmax.getD b 0)) + arrivals_of params p id b) ∧
    (∀ b, b < p.bmax.length →
      (finalizeCommParticles smpi params iDim p).bmax.getD b 0 -
          (finalizeCommParticles smpi params iDim p).bmin.getD b 0 =
        (compacted p.indexes_of_particles_to_exchange (p.bmin.getD 0 0) (p.bmax.getD b 0) -
          compacted p.indexes_of_particles_to_exchange (p.bmin.getD 0 0) (p.bmin.getD b 0)) +
        arrivals_to params p id b) := by
  have hd2 : params.nDim_field ≤ 2 := by omega
  rw [finalizeCommParticles_last smpi params iDim p hi]
  obtain ⟨_, _, f3, f4, _, hrec⟩ := finalize_last_spec params iDim p hr hd2 hi
  refine ⟨fun q idim h1 h2 => insert_axis_two_axes params q iDim idim hd2 hi h1 h2, ?_, hrec, ?_⟩
  · intro d s k hd1 hd3 hs hk
    rw [mem_later_arrivals]
    exact ⟨d, hd1, hd3, s, hs, k, hk, rfl⟩
  · intro b hb
    rw [f3 b hb, f4 b hb, shift_sum_succ]
    ring

theorem gridArrivalPatch_gapless :
    Gapless gridArrivalPatch.bmin gridArrivalPatch.bmax gridArrivalPatch.particles.length :=
  ⟨rfl, by decide, by decide, fun j hj => by
      have hj2 : j < 2 := hj
      interval_cases j <;> decide,
    fun j hj => by
      have hj2 : j + 1 < 2 := hj
      have hj0 : j = 0 := by omega
      subst hj0; decide,
    by decide⟩

theorem gridArrivalPatch_sizes (d s : Nat) (hd : d < params2.nDim_field) (hs : s < 2) :
    gridArrivalPatch.patch_buff_index_recv_sz d s =
      ((gridArrivalPatch.patchVectorRecv d s).length : Int) := by
  have hd2 : d < 2 := hd
  interval_cases d <;> interval_cases s <;> decide

theorem gridArrivalPatch_no_neighbor (d s : Nat) (hd : d < params2.nDim_field) (hs : s < 2)
    (h : gridArrivalPatch.neighbor_ d s = none) :
    gridArrivalPatch.patch_buff_index_recv_sz d s = 0 := by
  have hd2 : d < 2 := hd
  interval_cases d <;> interval_cases s <;> revert h <;> decide

theorem gridArrivalPatch_ready : FinalReady params2 gridArrivalPatch :=
  finalReady_of_bins params2 gridArrivalPatch gridArrivalPatch_gapless (by decide)
    gridArrivalPatch_sizes gridArrivalPatch_no_neighbor
    (fun d s k h1 h2 hs hk => gridArrivalPatch_later d s k h1 h2 hs
      (by rw [gridArrivalPatch_sizes d s h2 hs]; exact_mod_cast hk))

/-- Witness of C19 (amended) on a patch of the grid with two arrivals: the second bin holds
at the end its kept record and the record received on the axis 1. -/
theorem insert_axis_same_record_witness :
    FinalReady params2 gridArrivalPatch ∧
    insert_axis params2 gridArrivalPatch 1 1 = insert_axis_spec params2 gridArrivalPatch 1 ∧
    (finalizeCommParticles smpiPeriodic params2 1 gridArrivalPatch).bmax.getD 1 0 -
        (finalizeCommParticles smpiPeriodic params2 1 gridArrivalPatch).bmin.getD 1 0 =
      (compacted gridArrivalPatch.indexes_of_particles_to_exchange
          (gridArrivalPatch.bmin.getD 0 0) (gridArrivalPatch.bmax.getD 1 0) -
        compacted gridArrivalPatch.indexes_of_particles_to_exchange
          (gridArrivalPatch.bmin.getD 0 0) (gridArrivalPatch.bmin.getD 1 0)) +
      arrivals_to params2 gridArrivalPatch id 1 :=
  ⟨gridArrivalPatch_ready,
    (insert_axis_same_record smpiPeriodic params2 1 gridArrivalPatch gridArrivalPatch_ready
      (Or.inr rfl) rfl).1 gridArrivalPatch 1 (by decide) (by decide),
    (insert_axis_same_record smpiPeriodic params2 1 gridArrivalPatch gridArrivalPatch_ready
      (Or.inr rfl) rfl).2.2.2 1 (by decide)⟩

/-! ## `initCommParticles` on a vector of patches -/

theorem modAt_id (vp : List Patch) (i : Nat) : modAt vp i (fun q => q) = vp := by
  unfold modAt
  apply List.ext_getElem (by simp)
  intro n h1 h2
  rw [List.getElem_set]
  split
  · rename_i h; subst h
    rw [List.getD_eq_getElem _ _ h2]
  · rfl

theorem modAt_modAt_same (vp : List Patch) (i : Nat) (f g : Patch → Patch) :
    modAt (modAt vp i f) i g = modAt vp i (fun q => g (f q)) := by
  unfold modAt
  by_cases hi : i < vp.length
  · rw [List.set_set]
    congr 2
    rw [List.getD_eq_getElem _ _ (by simpa using hi)]
    simp
  · rw [List.set_eq_of_length_le (l := vp) (by omega), List.set_eq_of_length_le (by omega),
      List.set_eq_of_length_le (by omega)]

/-- One iteration of `initCommParticles` as three updates: of the patch itself, of the
neighbor of the side `s`, and of the patch itself again. -/
theorem initComm_neighbor_updates (d ip : Nat) (w : List Patch) (s : Nat) :
    initComm_neighbor d ip w s =
      modAt (modAt (modAt w ip (initComm_own (w.getD ip default) d s))
          (peer w (w.getD ip default) d s) (initComm_peer (w.getD ip default) d s))
        ip (initComm_post (w.getD ip default) d s) := by
  unfold initComm_neighbor initComm_own initComm_peer initComm_post peer
  simp only
  cases hnb : (w.getD ip default).neighbor_ d s with
  | none =>
    simp only [ne_eq, not_true_eq_false, if_false, false_and, modAt_id]
    split
    · rename_i hc
      simp only [hc, not_false_eq_true, and_self, if_true]
    · rename_i hc
      simp only [hc, if_false, modAt_id]
  | some nb =>
    simp only [ne_eq, not_false_eq_true, if_true, true_and, Option.getD_some, reduceCtorEq]
    by_cases hm : is_a_MPI_neighbor (w.getD ip default) d s = true
    · simp only [hm, if_true, Bool.true_eq_false, if_false, modAt_id, modAt_modAt_same]
      split
      · rename_i hc
        simp only [hc, not_false_eq_true, and_self, if_true]
      · rename_i hc
        simp only [hc, if_false, modAt_id]
    · have hm2 : is_a_MPI_neighbor (w.getD ip default) d s = false := by simpa using hm
      simp only [hm2, Bool.false_eq_true, if_false, if_true]
      split
      · rename_i hc
        simp only [hc, not_false_eq_true, and_self, if_true]
      · rename_i hc
        simp only [hc, if_false, modAt_id]

theorem recv_sz_modAt (vp : List Patch) (i q : Nat) (f : Patch → Patch) (a b : Nat) :
    ((modAt vp i f).getD q default).patch_buff_index_recv_sz a b =
      if i = q ∧ i < vp.length then (f (vp.getD i default)).patch_buff_index_recv_sz a b
      else (vp.getD q default).patch_buff_index_recv_sz a b := by
  rw [getD_modAt]; split <;> rfl

theorem send_sz_modAt (vp : List Patch) (i q : Nat) (f : Patch → Patch) (a b : Nat) :
    ((modAt vp i f).getD q default).patch_buff_index_send_sz a b =
      if i = q ∧ i < vp.length then (f (vp.getD i default)).patch_buff_index_send_sz a b
      else (vp.getD q default).patch_buff_index_send_sz a b := by
  rw [getD_modAt]; split <;> rfl

theorem initComm_own_recv_sz (me : Patch) (d s : Nat) (q : Patch) :
    (initComm_own me d s q).patch_buff_index_recv_sz = q.patch_buff_index_recv_sz := by
  unfold initComm_own
  split
  · split <;> rfl
  · rfl

theorem initComm_own_send_sz (me : Patch) (d s : Nat) (q : Patch) (a b : Nat) :
    (initComm_own me d s q).patch_buff_index_send_sz a b =
      if me.neighbor_ d s ≠ none ∧ a = d ∧ b = s then
        ((me.patch_buff_index_send d s).length : Int)
      else q.patch_buff_index_send_sz a b := by
  unfold initComm_own
  by_cases h : me.neighbor_ d s ≠ none
  · rw [if_pos h]
    split <;> simp only [log_event, set_send_sz, upd2, h, ne_eq, not_false_eq_true, true_and]
  · rw [if_neg h, if_neg (fun hh => h hh.1)]

theorem initComm_peer_recv_sz (me : Patch) (d s : Nat) (q : Patch) (a b : Nat) :
    (initComm_peer me d s q).patch_buff_index_recv_sz a b =
      if (me.neighbor_ d s ≠ none ∧ is_a_MPI_neighbor me d s = false) ∧ a = d ∧
          b = (s + 1) % 2 then
        ((me.patch_buff_index_send d s).length : Int)
      else q.patch_buff_index_recv_sz a b := by
  unfold initComm_peer
  by_cases h : me.neighbor_ d s ≠ none ∧ is_a_MPI_neighbor me d s = false
  · rw [if_pos h]
    simp only [set_recv_sz, upd2, h, ne_eq, not_false_eq_true, and_self, true_and]
  · rw [if_neg h, if_neg (fun hh => h hh.1)]

theorem initComm_peer_send_sz (me : Patch) (d s : Nat) (q : Patch) :
    (initComm_peer me d s q).patch_buff_index_send_sz = q.patch_buff_index_send_sz := by
  unfold initComm_peer
  split <;> rfl

theorem initComm_post_recv_sz (me : Patch) (d s : Nat) (q : Patch) (a b : Nat) :
    (initComm_post me d s q).patch_buff_index_recv_sz a b =
      if (me.neighbor_ d ((s + 1) % 2) ≠ none ∧
          is_a_MPI_neighbor me d ((s + 1) % 2) = true) ∧ a = d ∧ b = (s + 1) % 2 then
        q.incoming_sz d ((s + 1) % 2)
      else q.patch_buff_index_recv_sz a b := by
  unfold initComm_post
  by_cases h : me.neighbor_ d ((s + 1) % 2) ≠ none ∧ is_a_MPI_neighbor me d ((s + 1) % 2) = true
  · rw [if_pos h]
    simp only [log_event, set_recv_sz, upd2, h, ne_eq, not_false_eq_true, and_self, true_and]
  · rw [if_neg h, if_neg (fun hh => h hh.1)]

theorem initComm_post_send_sz (me : Patch) (d s : Nat) (q : Patch) :
    (initComm_post me d s q).patch_buff_index_send_sz = q.patch_buff_index_send_sz := by
  unfold initComm_post
  split <;> rfl

theorem initComm_own_incoming (me : Patch) (d s : Nat) (q : Patch) :
    (initComm_own me d s q).incoming_sz = q.incoming_sz := by
  unfold initComm_own
  split
  · split <;> rfl
  · rfl

theorem initComm_peer_incoming (me : Patch) (d s : Nat) (q : Patch) :
    (initComm_peer me d s q).incoming_sz = q.incoming_sz := by
  unfold initComm_peer
  split <;> rfl

/-- An update of one patch that keeps the projection `π` of every patch keeps `π` of the
patch at every position. -/
theorem modAt_keep {α : Type} (π : Patch → α) (vp : List Patch) (i : Nat) (f : Patch → Patch)
    (h : ∀ q, π (f q) = π q) (x : Nat) :
    π ((modAt vp i f).getD x default) = π (vp.getD x default) := by
  rw [getD_modAt]
  split
  · rename_i hc
    obtain ⟨rfl, _⟩ := hc
    exact h _
  · rfl

/-- The receive counts of the patch at the position `x` after one iteration of
`initCommParticles` run by the patch `ip`. -/
theorem initComm_neighbor_recv_sz (d ip : Nat) (w : List Patch) (s x a b : Nat) :
    ((initComm_neighbor d ip w s).getD x default).patch_buff_index_recv_sz a b =
      if (x = ip ∧ ip < w.length) ∧
          ((w.getD ip default).neighbor_ d ((s + 1) % 2) ≠ none ∧
            is_a_MPI_neighbor (w.getD ip default) d ((s + 1) % 2) = true) ∧
          a = d ∧ b = (s + 1) % 2 then
        (w.getD ip default).incoming_sz d ((s + 1) % 2)
      else if (x = peer w (w.getD ip default) d s ∧ x < w.length) ∧
          ((w.getD ip default).neighbor_ d s ≠ none ∧
            is_a_MPI_neighbor (w.getD ip default) d s = false) ∧
          a = d ∧ b = (s + 1) % 2 then
        (((w.getD ip default).patch_buff_index_send d s).length : Int)
      else (w.getD x default).patch_buff_index_recv_sz a b := by
  rw [initComm_neighbor_updates]
  generalize hme : w.getD ip default = me
  generalize hJ : peer w me d s = J
  have hY : ∀ y, ((modAt w ip (initComm_own me d s)).getD y default).patch_buff_index_recv_sz =
      (w.getD y default).patch_buff_index_recv_sz :=
    fun y => modAt_keep (fun p => p.patch_buff_index_recv_sz) w ip _
      (initComm_own_recv_sz me d s) y
  have hX : ∀ y, ((modAt (modAt w ip (initComm_own me d s)) J
      (initComm_peer me d s)).getD y default).patch_buff_index_recv_sz a b =
      if (y = J ∧ y < w.length) ∧
          (me.neighbor_ d s ≠ none ∧ is_a_MPI_neighbor me d s = false) ∧ a = d ∧
            b = (s + 1) % 2 then ((me.patch_buff_index_send d s).length : Int)
      else (w.getD y default).patch_buff_index_recv_sz a b := by
    intro y
    rw [recv_sz_modAt, modAt_length]
    by_cases h1 : y = J ∧ y < w.length
    · obtain ⟨rfl, h2⟩ := h1
      rw [if_pos ⟨rfl, h2⟩, initComm_peer_recv_sz, hY]
      simp only [true_and, h2]
    · rw [if_neg (show ¬ (J = y ∧ J < w.length) from fun h => h1 ⟨h.1.symm, h.1 ▸ h.2⟩), hY]
      simp only [h1, false_and, if_false]
  have hI : ((modAt (modAt w ip (initComm_own me d s)) J
      (initComm_peer me d s)).getD ip default).incoming_sz = me.incoming_sz := by
    rw [modAt_keep (fun p => p.incoming_sz) _ J _ (initComm_peer_incoming me d s),
      modAt_keep (fun p => p.incoming_sz) _ ip _ (initComm_own_incoming me d s), hme]
  rw [recv_sz_modAt, modAt_length, modAt_length]
  by_cases h1 : x = ip ∧ ip < w.length
  · obtain ⟨rfl, h2⟩ := h1
    rw [if_pos ⟨rfl, h2⟩, initComm_post_recv_sz, hI, hX]
    simp only [true_and, h2]
  · rw [if_neg (show ¬ (ip = x ∧ ip < w.length) from fun h => h1 ⟨h.1.symm, h.2⟩), hX]
    simp only [h1, false_and, if_false]

/-- The send counts of the patch at the position `x` after one iteration of
`initCommParticles` run by the patch `ip`. -/
theorem initComm_neighbor_send_sz (d ip : Nat) (w : List Patch) (s x a b : Nat) :
    ((initComm_neighbor d ip w s).getD x default).patch_buff_index_send_sz a b =
      if (x = ip ∧ ip < w.length) ∧ (w.getD ip default).neighbor_ d s ≠ none ∧ a = d ∧ b = s then
        (((w.getD ip default).patch_buff_index_send d s).length : Int)
      else (w.getD x default).patch_buff_index_send_sz a b := by
  rw [initComm_neighbor_updates]
  generalize hme : w.getD ip default = me
  generalize hJ : peer w me d s = J
  rw [modAt_keep (fun p => p.patch_buff_index_send_sz a b) _ ip _
      (fun q => by simp only [initComm_post_send_sz]),
    modAt_keep (fun p => p.patch_buff_index_send_sz a b) _ J _
      (fun q => by simp only [initComm_peer_send_sz]),
    send_sz_modAt]
  by_cases h1 : x = ip ∧ ip < w.length
  · obtain ⟨rfl, h2⟩ := h1
    rw [if_pos ⟨rfl, h2⟩, initComm_own_send_sz, hme]
    simp only [true_and, h2]
  · rw [if_neg (show ¬ (ip = x ∧ ip < w.length) from fun h => h1 ⟨h.1.symm, h.2⟩)]
    simp only [h1, false_and, if_false]

theorem sizeFrame_fields (p q : Patch) (h : p.sizeFrame = q.sizeFrame) :
    p.geometry = q.geometry ∧ p.neighbor_ = q.neighbor_ ∧ p.incoming_sz = q.incoming_sz ∧
      p.patch_buff_index_send = q.patch_buff_index_send := by
  unfold Patch.sizeFrame at h
  simp only [Prod.mk.injEq] at h
  obtain ⟨hg, _, _, _, _, _, _, hs⟩ := h
  refine ⟨hg, ?_, ?_, hs⟩
  · exact congrArg Geometry.neighbor_ hg
  · exact congrArg Geometry.incoming_sz hg

/-- The receive counts after `initCommParticles` run by the patch `ip`. -/
theorem initCommParticles_recv_sz (d ip : Nat) (W : List Patch) (x a b : Nat) :
    ((initCommParticles d ip W).getD x default).patch_buff_index_recv_sz a b =
      if (x = ip ∧ ip < W.length) ∧
          ((W.getD ip default).neighbor_ d 0 ≠ none ∧
            is_a_MPI_neighbor (W.getD ip default) d 0 = true) ∧ a = d ∧ b = 0 then
        (W.getD ip default).incoming_sz d 0
      else if (x = peer W (W.getD ip default) d 1 ∧ x < W.length) ∧
          ((W.getD ip default).neighbor_ d 1 ≠ none ∧
            is_a_MPI_neighbor (W.getD ip default) d 1 = false) ∧ a = d ∧ b = 0 then
        (((W.getD ip default).patch_buff_index_send d 1).length : Int)
      else if (x = ip ∧ ip < W.length) ∧
          ((W.getD ip default).neighbor_ d 1 ≠ none ∧
            is_a_MPI_neighbor (W.getD ip default) d 1 = true) ∧ a = d ∧ b = 1 then
        (W.getD ip default).incoming_sz d 1
      else if (x = peer W (W.getD ip default) d 0 ∧ x < W.length) ∧
          ((W.getD ip default).neighbor_ d 0 ≠ none ∧
            is_a_MPI_neighbor (W.getD ip default) d 0 = false) ∧ a = d ∧ b = 1 then
        (((W.getD ip default).patch_buff_index_send d 0).length : Int)
      else (W.getD x default).patch_buff_index_recv_sz a b := by
  unfold initCommParticles
  have hr : List.range nbNeighbors_ = [0, 1] := rfl
  rw [hr]
  simp only [List.foldl_cons, List.foldl_nil]
  have hsf := initComm_neighbor_sizeFrame d ip W 0
  have hlen := length_of_map_eq _ _ _ hsf
  obtain ⟨hg, hn, hi, hs⟩ := sizeFrame_fields _ _ (getD_of_map_eq _ _ _ hsf ip)
  have hmpi := is_a_MPI_neighbor_congr _ _ hg
  have hpeer : peer (initComm_neighbor d ip W 0) ((initComm_neighbor d ip W 0).getD ip default) d 1 =
      peer W (W.getD ip default) d 1 := by
    unfold peer
    rw [hn, h0_of_geometry _ _ (sizeFrame_geometry _ _ hsf)]
  rw [initComm_neighbor_recv_sz, hpeer, hn, hi, hs, hmpi, hmpi, hlen, initComm_neighbor_recv_sz]

theorem initCommParticles_send_sz (d ip : Nat) (W : List Patch) (x a b : Nat) :
    ((initCommParticles d ip W).getD x default).patch_buff_index_send_sz a b =
      if (x = ip ∧ ip < W.length) ∧ (W.getD ip default).neighbor_ d 1 ≠ none ∧ a = d ∧ b = 1 then
        (((W.getD ip default).patch_buff_index_send d 1).length : Int)
      else if (x = ip ∧ ip < W.length) ∧ (W.getD ip default).neighbor_ d 0 ≠ none ∧ a = d ∧
          b = 0 then
        (((W.getD ip default).patch_buff_index_send d 0).length : Int)
      else (W.getD x default).patch_buff_index_send_sz a b := by
  unfold initCommParticles
  have hr : List.range nbNeighbors_ = [0, 1] := rfl
  rw [hr]
  simp only [List.foldl_cons, List.foldl_nil]
  have hsf := initComm_neighbor_sizeFrame d ip W 0
  have hlen := length_of_map_eq _ _ _ hsf
  obtain ⟨hg, hn, hi, hs⟩ := sizeFrame_fields _ _ (getD_of_map_eq _ _ _ hsf ip)
  rw [initComm_neighbor_send_sz, hn, hs, hlen, initComm_neighbor_send_sz]

/-- C12: for every axis `d` and side `s` on which the patch `P` (at the position `ip`) has a
co-located neighbor `N` (at the position `nb - h0`), after `P` has run `initCommParticles`
for the axis `d` the receive count of `N` for the axis `d` on the opposite side
`(s+1) mod 2` is the number of indexes queued in the send list `(d, s)` of `P`, and the send
count `(d, s)` of `P` is that number; a send count that changes is a send count of `P` on a
side with a neighbor, and a receive count that changes is the count of the opposite side
of a co-located neighbor of `P` or the count of `P` itself on a side with a neighbor on
another process: a side without neighbor writes no count anywhere. -/
theorem initCommParticles_local_count (d ip : Nat) (W : List Patch) (hip : ip < W.length) :
    (∀ s nb, s < 2 → (W.getD ip default).neighbor_ d s = some nb →
      is_a_MPI_neighbor (W.getD ip default) d s = false → nb - h0 W < W.length →
      (nb - h0 W = ip → is_a_MPI_neighbor (W.getD ip default) d ((s + 1) % 2) = false) →
      ((initCommParticles d ip W).getD (nb - h0 W) default).patch_buff_index_recv_sz d
          ((s + 1) % 2) = (((W.getD ip default).patch_buff_index_send d s).length : Int) ∧
      ((initCommParticles d ip W).getD ip default).patch_buff_index_send_sz d s =
        (((W.getD ip default).patch_buff_index_send d s).length : Int)) ∧
    (∀ x a b, ((initCommParticles d ip W).getD x default).patch_buff_index_send_sz a b ≠
        (W.getD x default).patch_buff_index_send_sz a b →
      x = ip ∧ a = d ∧ b < 2 ∧ (W.getD ip default).neighbor_ d b ≠ none) ∧
    (∀ x a b, ((initCommParticles d ip W).getD x default).patch_buff_index_recv_sz a b ≠
        (W.getD x default).patch_buff_index_recv_sz a b →
      a = d ∧ b < 2 ∧
        ((∃ nb, (W.getD ip default).neighbor_ d ((b + 1) % 2) = some nb ∧
            is_a_MPI_neighbor (W.getD ip default) d ((b + 1) % 2) = false ∧
            x = nb - h0 W) ∨
          (x = ip ∧ (W.getD ip default).neighbor_ d b ≠ none ∧
            is_a_MPI_neighbor (W.getD ip default) d b = true))) := by
  refine ⟨?_, ?_, ?_⟩
  · intro s nb hs hnb hloc hin hself
    have hpeer : peer W (W.getD ip default) d s = nb - h0 W := by
      unfold peer; rw [hnb]; rfl
    have hne : (W.getD ip default).neighbor_ d s ≠ none := by rw [hnb]; exact Option.some_ne_none _
    rw [initCommParticles_recv_sz, initCommParticles_send_sz]
    have hs2 : s = 0 ∨ s = 1 := by omega
    rcases hs2 with rfl | rfl
    · have hself2 : nb - h0 W = ip → is_a_MPI_neighbor (W.getD ip default) d 1 = false := hself
      constructor
      · rw [if_neg (by rintro ⟨_, _, _, h⟩; exact absurd h (by decide)),
          if_neg (by rintro ⟨_, _, _, h⟩; exact absurd h (by decide)),
          if_neg (by
            rintro ⟨⟨h1, _⟩, ⟨_, h2⟩, _⟩
            rw [hself2 h1] at h2
            exact absurd h2 (by decide)),
          if_pos ⟨⟨hpeer.symm, hin⟩, ⟨hne, hloc⟩, rfl, rfl⟩]
      · rw [if_neg (by rintro ⟨_, _, _, h⟩; exact absurd h (by decide)),
          if_pos ⟨⟨rfl, hip⟩, hne, rfl, rfl⟩]
    · have hself2 : nb - h0 W = ip → is_a_MPI_neighbor (W.getD ip default) d 0 = false := hself
      constructor
      · rw [if_neg (by
            rintro ⟨⟨h1, _⟩, ⟨_, h2⟩, _⟩
            rw [hself2 h1] at h2
            exact absurd h2 (by decide)),
          if_pos ⟨⟨hpeer.symm, hin⟩, ⟨hne, hloc⟩, rfl, rfl⟩]
      · rw [if_pos ⟨⟨rfl, hip⟩, hne, rfl, rfl⟩]
  · intro x a b h
    rw [initCommParticles_send_sz] at h
    split_ifs at h with h1 h2
    · obtain ⟨⟨rfl, _⟩, hn, rfl, rfl⟩ := h1
      exact ⟨rfl, rfl, by omega, hn⟩
    · obtain ⟨⟨rfl, _⟩, hn, rfl, rfl⟩ := h2
      exact ⟨rfl, rfl, by omega, hn⟩
    · exact absurd rfl h
  · intro x a b h
    have hp : ∀ s, (W.getD ip default).neighbor_ d s ≠ none →
        ∃ nb, (W.getD ip default).neighbor_ d s = some nb ∧
          peer W (W.getD ip default) d s = nb - h0 W := by
      intro s hs
      cases hnb : (W.getD ip default).neighbor_ d s with
      | none => exact absurd hnb hs
      | some nb => exact ⟨nb, rfl, by unfold peer; rw [hnb]; rfl⟩
    rw [initCommParticles_recv_sz] at h
    split_ifs at h with h1 h2 h3 h4
    · obtain ⟨⟨rfl, _⟩, ⟨hn, hm⟩, rfl, rfl⟩ := h1
      exact ⟨rfl, by omega, Or.inr ⟨rfl, hn, hm⟩⟩
    · obtain ⟨⟨hx, _⟩, ⟨hn, hm⟩, rfl, rfl⟩ := h2
      obtain ⟨nb, e1, e2⟩ := hp 1 hn
      exact ⟨rfl, by omega, Or.inl ⟨nb, e1, hm, by rw [hx, e2]⟩⟩
    · obtain ⟨⟨rfl, _⟩, ⟨hn, hm⟩, rfl, rfl⟩ := h3
      exact ⟨rfl, by omega, Or.inr ⟨rfl, hn, hm⟩⟩
    · obtain ⟨⟨hx, _⟩, ⟨hn, hm⟩, rfl, rfl⟩ := h4
      obtain ⟨nb, e1, e2⟩ := hp 0 hn
      exact ⟨rfl, by omega, Or.inl ⟨nb, e1, hm, by rw [hx, e2]⟩⟩
    · exact absurd rfl h

theorem Comm_periodic_step_frame (params : Params) (d s : Nat) (p : Patch) (i : Int) :
    Comm_periodic_step params d s p i =
      { p with particles := (Comm_periodic_step params d s p i).particles } := by
  unfold Comm_periodic_step
  split
  · rfl
  · split <;> rfl

theorem Comm_periodic_fold_frame (params : Params) (d s : Nat) (l : List Int) (p : Patch) :
    l.foldl (Comm_periodic_step params d s) p =
      { p with particles := (l.foldl (Comm_periodic_step params d s) p).particles } := by
  induction l generalizing p with
  | nil => rfl
  | cons a l ih =>
    rw [List.foldl_cons, ih, Comm_periodic_step_frame]

theorem Comm_periodic_frame (params : Params) (d s : Nat) (p : Patch) :
    Comm_periodic params d s p =
      { p with particles := (Comm_periodic params d s p).particles } := by
  unfold Comm_periodic
  exact Comm_periodic_fold_frame params d s _ p

theorem Comm_correct_commFrame (smpi : SmileiMPI) (params : Params) (me : Patch) (d s : Nat)
    (q : Patch) : (Comm_correct smpi params me d s q).commFrame = q.commFrame := by
  unfold Comm_correct
  split
  · rw [Comm_periodic_frame]; rfl
  · rfl

theorem Comm_send_commFrame (me : Patch) (d s : Nat) (q : Patch) :
    (Comm_send me d s q).commFrame = q.commFrame := by
  unfold Comm_send
  split <;> rfl

theorem Comm_copy_commFrame (me : Patch) (ps : List Particle) (d s : Nat) (q : Patch) :
    (Comm_copy me ps d s q).commFrame = q.commFrame := by
  unfold Comm_copy
  split <;> rfl

theorem Comm_post_commFrame (me : Patch) (d s : Nat) (q : Patch) :
    (Comm_post me d s q).commFrame = q.commFrame := by
  unfold Comm_post
  split <;> rfl

theorem commFrame_fields (p q : Patch) (h : p.commFrame = q.commFrame) :
    p.geometry = q.geometry ∧ p.neighbor_ = q.neighbor_ ∧
      p.patch_buff_index_send = q.patch_buff_index_send ∧
      p.patch_buff_index_recv_sz = q.patch_buff_index_recv_sz := by
  unfold Patch.commFrame at h
  simp only [Prod.mk.injEq] at h
  obtain ⟨hg, _, _, _, hs, _, hr⟩ := h
  exact ⟨hg, congrArg Geometry.neighbor_ hg, hs, hr⟩

theorem neighbor_some_lt (w : List Patch) (ip d s nb : Nat)
    (h : (w.getD ip default).neighbor_ d s = some nb) : ip < w.length := by
  by_contra hc
  rw [List.getD_eq_default _ _ (by omega)] at h
  exact Option.noConfusion h

/-- The first half of one iteration of the second loop of `CommParticles` as three
updates: two of the patch itself and one of the neighbor of the side `s`. -/
theorem Comm_neighbor_send_updates (smpi : SmileiMPI) (params : Params) (d ip : Nat)
    (w : List Patch) (s : Nat) :
    Comm_neighbor_send smpi params d ip w s =
      modAt (modAt (modAt w ip (Comm_correct smpi params (w.getD ip default) d s))
            ip (Comm_send (w.getD ip default) d s))
          (peer w (w.getD ip default) d s)
          (Comm_copy (w.getD ip default)
            (Comm_correct smpi params (w.getD ip default) d s (w.getD ip default)).particles
            d s) := by
  unfold Comm_neighbor_send Comm_correct Comm_send Comm_copy Comm_active peer
  simp only
  split
  · rename_i hnb
    simp only [hnb, ne_eq, not_true_eq_false, false_and, if_false, modAt_id]
  · rename_i nb hnb
    have hip := neighbor_some_lt w ip d s nb hnb
    simp only [hnb, ne_eq, reduceCtorEq, not_false_eq_true, true_and, Option.getD_some]
    by_cases hl : ((w.getD ip default).patch_buff_index_send d s).length = 0
    · simp only [hl, not_true_eq_false, if_false, false_and, modAt_id]
    · simp only [hl, not_false_eq_true, if_true, true_and]
      have hvp1 : (if smpi.periods_ d = 1 then
          modAt w ip (fun q => Comm_periodic params d s q) else w) =
          modAt w ip (fun q => if smpi.periods_ d = 1 then Comm_periodic params d s q else q) := by
        split
        · rfl
        · rw [modAt_id]
      rw [hvp1]
      have hme1 : (modAt w ip (fun q => if smpi.periods_ d = 1 then
          Comm_periodic params d s q else q)).getD ip default =
          (if smpi.periods_ d = 1 then Comm_periodic params d s (w.getD ip default)
            else w.getD ip default) := by
        rw [getD_modAt, if_pos ⟨rfl, hip⟩]
      rw [hme1]
      by_cases hm : is_a_MPI_neighbor (w.getD ip default) d s = true
      · simp only [hm, if_true, Bool.true_eq_false, if_false, modAt_id]
      · have hm2 : is_a_MPI_neighbor (w.getD ip default) d s = false := by simpa using hm
        simp only [hm2, Bool.false_eq_true, if_false, if_true, modAt_id]

/-- The first half of an iteration of `CommParticles` keeps, in every patch, everything but
the particles, the transfer buffers and the log. -/
theorem Comm_neighbor_send_commFrame (smpi : SmileiMPI) (params : Params) (d ip : Nat)
    (w : List Patch) (s x : Nat) :
    ((Comm_neighbor_send smpi params d ip w s).getD x default).commFrame =
      (w.getD x default).commFrame := by
  rw [Comm_neighbor_send_updates,
    modAt_keep Patch.commFrame _ _ _ (Comm_copy_commFrame _ _ d s),
    modAt_keep Patch.commFrame _ _ _ (Comm_send_commFrame _ d s),
    modAt_keep Patch.commFrame _ _ _ (Comm_correct_commFrame smpi params _ d s)]

/-- One iteration of the second loop of `CommParticles` as four updates: three of the patch
itself and one of the neighbor of the side `s`. -/
theorem Comm_neighbor_updates (smpi : SmileiMPI) (params : Params) (d ip : Nat)
    (w : List Patch) (s : Nat) :
    Comm_neighbor smpi params d ip w s =
      modAt (modAt (modAt (modAt w ip (Comm_correct smpi params (w.getD ip default) d s))
            ip (Comm_send (w.getD ip default) d s))
          (peer w (w.getD ip default) d s)
          (Comm_copy (w.getD ip default)
            (Comm_correct smpi params (w.getD ip default) d s (w.getD ip default)).particles d s))
        ip (Comm_post (w.getD ip default) d s) := by
  unfold Comm_neighbor
  simp only
  obtain ⟨hg, hn, _, hr⟩ := commFrame_fields _ _ (Comm_neighbor_send_commFrame smpi params d ip w s ip)
  rw [hn, hr, is_a_MPI_neighbor_congr _ _ hg, Comm_neighbor_send_updates]
  unfold Comm_post
  split
  · rename_i hc
    simp only [hc, ne_eq, not_false_eq_true, and_self, if_true]
  · rename_i hc
    simp only [hc, if_false, modAt_id]

theorem Comm_correct_eq (smpi : SmileiMPI) (params : Params) (me : Patch) (d s : Nat)
    (q : Patch) :
    Comm_correct smpi params me d s q =
      { q with particles := (Comm_correct smpi params me d s q).particles } := by
  unfold Comm_correct
  split
  · rw [Comm_periodic_frame]
  · rfl

theorem Comm_send_particles (me : Patch) (d s : Nat) (q : Patch) :
    (Comm_send me d s q).particles = q.particles := by
  unfold Comm_send; split <;> rfl

theorem Comm_copy_particles (me : Patch) (ps : List Particle) (d s : Nat) (q : Patch) :
    (Comm_copy me ps d s q).particles = q.particles := by
  unfold Comm_copy; split <;> rfl

theorem Comm_post_particles (me : Patch) (d s : Nat) (q : Patch) :
    (Comm_post me d s q).particles = q.particles := by
  unfold Comm_post; split <;> rfl

/-- The particles of the patch at the position `x` after one iteration of the second loop
of `CommParticles` run by the patch `ip`. -/
theorem Comm_neighbor_particles (smpi : SmileiMPI) (params : Params) (d ip : Nat)
    (w : List Patch) (s x : Nat) :
    ((Comm_neighbor smpi params d ip w s).getD x default).particles =
      if x = ip ∧ ip < w.length then
        (Comm_correct smpi params (w.getD ip default) d s (w.getD ip default)).particles
      else (w.getD x default).particles := by
  rw [Comm_neighbor_updates,
    modAt_keep (fun p => p.particles) _ _ _ (Comm_post_particles _ d s),
    modAt_keep (fun p => p.particles) _ _ _ (Comm_copy_particles _ _ d s),
    modAt_keep (fun p => p.particles) _ _ _ (Comm_send_particles _ d s), getD_modAt]
  by_cases h1 : x = ip ∧ ip < w.length
  · obtain ⟨rfl, h2⟩ := h1
    rw [if_pos ⟨rfl, h2⟩, if_pos ⟨rfl, h2⟩]
  · rw [if_neg (show ¬ (ip = x ∧ ip < w.length) from fun h => h1 ⟨h.1.symm, h.2⟩), if_neg h1]

theorem Comm_neighbor_commFrame (smpi : SmileiMPI) (params : Params) (d ip : Nat)
    (w : List Patch) (s x : Nat) :
    ((Comm_neighbor smpi params d ip w s).getD x default).commFrame =
      (w.getD x default).commFrame := by
  rw [Comm_neighbor_updates,
    modAt_keep Patch.commFrame _ _ _ (Comm_post_commFrame _ d s),
    modAt_keep Patch.commFrame _ _ _ (Comm_copy_commFrame _ _ d s),
    modAt_keep Patch.commFrame _ _ _ (Comm_send_commFrame _ d s),
    modAt_keep Patch.commFrame _ _ _ (Comm_correct_commFrame smpi params _ d s)]

theorem Comm_correct_recv (smpi : SmileiMPI) (params : Params) (me : Patch) (d s : Nat)
    (q : Patch) : (Comm_correct smpi params me d s q).patchVectorRecv = q.patchVectorRecv := by
  rw [Comm_correct_eq]

theorem Comm_send_recv (me : Patch) (d s : Nat) (q : Patch) :
    (Comm_send me d s q).patchVectorRecv = q.patchVectorRecv := by
  unfold Comm_send; split <;> rfl

theorem Comm_copy_recv (me : Patch) (ps : List Particle) (d s : Nat) (q : Patch) (a b : Nat) :
    (Comm_copy me ps d s q).patchVectorRecv a b =
      if (Comm_active me d s ∧ is_a_MPI_neighbor me d s = false) ∧ a = d ∧ b = (s + 1) % 2 then
        cp_particles ps (me.patch_buff_index_send d s) (q.patchVectorRecv d ((s + 1) % 2))
      else q.patchVectorRecv a b := by
  unfold Comm_copy
  by_cases h : Comm_active me d s ∧ is_a_MPI_neighbor me d s = false
  · rw [if_pos h]
    simp only [set_recv, upd2, h, and_self, true_and]
  · rw [if_neg h, if_neg (fun hh => h hh.1)]

theorem Comm_post_recv (me : Patch) (d s : Nat) (q : Patch) (a b : Nat) :
    (Comm_post me d s q).patchVectorRecv a b =
      if (me.neighbor_ d ((s + 1) % 2) ≠ none ∧ me.patch_buff_index_recv_sz d ((s + 1) % 2) ≠ 0 ∧
          is_a_MPI_neighbor me d ((s + 1) % 2) = true) ∧ a = d ∧ b = (s + 1) % 2 then
        overwrite_part_into_range (q.incoming_parts d ((s + 1) % 2)) 0
          (q.patchVectorRecv d ((s + 1) % 2)) 0 (q.patch_buff_index_recv_sz d ((s + 1) % 2))
      else q.patchVectorRecv a b := by
  unfold Comm_post
  by_cases h : me.neighbor_ d ((s + 1) % 2) ≠ none ∧
      me.patch_buff_index_recv_sz d ((s + 1) % 2) ≠ 0 ∧
      is_a_MPI_neighbor me d ((s + 1) % 2) = true
  · rw [if_pos h]
    simp only [log_event, set_recv, upd2, h, ne_eq, not_false_eq_true, and_self, true_and]
  · rw [if_neg h, if_neg (fun hh => h hh.1)]

theorem recv_modAt (vp : List Patch) (i q : Nat) (f : Patch → Patch) (a b : Nat) :
    ((modAt vp i f).getD q default).patchVectorRecv a b =
      if i = q ∧ i < vp.length then (f (vp.getD i default)).patchVectorRecv a b
      else (vp.getD q default).patchVectorRecv a b := by
  rw [getD_modAt]; split <;> rfl

/-- The receive buffers of the patch at the position `x` after the first half of one
iteration of the second loop of `CommParticles` run by the patch `ip`. -/
theorem Comm_neighbor_send_recv (smpi : SmileiMPI) (params : Params) (d ip : Nat)
    (w : List Patch) (s x a b : Nat) :
    ((Comm_neighbor_send smpi params d ip w s).getD x default).patchVectorRecv a b =
      if (x = peer w (w.getD ip default) d s ∧ x < w.length) ∧
          (Comm_active (w.getD ip default) d s ∧
            is_a_MPI_neighbor (w.getD ip default) d s = false) ∧ a = d ∧ b = (s + 1) % 2 then
        cp_particles
          (Comm_correct smpi params (w.getD ip default) d s (w.getD ip default)).particles
          ((w.getD ip default).patch_buff_index_send d s)
          ((w.getD x default).patchVectorRecv d ((s + 1) % 2))
      else (w.getD x default).patchVectorRecv a b := by
  rw [Comm_neighbor_send_updates]
  generalize hme : w.getD ip default = me
  generalize hJ : peer w me d s = J
  have hY : ∀ y, ((modAt (modAt w ip (Comm_correct smpi params me d s)) ip
      (Comm_send me d s)).getD y default).patchVectorRecv = (w.getD y default).patchVectorRecv := by
    intro y
    rw [modAt_keep (fun p => p.patchVectorRecv) _ _ _ (Comm_send_recv _ d s),
      modAt_keep (fun p => p.patchVectorRecv) _ _ _ (Comm_correct_recv smpi params _ d s)]
  rw [recv_modAt, modAt_length, modAt_length]
  by_cases h1 : x = J ∧ x < w.length
  · obtain ⟨rfl, h2⟩ := h1
    rw [if_pos ⟨rfl, h2⟩, Comm_copy_recv, hY]
    simp only [true_and, h2]
  · rw [if_neg (show ¬ (J = x ∧ J < w.length) from fun h => h1 ⟨h.1.symm, h.1 ▸ h.2⟩), hY]
    simp only [h1, false_and, if_false]

/-- The receive buffers of the patch at the position `x` after one iteration of the second
loop of `CommParticles` run by the patch `ip`. -/
theorem Comm_neighbor_recv (smpi : SmileiMPI) (params : Params) (d ip : Nat)
    (w : List Patch) (s x a b : Nat) :
    ((Comm_neighbor smpi params d ip w s).getD x default).patchVectorRecv a b =
      if (x = ip ∧ ip < w.length) ∧
          ((w.getD ip default).neighbor_ d ((s + 1) % 2) ≠ none ∧
            (w.getD ip default).patch_buff_index_recv_sz d ((s + 1) % 2) ≠ 0 ∧
            is_a_MPI_neighbor (w.getD ip default) d ((s + 1) % 2) = true) ∧ a = d ∧
            b = (s + 1) % 2 then
        overwrite_part_into_range ((w.getD ip default).incoming_parts d ((s + 1) % 2)) 0
          (((Comm_neighbor_send smpi params d ip w s).getD ip default).patchVectorRecv d
            ((s + 1) % 2)) 0
          ((w.getD ip default).patch_buff_index_recv_sz d ((s + 1) % 2))
      else ((Comm_neighbor_send smpi params d ip w s).getD x default).patchVectorRecv a b := by
  have hcf := Comm_neighbor_send_commFrame smpi params d ip w s ip
  obtain ⟨hg, _, _, hr⟩ := commFrame_fields _ _ hcf
  have hinc : ((Comm_neighbor_send smpi params d ip w s).getD ip default).incoming_parts =
      (w.getD ip default).incoming_parts := congrArg Geometry.incoming_parts hg
  rw [Comm_neighbor_updates, ← Comm_neighbor_send_updates, recv_modAt]
  have hlen : (Comm_neighbor_send smpi params d ip w s).length = w.length := by
    rw [Comm_neighbor_send_updates, modAt_length, modAt_length, modAt_length]
  rw [hlen]
  by_cases h1 : x = ip ∧ ip < w.length
  · obtain ⟨rfl, h2⟩ := h1
    rw [if_pos ⟨rfl, h2⟩, Comm_post_recv, hinc, hr]
    simp only [true_and, h2]
  · rw [if_neg (show ¬ (ip = x ∧ ip < w.length) from fun h => h1 ⟨h.1.symm, h.2⟩)]
    simp only [h1, false_and, if_false]

theorem Comm_wait_commFrame (d : Nat) (p : Patch) (i : Nat) :
    (Comm_wait d p i).commFrame = p.commFrame := by
  unfold Comm_wait; split <;> rfl

theorem Comm_wait_particles (d : Nat) (p : Patch) (i : Nat) :
    (Comm_wait d p i).particles = p.particles := by
  unfold Comm_wait; split <;> rfl

theorem Comm_wait_recv (d : Nat) (p : Patch) (i a b : Nat) :
    (Comm_wait d p i).patchVectorRecv a b =
      if (p.neighbor_ d ((i + 1) % 2) ≠ none ∧ is_a_MPI_neighbor p d ((i + 1) % 2) = true ∧
          p.patch_buff_index_recv_sz d ((i + 1) % 2) ≠ 0) ∧ a = d ∧ b = (i + 1) % 2 then
        init_particles (p.patch_buff_index_recv_sz d ((i + 1) % 2))
      else p.patchVectorRecv a b := by
  unfold Comm_wait
  by_cases h : p.neighbor_ d ((i + 1) % 2) ≠ none ∧ is_a_MPI_neighbor p d ((i + 1) % 2) = true ∧
      p.patch_buff_index_recv_sz d ((i + 1) % 2) ≠ 0
  · rw [if_pos h]
    simp only [upd2, h, ne_eq, not_false_eq_true, and_self, true_and]
  · rw [if_neg h, if_neg (fun hh => h hh.1)]

/-- The first loop of `CommParticles` changes a receive buffer of the patch only on a side
with a neighbor on another process and a receive count that is not zero. -/
theorem Comm_waits_recv (d : Nat) (p : Patch) (a b : Nat)
    (h : ¬ (a = d ∧ b < 2 ∧ p.neighbor_ d b ≠ none ∧ is_a_MPI_neighbor p d b = true ∧
      p.patch_buff_index_recv_sz d b ≠ 0)) :
    ((List.range nbNeighbors_).foldl (Comm_wait d) p).patchVectorRecv a b =
      p.patchVectorRecv a b := by
  have hr : List.range nbNeighbors_ = [0, 1] := rfl
  rw [hr]
  simp only [List.foldl_cons, List.foldl_nil]
  obtain ⟨hg, hn, _, hrs⟩ := commFrame_fields _ _ (Comm_wait_commFrame d p 0)
  rw [Comm_wait_recv, hn, hrs, is_a_MPI_neighbor_congr _ _ hg, Comm_wait_recv]
  rw [if_neg, if_neg]
  · rintro ⟨⟨h1, h2, h3⟩, rfl, rfl⟩
    exact h ⟨rfl, by decide, h1, h2, h3⟩
  · rintro ⟨⟨h1, h2, h3⟩, rfl, rfl⟩
    exact h ⟨rfl, by decide, h1, h2, h3⟩

theorem Comm_waits_commFrame (d : Nat) (p : Patch) :
    ((List.range nbNeighbors_).foldl (Comm_wait d) p).commFrame = p.commFrame := by
  have hr : List.range nbNeighbors_ = [0, 1] := rfl
  rw [hr]
  simp only [List.foldl_cons, List.foldl_nil]
  rw [Comm_wait_commFrame, Comm_wait_commFrame]

theorem Comm_waits_particles (d : Nat) (p : Patch) :
    ((List.range nbNeighbors_).foldl (Comm_wait d) p).particles = p.particles := by
  have hr : List.range nbNeighbors_ = [0, 1] := rfl
  rw [hr]
  simp only [List.foldl_cons, List.foldl_nil]
  rw [Comm_wait_particles, Comm_wait_particles]

theorem Comm_periodic_step_length (params : Params) (d s : Nat) (p : Patch) (i : Int) :
    (Comm_periodic_step params d s p i).particles.length = p.particles.length := by
  unfold Comm_periodic_step
  split
  · simp [add_position]
  · split
    · simp [add_position]
    · rfl

theorem Comm_periodic_fold_notin (params : Params) (d s : Nat) (l : List Int) (p : Patch)
    (i : Int) (h : i ∉ l) :
    getI (l.foldl (Comm_periodic_step params d s) p).particles i = getI p.particles i ∧
    (l.foldl (Comm_periodic_step params d s) p).particles.length = p.particles.length := by
  induction l generalizing p with
  | nil => exact ⟨rfl, rfl⟩
  | cons a l ih =>
    rw [List.foldl_cons]
    have ha : a ≠ i := fun hh => h (hh ▸ List.mem_cons_self _ _)
    obtain ⟨i1, i2⟩ := ih (Comm_periodic_step params d s p a)
      (fun hh => h (List.mem_cons_of_mem _ hh))
    exact ⟨by rw [i1, Comm_periodic_step_getI_ne params d s p a i ha],
      by rw [i2, Comm_periodic_step_length]⟩

theorem Comm_periodic_fold_length (params : Params) (d s : Nat) (l : List Int) (p : Patch) :
    (l.foldl (Comm_periodic_step params d s) p).particles.length = p.particles.length := by
  induction l generalizing p with
  | nil => rfl
  | cons a l ih => rw [List.foldl_cons, ih, Comm_periodic_step_length]

theorem Comm_correct_length (smpi : SmileiMPI) (params : Params) (me : Patch) (d s : Nat)
    (q : Patch) : (Comm_correct smpi params me d s q).particles.length = q.particles.length := by
  unfold Comm_correct
  split
  · unfold Comm_periodic; exact Comm_periodic_fold_length params d s _ q
  · rfl

theorem Comm_correct_notin (smpi : SmileiMPI) (params : Params) (me : Patch) (d s : Nat)
    (q : Patch) (i : Int) (h : i ∉ q.patch_buff_index_send d s) :
    getI (Comm_correct smpi params me d s q).particles i = getI q.particles i := by
  unfold Comm_correct
  split
  · unfold Comm_periodic; exact (Comm_periodic_fold_notin params d s _ q i h).1
  · rfl

theorem Comm_active_congr (p q : Patch) (h : p.commFrame = q.commFrame) (d s : Nat) :
    Comm_active p d s ↔ Comm_active q d s := by
  obtain ⟨_, hn, hs, _⟩ := commFrame_fields _ _ h
  unfold Comm_active
  rw [hn, hs]

theorem Comm_correct_congr (smpi : SmileiMPI) (params : Params) (p q : Patch)
    (h : p.commFrame = q.commFrame) (d s : Nat) :
    Comm_correct smpi params p d s = Comm_correct smpi params q d s := by
  funext x
  unfold Comm_correct
  simp only [Comm_active_congr p q h d s]

theorem peer_congr (V W : List Patch) (p q : Patch) (d s : Nat) (h0e : h0 V = h0 W)
    (h : p.commFrame = q.commFrame) : peer V p d s = peer W q d s := by
  obtain ⟨_, hn, _, _⟩ := commFrame_fields _ _ h
  unfold peer
  rw [hn, h0e]

theorem h0_of_commFrame (V W : List Patch)
    (h : ∀ x, (V.getD x default).commFrame = (W.getD x default).commFrame) : h0 V = h0 W := by
  unfold h0
  exact congrArg Geometry.hindex (commFrame_fields _ _ (h 0)).1

theorem CommParticles_eq (smpi : SmileiMPI) (params : Params) (d ip : Nat) (W : List Patch) :
    CommParticles smpi params d ip W =
      Comm_neighbor smpi params d ip
        (Comm_neighbor smpi params d ip
          (modAt W ip (fun q => (List.range nbNeighbors_).foldl (Comm_wait d) q)) 0) 1 := by
  unfold CommParticles
  have hr : List.range nbNeighbors_ = [0, 1] := rfl
  rw [hr]
  rfl

theorem Comm_neighbor_length (smpi : SmileiMPI) (params : Params) (d ip : Nat)
    (w : List Patch) (s : Nat) : (Comm_neighbor smpi params d ip w s).length = w.length := by
  rw [Comm_neighbor_updates, modAt_length, modAt_length, modAt_length, modAt_length]

/-- Every step of `CommParticles` keeps, in every patch, everything but the particles, the
transfer buffers and the log. -/
theorem CommParticles_commFrame (smpi : SmileiMPI) (params : Params) (d ip : Nat)
    (W : List Patch) (x : Nat) :
    ((CommParticles smpi params d ip W).getD x default).commFrame =
      (W.getD x default).commFrame := by
  rw [CommParticles_eq, Comm_neighbor_commFrame, Comm_neighbor_commFrame,
    modAt_keep Patch.commFrame _ _ _ (Comm_waits_commFrame d)]

/-- C13: for every axis `d` and side `s` on which the patch `P` (at the position `ip`) has a
co-located neighbor `N` (at the position `nb - h0`) and a send list that is not empty, after
`P` has run `CommParticles` for the axis `d` the receive buffer of `N` for the axis `d` on
the opposite side, empty before, holds in the order of the queue one record per queued
index, equal to the record of `P` at that index after the periodic correction (the send
lists of the two sides sharing no index); its length is the receive count when the handshake
has written the length of the send list there; and the store of `P` keeps its number of
records. -/
theorem CommParticles_local_copy (smpi : SmileiMPI) (params : Params) (d ip : Nat)
    (W : List Patch) (s nb : Nat) (hs : s < 2)
    (hnb : (W.getD ip default).neighbor_ d s = some nb)
    (hloc : is_a_MPI_neighbor (W.getD ip default) d s = false)
    (hin : nb - h0 W < W.length)
    (hself : nb - h0 W = ip → is_a_MPI_neighbor (W.getD ip default) d ((s + 1) % 2) = false)
    (hne : (W.getD ip default).patch_buff_index_send d s ≠ [])
    (hempty : (W.getD (nb - h0 W) default).patchVectorRecv d ((s + 1) % 2) = [])
    (hdisj : ∀ i ∈ (W.getD ip default).patch_buff_index_send d 0,
      i ∉ (W.getD ip default).patch_buff_index_send d 1) :
    ((CommParticles smpi params d ip W).getD (nb - h0 W) default).patchVectorRecv d
        ((s + 1) % 2) =
      ((W.getD ip default).patch_buff_index_send d s).map
        (getI ((CommParticles smpi params d ip W).getD ip default).particles) ∧
    ((W.getD (nb - h0 W) default).patch_buff_index_recv_sz d ((s + 1) % 2) =
        (((W.getD ip default).patch_buff_index_send d s).length : Int) →
      ((((CommParticles smpi params d ip W).getD (nb - h0 W) default).patchVectorRecv d
          ((s + 1) % 2)).length : Int) =
        ((CommParticles smpi params d ip W).getD (nb - h0 W) default).patch_buff_index_recv_sz d
          ((s + 1) % 2)) ∧
    ((CommParticles smpi params d ip W).getD ip default).particles.length =
      (W.getD ip default).particles.length := by
  have hip := neighbor_some_lt W ip d s nb hnb
  -- the three vectors of patches
  have hW0len : (modAt W ip (fun q => (List.range nbNeighbors_).foldl (Comm_wait d) q)).length =
      W.length := modAt_length _ _ _
  have hf0 : ∀ x, ((modAt W ip (fun q => (List.range nbNeighbors_).foldl (Comm_wait d) q)).getD x
      default).commFrame = (W.getD x default).commFrame :=
    fun x => modAt_keep Patch.commFrame _ _ _ (Comm_waits_commFrame d) x
  have hp0 : ∀ x, ((modAt W ip (fun q => (List.range nbNeighbors_).foldl (Comm_wait d) q)).getD x
      default).particles = (W.getD x default).particles :=
    fun x => modAt_keep (fun p => p.particles) _ _ _ (Comm_waits_particles d) x
  generalize hW0 : modAt W ip (fun q => (List.range nbNeighbors_).foldl (Comm_wait d) q) = W0
    at hW0len hf0 hp0
  have hr0 : (W0.getD (nb - h0 W) default).patchVectorRecv d ((s + 1) % 2) = [] := by
    rw [← hW0, recv_modAt]
    by_cases hc : ip = nb - h0 W ∧ ip < W.length
    · rw [if_pos hc, Comm_waits_recv, hc.1, hempty]
      rintro ⟨_, _, _, h4, _⟩
      rw [hself hc.1.symm] at h4
      exact absurd h4 (by decide)
    · rw [if_neg hc, hempty]
  have hW1len := Comm_neighbor_length smpi params d ip W0 0
  have hf1 : ∀ x, ((Comm_neighbor smpi params d ip W0 0).getD x default).commFrame =
      (W.getD x default).commFrame := fun x => by rw [Comm_neighbor_commFrame, hf0]
  have hp1 := Comm_neighbor_particles smpi params d ip W0 0 ip
  rw [if_pos ⟨rfl, by rw [hW0len]; exact hip⟩] at hp1
  have hrecv1 := fun a b => Comm_neighbor_recv smpi params d ip W0 0 (nb - h0 W) a b
  have hsend1 := fun a b => Comm_neighbor_send_recv smpi params d ip W0 0 (nb - h0 W) a b
  generalize hW1 : Comm_neighbor smpi params d ip W0 0 = W1 at hW1len hf1 hp1 hrecv1
  have hp2 := Comm_neighbor_particles smpi params d ip W1 1 ip
  rw [if_pos ⟨rfl, by rw [hW1len, hW0len]; exact hip⟩] at hp2
  have hrecv2 := fun a b => Comm_neighbor_recv smpi params d ip W1 1 (nb - h0 W) a b
  have hsend2 := fun a b => Comm_neighbor_send_recv smpi params d ip W1 1 (nb - h0 W) a b
  rw [CommParticles_eq, hW0, hW1]
  have hf2 : ∀ x, ((Comm_neighbor smpi params d ip W1 1).getD x default).commFrame =
      (W.getD x default).commFrame := fun x => by rw [Comm_neighbor_commFrame, hf1]
  -- the patch itself in the three vectors
  obtain ⟨hg0, hn0, hs0, hrs0⟩ := commFrame_fields _ _ (hf0 ip)
  obtain ⟨hg1, hn1, hs1, hrs1⟩ := commFrame_fields _ _ (hf1 ip)
  have hm0 := is_a_MPI_neighbor_congr _ _ hg0
  have hm1 := is_a_MPI_neighbor_congr _ _ hg1
  have hpe0 : ∀ t, peer W0 (W0.getD ip default) d t = peer W (W.getD ip default) d t :=
    fun t => peer_congr W0 W _ _ d t (h0_of_commFrame W0 W hf0) (hf0 ip)
  have hpe1 : ∀ t, peer W1 (W1.getD ip default) d t = peer W (W.getD ip default) d t :=
    fun t => peer_congr W1 W _ _ d t (h0_of_commFrame W1 W hf1) (hf1 ip)
  have hpeer : peer W (W.getD ip default) d s = nb - h0 W := by
    unfold peer; rw [hnb]; rfl
  have hact : Comm_active (W.getD ip default) d s := by
    refine ⟨by rw [hnb]; exact Option.some_ne_none _, ?_⟩
    intro h
    exact hne (List.length_eq_zero.mp h)
  have hact0 : ∀ t, Comm_active (W0.getD ip default) d t ↔ Comm_active (W.getD ip default) d t :=
    fun t => Comm_active_congr _ _ (hf0 ip) d t
  have hact1 : ∀ t, Comm_active (W1.getD ip default) d t ↔ Comm_active (W.getD ip default) d t :=
    fun t => Comm_active_congr _ _ (hf1 ip) d t
  have hlen2 : ((Comm_neighbor smpi params d ip W1 1).getD ip default).particles.length =
      (W.getD ip default).particles.length := by
    rw [hp2, Comm_correct_length, hp1, Comm_correct_length, hp0]
  have hs2 : s = 0 ∨ s = 1 := by omega
  have hmain : ((Comm_neighbor smpi params d ip W1 1).getD (nb - h0 W) default).patchVectorRecv d
      ((s + 1) % 2) =
      ((W.getD ip default).patch_buff_index_send d s).map
        (getI ((Comm_neighbor smpi params d ip W1 1).getD ip default).particles) := by
    rcases hs2 with rfl | rfl
    · -- the side 0: the copy is made by the first iteration
      have hself2 : nb - h0 W = ip → is_a_MPI_neighbor (W.getD ip default) d 1 = false := hself
      have hr0b : (W0.getD (nb - h0 W) default).patchVectorRecv d 1 = [] := hr0
      rw [hrecv2, if_neg (by rintro ⟨_, _, _, h⟩; exact absurd h (by decide)),
        hsend2, if_neg (by rintro ⟨_, _, _, h⟩; exact absurd h (by decide)),
        hrecv1, if_neg (by
          rintro ⟨⟨h1, _⟩, ⟨_, _, h2⟩, _⟩
          rw [hm0, hself2 h1] at h2
          exact absurd h2 (by decide)),
        hsend1, if_pos ⟨⟨by rw [hpe0, hpeer], by rw [hW0len]; exact hin⟩,
          ⟨(hact0 0).mpr hact, by rw [hm0]; exact hloc⟩, rfl, rfl⟩,
        cp_particles_eq, hr0b, List.nil_append, hs0]
      apply List.map_congr_left
      intro i hi
      rw [hp2, Comm_correct_notin smpi params _ d 1 (W1.getD ip default) i
        (by rw [hs1]; exact hdisj i hi), hp1]
    · -- the side 1: the copy is made by the second iteration
      have hself2 : nb - h0 W = ip → is_a_MPI_neighbor (W.getD ip default) d 0 = false := hself
      have hr0b : (W0.getD (nb - h0 W) default).patchVectorRecv d 0 = [] := hr0
      rw [hrecv2, if_neg (by
          rintro ⟨⟨h1, _⟩, ⟨_, _, h2⟩, _⟩
          rw [hm1, hself2 h1] at h2
          exact absurd h2 (by decide)),
        hsend2, if_pos ⟨⟨by rw [hpe1, hpeer], by rw [hW1len, hW0len]; exact hin⟩,
          ⟨(hact1 1).mpr hact, by rw [hm1]; exact hloc⟩, rfl, rfl⟩,
        cp_particles_eq, hrecv1,
        if_neg (by rintro ⟨_, _, _, h⟩; exact absurd h (by decide)),
        hsend1, if_neg (by rintro ⟨_, _, _, h⟩; exact absurd h (by decide)),
        hr0b, List.nil_append, hs1, hp2]
  refine ⟨hmain, ?_, hlen2⟩
  intro hcount
  rw [hmain, List.length_map, (commFrame_fields _ _ (hf2 (nb - h0 W))).2.2.2, hcount]



theorem Comm_correct_sendbuf (smpi : SmileiMPI) (params : Params) (me : Patch) (d s : Nat)
    (q : Patch) : (Comm_correct smpi params me d s q).patchVectorSend = q.patchVectorSend := by
  rw [Comm_correct_eq]

theorem Comm_correct_log (smpi : SmileiMPI) (params : Params) (me : Patch) (d s : Nat)
    (q : Patch) : (Comm_correct smpi params me d s q).mpi_log = q.mpi_log := by
  rw [Comm_correct_eq]

theorem Comm_copy_sendbuf (me : Patch) (ps : List Particle) (d s : Nat) (q : Patch) :
    (Comm_copy me ps d s q).patchVectorSend = q.patchVectorSend := by
  unfold Comm_copy; split <;> rfl

theorem Comm_copy_log (me : Patch) (ps : List Particle) (d s : Nat) (q : Patch) :
    (Comm_copy me ps d s q).mpi_log = q.mpi_log := by
  unfold Comm_copy; split <;> rfl

theorem Comm_post_sendbuf (me : Patch) (d s : Nat) (q : Patch) :
    (Comm_post me d s q).patchVectorSend = q.patchVectorSend := by
  unfold Comm_post; split <;> rfl

theorem Comm_send_sendbuf (me : Patch) (d s : Nat) (q : Patch) (a b : Nat) :
    (Comm_send me d s q).patchVectorSend a b =
      if (Comm_active me d s ∧ is_a_MPI_neighbor me d s = true) ∧ a = d ∧ b = s then
        cp_particles q.particles (me.patch_buff_index_send d s) (q.patchVectorSend d s)
      else q.patchVectorSend a b := by
  unfold Comm_send
  by_cases h : Comm_active me d s ∧ is_a_MPI_neighbor me d s = true
  · rw [if_pos h]
    simp only [log_event, set_send, upd2, h, and_self, true_and]
  · rw [if_neg h, if_neg (fun hh => h hh.1)]

theorem Comm_send_log (me : Patch) (d s : Nat) (q : Patch) :
    (Comm_send me d s q).mpi_log =
      q.mpi_log ++ (if Comm_active me d s ∧ is_a_MPI_neighbor me d s = true then
        [MPIEvent.isend_particles d s
          (cp_particles q.particles (me.patch_buff_index_send d s) (q.patchVectorSend d s))]
        else []) := by
  unfold Comm_send
  by_cases h : Comm_active me d s ∧ is_a_MPI_neighbor me d s = true
  · rw [if_pos h, if_pos h]; rfl
  · rw [if_neg h, if_neg h, List.append_nil]

theorem Comm_post_log (me : Patch) (d s : Nat) (q : Patch) :
    (Comm_post me d s q).mpi_log =
      q.mpi_log ++ (if me.neighbor_ d ((s + 1) % 2) ≠ none ∧
          me.patch_buff_index_recv_sz d ((s + 1) % 2) ≠ 0 ∧
          is_a_MPI_neighbor me d ((s + 1) % 2) = true then
        [MPIEvent.irecv_particles d ((s + 1) % 2)] else []) := by
  unfold Comm_post
  by_cases h : me.neighbor_ d ((s + 1) % 2) ≠ none ∧
      me.patch_buff_index_recv_sz d ((s + 1) % 2) ≠ 0 ∧
      is_a_MPI_neighbor me d ((s + 1) % 2) = true
  · rw [if_pos h, if_pos h]; rfl
  · rw [if_neg h, if_neg h, List.append_nil]

theorem sendbuf_modAt (vp : List Patch) (i q : Nat) (f : Patch → Patch) (a b : Nat) :
    ((modAt vp i f).getD q default).patchVectorSend a b =
      if i = q ∧ i < vp.length then (f (vp.getD i default)).patchVectorSend a b
      else (vp.getD q default).patchVectorSend a b := by
  rw [getD_modAt]; split <;> rfl

theorem log_modAt (vp : List Patch) (i q : Nat) (f : Patch → Patch) :
    ((modAt vp i f).getD q default).mpi_log =
      if i = q ∧ i < vp.length then (f (vp.getD i default)).mpi_log
      else (vp.getD q default).mpi_log := by
  rw [getD_modAt]; split <;> rfl

/-- The send buffers of the patch at the position `x` after one iteration of the second loop
of `CommParticles` run by the patch `ip`. -/
theorem Comm_neighbor_sendbuf (smpi : SmileiMPI) (params : Params) (d ip : Nat)
    (w : List Patch) (s x a b : Nat) :
    ((Comm_neighbor smpi params d ip w s).getD x default).patchVectorSend a b =
      if (x = ip ∧ ip < w.length) ∧
          (Comm_active (w.getD ip default) d s ∧
            is_a_MPI_neighbor (w.getD ip default) d s = true) ∧ a = d ∧ b = s then
        cp_particles
          (Comm_correct smpi params (w.getD ip default) d s (w.getD ip default)).particles
          ((w.getD ip default).patch_buff_index_send d s)
          ((w.getD ip default).patchVectorSend d s)
      else (w.getD x default).patchVectorSend a b := by
  rw [Comm_neighbor_updates,
    modAt_keep (fun p => p.patchVectorSend) _ _ _ (Comm_post_sendbuf _ d s),
    modAt_keep (fun p => p.patchVectorSend) _ _ _ (Comm_copy_sendbuf _ _ d s),
    sendbuf_modAt, modAt_length]
  by_cases h1 : x = ip ∧ ip < w.length
  · obtain ⟨rfl, h2⟩ := h1
    rw [if_pos ⟨rfl, h2⟩, Comm_send_sendbuf, getD_modAt,
      if_pos (show x = x ∧ x < w.length from ⟨rfl, h2⟩), Comm_correct_sendbuf]
    simp only [true_and, h2]
  · rw [if_neg (show ¬ (ip = x ∧ ip < w.length) from fun h => h1 ⟨h.1.symm, h.2⟩),
      modAt_keep (fun p => p.patchVectorSend) _ _ _ (Comm_correct_sendbuf smpi params _ d s)]
    simp only [h1, false_and, if_false]

/-- The log of MPI calls of the patch at the position `x` after one iteration of the second
loop of `CommParticles` run by the patch `ip`. -/
theorem Comm_neighbor_log (smpi : SmileiMPI) (params : Params) (d ip : Nat)
    (w : List Patch) (s x : Nat) :
    ((Comm_neighbor smpi params d ip w s).getD x default).mpi_log =
      (w.getD x default).mpi_log ++
        (if x = ip ∧ ip < w.length then Comm_events smpi params (w.getD ip default) d s
          else []) := by
  rw [Comm_neighbor_updates, log_modAt, modAt_length, modAt_length, modAt_length]
  have hY : ∀ y, ((modAt (modAt (modAt w ip (Comm_correct smpi params (w.getD ip default) d s))
      ip (Comm_send (w.getD ip default) d s)) (peer w (w.getD ip default) d s)
      (Comm_copy (w.getD ip default)
        (Comm_correct smpi params (w.getD ip default) d s (w.getD ip default)).particles
        d s)).getD y default).mpi_log =
      ((modAt (modAt w ip (Comm_correct smpi params (w.getD ip default) d s))
      ip (Comm_send (w.getD ip default) d s)).getD y default).mpi_log :=
    fun y => modAt_keep (fun p => p.mpi_log) _ _ _ (Comm_copy_log _ _ d s) y
  by_cases h1 : x = ip ∧ ip < w.length
  · obtain ⟨rfl, h2⟩ := h1
    have hx : x = x ∧ x < w.length := ⟨rfl, h2⟩
    rw [if_pos hx, if_pos hx, Comm_post_log, hY, log_modAt, modAt_length,
      if_pos hx, Comm_send_log, getD_modAt, if_pos hx, Comm_correct_log,
      Comm_correct_sendbuf, List.append_assoc]
    rfl
  · rw [if_neg (show ¬ (ip = x ∧ ip < w.length) from fun h => h1 ⟨h.1.symm, h.2⟩), if_neg h1,
      hY, log_modAt, modAt_length,
      if_neg (show ¬ (ip = x ∧ ip < w.length) from fun h => h1 ⟨h.1.symm, h.2⟩),
      modAt_keep (fun p => p.mpi_log) _ _ _ (Comm_correct_log smpi params _ d s),
      List.append_nil]

theorem Comm_wait_sendbuf (d : Nat) (p : Patch) (i : Nat) :
    (Comm_wait d p i).patchVectorSend = p.patchVectorSend := by
  unfold Comm_wait; split <;> rfl

theorem Comm_wait_log (d : Nat) (p : Patch) (i : Nat) :
    (Comm_wait d p i).mpi_log = p.mpi_log := by
  unfold Comm_wait; split <;> rfl

theorem Comm_waits_sendbuf (d : Nat) (p : Patch) :
    ((List.range nbNeighbors_).foldl (Comm_wait d) p).patchVectorSend = p.patchVectorSend := by
  have hr : List.range nbNeighbors_ = [0, 1] := rfl
  rw [hr]
  simp only [List.foldl_cons, List.foldl_nil, Comm_wait_sendbuf]

theorem Comm_waits_log (d : Nat) (p : Patch) :
    ((List.range nbNeighbors_).foldl (Comm_wait d) p).mpi_log = p.mpi_log := by
  have hr : List.range nbNeighbors_ = [0, 1] := rfl
  rw [hr]
  simp only [List.foldl_cons, List.foldl_nil, Comm_wait_log]

theorem Comm_events_isend (smpi : SmileiMPI) (params : Params) (me : Patch) (d s a b : Nat)
    (buf : List Particle) (h : MPIEvent.isend_particles a b buf ∈ Comm_events smpi params me d s) :
    a = d ∧ b = s ∧ me.patch_buff_index_send d s ≠ [] := by
  unfold Comm_events at h
  rcases List.mem_append.mp h with h | h
  · split at h
    · rename_i hc
      have he := List.mem_singleton.mp h
      injection he with h1 h2 h3
      refine ⟨h1, h2, ?_⟩
      intro h0
      exact hc.1.2 (by rw [h0]; rfl)
    · exact absurd h (List.not_mem_nil _)
  · split at h
    · have he := List.mem_singleton.mp h
      exact MPIEvent.noConfusion he
    · exact absurd h (List.not_mem_nil _)

theorem Comm_events_irecv (smpi : SmileiMPI) (params : Params) (me : Patch) (d s a b : Nat)
    (h : MPIEvent.irecv_particles a b ∈ Comm_events smpi params me d s) :
    a = d ∧ b = (s + 1) % 2 ∧ me.patch_buff_index_recv_sz d ((s + 1) % 2) ≠ 0 := by
  unfold Comm_events at h
  rcases List.mem_append.mp h with h | h
  · split at h
    · have he := List.mem_singleton.mp h
      exact MPIEvent.noConfusion he
    · exact absurd h (List.not_mem_nil _)
  · split at h
    · rename_i hc
      have he := List.mem_singleton.mp h
      injection he with h1 h2
      exact ⟨h1, h2, hc.2.1⟩
    · exact absurd h (List.not_mem_nil _)

/-- C14: in `CommParticles` run by the patch `P` (at the position `ip`), every bulk send
logged is for an axis and a side whose send list is not empty and every bulk receive logged
is for an axis and a side whose receive count is not zero, no other patch logs a call, a send
buffer that changes is a buffer of `P` for an axis and a side whose send list is not empty,
and a receive buffer that changes is either the buffer of the co-located neighbor opposite to
a side of `P` whose send list is not empty, or a buffer of `P` for an axis and a side whose
receive count is not zero. -/
theorem CommParticles_zero_size (smpi : SmileiMPI) (params : Params) (d ip : Nat)
    (W : List Patch) :
    (∃ evs, ((CommParticles smpi params d ip W).getD ip default).mpi_log =
        (W.getD ip default).mpi_log ++ evs ∧
      (∀ a b buf, MPIEvent.isend_particles a b buf ∈ evs →
        (W.getD ip default).patch_buff_index_send a b ≠ []) ∧
      (∀ a b, MPIEvent.irecv_particles a b ∈ evs →
        (W.getD ip default).patch_buff_index_recv_sz a b ≠ 0)) ∧
    (∀ x, x ≠ ip → ((CommParticles smpi params d ip W).getD x default).mpi_log =
      (W.getD x default).mpi_log) ∧
    (∀ x a b, ((CommParticles smpi params d ip W).getD x default).patchVectorSend a b ≠
        (W.getD x default).patchVectorSend a b →
      x = ip ∧ (W.getD ip default).patch_buff_index_send a b ≠ []) ∧
    (∀ x a b, ((CommParticles smpi params d ip W).getD x default).patchVectorRecv a b ≠
        (W.getD x default).patchVectorRecv a b →
      (x = peer W (W.getD ip default) a ((b + 1) % 2) ∧
        is_a_MPI_neighbor (W.getD ip default) a ((b + 1) % 2) = false ∧
        (W.getD ip default).patch_buff_index_send a ((b + 1) % 2) ≠ []) ∨
      (x = ip ∧ (W.getD ip default).patch_buff_index_recv_sz a b ≠ 0)) := by
  have hW0len : (modAt W ip (fun q => (List.range nbNeighbors_).foldl (Comm_wait d) q)).length =
      W.length := modAt_length _ _ _
  have hf0 : ∀ x, ((modAt W ip (fun q => (List.range nbNeighbors_).foldl (Comm_wait d) q)).getD x
      default).commFrame = (W.getD x default).commFrame :=
    fun x => modAt_keep Patch.commFrame _ _ _ (Comm_waits_commFrame d) x
  have hl0 : ∀ x, ((modAt W ip (fun q => (List.range nbNeighbors_).foldl (Comm_wait d) q)).getD x
      default).mpi_log = (W.getD x default).mpi_log :=
    fun x => modAt_keep (fun p => p.mpi_log) _ _ _ (Comm_waits_log d) x
  have hb0 : ∀ x, ((modAt W ip (fun q => (List.range nbNeighbors_).foldl (Comm_wait d) q)).getD x
      default).patchVectorSend = (W.getD x default).patchVectorSend :=
    fun x => modAt_keep (fun p => p.patchVectorSend) _ _ _ (Comm_waits_sendbuf d) x
  have hr0 : ∀ x a b, ((modAt W ip (fun q => (List.range nbNeighbors_).foldl (Comm_wait d)
      q)).getD x default).patchVectorRecv a b ≠ (W.getD x default).patchVectorRecv a b →
      x = ip ∧ (W.getD ip default).patch_buff_index_recv_sz a b ≠ 0 := by
    intro x a b h
    rw [recv_modAt] at h
    by_cases hc : ip = x ∧ ip < W.length
    · rw [if_pos hc] at h
      obtain ⟨rfl, _⟩ := hc
      refine ⟨rfl, ?_⟩
      intro hz
      apply h
      apply Comm_waits_recv
      rintro ⟨rfl, _, _, _, h5⟩
      exact h5 hz
    · rw [if_neg hc] at h
      exact absurd rfl h
  generalize hW0 : modAt W ip (fun q => (List.range nbNeighbors_).foldl (Comm_wait d) q) = W0
    at hW0len hf0 hl0 hb0 hr0
  have hW1len := Comm_neighbor_length smpi params d ip W0 0
  have hf1 : ∀ x, ((Comm_neighbor smpi params d ip W0 0).getD x default).commFrame =
      (W.getD x default).commFrame := fun x => by rw [Comm_neighbor_commFrame, hf0]
  have hl1 := fun x => Comm_neighbor_log smpi params d ip W0 0 x
  have hb1 := fun x a b => Comm_neighbor_sendbuf smpi params d ip W0 0 x a b
  have hrecv1 := fun x a b => Comm_neighbor_recv smpi params d ip W0 0 x a b
  have hsend1 := fun x a b => Comm_neighbor_send_recv smpi params d ip W0 0 x a b
  generalize hW1 : Comm_neighbor smpi params d ip W0 0 = W1 at hW1len hf1 hl1 hb1 hrecv1
  have hl2 := fun x => Comm_neighbor_log smpi params d ip W1 1 x
  have hb2 := fun x a b => Comm_neighbor_sendbuf smpi params d ip W1 1 x a b
  have hrecv2 := fun x a b => Comm_neighbor_recv smpi params d ip W1 1 x a b
  have hsend2 := fun x a b => Comm_neighbor_send_recv smpi params d ip W1 1 x a b
  rw [CommParticles_eq, hW0, hW1]
  obtain ⟨hg0, hn0, hs0, hrs0⟩ := commFrame_fields _ _ (hf0 ip)
  obtain ⟨hg1, hn1, hs1, hrs1⟩ := commFrame_fields _ _ (hf1 ip)
  have hm0 := is_a_MPI_neighbor_congr _ _ hg0
  have hm1 := is_a_MPI_neighbor_congr _ _ hg1
  have hpe0 : ∀ t, peer W0 (W0.getD ip default) d t = peer W (W.getD ip default) d t :=
    fun t => peer_congr W0 W _ _ d t (h0_of_commFrame W0 W hf0) (hf0 ip)
  have hpe1 : ∀ t, peer W1 (W1.getD ip default) d t = peer W (W.getD ip default) d t :=
    fun t => peer_congr W1 W _ _ d t (h0_of_commFrame W1 W hf1) (hf1 ip)
  have hact0 : ∀ t, Comm_active (W0.getD ip default) d t ↔ Comm_active (W.getD ip default) d t :=
    fun t => Comm_active_congr _ _ (hf0 ip) d t
  have hact1 : ∀ t, Comm_active (W1.getD ip default) d t ↔ Comm_active (W.getD ip default) d t :=
    fun t => Comm_active_congr _ _ (hf1 ip) d t
  have hactne : ∀ t, Comm_active (W.getD ip default) d t →
      (W.getD ip default).patch_buff_index_send d t ≠ [] := by
    intro t h h0
    exact h.2 (by rw [h0]; rfl)
  refine ⟨?_, ?_, ?_, ?_⟩
  · -- the log of the patch
    refine ⟨(if ip = ip ∧ ip < W0.length then Comm_events smpi params (W0.getD ip default) d 0
        else []) ++
      (if ip = ip ∧ ip < W1.length then Comm_events smpi params (W1.getD ip default) d 1
        else []), ?_, ?_, ?_⟩
    · rw [hl2, hl1, hl0, List.append_assoc]
    · intro a b buf h
      rcases List.mem_append.mp h with h | h
      · split at h
        · obtain ⟨rfl, rfl, h3⟩ := Comm_events_isend _ _ _ _ _ _ _ _ h
          rw [hs0] at h3; exact h3
        · exact absurd h (List.not_mem_nil _)
      · split at h
        · obtain ⟨rfl, rfl, h3⟩ := Comm_events_isend _ _ _ _ _ _ _ _ h
          rw [hs1] at h3; exact h3
        · exact absurd h (List.not_mem_nil _)
    · intro a b h
      rcases List.mem_append.mp h with h | h
      · split at h
        · obtain ⟨rfl, rfl, h3⟩ := Comm_events_irecv _ _ _ _ _ _ _ h
          rw [hrs0] at h3; exact h3
        · exact absurd h (List.not_mem_nil _)
      · split at h
        · obtain ⟨rfl, rfl, h3⟩ := Comm_events_irecv _ _ _ _ _ _ _ h
          rw [hrs1] at h3; exact h3
        · exact absurd h (List.not_mem_nil _)
  · -- the logs of the other patches
    intro x hx
    rw [hl2, hl1, hl0, if_neg (fun h => hx h.1), if_neg (fun h => hx h.1), List.append_nil,
      List.append_nil]
  · -- the send buffers
    intro x a b h
    rw [hb2] at h
    split at h
    · rename_i hc
      obtain ⟨⟨rfl, _⟩, ⟨h3, _⟩, rfl, rfl⟩ := hc
      exact ⟨rfl, hactne 1 ((hact1 1).mp h3)⟩
    · rw [hb1] at h
      split at h
      · rename_i hc
        obtain ⟨⟨rfl, _⟩, ⟨h3, _⟩, rfl, rfl⟩ := hc
        exact ⟨rfl, hactne 0 ((hact0 0).mp h3)⟩
      · rw [hb0] at h
        exact absurd rfl h
  · -- the receive buffers
    intro x a b h
    rw [hrecv2] at h
    split at h
    · rename_i hc
      obtain ⟨⟨rfl, _⟩, ⟨_, h3, _⟩, rfl, rfl⟩ := hc
      right
      rw [hrs1] at h3
      exact ⟨rfl, h3⟩
    · rw [hsend2] at h
      split at h
      · rename_i hc
        obtain ⟨⟨rfl, _⟩, ⟨h3, h4⟩, rfl, rfl⟩ := hc
        left
        rw [hm1] at h4
        exact ⟨(hpe1 1), h4, hactne 1 ((hact1 1).mp h3)⟩
      · rw [hrecv1] at h
        split at h
        · rename_i hc
          obtain ⟨⟨rfl, _⟩, ⟨_, h3, _⟩, rfl, rfl⟩ := hc
          right
          rw [hrs0] at h3
          exact ⟨rfl, h3⟩
        · rw [hsend1] at h
          split at h
          · rename_i hc
            obtain ⟨⟨rfl, _⟩, ⟨h3, h4⟩, rfl, rfl⟩ := hc
            left
            rw [hm0] at h4
            exact ⟨(hpe0 0), h4, hactne 0 ((hact0 0).mp h3)⟩
          · right
            exact hr0 x a b h


theorem diag_while_eq (smpi : SmileiMPI) (params : Params) (iDim o : Nat) (i : Int)
    (fuel idim : Nat) (p : Patch) :
    diag_while smpi params iDim o i fuel idim p =
      match first_out p.min_local p.max_local (getI (p.patchVectorRecv iDim o) i) fuel idim with
      | none => p
      | some (k, s) => diag_route smpi params p iDim o i k s := by
  induction fuel generalizing idim with
  | zero => simp [diag_while, first_out]
  | succ n ih =>
    simp only [diag_while, first_out, position]
    split
    · simp only [diag_route, at_edge, wrap, if_true]
    · split
      · simp only [diag_route, at_edge, wrap]
        simp
      · exact ih (idim + 1)

theorem getI_mid (l T : List Particle) (r : Particle) :
    getI (l ++ r :: T) (l.length : Int) = r := by
  unfold getI
  rw [if_pos (by omega), Int.toNat_natCast, List.getD_eq_getElem?_getD,
    List.getElem?_append_right (le_refl _), Nat.sub_self]
  simp

theorem erase_particle_mid (l T : List Particle) (r : Particle) :
    erase_particle (l ++ r :: T) (l.length : Int) = l ++ T := by
  unfold erase_particle
  rw [if_pos (by omega)]
  simp [List.eraseIdx_append_of_length_le]

theorem add_position_mid (l T : List Particle) (r : Particle) (k : Nat) (dx : ℚ) :
    add_position (l ++ r :: T) k (l.length : Int) dx = l ++ r.shifted k dx :: T := by
  unfold add_position
  rw [getI_mid]
  unfold setI
  rw [if_pos (by omega)]
  simp

theorem diag_exit_congr (params : Params) (p q : Patch) (h : p.geometry = q.geometry) (d : Nat) :
    diag_exit params p d = diag_exit params q d := by
  rw [geometry_eq_iff] at h
  funext r
  unfold diag_exit
  rw [h.2.2.2.2.2.1, h.2.2.2.2.2.2.1]

theorem diag_target_congr (smpi : SmileiMPI) (params : Params) (p q : Patch)
    (h : p.geometry = q.geometry) (d : Nat) :
    diag_target smpi params p d = diag_target smpi params q d := by
  have he := diag_exit_congr params p q h d
  rw [geometry_eq_iff] at h
  funext r
  unfold diag_target at_edge at_last_patch
  simp only [he, h.2.1, h.2.2.1]

/-- The treatment of one received record: the record at the position `l.length` of the
receive buffer `(d, o)`. -/
theorem diag_step (smpi : SmileiMPI) (params : Params) (d o : Nat) (q : Patch)
    (l T : List Particle) (r : Particle) (hq : q.patchVectorRecv d o = l ++ r :: T) :
    (diag_while smpi params d o (l.length : Int) (params.nDim_field - (d + 1)) (d + 1)
        q).geometry = q.geometry ∧
    (diag_while smpi params d o (l.length : Int) (params.nDim_field - (d + 1)) (d + 1)
        q).patchVectorRecv d o =
      l ++ [r].filter (fun x => decide (diag_exit params q d x = none)) ++ T ∧
    (diag_while smpi params d o (l.length : Int) (params.nDim_field - (d + 1)) (d + 1)
        q).patch_buff_index_recv_sz d o =
      q.patch_buff_index_recv_sz d o -
        (1 - (([r].filter (fun x => decide (diag_exit params q d x = none))).length : Int)) ∧
    (∀ a b, ¬ (a = d ∧ b = o) →
      (diag_while smpi params d o (l.length : Int) (params.nDim_field - (d + 1)) (d + 1)
          q).patchVectorRecv a b = q.patchVectorRecv a b ∧
      (diag_while smpi params d o (l.length : Int) (params.nDim_field - (d + 1)) (d + 1)
          q).patch_buff_index_recv_sz a b = q.patch_buff_index_recv_sz a b) ∧
    (diag_while smpi params d o (l.length : Int) (params.nDim_field - (d + 1)) (d + 1)
        q).particles =
      q.particles ++ ((diag_target smpi params q d r).toList).map (fun e => e.2.2) ∧
    (diag_while smpi params d o (l.length : Int) (params.nDim_field - (d + 1)) (d + 1)
        q).bmax = incr_last^[((diag_target smpi params q d r).toList).length] q.bmax ∧
    (diag_while smpi params d o (l.length : Int) (params.nDim_field - (d + 1)) (d + 1)
        q).bmin = q.bmin ∧
    (diag_while smpi params d o (l.length : Int) (params.nDim_field - (d + 1)) (d + 1)
        q).indexes_of_particles_to_exchange =
      q.indexes_of_particles_to_exchange ++
        (((diag_target smpi params q d r).toList).enumFrom q.particles.length).map
          (fun e => (e.1 : Int)) ∧
    (∀ k s,
      (diag_while smpi params d o (l.length : Int) (params.nDim_field - (d + 1)) (d + 1)
          q).patch_buff_index_send k s =
        q.patch_buff_index_send k s ++
          tail_indexes q.particles.length ((diag_target smpi params q d r).toList) k s) := by
  rw [diag_while_eq, hq, getI_mid]
  unfold diag_target diag_exit tail_indexes
  cases hx : first_out q.min_local q.max_local r (params.nDim_field - (d + 1)) (d + 1) with
  | none =>
    simp [hq, hx]
  | some ks =>
    obtain ⟨k, s⟩ := ks
    simp only
    unfold diag_route
    have hlen : ∀ x : Particle, (((q.particles ++ [x]).length : Int) - 1) =
        (q.particles.length : Int) := by
      intro x
      rw [List.length_append, List.length_singleton]
      push_cast
      ring
    by_cases hn : q.neighbor_ k s ≠ none
    · rw [if_pos hn, if_pos hn]
      have hgen : ∀ (q2 : Patch) (x : Particle), q2.geometry = q.geometry →
          q2.patchVectorRecv d o = l ++ x :: T →
          (∀ a b, ¬ (a = d ∧ b = o) → q2.patchVectorRecv a b = q.patchVectorRecv a b) →
          q2.patch_buff_index_recv_sz = q.patch_buff_index_recv_sz →
          q2.particles = q.particles → q2.bmax = q.bmax → q2.bmin = q.bmin →
          q2.indexes_of_particles_to_exchange = q.indexes_of_particles_to_exchange →
          q2.patch_buff_index_send = q.patch_buff_index_send →
          (drop_recv (requeue q2 d o (l.length : Int) k s) d o (l.length : Int)).geometry =
            q.geometry ∧
          (drop_recv (requeue q2 d o (l.length : Int) k s) d o
              (l.length : Int)).patchVectorRecv d o =
            l ++ [r].filter (fun x => decide (first_out q.min_local q.max_local x
              (params.nDim_field - (d + 1)) (d + 1) = none)) ++ T ∧
          (drop_recv (requeue q2 d o (l.length : Int) k s) d o
              (l.length : Int)).patch_buff_index_recv_sz d o =
            q.patch_buff_index_recv_sz d o -
              (1 - (([r].filter (fun x => decide (first_out q.min_local q.max_local x
                (params.nDim_field - (d + 1)) (d + 1) = none))).length : Int)) ∧
          (∀ a b, ¬ (a = d ∧ b = o) →
            (drop_recv (requeue q2 d o (l.length : Int) k s) d o
                (l.length : Int)).patchVectorRecv a b = q.patchVectorRecv a b ∧
            (drop_recv (requeue q2 d o (l.length : Int) k s) d o
                (l.length : Int)).patch_buff_index_recv_sz a b =
              q.patch_buff_index_recv_sz a b) ∧
          (drop_recv (requeue q2 d o (l.length : Int) k s) d o (l.length : Int)).particles =
            q.particles ++ ((some (k, s, x) : Option (Nat × Nat × Particle)).toList).map
              (fun e => e.2.2) ∧
          (drop_recv (requeue q2 d o (l.length : Int) k s) d o (l.length : Int)).bmax =
            incr_last^[((some (k, s, x) : Option (Nat × Nat × Particle)).toList).length] q.bmax ∧
          (drop_recv (requeue q2 d o (l.length : Int) k s) d o (l.length : Int)).bmin = q.bmin ∧
          (drop_recv (requeue q2 d o (l.length : Int) k s) d o
              (l.length : Int)).indexes_of_particles_to_exchange =
            q.indexes_of_particles_to_exchange ++
              (((some (k, s, x) : Option (Nat × Nat × Particle)).toList).enumFrom
                q.particles.length).map (fun e => (e.1 : Int)) ∧
          (∀ k1 s1,
            (drop_recv (requeue q2 d o (l.length : Int) k s) d o
                (l.length : Int)).patch_buff_index_send k1 s1 =
              q.patch_buff_index_send k1 s1 ++
                (((((some (k, s, x) : Option (Nat × Nat × Particle)).toList).enumFrom
                  q.particles.length).filter
                    (fun e => decide (e.2.1 = k1 ∧ e.2.2.1 = s1))).map (fun e => (e.1 : Int)))) := by
        intro q2 x hg hr hro hrs hp hb hbm hi hsd
        simp only [drop_recv, requeue, upd2_same, hr, erase_particle_mid, getI_mid, cp_particle,
          hp, hb, hbm, hi, hsd, hrs, hlen]
        refine ⟨hg, ?_, ?_, ?_, ?_, ?_, trivial, ?_, ?_⟩
        · simp [hx]
        · simp [hx]
        · intro a b hab
          rw [upd2_other _ _ _ _ _ _ hab, upd2_other _ _ _ _ _ _ hab]
          exact ⟨hro a b hab, rfl⟩
        · simp
        · simp
        · simp
        · intro k1 s1
          by_cases hks : k1 = k ∧ s1 = s
          · obtain ⟨rfl, rfl⟩ := hks
            simp [upd2]
          · rw [upd2_other _ _ _ _ _ _ hks]
            have : ¬ (k = k1 ∧ s = s1) := fun h => hks ⟨h.1.symm, h.2.symm⟩
            simp [this]
      by_cases he : at_edge smpi params q k s
      · rw [if_pos he, if_pos he]
        refine hgen _ _ rfl ?_ ?_ rfl rfl rfl rfl rfl rfl
        · simp only [shift_recv, upd2_same, hq, add_position_mid]
        · intro a b hab
          simp only [shift_recv]
          rw [upd2_other _ _ _ _ _ _ hab]
      · rw [if_neg he, if_neg he]
        exact hgen q r rfl hq (fun _ _ _ => rfl) rfl rfl rfl rfl rfl rfl
    · rw [if_neg hn, if_neg hn]
      simp only [drop_recv, upd2_same, hq, erase_particle_mid]
      refine ⟨rfl, ?_, ?_, ?_, ?_, ?_, trivial, ?_, ?_⟩
      · simp [hx]
      · simp [hx]
      · intro a b hab
        rw [upd2_other _ _ _ _ _ _ hab, upd2_other _ _ _ _ _ _ hab]
        exact ⟨rfl, rfl⟩
      · simp
      · simp
      · simp
      · intro k1 s1
        simp

theorem requeued_snoc (smpi : SmileiMPI) (params : Params) (g : Patch) (d : Nat)
    (l : List Particle) (r : Particle) :
    requeued smpi params g d (l ++ [r]) =
      (diag_target smpi params g d r).toList ++ requeued smpi params g d l := by
  unfold requeued
  rw [List.reverse_append, List.reverse_singleton, List.singleton_append, List.filterMap_cons]
  cases diag_target smpi params g d r <;> rfl

theorem tail_indexes_append (L : Nat) (A B : List (Nat × Nat × Particle)) (k s : Nat) :
    tail_indexes L (A ++ B) k s = tail_indexes L A k s ++ tail_indexes (L + A.length) B k s := by
  unfold tail_indexes
  rw [List.enumFrom_append, List.filter_append, List.map_append]

/-- The loop over the received records of the buffer `(d, o)`, from the last record of `pre`
to the first, the records of `T` behind them being already treated. -/
theorem diag_loop (smpi : SmileiMPI) (params : Params) (d o : Nat) (g : Patch)
    (pre : List Particle) :
    ∀ (q : Patch) (T : List Particle), q.geometry = g.geometry →
      q.patchVectorRecv d o = pre ++ T →
      (((List.range pre.length).reverse).foldl (fun q (iPart : Nat) =>
          diag_while smpi params d o (iPart : Int) (params.nDim_field - (d + 1)) (d + 1) q)
          q).geometry = g.geometry ∧
      (((List.range pre.length).reverse).foldl (fun q (iPart : Nat) =>
          diag_while smpi params d o (iPart : Int) (params.nDim_field - (d + 1)) (d + 1) q)
          q).patchVectorRecv d o =
        pre.filter (fun x => decide (diag_exit params g d x = none)) ++ T ∧
      (((List.range pre.length).reverse).foldl (fun q (iPart : Nat) =>
          diag_while smpi params d o (iPart : Int) (params.nDim_field - (d + 1)) (d + 1) q)
          q).patch_buff_index_recv_sz d o =
        q.patch_buff_index_recv_sz d o - ((pre.length : Int) -
          ((pre.filter (fun x => decide (diag_exit params g d x = none))).length : Int)) ∧
      (∀ a b, ¬ (a = d ∧ b = o) →
        (((List.range pre.length).reverse).foldl (fun q (iPart : Nat) =>
            diag_while smpi params d o (iPart : Int) (params.nDim_field - (d + 1)) (d + 1) q)
            q).patchVectorRecv a b = q.patchVectorRecv a b ∧
        (((List.range pre.length).reverse).foldl (fun q (iPart : Nat) =>
            diag_while smpi params d o (iPart : Int) (params.nDim_field - (d + 1)) (d + 1) q)
            q).patch_buff_index_recv_sz a b = q.patch_buff_index_recv_sz a b) ∧
      (((List.range pre.length).reverse).foldl (fun q (iPart : Nat) =>
          diag_while smpi params d o (iPart : Int) (params.nDim_field - (d + 1)) (d + 1) q)
          q).particles = q.particles ++ (requeued smpi params g d pre).map (fun e => e.2.2) ∧
      (((List.range pre.length).reverse).foldl (fun q (iPart : Nat) =>
          diag_while smpi params d o (iPart : Int) (params.nDim_field - (d + 1)) (d + 1) q)
          q).bmax = incr_last^[(requeued smpi params g d pre).length] q.bmax ∧
      (((List.range pre.length).reverse).foldl (fun q (iPart : Nat) =>
          diag_while smpi params d o (iPart : Int) (params.nDim_field - (d + 1)) (d + 1) q)
          q).bmin = q.bmin ∧
      (((List.range pre.length).reverse).foldl (fun q (iPart : Nat) =>
          diag_while smpi params d o (iPart : Int) (params.nDim_field - (d + 1)) (d + 1) q)
          q).indexes_of_particles_to_exchange =
        q.indexes_of_particles_to_exchange ++
          ((requeued smpi params g d pre).enumFrom q.particles.length).map
            (fun e => (e.1 : Int)) ∧
      (∀ k s,
        (((List.range pre.length).reverse).foldl (fun q (iPart : Nat) =>
            diag_while smpi params d o (iPart : Int) (params.nDim_field - (d + 1)) (d + 1) q)
            q).patch_buff_index_send k s =
          q.patch_buff_index_send k s ++
            tail_indexes q.particles.length (requeued smpi params g d pre) k s) := by
  induction pre using List.reverseRecOn with
  | nil =>
    intro q T hg hq
    simp [requeued, tail_indexes, hg, hq]
  | append_singleton l r ih =>
    intro q T hg hq
    have hq2 : q.patchVectorRecv d o = l ++ r :: T := by
      rw [hq, List.append_assoc]; rfl
    obtain ⟨s1, s2, s3, s4, s5, s6, s7, s8, s9⟩ := diag_step smpi params d o q l T r hq2
    rw [List.length_append, List.length_singleton, List.range_succ, List.reverse_append,
      List.reverse_singleton, List.singleton_append, List.foldl_cons]
    generalize diag_while smpi params d o (l.length : Int) (params.nDim_field - (d + 1)) (d + 1)
      q = q1 at s1 s2 s3 s4 s5 s6 s7 s8 s9
    rw [diag_exit_congr params q g hg] at s2 s3
    rw [diag_target_congr smpi params q g hg] at s5 s6 s8 s9
    rw [List.append_assoc] at s2
    obtain ⟨i1, i2, i3, i4, i5, i6, i7, i8, i9⟩ := ih q1 _ (s1.trans hg) s2
    have hL : q1.particles.length =
        q.particles.length + ((diag_target smpi params g d r).toList).length := by
      rw [s5, List.length_append, List.length_map]
    refine ⟨i1, ?_, ?_, ?_, ?_, ?_, ?_, ?_, ?_⟩
    · rw [i2, List.filter_append, List.append_assoc]
    · rw [i3, s3, List.filter_append, List.length_append]
      push_cast
      ring
    · intro a b hab
      exact ⟨((i4 a b hab).1).trans (s4 a b hab).1, ((i4 a b hab).2).trans (s4 a b hab).2⟩
    · rw [i5, s5, requeued_snoc, List.map_append, List.append_assoc]
    · rw [i6, s6, requeued_snoc, List.length_append, Nat.add_comm, Function.iterate_add_apply]
    · rw [i7, s7]
    · rw [i8, s8, requeued_snoc, List.enumFrom_append, List.map_append, List.append_assoc, hL]
    · intro k s
      rw [i9, s9, requeued_snoc, tail_indexes_append, List.append_assoc, hL]

/-- One iteration of the first loop of `finalizeCommParticles` on an axis that is not the
last one: the treatment of the records received from the side `(i + 1) % 2`. -/
theorem finalize_neighbor_spec (smpi : SmileiMPI) (params : Params) (d i : Nat) (g p : Patch)
    (hg : p.geometry = g.geometry) (hnf : d + 1 < params.nDim_field)
    (hcount : p.patch_buff_index_recv_sz d ((i + 1) % 2) =
      ((p.patchVectorRecv d ((i + 1) % 2)).length : Int))
    (hnone : p.neighbor_ d ((i + 1) % 2) = none → p.patchVectorRecv d ((i + 1) % 2) = []) :
    (finalize_neighbor smpi params d p i).geometry = g.geometry ∧
    (finalize_neighbor smpi params d p i).patchVectorRecv d ((i + 1) % 2) =
      (p.patchVectorRecv d ((i + 1) % 2)).filter
        (fun x => decide (diag_exit params g d x = none)) ∧
    (finalize_neighbor smpi params d p i).patch_buff_index_recv_sz d ((i + 1) % 2) =
      (((p.patchVectorRecv d ((i + 1) % 2)).filter
        (fun x => decide (diag_exit params g d x = none))).length : Int) ∧
    (∀ a b, ¬ (a = d ∧ b = (i + 1) % 2) →
      (finalize_neighbor smpi params d p i).patchVectorRecv a b = p.patchVectorRecv a b ∧
      (finalize_neighbor smpi params d p i).patch_buff_index_recv_sz a b =
        p.patch_buff_index_recv_sz a b) ∧
    (finalize_neighbor smpi params d p i).particles =
      p.particles ++
        (requeued smpi params g d (p.patchVectorRecv d ((i + 1) % 2))).map (fun e => e.2.2) ∧
    (finalize_neighbor smpi params d p i).bmax =
      incr_last^[(requeued smpi params g d (p.patchVectorRecv d ((i + 1) % 2))).length] p.bmax ∧
    (finalize_neighbor smpi params d p i).bmin = p.bmin ∧
    (finalize_neighbor smpi params d p i).indexes_of_particles_to_exchange =
      p.indexes_of_particles_to_exchange ++
        ((requeued smpi params g d (p.patchVectorRecv d ((i + 1) % 2))).enumFrom
          p.particles.length).map (fun e => (e.1 : Int)) ∧
    (∀ k s, (finalize_neighbor smpi params d p i).patch_buff_index_send k s =
      p.patch_buff_index_send k s ++
        tail_indexes p.particles.length
          (requeued smpi params g d (p.patchVectorRecv d ((i + 1) % 2))) k s) := by
  unfold finalize_neighbor
  by_cases hc : p.neighbor_ d ((i + 1) % 2) ≠ none ∧
      p.patch_buff_index_recv_sz d ((i + 1) % 2) ≠ 0
  · rw [if_pos hc, if_pos hnf, hcount, Int.toNat_natCast]
    obtain ⟨i1, i2, i3, i4, i5, i6, i7, i8, i9⟩ :=
      diag_loop smpi params d ((i + 1) % 2) g (p.patchVectorRecv d ((i + 1) % 2)) p [] hg
        (List.append_nil _).symm
    rw [List.append_nil] at i2
    refine ⟨i1, i2, ?_, i4, i5, i6, i7, i8, i9⟩
    rw [i3, hcount]
    ring
  · rw [if_neg hc]
    have hem : p.patchVectorRecv d ((i + 1) % 2) = [] := by
      by_cases hn : p.neighbor_ d ((i + 1) % 2) = none
      · exact hnone hn
      · have hz : p.patch_buff_index_recv_sz d ((i + 1) % 2) = 0 := by
          by_contra hz
          exact hc ⟨hn, hz⟩
        rw [hcount] at hz
        exact List.length_eq_zero.mp (by exact_mod_cast hz)
    rw [hem]
    refine ⟨hg, rfl, ?_, fun _ _ _ => ⟨rfl, rfl⟩, ?_, rfl, rfl, ?_, ?_⟩
    · rw [hcount, hem]; rfl
    · simp [requeued]
    · simp [requeued]
    · intro k s
      simp [requeued, tail_indexes]

/-- C15: `finalizeCommParticles` on an axis `d` that is not the last one, the receive count
of each side being the length of the receive buffer (empty on a side without neighbor).
Every record received on the axis `d` that is inside the bounds of the patch on every later
axis stays in its receive buffer, unchanged and in order, and every other record is removed
from it; afterwards each receive count is the length of the buffer, that is the count before
minus one for every removed record. For every removed record with a neighbor on the side of
its exit (the first later axis on which it is outside the bounds), and for no other record,
a copy, corrected by one domain length at a periodic edge (the `+=` of `double` values), is
added at the tail of the store, in the order of the treatment (the side 1 before the side 0, each buffer from its
last record to its first); the upper bound of the last bin is incremented once for every
copy, the lower bounds are unchanged, and the index of every copy is added once to the
departed list and once to the send list of the axis and side of its exit. -/
theorem finalizeCommParticles_diagonal (smpi : SmileiMPI) (params : Params) (d : Nat)
    (p : Patch) (hnf : d + 1 < params.nDim_field)
    (hcount : ∀ o, o < 2 →
      p.patch_buff_index_recv_sz d o = ((p.patchVectorRecv d o).length : Int))
    (hnone : ∀ o, o < 2 → p.neighbor_ d o = none → p.patchVectorRecv d o = []) :
    (∀ o, o < 2 →
      (finalizeCommParticles smpi params d p).patchVectorRecv d o =
        (p.patchVectorRecv d o).filter (fun x => decide (diag_exit params p d x = none)) ∧
      (finalizeCommParticles smpi params d p).patch_buff_index_recv_sz d o =
        (((finalizeCommParticles smpi params d p).patchVectorRecv d o).length : Int) ∧
      (finalizeCommParticles smpi params d p).patch_buff_index_recv_sz d o =
        p.patch_buff_index_recv_sz d o -
          (((p.patchVectorRecv d o).filter
            (fun x => decide (diag_exit params p d x ≠ none))).length : Int)) ∧
    (finalizeCommParticles smpi params d p).particles =
      p.particles ++
        (requeued smpi params p d (p.patchVectorRecv d 1) ++
          requeued smpi params p d (p.patchVectorRecv d 0)).map (fun e => e.2.2) ∧
    (finalizeCommParticles smpi params d p).bmax =
      incr_last^[(requeued smpi params p d (p.patchVectorRecv d 1) ++
        requeued smpi params p d (p.patchVectorRecv d 0)).length] p.bmax ∧
    (finalizeCommParticles smpi params d p).bmin = p.bmin ∧
    (finalizeCommParticles smpi params d p).indexes_of_particles_to_exchange =
      p.indexes_of_particles_to_exchange ++
        ((requeued smpi params p d (p.patchVectorRecv d 1) ++
          requeued smpi params p d (p.patchVectorRecv d 0)).enumFrom p.particles.length).map
          (fun e => (e.1 : Int)) ∧
    (∀ k s, (finalizeCommParticles smpi params d p).patch_buff_index_send k s =
      p.patch_buff_index_send k s ++
        tail_indexes p.particles.length
          (requeued smpi params p d (p.patchVectorRecv d 1) ++
            requeued smpi params p d (p.patchVectorRecv d 0)) k s) := by
  have hfin : finalizeCommParticles smpi params d p =
      finalize_neighbor smpi params d (finalize_neighbor smpi params d p 0) 1 := by
    unfold finalizeCommParticles
    have hr : List.range nbNeighbors_ = [0, 1] := rfl
    rw [hr]
    simp only [List.foldl_cons, List.foldl_nil]
    rw [if_neg (by omega)]
  rw [hfin]
  obtain ⟨a1, a2, a3, a4, a5, a6, a7, a8, a9⟩ :=
    finalize_neighbor_spec smpi params d 0 p p rfl hnf (hcount 1 (by decide))
      (hnone 1 (by decide))
  have h10 : ¬ (d = d ∧ 0 = (0 + 1) % 2) := fun h => absurd h.2 (by decide)
  have hn1 : (finalize_neighbor smpi params d p 0).neighbor_ = p.neighbor_ :=
    ((geometry_eq_iff _ _).mp a1).2.2.1
  generalize finalize_neighbor smpi params d p 0 = p1 at a1 a2 a3 a4 a5 a6 a7 a8 a9 hn1
  have hr0 : p1.patchVectorRecv d 0 = p.patchVectorRecv d 0 := (a4 d 0 h10).1
  have hz0 : p1.patch_buff_index_recv_sz d 0 = p.patch_buff_index_recv_sz d 0 :=
    (a4 d 0 h10).2
  obtain ⟨b1, b2, b3, b4, b5, b6, b7, b8, b9⟩ :=
    finalize_neighbor_spec smpi params d 1 p p1 a1 hnf
      (by rw [show (1 + 1) % 2 = 0 from rfl, hr0, hz0]; exact hcount 0 (by decide))
      (by rw [show (1 + 1) % 2 = 0 from rfl, hr0, hn1]; exact hnone 0 (by decide))
  rw [show (1 + 1) % 2 = 0 from rfl] at b2 b3 b4 b5 b6 b8 b9
  rw [show (0 + 1) % 2 = 1 from rfl] at a2 a3 a4 a5 a6 a8 a9
  rw [hr0] at b2 b3 b5 b6 b8 b9
  generalize finalize_neighbor smpi params d p1 1 = p2 at b1 b2 b3 b4 b5 b6 b7 b8 b9
  have hcnt : ∀ (l : List Particle),
      ((l.filter (fun x => decide (diag_exit params p d x = none))).length : Int) =
        (l.length : Int) -
          ((l.filter (fun x => decide (diag_exit params p d x ≠ none))).length : Int) := by
    intro l
    induction l with
    | nil => simp
    | cons x t ih =>
      by_cases hx : diag_exit params p d x = none
      · simp only [List.filter_cons, hx, decide_True, if_true, ne_eq, not_true_eq_false,
          decide_False, List.length_cons]
        simp only [ne_eq] at ih
        push_cast
        rw [ih]
        ring
      · simp only [List.filter_cons, hx, decide_False, ne_eq, not_false_eq_true, decide_True,
          if_true, List.length_cons]
        simp only [ne_eq] at ih
        push_cast
        rw [ih]
        simp
  have hL : p1.particles.length = p.particles.length +
      (requeued smpi params p d (p.patchVectorRecv d 1)).length := by
    rw [a5, List.length_append, List.length_map]
  refine ⟨?_, ?_, ?_, ?_, ?_, ?_⟩
  · intro o ho
    have ho2 : o = 0 ∨ o = 1 := by omega
    rcases ho2 with rfl | rfl
    · refine ⟨b2, ?_, ?_⟩
      · rw [b3, b2]
      · rw [b3, hcnt, hcount 0 (by decide)]
    · have hb := b4 d 1 (fun h => absurd h.2 (by decide))
      refine ⟨hb.1.trans a2, ?_, ?_⟩
      · rw [hb.2, hb.1, a3, a2]
      · rw [hb.2, a3, hcnt, hcount 1 (by decide)]
  · rw [b5, a5, List.map_append, List.append_assoc]
  · rw [b6, a6, List.length_append, Nat.add_comm, Function.iterate_add_apply]
  · rw [b7, a7]
  · rw [b8, a8, List.enumFrom_append, List.map_append, List.append_assoc, hL]
  · intro k s
    rw [b9, a9, tail_indexes_append, List.append_assoc, hL]


/-- Witness of C12: the first patch of the chain, whose high-side neighbor is the patch 1
and whose send list of the high side holds one index. -/
theorem initCommParticles_local_count_witness :
    (0 : Nat) < queuedChain.length ∧
    (queuedChain.getD 0 default).neighbor_ 0 1 = some 1 ∧
    ((initCommParticles 0 0 queuedChain).getD 1 default).patch_buff_index_recv_sz 0 0 = 1 ∧
    ((initCommParticles 0 0 queuedChain).getD 0 default).patch_buff_index_send_sz 0 1 = 1 :=
  ⟨by decide, rfl,
    ((initCommParticles_local_count 0 0 queuedChain (by decide)).1 1 1 (by decide) rfl rfl
      (by decide) (by decide))⟩

/-- Witness of C13: the first patch of the chain copies the record 2 to the patch 1. -/
theorem CommParticles_local_copy_witness :
    (countedChain.getD 0 default).neighbor_ 0 1 = some 1 ∧
    (countedChain.getD 0 default).patch_buff_index_send 0 1 = [2] ∧
    ((CommParticles smpiPeriodic params1 0 0 countedChain).getD 1 default).patchVectorRecv 0 0 =
      [rec1 (107 / 10) 3] ∧
    ((((CommParticles smpiPeriodic params1 0 0 countedChain).getD 1 default).patchVectorRecv 0
        0).length : Int) =
      ((CommParticles smpiPeriodic params1 0 0 countedChain).getD 1 default).patch_buff_index_recv_sz
        0 0 ∧
    ((CommParticles smpiPeriodic params1 0 0 countedChain).getD 0 default).particles.length = 4 :=
  have h := CommParticles_local_copy smpiPeriodic params1 0 0 countedChain 1 1 (by decide) rfl rfl
    (by decide) (by decide) (by decide) rfl (by decide)
  ⟨rfl, rfl, h.1.trans (by decide!), h.2.1 rfl, h.2.2⟩

/-- Witness of C15: the patch `(0, 0)` of the grid with two records received on the axis 0,
the first one leaving through the low side of the axis 1. -/
theorem finalizeCommParticles_diagonal_witness :
    (0 : Nat) + 1 < params2.nDim_field ∧
    (finalizeCommParticles smpiPeriodic params2 0 diagPatch).patchVectorRecv 0 0 =
      [rec2 2 3 8] ∧
    (finalizeCommParticles smpiPeriodic params2 0 diagPatch).patch_buff_index_recv_sz 0 0 = 1 ∧
    (finalizeCommParticles smpiPeriodic params2 0 diagPatch).particles =
      [rec2 1 1 1, rec2 7 2 2, rec2 1 (79 / 2) 7] ∧
    (finalizeCommParticles smpiPeriodic params2 0 diagPatch).bmax = [1, 3] ∧
    (finalizeCommParticles smpiPeriodic params2 0 diagPatch).indexes_of_particles_to_exchange =
      [2] ∧
    (finalizeCommParticles smpiPeriodic params2 0 diagPatch).patch_buff_index_send 1 0 = [2] :=
  have h := finalizeCommParticles_diagonal smpiPeriodic params2 0 diagPatch (by decide)
    (fun o ho => by interval_cases o <;> rfl)
    (fun o ho hn => by interval_cases o <;> exact absurd hn (by decide))
  ⟨by decide, (h.1 0 (by decide)).1.trans (by decide!),
    (h.1 0 (by decide)).2.2.trans (by decide!), h.2.1.trans (by decide!),
    h.2.2.1.trans (by decide!), h.2.2.2.2.1.trans (by decide!),
    (h.2.2.2.2.2 1 0).trans (by decide!)⟩


theorem incr_last_length (bmax : List Int) : (incr_last bmax).length = bmax.length := by
  unfold incr_last
  rw [List.length_set]

theorem incr_last_iter (m : Nat) : ∀ (bmax : List Int), 0 < bmax.length →
    (incr_last^[m] bmax).length = bmax.length ∧
    (incr_last^[m] bmax).getD (bmax.length - 1) 0 = bmax.getD (bmax.length - 1) 0 + (m : Int) ∧
    (∀ j, j + 1 < bmax.length → (incr_last^[m] bmax).getD j 0 = bmax.getD j 0) := by
  induction m with
  | zero => intro bmax _; simp
  | succ n ih =>
    intro bmax hn
    rw [Function.iterate_succ_apply]
    have hl := incr_last_length bmax
    obtain ⟨i1, i2, i3⟩ := ih (incr_last bmax) (by rw [hl]; exact hn)
    rw [hl] at i1 i2 i3
    refine ⟨i1, ?_, ?_⟩
    · rw [i2]
      unfold incr_last
      rw [List.getD_eq_getElem?_getD, List.getElem?_set_self (by omega)]
      simp only [Option.getD_some]
      push_cast
      ring
    · intro j hj
      rw [i3 j hj]
      unfold incr_last
      rw [List.getD_eq_getElem?_getD, List.getElem?_set_ne (by omega),
        ← List.getD_eq_getElem?_getD]

theorem Requeues.refl (q : Patch) : Requeues q q 0 :=
  ⟨rfl, rfl, fun _ _ => rfl, rfl, rfl, by simp, fun k s => ⟨[], by simp, by simp⟩⟩

theorem Requeues.trans (a b c : Patch) (m n : Nat) (h1 : Requeues a b m) (h2 : Requeues b c n) :
    Requeues a c (m + n) := by
  refine ⟨h2.geometry.trans h1.geometry, ?_, ?_, h2.bmin.trans h1.bmin, ?_, ?_, ?_⟩
  · rw [h2.length, h1.length, Nat.add_assoc]
  · intro x hx
    rw [h2.kept x (by rw [h1.length]; push_cast; omega), h1.kept x hx]
  · rw [h2.bmax, h1.bmax, Nat.add_comm, Function.iterate_add_apply]
  · rw [h2.departed, h1.departed, h1.length, List.append_assoc, List.range_add, List.map_append,
      List.map_map]
    congr 2
    apply List.map_congr_left
    intro j _
    simp only [Function.comp]
    push_cast
    ring
  · intro k s
    obtain ⟨s1, e1, b1⟩ := h1.send k s
    obtain ⟨s2, e2, b2⟩ := h2.send k s
    refine ⟨s1 ++ s2, by rw [e2, e1, List.append_assoc], ?_⟩
    intro x hx
    rcases List.mem_append.mp hx with h | h
    · exact b1 x h
    · have := b2 x h
      rw [h1.length] at this
      push_cast at this
      omega

theorem drop_recv_requeues (q : Patch) (d o : Nat) (iPart : Int) :
    Requeues q (drop_recv q d o iPart) 0 :=
  ⟨rfl, rfl, fun _ _ => rfl, rfl, rfl, by simp [drop_recv], fun k s => ⟨[], by simp [drop_recv], by simp⟩⟩

theorem shift_recv_requeues (q : Patch) (d o k : Nat) (iPart : Int) (dx : ℚ) :
    Requeues q (shift_recv q d o k iPart dx) 0 :=
  ⟨rfl, rfl, fun _ _ => rfl, rfl, rfl, by simp [shift_recv],
    fun k s => ⟨[], by simp [shift_recv], by simp⟩⟩

theorem requeue_requeues (q : Patch) (d o : Nat) (iPart : Int) (k side : Nat) :
    Requeues q (requeue q d o iPart k side) 1 := by
  have hlen : (((cp_particle (q.patchVectorRecv d o) iPart q.particles).length : Int) - 1) =
      (q.particles.length : Int) := by
    unfold cp_particle
    rw [List.length_append, List.length_singleton]
    push_cast
    ring
  refine ⟨rfl, ?_, ?_, rfl, rfl, ?_, ?_⟩
  · simp [requeue, cp_particle]
  · intro x hx
    simp only [requeue, cp_particle]
    exact getI_append_left _ _ _ hx
  · simp only [requeue, hlen]
    simp [List.range_succ]
  · intro k1 s1
    simp only [requeue, hlen]
    by_cases hks : k1 = k ∧ s1 = side
    · obtain ⟨rfl, rfl⟩ := hks
      refine ⟨[(q.particles.length : Int)], by rw [upd2_same], ?_⟩
      intro x hx
      rw [List.mem_singleton] at hx
      omega
    · exact ⟨[], by rw [upd2_other _ _ _ _ _ _ hks, List.append_nil], by simp⟩

theorem diag_route_requeues (smpi : SmileiMPI) (params : Params) (q : Patch) (d o : Nat)
    (iPart : Int) (k side : Nat) :
    ∃ m, Requeues q (diag_route smpi params q d o iPart k side) m := by
  unfold diag_route
  by_cases hn : q.neighbor_ k side ≠ none
  · rw [if_pos hn]
    refine ⟨0 + 1 + 0, ?_⟩
    refine Requeues.trans _ _ _ _ _ (Requeues.trans _ _ _ _ _ ?_ (requeue_requeues _ d o iPart k side))
      (drop_recv_requeues _ d o iPart)
    split
    · exact shift_recv_requeues q d o k iPart _
    · exact Requeues.refl q
  · rw [if_neg hn]
    exact ⟨0, drop_recv_requeues q d o iPart⟩

theorem diag_while_requeues (smpi : SmileiMPI) (params : Params) (d o : Nat) (iPart : Int)
    (fuel idim : Nat) (q : Patch) :
    ∃ m, Requeues q (diag_while smpi params d o iPart fuel idim q) m := by
  rw [diag_while_eq]
  split
  · exact ⟨0, Requeues.refl q⟩
  · exact diag_route_requeues smpi params q d o iPart _ _

theorem diag_fold_requeues (smpi : SmileiMPI) (params : Params) (d o fuel idim : Nat)
    (l : List Nat) : ∀ (q : Patch),
    ∃ m, Requeues q (l.foldl (fun q (iPart : Nat) =>
      diag_while smpi params d o (iPart : Int) fuel idim q) q) m := by
  induction l with
  | nil => intro q; exact ⟨0, Requeues.refl q⟩
  | cons x t ih =>
    intro q
    rw [List.foldl_cons]
    obtain ⟨m1, h1⟩ := diag_while_requeues smpi params d o (x : Int) fuel idim q
    obtain ⟨m2, h2⟩ := ih (diag_while smpi params d o (x : Int) fuel idim q)
    exact ⟨m1 + m2, Requeues.trans _ _ _ _ _ h1 h2⟩

theorem finalize_neighbor_requeues (smpi : SmileiMPI) (params : Params) (d : Nat) (q : Patch)
    (i : Nat) : ∃ m, Requeues q (finalize_neighbor smpi params d q i) m := by
  unfold finalize_neighbor
  split
  · split
    · exact diag_fold_requeues smpi params d _ _ _ _ q
    · exact ⟨0, Requeues.refl q⟩
  · exact ⟨0, Requeues.refl q⟩

/-- On an axis that is not the last one, `finalizeCommParticles` only queues received
records again. -/
theorem finalizeCommParticles_requeues (smpi : SmileiMPI) (params : Params) (d : Nat)
    (p : Patch) (hnf : d + 1 < params.nDim_field) :
    ∃ m, Requeues p (finalizeCommParticles smpi params d p) m := by
  have hfin : finalizeCommParticles smpi params d p =
      finalize_neighbor smpi params d (finalize_neighbor smpi params d p 0) 1 := by
    unfold finalizeCommParticles
    have hr : List.range nbNeighbors_ = [0, 1] := rfl
    rw [hr]
    simp only [List.foldl_cons, List.foldl_nil]
    rw [if_neg (by omega)]
  rw [hfin]
  obtain ⟨m1, h1⟩ := finalize_neighbor_requeues smpi params d p 0
  obtain ⟨m2, h2⟩ := finalize_neighbor_requeues smpi params d
    (finalize_neighbor smpi params d p 0) 1
  exact ⟨m1 + m2, Requeues.trans _ _ _ _ _ h1 h2⟩

/-- C22: the treatment of the diagonal particles by `finalizeCommParticles` on an axis that
is not the last one keeps the preconditions of the compaction. When the record count is
`bmax` of the last bin and the departed list is strictly ascending with every index below
the record count, then afterwards, `m` being the number of records queued again: the record
count, larger by `m`, is still `bmax` of the last bin; the departed list is the old one
followed by the `m` indexes `count, count + 1, ...` (each one the record count at the time
of its addition minus 1), every new index is above every index already listed, the list is
still strictly ascending with every index below the record count; `bmin` and the `bmax` of
every bin but the last are unchanged. -/
theorem finalizeCommParticles_keeps_compaction_ready (smpi : SmileiMPI) (params : Params)
    (d : Nat) (p : Patch) (hnf : d + 1 < params.nDim_field) (hn : 0 < p.bmax.length)
    (hlen : (p.particles.length : Int) = p.bmax.getD (p.bmax.length - 1) 0)
    (hs : p.indexes_of_particles_to_exchange.Pairwise (· < ·))
    (hr : ∀ i ∈ p.indexes_of_particles_to_exchange, i < (p.particles.length : Int)) :
    ∃ m : Nat,
      (finalizeCommParticles smpi params d p).particles.length = p.particles.length + m ∧
      (finalizeCommParticles smpi params d p).bmax.length = p.bmax.length ∧
      ((finalizeCommParticles smpi params d p).particles.length : Int) =
        (finalizeCommParticles smpi params d p).bmax.getD (p.bmax.length - 1) 0 ∧
      (finalizeCommParticles smpi params d p).indexes_of_particles_to_exchange =
        p.indexes_of_particles_to_exchange ++
          (List.range m).map (fun j => ((p.particles.length + j : Nat) : Int)) ∧
      (∀ j, j < m → ∀ i ∈ p.indexes_of_particles_to_exchange,
        i < ((p.particles.length + j : Nat) : Int)) ∧
      (finalizeCommParticles smpi params d p).indexes_of_particles_to_exchange.Pairwise
        (· < ·) ∧
      (∀ i ∈ (finalizeCommParticles smpi params d p).indexes_of_particles_to_exchange,
        i < ((finalizeCommParticles smpi params d p).particles.length : Int)) ∧
      (finalizeCommParticles smpi params d p).bmin = p.bmin ∧
      (∀ j, j + 1 < p.bmax.length →
        (finalizeCommParticles smpi params d p).bmax.getD j 0 = p.bmax.getD j 0) := by
  obtain ⟨m, h⟩ := finalizeCommParticles_requeues smpi params d p hnf
  obtain ⟨b1, b2, b3⟩ := incr_last_iter m p.bmax hn
  refine ⟨m, h.length, by rw [h.bmax, b1], ?_, h.departed, ?_, ?_, ?_, h.bmin, ?_⟩
  · rw [h.length, h.bmax, b2, ← hlen]
    push_cast
    rfl
  · intro j _ i hi
    have := hr i hi
    push_cast
    omega
  · rw [h.departed, List.pairwise_append]
    refine ⟨hs, ?_, ?_⟩
    · rw [List.pairwise_map]
      apply List.Pairwise.imp _ (List.pairwise_lt_range m)
      intro a b hab
      push_cast
      omega
    · intro a ha b hb
      rw [List.mem_map] at hb
      obtain ⟨j, _, rfl⟩ := hb
      have := hr a ha
      push_cast
      omega
  · intro i hi
    rw [h.departed] at hi
    rw [h.length]
    rcases List.mem_append.mp hi with h1 | h1
    · have := hr i h1
      push_cast
      omega
    · rw [List.mem_map] at h1
      obtain ⟨j, hj, rfl⟩ := h1
      rw [List.mem_range] at hj
      push_cast
      omega
  · intro j hj
    rw [h.bmax, b3 j hj]


theorem first_out_none_of_inside (p : Patch) (r : Particle) (ndim : Nat)
    (h : ∀ k, k < ndim → inside p r k) :
    first_out p.min_local p.max_local r ndim 0 = none := by
  have : ∀ fuel idim, idim + fuel ≤ ndim →
      first_out p.min_local p.max_local r fuel idim = none := by
    intro fuel
    induction fuel with
    | zero => intro idim _; rfl
    | succ n ih =>
      intro idim hle
      have hi := h idim (by omega)
      simp only [first_out, not_lt.mpr hi.1, ge_iff_le, not_le.mpr hi.2, if_false]
      exact ih (idim + 1) (by omega)
  exact this _ 0 (by omega)

/-- One iteration of the second loop of `CommParticles` changes no record whose index is not
in the send list of the side, and keeps the record count of every patch. -/
theorem Comm_neighbor_getI (smpi : SmileiMPI) (params : Params) (d ip : Nat)
    (w : List Patch) (s x : Nat) (i : Int)
    (h : i ∉ (w.getD x default).patch_buff_index_send d s) :
    getI ((Comm_neighbor smpi params d ip w s).getD x default).particles i =
      getI (w.getD x default).particles i ∧
    ((Comm_neighbor smpi params d ip w s).getD x default).particles.length =
      (w.getD x default).particles.length := by
  rw [Comm_neighbor_particles]
  by_cases hc : x = ip ∧ ip < w.length
  · rw [if_pos hc]
    obtain ⟨rfl, _⟩ := hc
    exact ⟨Comm_correct_notin smpi params _ d s _ i h, Comm_correct_length smpi params _ d s _⟩
  · rw [if_neg hc]
    exact ⟨rfl, rfl⟩

/-- The patch `ip` running `CommParticles` on the axis `d` changes, in every patch, no
record whose index is in neither send list of the axis `d`, and keeps the record counts. -/
theorem CommParticles_getI (smpi : SmileiMPI) (params : Params) (d ip : Nat)
    (W : List Patch) (x : Nat) (i : Int)
    (h0 : i ∉ (W.getD x default).patch_buff_index_send d 0)
    (h1 : i ∉ (W.getD x default).patch_buff_index_send d 1) :
    getI ((CommParticles smpi params d ip W).getD x default).particles i =
      getI (W.getD x default).particles i ∧
    ((CommParticles smpi params d ip W).getD x default).particles.length =
      (W.getD x default).particles.length := by
  rw [CommParticles_eq]
  have hf0 : ∀ y, ((modAt W ip (fun q => (List.range nbNeighbors_).foldl (Comm_wait d) q)).getD y
      default).commFrame = (W.getD y default).commFrame :=
    fun y => modAt_keep Patch.commFrame _ _ _ (Comm_waits_commFrame d) y
  have hp0 : ∀ y, ((modAt W ip (fun q => (List.range nbNeighbors_).foldl (Comm_wait d) q)).getD y
      default).particles = (W.getD y default).particles :=
    fun y => modAt_keep (fun p => p.particles) _ _ _ (Comm_waits_particles d) y
  generalize modAt W ip (fun q => (List.range nbNeighbors_).foldl (Comm_wait d) q) = W0
    at hf0 hp0
  have hs0 := (commFrame_fields _ _ (hf0 x)).2.2.1
  have hf1 : ((Comm_neighbor smpi params d ip W0 0).getD x default).commFrame =
      (W.getD x default).commFrame := by rw [Comm_neighbor_commFrame, hf0]
  have hs1 := (commFrame_fields _ _ hf1).2.2.1
  obtain ⟨a1, a2⟩ := Comm_neighbor_getI smpi params d ip W0 0 x i (by rw [hs0]; exact h0)
  obtain ⟨b1, b2⟩ := Comm_neighbor_getI smpi params d ip (Comm_neighbor smpi params d ip W0 0) 1
    x i (by rw [hs1]; exact h1)
  rw [b1, a1, b2, a2, hp0]
  exact ⟨rfl, rfl⟩

theorem sizeFrame_all (p q : Patch) (h : p.sizeFrame = q.sizeFrame) :
    p.particles = q.particles ∧
    p.indexes_of_particles_to_exchange = q.indexes_of_particles_to_exchange ∧
    p.patch_buff_index_send = q.patch_buff_index_send := by
  unfold Patch.sizeFrame at h
  simp only [Prod.mk.injEq] at h
  obtain ⟨_, hp, _, _, hi, _, _, hs⟩ := h
  exact ⟨hp, hi, hs⟩

theorem commFrame_departed (p q : Patch) (h : p.commFrame = q.commFrame) :
    p.indexes_of_particles_to_exchange = q.indexes_of_particles_to_exchange := by
  unfold Patch.commFrame at h
  simp only [Prod.mk.injEq] at h
  exact h.2.2.2.1

/-- A departed index that is in no send list stays so, with its record, when any patch runs
`initCommParticles` or `CommParticles` on an axis of the run. -/
theorem Unqueued.handshake_and_copy (smpi : SmileiMPI) (params : Params) (i : Int)
    (W : List Patch) (x d ip : Nat) (hd : d < params.nDim_field)
    (h : Unqueued params i (W.getD x default)) :
    (Unqueued params i ((initCommParticles d ip W).getD x default) ∧
      getI ((initCommParticles d ip W).getD x default).particles i =
        getI (W.getD x default).particles i) ∧
    (Unqueued params i ((CommParticles smpi params d ip W).getD x default) ∧
      getI ((CommParticles smpi params d ip W).getD x default).particles i =
        getI (W.getD x default).particles i) := by
  obtain ⟨h1, h2, h3⟩ := h
  constructor
  · obtain ⟨ep, ei, es⟩ := sizeFrame_all _ _
      (getD_of_map_eq _ _ Patch.sizeFrame (initCommParticles_sizeFrame d ip W) x)
    unfold Unqueued
    rw [ep, ei, es]
    exact ⟨⟨h1, h2, h3⟩, rfl⟩
  · have hf := CommParticles_commFrame smpi params d ip W x
    have ei := commFrame_departed _ _ hf
    have es := (commFrame_fields _ _ hf).2.2.1
    obtain ⟨g1, g2⟩ := CommParticles_getI smpi params d ip W x i (h3 d 0 hd (by decide))
      (h3 d 1 hd (by decide))
    unfold Unqueued
    rw [ei, es, g2]
    exact ⟨⟨h1, h2, h3⟩, g1⟩

/-- A departed index that is in no send list stays so, with its record, through
`finalizeCommParticles` on an axis that is not the last one. -/
theorem Unqueued.requeue (smpi : SmileiMPI) (params : Params) (i : Int) (q : Patch) (d : Nat)
    (hnf : d + 1 < params.nDim_field) (h : Unqueued params i q) :
    Unqueued params i (finalizeCommParticles smpi params d q) ∧
    getI (finalizeCommParticles smpi params d q).particles i = getI q.particles i := by
  obtain ⟨h1, h2, h3⟩ := h
  obtain ⟨m, hr⟩ := finalizeCommParticles_requeues smpi params d q hnf
  refine ⟨⟨?_, ⟨h2.1, ?_⟩, ?_⟩, hr.kept i h2.2⟩
  · rw [hr.departed]
    exact List.mem_append_left _ h1
  · rw [hr.length]
    push_cast
    omega
  · intro a t ha ht hmem
    obtain ⟨sub, e, hb⟩ := hr.send a t
    rw [e] at hmem
    rcases List.mem_append.mp hmem with hm | hm
    · exact h3 a t ha ht hm
    · have := hb i hm
      omega

theorem insidePatch_inside :
    ∀ k, k < params1.nDim_field → inside insidePatch (getI insidePatch.particles 1) k := by
  intro k hk
  have h0 : k = 0 := by
    have : k < 1 := hk
    omega
  subst h0
  unfold inside
  decide!

/-- Witness of C22: the patch `(0, 0)` of the grid, whose two records fill the bins and
whose departed list is empty, queues one of the two received records again. -/
theorem finalizeCommParticles_keeps_compaction_ready_witness :
    (diagPatch.particles.length : Int) = diagPatch.bmax.getD (diagPatch.bmax.length - 1) 0 ∧
    (finalizeCommParticles smpiPeriodic params2 0 diagPatch).indexes_of_particles_to_exchange =
      [2] ∧
    (finalizeCommParticles smpiPeriodic params2 0 diagPatch).particles.length = 3 ∧
    (finalizeCommParticles smpiPeriodic params2 0 diagPatch).bmax = [1, 3] ∧
    (finalizeCommParticles smpiPeriodic params2 0
      diagPatch).indexes_of_particles_to_exchange.Pairwise (· < ·) ∧
    (∀ i ∈ (finalizeCommParticles smpiPeriodic params2 0
        diagPatch).indexes_of_particles_to_exchange,
      i < ((finalizeCommParticles smpiPeriodic params2 0 diagPatch).particles.length : Int)) ∧
    (finalizeCommParticles smpiPeriodic params2 0 diagPatch).bmin = diagPatch.bmin := by
  obtain ⟨m, _, _, _, _, _, h6, h7, h8, _⟩ :=
    finalizeCommParticles_keeps_compaction_ready smpiPeriodic params2 0 diagPatch (by decide)
      (by decide) (by decide) (by decide) (by decide)
  exact ⟨by decide, by decide!, by decide!, by decide!, h6, h7, h8⟩


theorem sizeFrame_bins (p q : Patch) (h : p.sizeFrame = q.sizeFrame) :
    p.bmin = q.bmin ∧ p.bmax = q.bmax := by
  unfold Patch.sizeFrame at h
  simp only [Prod.mk.injEq] at h
  exact ⟨h.2.2.1, h.2.2.2.1⟩

theorem commFrame_bins (p q : Patch) (h : p.commFrame = q.commFrame) :
    p.bmin = q.bmin ∧ p.bmax = q.bmax := by
  unfold Patch.commFrame at h
  simp only [Prod.mk.injEq] at h
  exact ⟨h.2.1, h.2.2.1⟩

/-- The state left by `initExchParticles` for a departed index whose record is inside the
patch on every axis. -/
theorem Discarded.of_initExch (smpi : SmileiMPI) (params : Params) (p : Patch) (i : Int)
    (hs : p.indexes_of_particles_to_exchange.Pairwise (· < ·))
    (hr : ∀ x ∈ p.indexes_of_particles_to_exchange, 0 ≤ x ∧ x < (p.particles.length : Int))
    (hg : Gapless p.bmin p.bmax p.particles.length)
    (hi : i ∈ p.indexes_of_particles_to_exchange)
    (hin : ∀ k, k < params.nDim_field → inside p (getI p.particles i) k) :
    Discarded params i (getI p.particles i) (initExchParticles smpi params p) := by
  have hnd : p.indexes_of_particles_to_exchange.Nodup :=
    List.Pairwise.imp (fun h => ne_of_lt h) hs
  obtain ⟨ebmin, ebmax, eidx⟩ := initExchParticles_bins smpi params p
  have hnone := first_out_none_of_inside p (getI p.particles i) params.nDim_field hin
  have hlen := initExchParticles_length smpi params p
  refine ⟨⟨by rw [eidx]; exact hi, by rw [hlen]; exact hr i hi, ?_⟩, ?_, by rw [eidx]; exact hs,
    by rw [eidx, hlen]; exact hr, by rw [ebmin, ebmax, hlen]; exact hg⟩
  · intro d t hd ht hmem
    rw [initExchParticles_send_eq smpi params p d t hd ht hnd, List.mem_filter] at hmem
    have hq : queued_on p params.nDim_field p.particles d t i := of_decide_eq_true hmem.2
    unfold queued_on at hq
    rw [hnone] at hq
    exact Option.noConfusion hq.1
  · rw [initExchParticles_getI smpi params p i hnd hr, if_pos hi,
      corrected_of_inside smpi params p _ hin]

theorem Discarded.initComm (params : Params) (i : Int) (r : Particle)
    (W : List Patch) (x d ip : Nat) (h : Discarded params i r (W.getD x default)) :
    Discarded params i r ((initCommParticles d ip W).getD x default) := by
  have hf := getD_of_map_eq _ _ Patch.sizeFrame (initCommParticles_sizeFrame d ip W) x
  obtain ⟨ep, ei, es⟩ := sizeFrame_all _ _ hf
  obtain ⟨eb1, eb2⟩ := sizeFrame_bins _ _ hf
  obtain ⟨h1, h2, h3, h4, h5⟩ := h
  refine ⟨?_, by rw [ep]; exact h2, by rw [ei]; exact h3, by rw [ei, ep]; exact h4,
    by rw [eb1, eb2, ep]; exact h5⟩
  unfold Unqueued
  rw [ep, ei, es]
  exact h1

theorem Discarded.Comm (smpi : SmileiMPI) (params : Params) (i : Int) (r : Particle)
    (W : List Patch) (x d ip : Nat) (hd : d < params.nDim_field)
    (h : Discarded params i r (W.getD x default)) :
    Discarded params i r ((CommParticles smpi params d ip W).getD x default) := by
  obtain ⟨h1, h2, h3, h4, h5⟩ := h
  have hu := (Unqueued.handshake_and_copy smpi params i W x d ip hd h1).2
  have hf := CommParticles_commFrame smpi params d ip W x
  have ei := commFrame_departed _ _ hf
  obtain ⟨eb1, eb2⟩ := commFrame_bins _ _ hf
  have hl := (CommParticles_getI smpi params d ip W x i (h1.2.2 d 0 hd (by decide))
    (h1.2.2 d 1 hd (by decide))).2
  exact ⟨hu.1, hu.2.trans h2, by rw [ei]; exact h3, by rw [ei, hl]; exact h4,
    by rw [eb1, eb2, hl]; exact h5⟩

theorem Requeues.gapless (q q' : Patch) (m : Nat) (h : Requeues q q' m)
    (hg : Gapless q.bmin q.bmax q.particles.length) :
    Gapless q'.bmin q'.bmax q'.particles.length := by
  obtain ⟨b1, b2, b3⟩ := incr_last_iter m q.bmax hg.nonempty
  have hn := hg.nonempty
  rw [h.bmin, h.bmax, h.length]
  refine ⟨by rw [b1]; exact hg.len_eq, by rw [b1]; exact hn, hg.first, ?_, ?_, ?_⟩
  · intro j hj
    rw [b1] at hj
    by_cases hl : j + 1 < q.bmax.length
    · rw [b3 j hl]; exact hg.ordered j hj
    · have hj2 : j = q.bmax.length - 1 := by omega
      subst hj2
      rw [b2]
      have := hg.ordered _ hj
      omega
  · intro j hj
    rw [b1] at hj
    rw [b3 j hj]
    exact hg.chain j hj
  · rw [b1, b2, hg.last]
    push_cast
    rfl

theorem Requeues.sorted (q q' : Patch) (m : Nat) (h : Requeues q q' m)
    (hs : q.indexes_of_particles_to_exchange.Pairwise (· < ·))
    (hr : ∀ x ∈ q.indexes_of_particles_to_exchange, 0 ≤ x ∧ x < (q.particles.length : Int)) :
    q'.indexes_of_particles_to_exchange.Pairwise (· < ·) ∧
    ∀ x ∈ q'.indexes_of_particles_to_exchange, 0 ≤ x ∧ x < (q'.particles.length : Int) := by
  constructor
  · rw [h.departed, List.pairwise_append]
    refine ⟨hs, ?_, ?_⟩
    · rw [List.pairwise_map]
      apply List.Pairwise.imp _ (List.pairwise_lt_range m)
      intro a b hab
      push_cast
      omega
    · intro a ha b hb
      rw [List.mem_map] at hb
      obtain ⟨j, _, rfl⟩ := hb
      have := hr a ha
      push_cast
      omega
  · intro x hx
    rw [h.departed] at hx
    rw [h.length]
    rcases List.mem_append.mp hx with h1 | h1
    · have := hr x h1
      push_cast
      omega
    · rw [List.mem_map] at h1
      obtain ⟨j, hj, rfl⟩ := h1
      rw [List.mem_range] at hj
      push_cast
      omega

theorem Discarded.finalize (smpi : SmileiMPI) (params : Params) (i : Int) (r : Particle)
    (q : Patch) (d : Nat) (hnf : d + 1 < params.nDim_field) (h : Discarded params i r q) :
    Discarded params i r (finalizeCommParticles smpi params d q) := by
  obtain ⟨h1, h2, h3, h4, h5⟩ := h
  obtain ⟨m, hq⟩ := finalizeCommParticles_requeues smpi params d q hnf
  obtain ⟨u1, u2⟩ := Unqueued.requeue smpi params i q d hnf h1
  obtain ⟨s1, s2⟩ := Requeues.sorted _ _ m hq h3 h4
  exact ⟨u1, u2.trans h2, s1, s2, Requeues.gapless _ _ m hq h5⟩

theorem Discarded.lt_length (params : Params) (i : Int) (r : Particle) (W : List Patch)
    (x : Nat) (h : Discarded params i r (W.getD x default)) : x < W.length := by
  by_contra hc
  have h1 := h.unqueued.1
  rw [List.getD_eq_default _ _ (by omega)] at h1
  exact absurd h1 (List.not_mem_nil _)

theorem forEachPatch_keeps (P : Patch → Prop) (f : Nat → List Patch → List Patch)
    (h : ∀ ip W x, P (W.getD x default) → P ((f ip W).getD x default))
    (W : List Patch) (x : Nat) (hx : P (W.getD x default)) :
    P ((forEachPatch f W).getD x default) := by
  unfold forEachPatch
  generalize List.range W.length = l
  induction l generalizing W with
  | nil => exact hx
  | cons a t ih =>
    rw [List.foldl_cons]
    exact ih (f a W) (h a W x hx)

theorem Discarded.handshaken_copied (smpi : SmileiMPI) (params : Params) (i : Int)
    (r : Particle) (W : List Patch) (x d : Nat) (hd : d < params.nDim_field)
    (h : Discarded params i r (W.getD x default)) :
    Discarded params i r ((forEachPatch (initCommParticles d) W).getD x default) ∧
    Discarded params i r ((forEachPatch (CommParticles smpi params d)
      (forEachPatch (initCommParticles d) W)).getD x default) := by
  have h1 := forEachPatch_keeps (Discarded params i r) (initCommParticles d)
    (fun ip V y hy => Discarded.initComm params i r V y d ip hy) W x h
  exact ⟨h1, forEachPatch_keeps (Discarded params i r) (CommParticles smpi params d)
    (fun ip V y hy => Discarded.Comm smpi params i r V y d ip hd hy) _ x h1⟩

theorem getD_map_of_lt (W : List Patch) (g : Patch → Patch) (x : Nat) (hx : x < W.length) :
    (W.map g).getD x default = g (W.getD x default) := by
  simp [List.getD_eq_getElem?_getD, List.getElem?_map, List.getElem?_eq_getElem hx]

theorem Discarded.exchangeAxis (smpi : SmileiMPI) (params : Params) (i : Int)
    (r : Particle) (W : List Patch) (x d : Nat) (hnf : d + 1 < params.nDim_field)
    (h : Discarded params i r (W.getD x default)) :
    Discarded params i r ((exchangeAxis smpi params W d).getD x default) := by
  unfold Smilei.exchangeAxis
  have h2 := (Discarded.handshaken_copied smpi params i r W x d (by omega) h).2
  rw [getD_map_of_lt _ _ _ (Discarded.lt_length params i r _ x h2)]
  exact Discarded.finalize smpi params i r _ d hnf h2

theorem Discarded.exchangedUpTo (smpi : SmileiMPI) (params : Params) (i : Int)
    (r : Particle) (W : List Patch) (x : Nat)
    (h : Discarded params i r ((W.map (initExchParticles smpi params)).getD x default)) :
    ∀ d, d < params.nDim_field →
      Discarded params i r ((exchangedUpTo smpi params W d).getD x default) := by
  intro d
  induction d with
  | zero => intro _; exact h
  | succ n ih =>
    intro hd
    unfold Smilei.exchangedUpTo
    rw [List.range_succ, List.foldl_append, List.foldl_cons, List.foldl_nil]
    exact Discarded.exchangeAxis smpi params i r _ x n hd (ih (by omega))

theorem exchangeParticles_eq (smpi : SmileiMPI) (params : Params) (W : List Patch)
    (h0 : 0 < params.nDim_field) :
    exchangeParticles smpi params W =
      (copied smpi params W (params.nDim_field - 1)).map
        (finalizeCommParticles smpi params (params.nDim_field - 1)) := by
  unfold exchangeParticles copied handshaken exchangedUpTo
  obtain ⟨n, hn⟩ : ∃ n, params.nDim_field = n + 1 := ⟨params.nDim_field - 1, by omega⟩
  rw [hn, List.range_succ, List.foldl_append, List.foldl_cons, List.foldl_nil,
    Nat.add_sub_cancel]
  rfl

/-- C21: in a vector of patches `W`, a departed index `i` of the patch at the position `x`
(strictly ascending in-range departed list, gapless bins) whose record is inside
`[min_local[k], max_local[k])` on every axis `k`. `initExchParticles` queues `i` on no send
list and leaves its record unchanged. Through the exchange, at the start of every axis, after
the handshake of the sizes and after the copy of the queued particles, the index is still
listed as departed, in no send list (so its record is copied to no buffer), its record is
the same, and the preconditions of the compaction hold. The patch after the exchange is
`finalizeCommParticles` of the last axis on such a state, whose compaction
(`cleanup_sent_particles`) leaves in every bin exactly the records of the positions of the
bin that are not listed: the position `i` is not one of them; and with one or two axes,
when the received records are as `finalizeCommParticles` expects them, every bin of the
patch after the exchange holds these records and the received ones. -/
theorem exchangeParticles_deletes_inside_departed (smpi : SmileiMPI) (params : Params)
    (W : List Patch) (x : Nat) (i : Int) (h0 : 0 < params.nDim_field)
    (hs : (W.getD x default).indexes_of_particles_to_exchange.Pairwise (· < ·))
    (hr : ∀ y ∈ (W.getD x default).indexes_of_particles_to_exchange,
      0 ≤ y ∧ y < ((W.getD x default).particles.length : Int))
    (hg : Gapless (W.getD x default).bmin (W.getD x default).bmax
      (W.getD x default).particles.length)
    (hi : i ∈ (W.getD x default).indexes_of_particles_to_exchange)
    (hin : ∀ k, k < params.nDim_field →
      inside (W.getD x default) (getI (W.getD x default).particles i) k) :
    (∀ d t, d < params.nDim_field → t < 2 →
      i ∉ (initExchParticles smpi params (W.getD x default)).patch_buff_index_send d t) ∧
    getI (initExchParticles smpi params (W.getD x default)).particles i =
      getI (W.getD x default).particles i ∧
    (∀ d, d < params.nDim_field →
      Discarded params i (getI (W.getD x default).particles i)
        ((exchangedUpTo smpi params W d).getD x default) ∧
      Discarded params i (getI (W.getD x default).particles i)
        ((handshaken smpi params W d).getD x default) ∧
      Discarded params i (getI (W.getD x default).particles i)
        ((copied smpi params W d).getD x default)) ∧
    (exchangeParticles smpi params W).getD x default =
      finalizeCommParticles smpi params (params.nDim_field - 1)
        ((copied smpi params W (params.nDim_field - 1)).getD x default) ∧
    (∀ j, j < ((copied smpi params W (params.nDim_field - 1)).getD x default).bmax.length →
      recs (cleanup_sent_particles
          ((copied smpi params W (params.nDim_field - 1)).getD x
            default).indexes_of_particles_to_exchange
          ((copied smpi params W (params.nDim_field - 1)).getD x default).particles
          ((copied smpi params W (params.nDim_field - 1)).getD x default).bmin
          ((copied smpi params W (params.nDim_field - 1)).getD x default).bmax).1
        ((cleanup_sent_particles
          ((copied smpi params W (params.nDim_field - 1)).getD x
            default).indexes_of_particles_to_exchange
          ((copied smpi params W (params.nDim_field - 1)).getD x default).particles
          ((copied smpi params W (params.nDim_field - 1)).getD x default).bmin
          ((copied smpi params W (params.nDim_field - 1)).getD x default).bmax).2.1.getD j 0)
        ((cleanup_sent_particles
          ((copied smpi params W (params.nDim_field - 1)).getD x
            default).indexes_of_particles_to_exchange
          ((copied smpi params W (params.nDim_field - 1)).getD x default).particles
          ((copied smpi params W (params.nDim_field - 1)).getD x default).bmin
          ((copied smpi params W (params.nDim_field - 1)).getD x default).bmax).2.2.getD j 0) =
        pick ((copied smpi params W (params.nDim_field - 1)).getD x default).particles
          (liveSet
            ((copied smpi params W (params.nDim_field - 1)).getD x
              default).indexes_of_particles_to_exchange
            (((copied smpi params W (params.nDim_field - 1)).getD x default).bmin.getD j 0)
            (((copied smpi params W (params.nDim_field - 1)).getD x default).bmax.getD j 0)) ∧
      i ∉ liveSet
        ((copied smpi params W (params.nDim_field - 1)).getD x
          default).indexes_of_particles_to_exchange
        (((copied smpi params W (params.nDim_field - 1)).getD x default).bmin.getD j 0)
        (((copied smpi params W (params.nDim_field - 1)).getD x default).bmax.getD j 0)) ∧
    (params.nDim_field ≤ 2 →
      FinalReady params ((copied smpi params W (params.nDim_field - 1)).getD x default) →
      ∀ j, j < ((copied smpi params W (params.nDim_field - 1)).getD x default).bmax.length →
        recs ((exchangeParticles smpi params W).getD x default).particles
            (((exchangeParticles smpi params W).getD x default).bmin.getD j 0)
            (((exchangeParticles smpi params W).getD x default).bmax.getD j 0) =
          pick ((copied smpi params W (params.nDim_field - 1)).getD x default).particles
            (liveSet
              ((copied smpi params W (params.nDim_field - 1)).getD x
                default).indexes_of_particles_to_exchange
              (((copied smpi params W (params.nDim_field - 1)).getD x default).bmin.getD j 0)
              (((copied smpi params W (params.nDim_field - 1)).getD x default).bmax.getD j 0)) +
          arrivals_of params ((copied smpi params W (params.nDim_field - 1)).getD x default)
            id j) := by
  have hx : x < W.length := by
    by_contra hc
    rw [List.getD_eq_default _ _ (by omega)] at hi
    exact absurd hi (List.not_mem_nil _)
  have hd0 := Discarded.of_initExch smpi params (W.getD x default) i hs hr hg hi hin
  have hstart : Discarded params i (getI (W.getD x default).particles i)
      ((W.map (initExchParticles smpi params)).getD x default) := by
    rw [getD_map_of_lt _ _ _ hx]; exact hd0
  have hup := Discarded.exchangedUpTo smpi params i _ W x hstart
  have hall : ∀ d, d < params.nDim_field →
      Discarded params i (getI (W.getD x default).particles i)
        ((exchangedUpTo smpi params W d).getD x default) ∧
      Discarded params i (getI (W.getD x default).particles i)
        ((handshaken smpi params W d).getD x default) ∧
      Discarded params i (getI (W.getD x default).particles i)
        ((copied smpi params W d).getD x default) := by
    intro d hd
    obtain ⟨a, b⟩ := Discarded.handshaken_copied smpi params i _ _ x d hd (hup d hd)
    exact ⟨hup d hd, a, b⟩
  have hlast := (hall (params.nDim_field - 1) (by omega)).2.2
  have hfin : (exchangeParticles smpi params W).getD x default =
      finalizeCommParticles smpi params (params.nDim_field - 1)
        ((copied smpi params W (params.nDim_field - 1)).getD x default) := by
    rw [exchangeParticles_eq smpi params W h0,
      getD_map_of_lt _ _ _ (Discarded.lt_length params i _ _ x hlast)]
  refine ⟨hd0.unqueued.2.2, hd0.record, hall, hfin, ?_, ?_⟩
  · intro j hj
    generalize (copied smpi params W (params.nDim_field - 1)).getD x default = Q at hlast hj
    obtain ⟨_, _, _, hbmin, hbmax, hrec⟩ := cleanup_spec Q.indexes_of_particles_to_exchange
      Q.bmin Q.bmax Q.particles hlast.sorted hlast.gapless
    refine ⟨?_, not_mem_liveSet _ _ _ _ hlast.unqueued.1⟩
    rw [hbmin j hj, hbmax j hj]
    exact hrec j hj
  · intro hd hready j hj
    rw [hfin]
    generalize (copied smpi params W (params.nDim_field - 1)).getD x default = Q at hready hj
    rw [finalizeCommParticles_last smpi params _ Q (by omega)]
    exact (finalize_last_spec params _ Q hready hd (by omega)).2.2.2.2.2 j hj

theorem insidePatch_gapless :
    Gapless insidePatch.bmin insidePatch.bmax insidePatch.particles.length :=
  ⟨rfl, by decide, by decide,
    fun j hj => by
      have hj2 : j < 2 := hj
      interval_cases j <;> decide,
    fun j hj => by
      have hj2 : j + 1 < 2 := hj
      have hj0 : j = 0 := by omega
      subst hj0; decide,
    by decide⟩

/-- Witness of C21: the record 1 of the first patch of the chain, at `4`, inside `[0, 10)`,
is listed as departed: it is queued nowhere and the exchange on the single axis deletes
it. -/
theorem exchangeParticles_deletes_inside_departed_witness :
    (1 : Int) ∈ (insideChain.getD 0 default).indexes_of_particles_to_exchange ∧
    (∀ k, k < params1.nDim_field →
      inside (insideChain.getD 0 default) (getI (insideChain.getD 0 default).particles 1) k) ∧
    (∀ d t, d < params1.nDim_field → t < 2 →
      (1 : Int) ∉ (initExchParticles smpiPeriodic params1
        (insideChain.getD 0 default)).patch_buff_index_send d t) ∧
    getI (initExchParticles smpiPeriodic params1 (insideChain.getD 0 default)).particles 1 =
      rec1 4 2 ∧
    Discarded params1 1 (getI (insideChain.getD 0 default).particles 1)
      ((copied smpiPeriodic params1 insideChain 0).getD 0 default) ∧
    ((exchangeParticles smpiPeriodic params1 insideChain).getD 0 default).particles =
      [rec1 3 1, rec1 7 3] ∧
    ((exchangeParticles smpiPeriodic params1 insideChain).getD 0 default).bmax = [1, 2] :=
  have h := exchangeParticles_deletes_inside_departed smpiPeriodic params1 insideChain 0 1
    (by decide) (by decide) (by decide) insidePatch_gapless (by decide) insidePatch_inside
  ⟨by decide, insidePatch_inside, h.1, h.2.1.trans (by decide!), (h.2.2.1 0 (by decide)).2.2,
    by decide!, by decide!⟩


/-! ## A patch with an empty departed list that receives nothing -/

theorem foldl_fixed {α β : Type} (f : α → β → α) (s : α) (l : List β)
    (h : ∀ x ∈ l, f s x = s) : l.foldl f s = s := by
  induction l with
  | nil => rfl
  | cons a l ih =>
    rw [List.foldl_cons, h a (List.mem_cons_self _ _)]
    exact ih (fun x hx => h x (List.mem_cons_of_mem _ hx))

/-- The receive count of the patch `x` on the side `b` after `initCommParticles` run by the
patch `m` in a vector of co-located patches: the number of indexes that `m` has queued for
`x`, when `x` is the neighbor of `m` on the other side. -/
theorem initCommParticles_recv_colocated (params : Params) (d : Nat) (V : List Patch)
    (hc : Colocated params V) (hd : d < params.nDim_field) (m : Nat) (hm : m < V.length)
    (x b : Nat) (hx : x < V.length) (hb : b < 2) :
    ((initCommParticles d m V).getD x default).patch_buff_index_recv_sz d b =
      if (V.getD m default).neighbor_ d ((b + 1) % 2) = some (h0 V + x) then
        (((V.getD m default).patch_buff_index_send d ((b + 1) % 2)).length : Int)
      else (V.getD x default).patch_buff_index_recv_sz d b := by
  rw [initCommParticles_recv_sz]
  have hmpi : ∀ s, s < 2 → (V.getD m default).neighbor_ d s ≠ none →
      is_a_MPI_neighbor (V.getD m default) d s = false := by
    intro s hs hne
    cases hn : (V.getD m default).neighbor_ d s with
    | none => exact absurd hn hne
    | some nb => exact (hc.near m d s nb hm hd hs hn).1
  have hpeer : ∀ s, s < 2 →
      (((x = peer V (V.getD m default) d s ∧ x < V.length) ∧
        ((V.getD m default).neighbor_ d s ≠ none ∧
          is_a_MPI_neighbor (V.getD m default) d s = false)) ↔
      (V.getD m default).neighbor_ d s = some (h0 V + x)) := by
    intro s hs
    constructor
    · rintro ⟨⟨h1, _⟩, h2, _⟩
      cases hn : (V.getD m default).neighbor_ d s with
      | none => exact absurd hn h2
      | some nb =>
        have hnear := hc.near m d s nb hm hd hs hn
        unfold peer at h1
        rw [hn] at h1
        simp only [Option.getD_some] at h1
        congr 1
        omega
    · intro h
      refine ⟨⟨?_, hx⟩, by rw [h]; exact Option.some_ne_none _, hmpi s hs (by rw [h]; exact Option.some_ne_none _)⟩
      unfold peer
      rw [h]
      simp
  have h1 : ¬ ((V.getD m default).neighbor_ d 0 ≠ none ∧
      is_a_MPI_neighbor (V.getD m default) d 0 = true) := by
    rintro ⟨ha, hb2⟩
    rw [hmpi 0 (by decide) ha] at hb2
    exact absurd hb2 (by decide)
  have h2 : ¬ ((V.getD m default).neighbor_ d 1 ≠ none ∧
      is_a_MPI_neighbor (V.getD m default) d 1 = true) := by
    rintro ⟨ha, hb2⟩
    rw [hmpi 1 (by decide) ha] at hb2
    exact absurd hb2 (by decide)
  interval_cases b
  · have e : (0 + 1) % 2 = 1 := rfl
    rw [e, if_neg (fun h => h1 h.2.1)]
    by_cases hp : (V.getD m default).neighbor_ d 1 = some (h0 V + x)
    · have hq := (hpeer 1 (by decide)).mpr hp
      rw [if_pos ⟨hq.1, hq.2, rfl, rfl⟩, if_pos hp]
    · rw [if_neg (fun h => hp ((hpeer 1 (by decide)).mp ⟨h.1, h.2.1⟩)),
        if_neg (fun h => absurd h.2.2.2 (by decide)),
        if_neg (fun h => absurd h.2.2.2 (by decide)), if_neg hp]
  · have e : (1 + 1) % 2 = 0 := rfl
    rw [e, if_neg (fun h => absurd h.2.2.2 (by decide)),
      if_neg (fun h => absurd h.2.2.2 (by decide)), if_neg (fun h => h2 h.2.1)]
    by_cases hp : (V.getD m default).neighbor_ d 0 = some (h0 V + x)
    · have hq := (hpeer 0 (by decide)).mpr hp
      rw [if_pos ⟨hq.1, hq.2, rfl, rfl⟩, if_pos hp]
    · rw [if_neg (fun h => hp ((hpeer 0 (by decide)).mp ⟨h.1, h.2.1⟩)), if_neg hp]


theorem opposite_side (b : Nat) (hb : b < 2) : ((b + 1) % 2 + 1) % 2 = b := by
  interval_cases b <;> rfl

/-- The receive counts during the handshake of the axis `d` in a vector of co-located
patches, when the patches before the position `m` have run `initCommParticles`: the count of
the patch `x` on the side `b` is the length of the send list that its neighbor on that side
has for it, once that neighbor has run. -/
theorem handshake_through (params : Params) (d : Nat) (W : List Patch)
    (hc : Colocated params W) (hd : d < params.nDim_field) :
    ∀ m, m ≤ W.length →
      ((List.range m).foldl (fun w ip => initCommParticles d ip w) W).map Patch.sizeFrame =
        W.map Patch.sizeFrame ∧
      ∀ x b, x < W.length → b < 2 →
        (((List.range m).foldl (fun w ip => initCommParticles d ip w) W).getD x
            default).patch_buff_index_recv_sz d b =
          match (W.getD x default).neighbor_ d b with
          | some nb =>
            if nb - h0 W < m then
              (((W.getD (nb - h0 W) default).patch_buff_index_send d ((b + 1) % 2)).length : Int)
            else (W.getD x default).patch_buff_index_recv_sz d b
          | none => (W.getD x default).patch_buff_index_recv_sz d b := by
  intro m
  induction m with
  | zero =>
    intro _
    refine ⟨rfl, fun x b _ _ => ?_⟩
    simp only [List.range_zero, List.foldl_nil]
    cases (W.getD x default).neighbor_ d b with
    | none => rfl
    | some nb => simp
  | succ m ih =>
    intro hm
    obtain ⟨hf, hrec⟩ := ih (by omega)
    rw [List.range_succ, List.foldl_append, List.foldl_cons, List.foldl_nil]
    generalize (List.range m).foldl (fun w ip => initCommParticles d ip w) W = V at hf hrec ⊢
    have hgeo := sizeFrame_geometry V W hf
    have hcV : Colocated params V := Colocated.of_geometry params V W hgeo hc
    have hlen : V.length = W.length := length_of_map_eq V W _ hf
    have hh0 : h0 V = h0 W := h0_of_geometry V W hgeo
    have hfm := sizeFrame_fields _ _ (getD_of_map_eq V W Patch.sizeFrame hf m)
    refine ⟨by rw [initCommParticles_sizeFrame, hf], fun x b hx hb => ?_⟩
    have hb' : (b + 1) % 2 < 2 := Nat.mod_lt _ (by decide)
    rw [initCommParticles_recv_colocated params d V hcV hd m (by omega) x b (by omega) hb,
      hfm.2.1, hfm.2.2.2, hh0, hrec x b hx hb]
    by_cases hcond : (W.getD m default).neighbor_ d ((b + 1) % 2) = some (h0 W + x)
    · have hs := hc.sym m d ((b + 1) % 2) (h0 W + x) (by omega) hd hb' hcond
      rw [opposite_side b hb, Nat.add_sub_cancel_left] at hs
      rw [if_pos hcond, hs]
      simp only
      rw [Nat.add_sub_cancel_left, if_pos (Nat.lt_succ_self m)]
    · rw [if_neg hcond]
      cases hn : (W.getD x default).neighbor_ d b with
      | none => rfl
      | some nb =>
        simp only
        have hnear := hc.near x d b nb hx hd hb hn
        have hs := hc.sym x d b nb hx hd hb hn
        by_cases hlt : nb - h0 W < m
        · rw [if_pos hlt, if_pos (by omega)]
        · rw [if_neg hlt]
          by_cases heq : nb - h0 W = m
          · rw [heq] at hs
            exact absurd hs hcond
          · rw [if_neg (by omega)]

/-- The receive counts after the handshake of the axis `d` in a vector of co-located
patches: the count of a patch on a side with a neighbor is the length of the send list that
the neighbor has for it. -/
theorem handshake_recv (params : Params) (d : Nat) (W : List Patch)
    (hc : Colocated params W) (hd : d < params.nDim_field) (x b : Nat) (hx : x < W.length)
    (hb : b < 2) :
    ((forEachPatch (initCommParticles d) W).getD x default).patch_buff_index_recv_sz d b =
      match (W.getD x default).neighbor_ d b with
      | some nb =>
        (((W.getD (nb - h0 W) default).patch_buff_index_send d ((b + 1) % 2)).length : Int)
      | none => (W.getD x default).patch_buff_index_recv_sz d b := by
  have h := (handshake_through params d W hc hd W.length (le_refl _)).2 x b hx hb
  unfold forEachPatch
  rw [h]
  cases hn : (W.getD x default).neighbor_ d b with
  | none => rfl
  | some nb =>
    simp only
    rw [if_pos (hc.near x d b nb hx hd hb hn).2.2]

theorem modAt_fixed (vp : List Patch) (i : Nat) (f : Patch → Patch)
    (h : f (vp.getD i default) = vp.getD i default) : modAt vp i f = vp := by
  unfold modAt
  rw [h]
  apply List.ext_getElem (by simp)
  intro n h1 h2
  rw [List.getElem_set]
  split
  · rename_i hh; subst hh
    rw [List.getD_eq_getElem _ _ h2]
  · rfl

/-- A patch whose send list of the side `s` is empty and whose neighbor of the other side
does not live on another process does nothing in the iteration `s` of the second loop of
`CommParticles`. -/
theorem Comm_neighbor_idle (smpi : SmileiMPI) (params : Params) (d ip : Nat) (V : List Patch)
    (s : Nat) (hs : (V.getD ip default).patch_buff_index_send d s = [])
    (hm : is_a_MPI_neighbor (V.getD ip default) d ((s + 1) % 2) = false) :
    Comm_neighbor smpi params d ip V s = V := by
  have h1 : Comm_neighbor_send smpi params d ip V s = V := by
    unfold Comm_neighbor_send
    simp only [hs, List.length_nil, ne_eq, not_true_eq_false, if_false]
    split <;> rfl
  unfold Comm_neighbor
  simp only [h1, hm, Bool.false_eq_true, and_false, if_false]

theorem Comm_wait_idle (d : Nat) (q : Patch) (s : Nat)
    (hm : is_a_MPI_neighbor q d ((s + 1) % 2) = false) : Comm_wait d q s = q := by
  unfold Comm_wait
  rw [if_neg]
  rintro ⟨_, h, _⟩
  rw [hm] at h
  exact absurd h (by decide)

/-- A patch with empty send lists on the axis `d` and no neighbor on another process on
that axis does nothing in `CommParticles`. -/
theorem CommParticles_idle (smpi : SmileiMPI) (params : Params) (d ip : Nat) (V : List Patch)
    (hs : ∀ s, s < 2 → (V.getD ip default).patch_buff_index_send d s = [])
    (hm : ∀ s, s < 2 → is_a_MPI_neighbor (V.getD ip default) d s = false) :
    CommParticles smpi params d ip V = V := by
  have hw : modAt V ip (fun q => (List.range nbNeighbors_).foldl (Comm_wait d) q) = V := by
    apply modAt_fixed
    have hr : List.range nbNeighbors_ = [0, 1] := rfl
    rw [hr]
    simp only [List.foldl_cons, List.foldl_nil]
    rw [Comm_wait_idle d _ 0 (hm 1 (by decide)), Comm_wait_idle d _ 1 (hm 0 (by decide))]
  rw [CommParticles_eq, hw, Comm_neighbor_idle smpi params d ip V 0 (hs 0 (by decide))
    (hm 1 (by decide)), Comm_neighbor_idle smpi params d ip V 1 (hs 1 (by decide))
    (hm 0 (by decide))]

theorem range_split (n i : Nat) (hi : i < n) :
    List.range n = List.range i ++ (i :: List.range' (i + 1) (n - i - 1)) := by
  rw [List.range_eq_range', List.range_eq_range']
  have e : n = ((n - i - 1) + 1) + i := by omega
  conv_lhs => rw [e]
  rw [← List.range'_append_1 0 i, Nat.zero_add, List.range'_succ]

/-- When every patch but the one at the position `i` leaves the vector as it is, before and
after the patch `i` has run, the loop over the patches is the run of the patch `i`. -/
theorem forEachPatch_single (f : Nat → List Patch → List Patch) (W : List Patch) (i : Nat)
    (hi : i < W.length) (h1 : ∀ ip, ip ≠ i → f ip W = W)
    (h2 : ∀ ip, ip ≠ i → f ip (f i W) = f i W) :
    forEachPatch f W = f i W := by
  unfold forEachPatch
  rw [range_split W.length i hi, List.foldl_append, List.foldl_cons,
    foldl_fixed (fun w ip => f ip w) W (List.range i)
      (fun x hx => h1 x (by rw [List.mem_range] at hx; omega)),
    foldl_fixed (fun w ip => f ip w) (f i W) _
      (fun x hx => h2 x (by rw [List.mem_range'_1] at hx; omega))]


/-- The state that `initExchParticles` leaves for a patch with a single departed particle
that leaves through the high side of the axis 0 (one axis), where a neighbor exists and the
patch is not at the periodic edge: the index is queued on the high side only, the record is
unchanged, and the receive buffers and counts are reset. -/
theorem initExchParticles_single_high (smpi : SmileiMPI) (params : Params) (p : Patch)
    (k : Int) (nb : Nat) (hnd : params.nDim_field = 1)
    (hdep : p.indexes_of_particles_to_exchange = [k])
    (hk : 0 ≤ k ∧ k < p.particles.length)
    (hb : ∀ j, p.min_local j ≤ p.max_local j)
    (hx : p.max_local 0 ≤ position p.particles 0 k)
    (hnb : p.neighbor_ 0 1 = some nb)
    (hint : ¬ at_edge smpi params p 0 1) :
    (initExchParticles smpi params p).patch_buff_index_send 0 1 = [k] ∧
    (initExchParticles smpi params p).patch_buff_index_send 0 0 = [] ∧
    getI (initExchParticles smpi params p).particles k = getI p.particles k ∧
    (∀ s, s < 2 → (initExchParticles smpi params p).patchVectorRecv 0 s = []) ∧
    (∀ s, s < 2 → (initExchParticles smpi params p).patch_buff_index_recv_sz 0 s = 0) := by
  have hl : leaves_through p params.nDim_field (getI p.particles k) 0 1 :=
    ⟨by omega, fun j hj => absurd hj (Nat.not_lt_zero j), Or.inr ⟨rfl, hx⟩⟩
  have hnodup : p.indexes_of_particles_to_exchange.Nodup := by rw [hdep]; simp
  have hrange : ∀ i ∈ p.indexes_of_particles_to_exchange, 0 ≤ i ∧ i < p.particles.length := by
    intro i hi
    rw [hdep, List.mem_singleton] at hi
    rw [hi]; exact hk
  have hq1 : queued_on p params.nDim_field p.particles 0 1 k :=
    (queued_on_iff _ _ _ _ _ _ hb).mpr ⟨hl, by rw [hnb]; exact Option.some_ne_none _⟩
  have hq0 : ¬ queued_on p params.nDim_field p.particles 0 0 k := by
    intro h
    have h2 := ((queued_on_iff _ _ _ _ _ _ hb).mp h).1
    have := (leaves_through_unique p _ _ 0 1 0 0 hb hl h2).2
    omega
  refine ⟨?_, ?_, ?_, ?_, ?_⟩
  · rw [initExchParticles_send_eq smpi params p 0 1 (by omega) (by decide) hnodup, hdep]
    simp [hq1]
  · rw [initExchParticles_send_eq smpi params p 0 0 (by omega) (by decide) hnodup, hdep]
    simp [hq0]
  · rw [initExchParticles_getI smpi params p k hnodup hrange, hdep,
      if_pos (List.mem_singleton_self k), corrected_of_leaves smpi params p _ 0 1 hb hl,
      if_neg (fun h => hint h.2)]
  · intro s hs
    rw [initExchParticles_frame]
    simp [initExch_reset, hnd, nbNeighbors_, hs, init_particles]
  · intro s hs
    rw [initExchParticles_frame]
    simp [initExch_reset, hnd, nbNeighbors_, hs]

/-- The state that `initExchParticles` leaves for a patch with an empty departed list. -/
theorem initExchParticles_none (smpi : SmileiMPI) (params : Params) (p : Patch)
    (hdep : p.indexes_of_particles_to_exchange = []) :
    (initExchParticles smpi params p).particles = p.particles ∧
    (∀ d s, d < params.nDim_field → s < 2 →
      (initExchParticles smpi params p).patch_buff_index_send d s = []) ∧
    (∀ d s, d < params.nDim_field → s < 2 →
      (initExchParticles smpi params p).patchVectorRecv d s = []) ∧
    (∀ d s, d < params.nDim_field → s < 2 →
      (initExchParticles smpi params p).patch_buff_index_recv_sz d s = 0) := by
  have e : initExchParticles smpi params p = initExch_reset params p := by
    unfold initExchParticles; rw [hdep]; rfl
  rw [e]
  refine ⟨rfl, ?_, ?_, ?_⟩ <;>
  · intro d s hd hs
    simp [initExch_reset, hd, nbNeighbors_, hs, init_particles]

/-- In a vector of co-located patches no patch has a neighbor on another process. -/
theorem Colocated.not_mpi (params : Params) (W : List Patch) (hc : Colocated params W)
    (x d s : Nat) (hd : d < params.nDim_field) (hs : s < 2) :
    is_a_MPI_neighbor (W.getD x default) d s = false := by
  by_cases hx : x < W.length
  · cases hn : (W.getD x default).neighbor_ d s with
    | none => unfold is_a_MPI_neighbor; rw [hn]; rfl
    | some nb => exact (hc.near x d s nb hx hd hs hn).1
  · rw [List.getD_eq_default _ _ (by omega)]
    rfl

theorem CommParticles_length (smpi : SmileiMPI) (params : Params) (d ip : Nat)
    (W : List Patch) : (CommParticles smpi params d ip W).length = W.length := by
  rw [CommParticles_eq, Comm_neighbor_length, Comm_neighbor_length, modAt_length]


/-- Away from the periodic edge of the high side, and with nothing queued for the low side,
the periodic correction of `CommParticles` changes nothing. -/
theorem Comm_correct_interior (smpi : SmileiMPI) (params : Params) (me q : Patch) (d s : Nat)
    (hs : s < 2) (hs0 : me.patch_buff_index_send d 0 = [])
    (hint : ¬ at_edge smpi params q d 1) :
    Comm_correct smpi params me d s q = q := by
  unfold Comm_correct
  split
  · rename_i hc
    have hs1 : s = 1 := by
      by_contra hne
      have : s = 0 := by omega
      subst this
      exact hc.1.2 (by rw [hs0]; rfl)
    subst hs1
    have hnl : ¬ at_last_patch params q d := by
      intro h
      exact hint ⟨hc.2, by simpa using h⟩
    unfold Comm_periodic
    apply foldl_fixed
    intro i _
    unfold Comm_periodic_step
    rw [if_neg (fun h => absurd h.1 (by decide)), if_neg (fun h => hnl h.2.1)]
  · rfl

/-- The vector of co-located patches after `CommParticles` run by a patch that has one index
queued for its high-side neighbor on the axis `d`, nothing queued for the low side, and is
not at the periodic edge: no store changes, the queued record is appended to the receive
buffer of the neighbor, on its low side, and no other receive buffer of the axis changes. -/
theorem CommParticles_single_high (smpi : SmileiMPI) (params : Params) (d i : Nat)
    (H : List Patch) (k : Int) (nb : Nat) (hd : d < params.nDim_field)
    (hc : Colocated params H) (hi : i < H.length)
    (hs1 : (H.getD i default).patch_buff_index_send d 1 = [k])
    (hs0 : (H.getD i default).patch_buff_index_send d 0 = [])
    (hnb : (H.getD i default).neighbor_ d 1 = some nb)
    (hint : ¬ at_edge smpi params (H.getD i default) d 1) :
    (∀ x, ((CommParticles smpi params d i H).getD x default).particles =
      (H.getD x default).particles) ∧
    (∀ x b, b < 2 →
      ((CommParticles smpi params d i H).getD x default).patchVectorRecv d b =
        if x = nb - h0 H ∧ b = 0 then
          (H.getD x default).patchVectorRecv d 0 ++ [getI (H.getD i default).particles k]
        else (H.getD x default).patchVectorRecv d b) := by
  have hmpi : ∀ s, s < 2 → is_a_MPI_neighbor (H.getD i default) d s = false :=
    fun s hs => Colocated.not_mpi params H hc i d s hd hs
  have hnear := hc.near i d 1 nb hi hd (by decide) hnb
  rw [CommParticles_eq]
  have hW0len : (modAt H i (fun q => (List.range nbNeighbors_).foldl (Comm_wait d) q)).length =
      H.length := modAt_length _ _ _
  have hp0 : ∀ y, ((modAt H i (fun q => (List.range nbNeighbors_).foldl (Comm_wait d) q)).getD y
      default).particles = (H.getD y default).particles :=
    fun y => modAt_keep (fun p => p.particles) _ _ _ (Comm_waits_particles d) y
  have hf0 : ∀ y, ((modAt H i (fun q => (List.range nbNeighbors_).foldl (Comm_wait d) q)).getD y
      default).commFrame = (H.getD y default).commFrame :=
    fun y => modAt_keep Patch.commFrame _ _ _ (Comm_waits_commFrame d) y
  have hr0 : ∀ y b, ((modAt H i (fun q => (List.range nbNeighbors_).foldl (Comm_wait d) q)).getD y
      default).patchVectorRecv d b = (H.getD y default).patchVectorRecv d b := by
    intro y b
    rw [recv_modAt]
    split
    · rename_i hh
      obtain ⟨rfl, _⟩ := hh
      apply Comm_waits_recv
      rintro ⟨_, hb2, _, h4, _⟩
      rw [hmpi b hb2] at h4
      exact absurd h4 (by decide)
    · rfl
  generalize modAt H i (fun q => (List.range nbNeighbors_).foldl (Comm_wait d) q) = W0
    at hW0len hp0 hf0 hr0 ⊢
  have hint' : ∀ q : Patch, q.commFrame = (H.getD i default).commFrame →
      ¬ at_edge smpi params q d 1 := by
    intro q hq h
    apply hint
    obtain ⟨hg, _⟩ := commFrame_fields _ _ hq
    unfold at_edge at_last_patch at h ⊢
    rw [geometry_eq_iff] at hg
    rw [← hg.2.1]; exact h
  have hcorr : ∀ (q : Patch) (s : Nat), s < 2 → q.commFrame = (H.getD i default).commFrame →
      Comm_correct smpi params q d s q = q := by
    intro q s hs hq
    exact Comm_correct_interior smpi params q q d s hs
      (by rw [(commFrame_fields _ _ hq).2.2.1]; exact hs0) (hint' q hq)
  -- the first iteration: nothing is queued for the low side
  have hW1len := Comm_neighbor_length smpi params d i W0 0
  have hf1 : ∀ y, ((Comm_neighbor smpi params d i W0 0).getD y default).commFrame =
      (H.getD y default).commFrame := fun y => by rw [Comm_neighbor_commFrame, hf0]
  have hp1 : ∀ y, ((Comm_neighbor smpi params d i W0 0).getD y default).particles =
      (H.getD y default).particles := by
    intro y
    rw [Comm_neighbor_particles]
    split
    · rename_i hh
      obtain ⟨rfl, _⟩ := hh
      rw [hcorr _ 0 (by decide) (hf0 y)]
      exact hp0 y
    · exact hp0 y
  have hr1 : ∀ y b, ((Comm_neighbor smpi params d i W0 0).getD y default).patchVectorRecv d b =
      (H.getD y default).patchVectorRecv d b := by
    intro y b
    rw [Comm_neighbor_recv, if_neg (by
        rintro ⟨_, ⟨_, _, h2⟩, _⟩
        rw [is_a_MPI_neighbor_congr _ _ (commFrame_fields _ _ (hf0 i)).1,
          hmpi _ (Nat.mod_lt _ (by decide))] at h2
        exact absurd h2 (by decide)),
      Comm_neighbor_send_recv, if_neg (by
        rintro ⟨_, ⟨h2, _⟩, _⟩
        have := ((Comm_active_congr _ _ (hf0 i) d 0).mp h2).2
        rw [hs0] at this
        exact this rfl)]
    exact hr0 y b
  generalize Comm_neighbor smpi params d i W0 0 = W1 at hW1len hf1 hp1 hr1 ⊢
  -- the second iteration: the queued record is copied to the high-side neighbor
  have hp2 : ∀ y, ((Comm_neighbor smpi params d i W1 1).getD y default).particles =
      (H.getD y default).particles := by
    intro y
    rw [Comm_neighbor_particles]
    split
    · rename_i hh
      obtain ⟨rfl, _⟩ := hh
      rw [hcorr _ 1 (by decide) (hf1 y)]
      exact hp1 y
    · exact hp1 y
  refine ⟨hp2, ?_⟩
  intro x b hb
  have hpeer : peer W1 (W1.getD i default) d 1 = nb - h0 H := by
    rw [peer_congr W1 H _ _ d 1 (h0_of_commFrame W1 H hf1) (hf1 i)]
    unfold peer; rw [hnb]; rfl
  have hact : Comm_active (W1.getD i default) d 1 := by
    rw [Comm_active_congr _ _ (hf1 i) d 1]
    exact ⟨by rw [hnb]; exact Option.some_ne_none _, by rw [hs1]; simp⟩
  have hm1 : ∀ s, s < 2 → is_a_MPI_neighbor (W1.getD i default) d s = false := by
    intro s hs
    rw [is_a_MPI_neighbor_congr _ _ (commFrame_fields _ _ (hf1 i)).1]
    exact hmpi s hs
  rw [Comm_neighbor_recv, if_neg (by
      rintro ⟨_, ⟨_, _, h2⟩, _⟩
      rw [hm1 _ (Nat.mod_lt _ (by decide))] at h2
      exact absurd h2 (by decide)),
    Comm_neighbor_send_recv]
  by_cases hxb : x = nb - h0 H ∧ b = 0
  · obtain ⟨hx, hb0⟩ := hxb
    subst hb0
    rw [if_pos ⟨⟨by rw [hpeer]; exact hx, by rw [hW1len, hW0len, hx]; exact hnear.2.2⟩,
      ⟨hact, hm1 1 (by decide)⟩, rfl, rfl⟩, if_pos ⟨hx, rfl⟩, cp_particles_eq,
      hcorr _ 1 (by decide) (hf1 i), hp1 i, (commFrame_fields _ _ (hf1 i)).2.2.1, hs1]
    have e : (1 + 1) % 2 = 0 := rfl
    rw [e, hr1 x 0]
    rfl
  · rw [if_neg hxb, if_neg (by
      rintro ⟨⟨h1, _⟩, _, _, h4⟩
      apply hxb
      rw [hpeer] at h1
      exact ⟨h1, h4⟩)]
    exact hr1 x b


/-- With one axis, the record count after the final branch of `finalizeCommParticles`: the
count before, minus the departed indexes, plus the records received on the two sides. -/
theorem finalize_last_count (params : Params) (p : Patch) (hnd : params.nDim_field = 1)
    (hr : FinalReady params p)
    (hall : ∀ x ∈ p.indexes_of_particles_to_exchange,
      p.bmin.getD 0 0 ≤ x ∧ x < (p.particles.length : Int)) :
    ((finalize_last params 0 p).particles.length : Int) =
      (p.particles.length : Int) - (p.indexes_of_particles_to_exchange.length : Int) +
        p.patch_buff_index_recv_sz 0 0 + p.patch_buff_index_recv_sz 0 1 := by
  obtain ⟨_, _, _, _, hlen, _⟩ := finalize_last_spec params 0 p hr (by omega) (by omega)
  have hn := hr.gapless.nonempty
  rw [hlen, compacted_all _ _ _ (by rw [hr.gapless.last]; exact hall), hr.gapless.last,
    shift_sum_total params p (arrivals_bins params p hn hr.bins),
    arrivals_length params p id (by omega), hnd]
  have h0 : 0 ≤ p.patch_buff_index_recv_sz 0 0 := by
    rw [hr.sizes 0 0 (by omega) (by decide)]; omega
  have h1 : 0 ≤ p.patch_buff_index_recv_sz 0 1 := by
    rw [hr.sizes 0 1 (by omega) (by decide)]; omega
  simp only [Finset.sum_range_succ, Finset.sum_range_zero, zero_add]
  push_cast
  rw [Int.toNat_of_nonneg h0, Int.toNat_of_nonneg h1]
  ring


theorem sizeFrame_recv (p q : Patch) (h : p.sizeFrame = q.sizeFrame) :
    p.patchVectorRecv = q.patchVectorRecv := by
  unfold Patch.sizeFrame at h
  simp only [Prod.mk.injEq] at h
  exact h.2.2.2.2.2.1

/-- C4: in a vector of co-located patches on one axis, when the record `k` of the patch `i`
is the only departed particle of the vector, its coordinate `x` is at or above
`max_local[0]`, and the high-side neighbor of the patch `i` exists, is another patch of the
vector and lies across a boundary that is not the periodic edge, one full exchange decreases
the record count of the patch `i` by exactly 1, increases the record count of the high-side
neighbor by exactly 1, and leaves in the first bin of the neighbor a record equal to the
original in every field, the position `x` included. Before the exchange the stores of the
two patches satisfy the invariant of the particle store (bins ordered and gapless, record
count `== bmax` of the last bin), the departed record is in a bin, and
`min_local <= max_local`. -/
theorem exchangeParticles_transfers_one (smpi : SmileiMPI) (params : Params) (W : List Patch)
    (i : Nat) (k : Int) (nb : Nat)
    (hnd : params.nDim_field = 1) (hc : Colocated params W) (hi : i < W.length)
    (hdep : (W.getD i default).indexes_of_particles_to_exchange = [k])
    (hothers : ∀ y, y ≠ i → (W.getD y default).indexes_of_particles_to_exchange = [])
    (hgi : Gapless (W.getD i default).bmin (W.getD i default).bmax
      (W.getD i default).particles.length)
    (hk : (W.getD i default).bmin.getD 0 0 ≤ k ∧ k < ((W.getD i default).particles.length : Int))
    (hb : ∀ j, (W.getD i default).min_local j ≤ (W.getD i default).max_local j)
    (hx : (W.getD i default).max_local 0 ≤ position (W.getD i default).particles 0 k)
    (hnb : (W.getD i default).neighbor_ 0 1 = some nb)
    (hint : ¬ at_edge smpi params (W.getD i default) 0 1)
    (hij : nb - h0 W ≠ i)
    (hgj : Gapless (W.getD (nb - h0 W) default).bmin (W.getD (nb - h0 W) default).bmax
      (W.getD (nb - h0 W) default).particles.length) :
    (((exchangeParticles smpi params W).getD i default).particles.length : Int) =
      ((W.getD i default).particles.length : Int) - 1 ∧
    (((exchangeParticles smpi params W).getD (nb - h0 W) default).particles.length : Int) =
      ((W.getD (nb - h0 W) default).particles.length : Int) + 1 ∧
    ∃ idx : Int,
      ((exchangeParticles smpi params W).getD (nb - h0 W) default).bmin.getD 0 0 ≤ idx ∧
      idx < ((exchangeParticles smpi params W).getD (nb - h0 W) default).bmax.getD 0 0 ∧
      getI ((exchangeParticles smpi params W).getD (nb - h0 W) default).particles idx =
        getI (W.getD i default).particles k := by
  have hd : 0 < params.nDim_field := by omega
  have hnear := hc.near i 0 1 nb hi hd (by decide) hnb
  have hsym := hc.sym i 0 1 nb hi hd (by decide) hnb
  have e10 : (1 + 1) % 2 = 0 := rfl
  rw [e10] at hsym
  have hk0 : 0 ≤ k := le_trans hgi.first hk.1
  -- the vector after `initExchParticles`
  have hW0 : ∀ y, y < W.length → (W.map (initExchParticles smpi params)).getD y default =
      initExchParticles smpi params (W.getD y default) := fun y hy => getD_map_of_lt _ _ _ hy
  have hgeo0 : (W.map (initExchParticles smpi params)).map Patch.geometry =
      W.map Patch.geometry := by
    rw [List.map_map]
    apply List.map_congr_left
    intro p _
    exact initExchParticles_geometry smpi params p
  have hc0 : Colocated params (W.map (initExchParticles smpi params)) :=
    Colocated.of_geometry params _ W hgeo0 hc
  have hh0 : h0 (W.map (initExchParticles smpi params)) = h0 W := h0_of_geometry _ _ hgeo0
  have hg0 : ∀ y, ((W.map (initExchParticles smpi params)).getD y default).geometry =
      (W.getD y default).geometry := getD_of_map_eq _ _ Patch.geometry hgeo0
  obtain ⟨a1, a0, aget, arecv, asz⟩ := initExchParticles_single_high smpi params
    (W.getD i default) k nb hnd hdep ⟨hk0, hk.2⟩ hb hx hnb hint
  have hidle : ∀ y, y ≠ i → ∀ s, s < 2 →
      ((W.map (initExchParticles smpi params)).getD y default).patch_buff_index_send 0 s = [] := by
    intro y hy s hs
    by_cases hyl : y < W.length
    · rw [hW0 y hyl]
      exact (initExchParticles_none smpi params _ (hothers y hy)).2.1 0 s hd hs
    · rw [List.getD_eq_default _ _ (by simpa using hyl)]
      rfl
  generalize hW0def : W.map (initExchParticles smpi params) = W0 at hW0 hgeo0 hc0 hh0 hg0 hidle
  have hW0len : W0.length = W.length := by rw [← hW0def, List.length_map]
  -- the vector after the handshake
  have hHf : (forEachPatch (initCommParticles 0) W0).map Patch.sizeFrame =
      W0.map Patch.sizeFrame := forEachPatch_map _ _ (initCommParticles_sizeFrame 0) W0
  have hHrecv := fun x b hx hb => handshake_recv params 0 W0 hc0 hd x b hx hb
  generalize hHdef : forEachPatch (initCommParticles 0) W0 = H at hHf hHrecv
  have hHx : ∀ y, (H.getD y default).sizeFrame = (W0.getD y default).sizeFrame :=
    getD_of_map_eq H W0 Patch.sizeFrame hHf
  have hHlen : H.length = W0.length := length_of_map_eq H W0 _ hHf
  have hHgeo := sizeFrame_geometry H W0 hHf
  have hcH : Colocated params H := Colocated.of_geometry params H W0 hHgeo hc0
  have hh0H : h0 H = h0 W := by rw [h0_of_geometry H W0 hHgeo, hh0]
  have hHsend : ∀ y, (H.getD y default).patch_buff_index_send =
      (W0.getD y default).patch_buff_index_send := fun y => (sizeFrame_all _ _ (hHx y)).2.2
  have hHgeoW : ∀ y, (H.getD y default).geometry = (W.getD y default).geometry :=
    fun y => by rw [(sizeFrame_fields _ _ (hHx y)).1, hg0 y]
  have hHnb : ∀ y, (H.getD y default).neighbor_ = (W.getD y default).neighbor_ :=
    fun y => congrArg Geometry.neighbor_ (hHgeoW y)
  have hHi1 : (H.getD i default).patch_buff_index_send 0 1 = [k] := by
    rw [hHsend, hW0 i hi]; exact a1
  have hHi0 : (H.getD i default).patch_buff_index_send 0 0 = [] := by
    rw [hHsend, hW0 i hi]; exact a0
  have hHidle : ∀ y, y ≠ i → ∀ s, s < 2 → (H.getD y default).patch_buff_index_send 0 s = [] :=
    fun y hy s hs => by rw [hHsend]; exact hidle y hy s hs
  have hHint : ¬ at_edge smpi params (H.getD i default) 0 1 := by
    intro h
    apply hint
    have hg := hHgeoW i
    unfold at_edge at_last_patch at h ⊢
    rw [geometry_eq_iff] at hg
    rw [← hg.2.1]; exact h
  -- the vector after the copy
  have hCeq : forEachPatch (CommParticles smpi params 0) H = CommParticles smpi params 0 i H := by
    apply forEachPatch_single _ _ _ (by rw [hHlen, hW0len]; exact hi)
    · intro ip hip
      exact CommParticles_idle smpi params 0 ip H (hHidle ip hip)
        (fun s hs => Colocated.not_mpi params H hcH ip 0 s hd hs)
    · intro ip hip
      apply CommParticles_idle
      · intro s hs
        rw [(commFrame_fields _ _ (CommParticles_commFrame smpi params 0 i H ip)).2.2.1]
        exact hHidle ip hip s hs
      · intro s hs
        rw [is_a_MPI_neighbor_congr _ _
          (commFrame_fields _ _ (CommParticles_commFrame smpi params 0 i H ip)).1]
        exact Colocated.not_mpi params H hcH ip 0 s hd hs
  obtain ⟨hCpart, hCrecv⟩ := CommParticles_single_high smpi params 0 i H k nb hd hcH
    (by rw [hHlen, hW0len]; exact hi) hHi1 hHi0 (by rw [hHnb]; exact hnb) hHint
  have hCf := CommParticles_commFrame smpi params 0 i H
  have hClen := CommParticles_length smpi params 0 i H
  have hfin : exchangeParticles smpi params W =
      (CommParticles smpi params 0 i H).map (finalizeCommParticles smpi params 0) := by
    rw [exchangeParticles_eq smpi params W hd, hnd, ← hCeq, ← hHdef, ← hW0def]
    rfl
  rw [hfin]
  generalize hCdef : CommParticles smpi params 0 i H = C at hCpart hCrecv hCf hClen
  have hCx : ∀ y, y < W.length →
      (C.map (finalizeCommParticles smpi params 0)).getD y default =
        finalize_last params 0 (C.getD y default) := by
    intro y hy
    rw [getD_map_of_lt _ _ _ (by rw [hClen, hHlen, hW0len]; exact hy),
      finalizeCommParticles_last smpi params 0 _ (by omega)]
  rw [hCx i hi, hCx (nb - h0 W) hnear.2.2]
  -- the fields of the two patches before the final branch
  have hfield : ∀ y, y < W.length →
      (C.getD y default).particles = (initExchParticles smpi params (W.getD y default)).particles ∧
      (C.getD y default).bmin = (W.getD y default).bmin ∧
      (C.getD y default).bmax = (W.getD y default).bmax ∧
      (C.getD y default).indexes_of_particles_to_exchange =
        (W.getD y default).indexes_of_particles_to_exchange ∧
      (C.getD y default).neighbor_ = (W.getD y default).neighbor_ := by
    intro y hy
    obtain ⟨b1, b2⟩ := commFrame_bins _ _ (hCf y)
    obtain ⟨c1, c2⟩ := sizeFrame_bins _ _ (hHx y)
    obtain ⟨i1, i2, i3⟩ := initExchParticles_bins smpi params (W.getD y default)
    refine ⟨by rw [hCpart y, (sizeFrame_all _ _ (hHx y)).1, hW0 y hy],
      by rw [b1, c1, hW0 y hy, i1], by rw [b2, c2, hW0 y hy, i2],
      by rw [commFrame_departed _ _ (hCf y), (sizeFrame_all _ _ (hHx y)).2.1, hW0 y hy, i3],
      by rw [(commFrame_fields _ _ (hCf y)).2.1, hHnb y]⟩
  have hCsz : ∀ y b, (C.getD y default).patch_buff_index_recv_sz 0 b =
      (H.getD y default).patch_buff_index_recv_sz 0 b :=
    fun y b => by rw [(commFrame_fields _ _ (hCf y)).2.2.2]
  have hHbuf : ∀ y b, y < W.length → b < 2 → (H.getD y default).patchVectorRecv 0 b = [] := by
    intro y b hy hb2
    rw [sizeFrame_recv _ _ (hHx y), hW0 y hy]
    by_cases hyi : y = i
    · subst hyi; exact arecv b hb2
    · exact (initExchParticles_none smpi params _ (hothers y hyi)).2.2.1 0 b hd hb2
  have hW0sz : ∀ y b, y < W.length → b < 2 →
      (W0.getD y default).patch_buff_index_recv_sz 0 b = 0 := by
    intro y b hy hb2
    rw [hW0 y hy]
    by_cases hyi : y = i
    · subst hyi; exact asz b hb2
    · exact (initExchParticles_none smpi params _ (hothers y hyi)).2.2.2 0 b hd hb2
  have hW0nb : ∀ y, (W0.getD y default).neighbor_ = (W.getD y default).neighbor_ :=
    fun y => congrArg Geometry.neighbor_ (hg0 y)
  have hW0i1 : (W0.getD i default).patch_buff_index_send 0 1 = [k] := by rw [hW0 i hi]; exact a1
  have hW0i0 : (W0.getD i default).patch_buff_index_send 0 0 = [] := by rw [hW0 i hi]; exact a0
  -- every send list toward the low side is empty
  have hlow : ∀ y, (W0.getD y default).patch_buff_index_send 0 0 = [] := by
    intro y
    by_cases hyi : y = i
    · subst hyi; exact hW0i0
    · exact hidle y hyi 0 (by decide)
  -- the receive counts of the patch `i`: zero on both sides
  have hszi : ∀ b, b < 2 → (C.getD i default).patch_buff_index_recv_sz 0 b = 0 := by
    intro b hb2
    rw [hCsz, hHrecv i b (by rw [hW0len]; exact hi) hb2, hW0nb]
    cases hn : (W.getD i default).neighbor_ 0 b with
    | none => exact hW0sz i b hi hb2
    | some n0 =>
      simp only
      rw [hh0]
      have hb01 : b = 0 ∨ b = 1 := by omega
      rcases hb01 with rfl | rfl
      · have hs := hc.sym i 0 0 n0 hi hd (by decide) hn
        have hne : n0 - h0 W ≠ i := by
          intro he
          rw [he] at hs
          have e01 : (0 + 1) % 2 = 1 := rfl
          rw [e01, hnb] at hs
          have : nb = h0 W + i := Option.some.inj hs
          omega
        rw [hidle _ hne _ (Nat.mod_lt _ (by decide))]
        rfl
      · rw [hn] at hnb
        have : n0 = nb := Option.some.inj hnb
        subst this
        rw [e10, hlow]
        rfl
  -- the receive counts of the neighbor: one on the low side, zero on the high side
  have hszj0 : (C.getD (nb - h0 W) default).patch_buff_index_recv_sz 0 0 = 1 := by
    rw [hCsz, hHrecv _ 0 (by rw [hW0len]; exact hnear.2.2) (by decide), hW0nb, hsym]
    simp only
    rw [hh0, Nat.add_sub_cancel_left]
    have e01 : (0 + 1) % 2 = 1 := rfl
    rw [e01, hW0i1]
    rfl
  have hszj1 : (C.getD (nb - h0 W) default).patch_buff_index_recv_sz 0 1 = 0 := by
    rw [hCsz, hHrecv _ 1 (by rw [hW0len]; exact hnear.2.2) (by decide), hW0nb]
    cases hn : (W.getD (nb - h0 W) default).neighbor_ 0 1 with
    | none => exact hW0sz _ 1 hnear.2.2 (by decide)
    | some n1 =>
      simp only
      rw [e10, hlow]
      rfl
  -- the receive buffers
  have hbufi : ∀ b, b < 2 → (C.getD i default).patchVectorRecv 0 b = [] := by
    intro b hb2
    rw [hCrecv i b hb2, if_neg (by rintro ⟨h1, _⟩; rw [hh0H] at h1; exact hij h1.symm)]
    exact hHbuf i b hi hb2
  have hbufj0 : (C.getD (nb - h0 W) default).patchVectorRecv 0 0 =
      [getI (W.getD i default).particles k] := by
    rw [hCrecv _ 0 (by decide), if_pos ⟨by rw [hh0H], rfl⟩, hHbuf _ 0 hnear.2.2 (by decide),
      List.nil_append, (sizeFrame_all _ _ (hHx i)).1, hW0 i hi, aget]
  have hbufj1 : (C.getD (nb - h0 W) default).patchVectorRecv 0 1 = [] := by
    rw [hCrecv _ 1 (by decide), if_neg (by rintro ⟨_, h2⟩; exact absurd h2 (by decide))]
    exact hHbuf _ 1 hnear.2.2 (by decide)
  -- the two patches are ready for the final branch
  have hready : ∀ y, y < W.length →
      Gapless (W.getD y default).bmin (W.getD y default).bmax
        (W.getD y default).particles.length →
      (W.getD y default).indexes_of_particles_to_exchange.Pairwise (· < ·) →
      (∀ b, b < 2 → (C.getD y default).patch_buff_index_recv_sz 0 b =
        (((C.getD y default).patchVectorRecv 0 b).length : Int)) →
      (∀ b, b < 2 → (W.getD y default).neighbor_ 0 b = none →
        (C.getD y default).patch_buff_index_recv_sz 0 b = 0) →
      FinalReady params (C.getD y default) := by
    intro y hy hg hs hsz hno
    obtain ⟨f1, f2, f3, f4, f5⟩ := hfield y hy
    refine ⟨by rw [f4]; exact hs, by rw [f1, f2, f3, initExchParticles_length]; exact hg,
      ?_, ?_, ?_⟩
    · intro d s hd1 hs2 hn
      have : d = 0 := by omega
      subst this
      rw [f5] at hn
      exact hno s hs2 hn
    · intro d s hd1 hs2
      have : d = 0 := by omega
      subst this
      exact hsz s hs2
    · intro a ha
      rw [later_arrivals_one_axis params _ id hnd] at ha
      exact absurd ha (List.not_mem_nil _)
  have hri : FinalReady params (C.getD i default) := by
    apply hready i hi hgi (by rw [hdep]; exact List.pairwise_singleton _ _)
    · intro b hb2
      rw [hszi b hb2, hbufi b hb2]; rfl
    · intro b hb2 _
      exact hszi b hb2
  have hrj : FinalReady params (C.getD (nb - h0 W) default) := by
    apply hready _ hnear.2.2 hgj (by rw [hothers _ hij]; exact List.Pairwise.nil)
    · intro b hb2
      have hb01 : b = 0 ∨ b = 1 := by omega
      rcases hb01 with rfl | rfl
      · rw [hszj0, hbufj0]; rfl
      · rw [hszj1, hbufj1]; rfl
    · intro b hb2 hn
      have hb01 : b = 0 ∨ b = 1 := by omega
      rcases hb01 with rfl | rfl
      · rw [hsym] at hn
        exact absurd hn (Option.some_ne_none _)
      · exact hszj1
  obtain ⟨fi1, fi2, fi3, fi4, _⟩ := hfield i hi
  obtain ⟨fj1, fj2, fj3, fj4, _⟩ := hfield _ hnear.2.2
  refine ⟨?_, ?_, ?_⟩
  · rw [finalize_last_count params _ hnd hri
      (by rw [fi4, hdep, fi1, fi2, initExchParticles_length]
          intro x hx
          rw [List.mem_singleton] at hx
          rw [hx]; exact hk),
      hszi 0 (by decide), hszi 1 (by decide), fi4, hdep, fi1, initExchParticles_length]
    simp
  · rw [finalize_last_count params _ hnd hrj
      (by rw [fj4, hothers _ hij]
          intro x hx
          exact absurd hx (List.not_mem_nil _)),
      hszj0, hszj1, fj4, hothers _ hij, fj1, initExchParticles_length]
    simp
  · obtain ⟨_, _, hbmin, hbmax, _, _⟩ :=
      finalize_last_spec params 0 _ hrj (by omega) (by omega)
    have hpos := (finalize_last_axis0_positions params 0 _ hrj (by omega) (by omega)).1 0
      (by rw [hszj0]; decide)
    have hn := hrj.gapless.nonempty
    have hto : arrivals_to params (C.getD (nb - h0 W) default) id 0 = 1 := by
      unfold arrivals_to arrivals axis0_arrivals
      rw [hszj0, hszj1, later_arrivals_one_axis params _ id hnd]
      have e1 : (1 : Int).toNat = 1 := rfl
      have e0 : (0 : Int).toNat = 0 := rfl
      have er : List.range 1 = [0] := rfl
      rw [e1, e0, er]
      simp
    have hc0 : ∀ x, compacted (C.getD (nb - h0 W) default).indexes_of_particles_to_exchange
        ((C.getD (nb - h0 W) default).bmin.getD 0 0) x = x := by
      intro x
      rw [fj4, hothers _ hij]
      unfold compacted inBin
      simp
    refine ⟨compacted (C.getD (nb - h0 W) default).indexes_of_particles_to_exchange
      ((C.getD (nb - h0 W) default).bmin.getD 0 0)
      ((C.getD (nb - h0 W) default).bmax.getD 0 0) + ((0 : Nat) : Int), ?_, ?_, ?_⟩
    · rw [hbmin 0 hn, hc0, hc0, shift_sum_zero]
      have := hrj.gapless.ordered 0 hn
      simp only [Nat.cast_zero, add_zero]
      exact this
    · rw [hbmax 0 hn, hc0, shift_sum_succ, shift_sum_zero, hto]
      simp
    · rw [hpos, hbufj0]
      rfl

theorem movedChain_colocated : Colocated params1 movedChain := by
  refine ⟨?_, ?_, ?_⟩
  · intro i hi
    have hi4 : i < 4 := hi
    interval_cases i <;> rfl
  · intro i d s nb hi hd hs h
    have hi4 : i < 4 := hi
    have hd1 : d < 1 := hd
    interval_cases d
    interval_cases i <;> interval_cases s <;>
    · have e := Option.some.inj h
      subst e
      decide
  · intro i d s nb hi hd hs h
    have hi4 : i < 4 := hi
    have hd1 : d < 1 := hd
    interval_cases d
    interval_cases i <;> interval_cases s <;>
    · have e := Option.some.inj h
      subst e
      decide

theorem movedChain_others (y : Nat) (hy : y ≠ 0) :
    (movedChain.getD y default).indexes_of_particles_to_exchange = [] := by
  by_cases h : y < 4
  · interval_cases y
    · exact absurd rfl hy
    · rfl
    · rfl
    · rfl
  · rw [List.getD_eq_default _ _ (by simpa using h)]
    rfl

theorem movedChain_gapless (y : Nat) (hy : y < 2) :
    Gapless (movedChain.getD y default).bmin (movedChain.getD y default).bmax
      (movedChain.getD y default).particles.length := by
  interval_cases y <;>
  · exact ⟨rfl, by decide, by decide, fun j hj => by
        have hj2 : j < 2 := hj
        interval_cases j <;> decide,
      fun j hj => by
        have hj2 : j + 1 < 2 := hj
        have hj0 : j = 0 := by omega
        subst hj0; decide,
      by decide⟩

theorem movedChain_bounds (j : Nat) :
    (movedChain.getD 0 default).min_local j ≤ (movedChain.getD 0 default).max_local j := by
  show (10 * ((0 : Nat) : ℚ)) ≤ 10 * ((0 : Nat) : ℚ) + 10
  norm_num

/-- Witness of C4: the chain of four patches of width 10, the record at `10.7` moves from
the patch 0 to the patch 1. -/
theorem exchangeParticles_transfers_one_witness :
    (((exchangeParticles smpiPeriodic params1 movedChain).getD 0 default).particles.length : Int) =
      ((movedChain.getD 0 default).particles.length : Int) - 1 ∧
    (((exchangeParticles smpiPeriodic params1 movedChain).getD 1 default).particles.length : Int) =
      ((movedChain.getD 1 default).particles.length : Int) + 1 ∧
    ∃ idx : Int,
      ((exchangeParticles smpiPeriodic params1 movedChain).getD 1 default).bmin.getD 0 0 ≤ idx ∧
      idx < ((exchangeParticles smpiPeriodic params1 movedChain).getD 1 default).bmax.getD 0 0 ∧
      getI ((exchangeParticles smpiPeriodic params1 movedChain).getD 1 default).particles idx =
        rec1 x107 3 :=
  exchangeParticles_transfers_one smpiPeriodic params1 movedChain 0 2 1 rfl movedChain_colocated
    (by decide) rfl movedChain_others (movedChain_gapless 0 (by decide)) (by decide)
    movedChain_bounds (by decide!) rfl (by decide) (by decide)
    (movedChain_gapless 1 (by decide))

end Smilei
